import Mathlib

/-!
# ptx-analyze: control-flow graph, loop detection and cycle counter

A shallow embedding of `analysis/src/CFG.cxx` (with the parts of `Statement.h` and
`CFG.h` it uses), followed by theorems about it: the construction of the basic blocks and
of the CFG, `DetectLoops` with the table of unroll factors it reads, and the walks of
`CountCycles` and `CountLoopCycles`.

Conventions of the embedding.

* An `Instruction *` is the position of the instruction in the `std::list` handed to the
  `CFG` constructor; the null pointer is `none`.  The intrusive `next` field is kept as a
  field of the record, because `BasicBlock::BasicBlock` walks it.
* A `BasicBlock *` is the index of the block in `CFG::all_blocks`: every block is pushed
  there right after it is allocated.  A `Loop *` is the index of the loop in `loop_store`,
  the list of all `Loop` objects allocated so far.
* A failed `Assert`, a null or never-assigned pointer that is dereferenced and a loop that
  does not terminate give `none`.
* `unsigned` is reduced modulo `2^32`, `unsigned short` modulo `2^16`,
  `unsigned long long` modulo `2^64`.
* The intrusive `prev` field is kept as well: the walk backwards through an innermost
  loop follows it.
-/

namespace PtxAnalyze

/-! ## Statement.h -/

/-- Opcode classes, `enum opcode_t`. -/
inductive Opcode where
  | OPR_INVALID
  | OPR_ALU
  | OPR_BRANCH
  | OPR_COND_BRANCH
  | OPR_MEM
  | OPR_SYNC
  deriving DecidableEq, Repr

/-- Memory direction, `enum memop_t`. -/
inductive MemOp where
  | MEM_UNKNOWN
  | MEM_LOAD
  | MEM_STORE
  deriving DecidableEq, Repr

/-- The fields of `class Instruction` that the analysis reads. -/
structure Instruction where
  prev : Option Nat := none
  next : Option Nat := none
  label_number : Int := 0
  opc : Opcode := Opcode.OPR_INVALID
  branch_target : Option Nat := none
  is_branch_target : Bool := false
  reg_src0 : Int := -1
  reg_src1 : Int := -1
  reg_src2 : Int := -1
  reg_dst : Int := -1
  memop_type : MemOp := MemOp.MEM_UNKNOWN
  deleted : Bool := false
  alu_op : Bool := false
  mem_op : Bool := false
  sync_op : Bool := false
  global_op : Bool := false
  shared_op : Bool := false
  local_op : Bool := false
  branch_op : Bool := false
  cond_branch : Bool := false
  call_op : Bool := false
  ret_op : Bool := false
  deriving DecidableEq, Repr

namespace Instruction

def IsAluOp (i : Instruction) : Bool := i.alu_op
def IsSyncOp (i : Instruction) : Bool := i.sync_op
def IsGlobalOp (i : Instruction) : Bool := i.mem_op && i.global_op
def IsBranchOp (i : Instruction) : Bool := i.branch_op
def IsSharedOp (i : Instruction) : Bool := i.shared_op
def IsLocalOp (i : Instruction) : Bool := i.local_op
def IsCondBranch (i : Instruction) : Bool := i.cond_branch
def IsDeleted (i : Instruction) : Bool := i.deleted
def IsBranchTarget (i : Instruction) : Bool := i.is_branch_target
def GetBranchTarget (i : Instruction) : Option Nat := i.branch_target
def GetPrev (i : Instruction) : Option Nat := i.prev
def GetNext (i : Instruction) : Option Nat := i.next
def GetLabelNumber (i : Instruction) : Int := i.label_number
def GetOpcode (i : Instruction) : Opcode := i.opc
def GetRegDst (i : Instruction) : Int := i.reg_dst
def GetRegSrc0 (i : Instruction) : Int := i.reg_src0
def GetRegSrc1 (i : Instruction) : Int := i.reg_src1
def GetRegSrc2 (i : Instruction) : Int := i.reg_src2
def IsMemLoad (i : Instruction) : Bool := i.memop_type == MemOp.MEM_LOAD

end Instruction

/-- The `unsigned` modulus. -/
def UINT_MOD : Nat := 2 ^ 32

/-- The `unsigned short` modulus. -/
def USHORT_MOD : Nat := 2 ^ 16

/-- The `unsigned long long` modulus. -/
def ULL_MOD : Nat := 2 ^ 64

/-! ## CFG.h -/

inductive VisitState where
  | COLOR_WHITE
  | COLOR_GRAY
  | COLOR_BLACK
  deriving DecidableEq, Repr

/-- The data members of `class BasicBlock` (with `VisitInfo` flattened). -/
structure BasicBlock where
  begin_instr : Option Nat
  end_instr : Option Nat
  succ : List Nat := []
  pred : List Nat := []
  loop_header : Bool := false
  loop_footer : Bool := false
  id : Nat
  vs : VisitState := VisitState.COLOR_WHITE
  v_idx : Int := -1
  alu_op_count : Nat := 0
  global_op_count : Nat := 0
  shared_op_count : Nat := 0
  local_op_count : Nat := 0
  branch_op_count : Nat := 0
  sync_op_count : Nat := 0
  total_op_count : Nat := 0
  deriving DecidableEq, Repr

namespace BasicBlock

def AddSucc (bb : BasicBlock) (b : Nat) : BasicBlock := { bb with succ := bb.succ ++ [b] }
def AddPred (bb : BasicBlock) (b : Nat) : BasicBlock := { bb with pred := bb.pred ++ [b] }
def SetLoopHeader (bb : BasicBlock) : BasicBlock := { bb with loop_header := true }
def SetLoopFooter (bb : BasicBlock) : BasicBlock := { bb with loop_footer := true }
def IsLoopHeader (bb : BasicBlock) : Bool := bb.loop_header
def IsLoopFooter (bb : BasicBlock) : Bool := bb.loop_footer
def NumPred (bb : BasicBlock) : Nat := bb.pred.length % UINT_MOD
def NumSucc (bb : BasicBlock) : Nat := bb.succ.length % UINT_MOD
def GetFirstInst (bb : BasicBlock) : Option Nat := bb.begin_instr
def GetLastInst (bb : BasicBlock) : Option Nat := bb.end_instr
def Id (bb : BasicBlock) : Nat := bb.id
def GetTotalOpCount (bb : BasicBlock) : Nat := bb.total_op_count
def GetNumInstrs (bb : BasicBlock) : Nat := bb.total_op_count
def SetPartiallyVisited (bb : BasicBlock) : BasicBlock := { bb with vs := VisitState.COLOR_GRAY }
def SetFullyVisited (bb : BasicBlock) : BasicBlock := { bb with vs := VisitState.COLOR_BLACK }
def GetPartiallyVisited (bb : BasicBlock) : Bool := bb.vs == VisitState.COLOR_GRAY
def GetFullyVisited (bb : BasicBlock) : Bool := bb.vs == VisitState.COLOR_BLACK
def GetNotVisited (bb : BasicBlock) : Bool := bb.vs == VisitState.COLOR_WHITE

end BasicBlock

/-- The data members of `class Loop`.  `inner_loops` and `footers` are vectors that are
allocated on first use (`has_inner_loops`, `multiple_footers`): `none` until then.
`nat_loop` is a `std::set`, kept here as a duplicate-free list. -/
structure Loop where
  id : Nat
  header : Nat
  footer : Nat
  enclosing_loop : Option Nat := none
  inner_loops : Option (List Nat) := none
  footers : Option (List Nat) := none
  nat_loop : List Nat := []
  num_iters : Nat := 256
  num_instrs : Nat := 0
  nesting_level : Nat := 0
  deriving DecidableEq, Repr

/-- The data members of `class CFG`, together with the two pieces of process state the
loop detector touches: `loop_store` (the `Loop` objects allocated so far) and
`global_loop_index` (the static id counter of `Loop`).  `loops` is a vector allocated by
the first `AddLoop` (`has_loops`): `none` until then. -/
structure CFG where
  all_blocks : List BasicBlock := []
  entry : Option Nat := none
  exit : Option Nat := none
  block_map : List (Option Nat × Nat) := []
  loop_header_map : Option (List (Nat × Nat)) := none
  loops : Option (List Nat) := none
  constructed : Bool := false
  unrolled_loops : Bool := false
  loop_store : List Loop := []
  global_loop_index : Nat := 0
  deriving DecidableEq, Repr

/-! ## BasicBlock::BasicBlock -/

/-- The six per-class counters of the constructor of `BasicBlock`. -/
structure OpCounts where
  alu : Nat := 0
  global : Nat := 0
  shared : Nat := 0
  loc : Nat := 0
  branch : Nat := 0
  sync : Nat := 0
  deriving DecidableEq, Repr

/-- One pass of the body of the counting loop: the class of `i` decides the counter that
is incremented; an instruction of no class fails `Assert(iter->IsSyncOp(), ...)`. -/
def countInstr (i : Instruction) (c : OpCounts) : Option OpCounts :=
  if i.IsAluOp then some { c with alu := (c.alu + 1) % UINT_MOD }
  else if i.IsBranchOp then some { c with branch := (c.branch + 1) % UINT_MOD }
  else if i.IsSharedOp then some { c with shared := (c.shared + 1) % UINT_MOD }
  else if i.IsLocalOp then some { c with loc := (c.loc + 1) % UINT_MOD }
  else if i.IsGlobalOp then some { c with global := (c.global + 1) % UINT_MOD }
  else if i.IsSyncOp then some { c with sync := (c.sync + 1) % UINT_MOD }
  else none

/-- The counting loop `for (iter = b; b && e && iter != e->GetNext(); iter = iter->GetNext())`
once `b` and `e` are known to be non-null; `stop` is `e->GetNext()`.  The walk follows the
`next` fields; a null `iter` that differs from `stop` is dereferenced. -/
def countLoop (s : List Instruction) (stop : Option Nat) :
    Nat → Option Nat → OpCounts → Option OpCounts
  | 0, _, _ => none
  | fuel + 1, iter, c =>
    if iter = stop then some c
    else
      match iter with
      | none => none
      | some p =>
        match s[p]? with
        | none => none
        | some i =>
          match countInstr i c with
          | none => none
          | some c1 => countLoop s stop fuel i.GetNext c1

/-- The constructor `BasicBlock::BasicBlock(b, e, u)`.  The walk visits pairwise different
instructions before it meets `stop`, so `s.length + 2` rounds are enough whenever it
terminates. -/
def mkBasicBlock (s : List Instruction) (b e : Option Nat) (u : Nat) : Option BasicBlock :=
  let counts : Option OpCounts :=
    match b, e with
    | some _, some pe =>
      match s[pe]? with
      | none => none
      | some ie => countLoop s ie.GetNext (s.length + 2) b {}
    | _, _ => some {}
  match counts with
  | none => none
  | some c =>
    some { begin_instr := b, end_instr := e, id := u,
           alu_op_count := c.alu, global_op_count := c.global,
           shared_op_count := c.shared, local_op_count := c.loc,
           branch_op_count := c.branch, sync_op_count := c.sync,
           total_op_count :=
             (c.alu + c.global + c.shared + c.loc + c.branch + c.sync) % UINT_MOD }

/-! ## CFG::ComputeBasicBlocks -/

namespace CFG

def AddBasicBlock (g : CFG) (bb : BasicBlock) : CFG :=
  { g with all_blocks := g.all_blocks ++ [bb] }

/-- The call `block_map->insert(pair(k, v))`: `std::map::insert` keeps an existing entry. -/
def blockMapInsert (g : CFG) (k : Option Nat) (v : Nat) : CFG :=
  if (g.block_map.lookup k).isSome then g
  else { g with block_map := g.block_map ++ [(k, v)] }

end CFG

/-- The locals of `CFG::ComputeBasicBlocks` that live across iterations, and the CFG. -/
structure CBBState where
  first : Option Nat := none
  last : Option Nat := none
  cur : Option Nat := none
  prev : Option Nat := none
  index : Nat := 0
  g : CFG := {}
  deriving DecidableEq, Repr

/-- The three statements `bb = new BasicBlock(first, l, index++); block_map->insert(...);
AddBasicBlock(bb);` for the block that ends at `l`. -/
def closeBlock (s : List Instruction) (st : CBBState) (l : Option Nat) : Option CBBState :=
  match mkBasicBlock s st.first l st.index with
  | none => none
  | some bb =>
    let ptr := st.g.all_blocks.length
    some { st with index := (st.index + 1) % UINT_MOD,
                   g := (st.g.blockMapInsert st.first ptr).AddBasicBlock bb }

/-- The body of the `for` loop of `ComputeBasicBlocks` for the instruction `i` at
position `p`. -/
def cbbStep (s : List Instruction) (p : Nat) (i : Instruction) (st : CBBState) :
    Option CBBState :=
  if i.IsDeleted then some st
  else
    let st1 : CBBState := { st with prev := st.cur, cur := some p }
    let st2 : CBBState := if st1.first = none then { st1 with first := st1.cur } else st1
    let r3 : Option CBBState :=
      if i.IsBranchTarget && st2.first != st2.cur then
        match closeBlock s { st2 with last := st2.prev } st2.prev with
        | none => none
        | some st3 => some { st3 with first := st3.cur }
      else some st2
    match r3 with
    | none => none
    | some st3 =>
      if i.IsBranchOp then
        match closeBlock s { st3 with last := st3.cur } st3.cur with
        | none => none
        | some st4 => some { st4 with first := none }
      else some st3

/-- The `for` loop of `ComputeBasicBlocks` over the instructions from position `p` on. -/
def cbbLoop (s : List Instruction) : List Instruction → Nat → CBBState → Option CBBState
  | [], _, st => some st
  | i :: rest, p, st =>
    match cbbStep s p i st with
    | none => none
    | some st1 => cbbLoop s rest (p + 1) st1

/-- `CFG::ComputeBasicBlocks(begin, end)` on the stream `s`. -/
def ComputeBasicBlocks (s : List Instruction) (g : CFG) : Option CFG :=
  match mkBasicBlock s none none 65535 with
  | none => none
  | some entry =>
    let g1 : CFG := ({ g with entry := some g.all_blocks.length }).AddBasicBlock entry
    match cbbLoop s s 0 { g := g1 } with
    | none => none
    | some st =>
      let r : Option CBBState :=
        if st.last != st.cur then closeBlock s st st.cur else some st
      match r with
      | none => none
      | some st1 =>
        match mkBasicBlock s none none 65536 with
        | none => none
        | some exit =>
          some (({ st1.g with exit := some st1.g.all_blocks.length }).AddBasicBlock exit)

/-! ## CFG::ConstructCFG -/

/-- Applies `f` to the block that the pointer `k` designates. -/
def updBlock (bs : List BasicBlock) (k : Nat) (f : BasicBlock → BasicBlock) :
    Option (List BasicBlock) :=
  match bs[k]? with
  | none => none
  | some b => some (bs.set k (f b))

/-- The pair `a->AddSucc(b); b->AddPred(a);`. -/
def addEdge (bs : List BasicBlock) (a b : Nat) : Option (List BasicBlock) :=
  match updBlock bs a (fun x => x.AddSucc b) with
  | none => none
  | some bs1 => updBlock bs1 b (fun x => x.AddPred a)

/-- The locals `prev` and `bb` of `CFG::ConstructCFG` and the blocks; `bb` is `none` as
long as it has not been assigned. -/
structure WireState where
  prev : Option Nat
  bb : Option Nat := none
  blocks : List BasicBlock
  deriving DecidableEq, Repr

/-- The body of the `for` loop of `ConstructCFG` for the block `k`. -/
def wireStep (s : List Instruction) (g : CFG) (k : Nat) (st : WireState) :
    Option WireState :=
  let r1 : Option WireState :=
    match st.prev with
    | some p =>
      match addEdge st.blocks p k with
      | none => none
      | some bs => some { prev := none, bb := some k, blocks := bs }
    | none => some { st with bb := some k }
  match r1 with
  | none => none
  | some st1 =>
    match st1.blocks[k]? with
    | none => none
    | some blk =>
      match blk.GetLastInst with
      | none => none
      | some t =>
        match s[t]? with
        | none => none
        | some terminator =>
          if terminator.IsBranchOp then
            let r2 : Option (List BasicBlock) :=
              match terminator.GetBranchTarget with
              | none =>
                if terminator.GetLabelNumber = -1 then
                  match g.exit with
                  | none => none
                  | some x => addEdge st1.blocks k x
                else none
              | some bt =>
                match g.block_map.lookup (some bt) with
                | none => none
                | some tb => addEdge st1.blocks k tb
            match r2 with
            | none => none
            | some bs =>
              if terminator.IsCondBranch then
                some { st1 with prev := some k, blocks := bs }
              else some { st1 with blocks := bs }
          else some { st1 with prev := some k }

/-- The `for` loop of `ConstructCFG` over the block pointers `ks`. -/
def wireLoop (s : List Instruction) (g : CFG) : List Nat → WireState → Option WireState
  | [], st => some st
  | k :: ks, st =>
    match wireStep s g k st with
    | none => none
    | some st1 => wireLoop s g ks st1

/-- The range `BlocksBegin() + 1 .. BlocksEnd() - 1` of block pointers. -/
def interiorRange (g : CFG) : List Nat :=
  List.range' 1 (g.all_blocks.length - 2)

/-- `CFG::ConstructCFG()`.  After the loop the code runs `bb->AddSucc(exit)` whatever
the last block ends with; `bb` has no value when the loop body never ran. -/
def ConstructCFG (s : List Instruction) (g : CFG) : Option CFG :=
  match wireLoop s g (interiorRange g) { prev := g.entry, blocks := g.all_blocks } with
  | none => none
  | some st =>
    match st.bb, g.exit with
    | some b, some x =>
      match addEdge st.blocks b x with
      | none => none
      | some bs => some { g with all_blocks := bs, block_map := [], constructed := true }
    | _, _ => none

/-- The constructor `CFG::CFG(begin, end, unrolled)`; `gli` is the value the static
counter `Loop::global_loop_index` has when the CFG is built. -/
def mkCFG (s : List Instruction) (unrolled : Bool) (gli : Nat) : Option CFG :=
  match ComputeBasicBlocks s { unrolled_loops := unrolled, global_loop_index := gli } with
  | none => none
  | some g => ConstructCFG s g

/-! ## Loop, CFG::AddLoop, CFG::DoDFS -/

/-- Applies `f` to the loop that the pointer `l` designates. -/
def updLoop (ls : List Loop) (l : Nat) (f : Loop → Loop) : Option (List Loop) :=
  match ls[l]? with
  | none => none
  | some x => some (ls.set l (f x))

namespace Loop

def SetEnclosingLoop (l : Loop) (e : Option Nat) : Loop := { l with enclosing_loop := e }
def GetEnclosingLoop (l : Loop) : Option Nat := l.enclosing_loop
def GetNestingLevel (l : Loop) : Nat := l.nesting_level
def Id (l : Loop) : Nat := l.id
def SetNestingLevel (l : Loop) (nl : Nat) : Loop := { l with nesting_level := nl }
def GetHeader (l : Loop) : Nat := l.header
def GetFooter (l : Loop) : Option Nat := if l.footers.isSome then none else some l.footer
def GetNumIters (l : Loop) : Nat := l.num_iters
def SetNumIters (l : Loop) (n : Nat) : Loop := { l with num_iters := n }
def SetNumInstrs (l : Loop) (n : Nat) : Loop := { l with num_instrs := n }
def HasInnerLoops (l : Loop) : Bool := l.inner_loops.isSome

/-- `Loop::AddFooter`: the vector is allocated by the first call. -/
def AddFooter (l : Loop) (bb : Nat) : Loop :=
  { l with footers := some (l.footers.getD [] ++ [bb]) }

/-- `Loop::AddInnerLoop`: the vector is allocated by the first call. -/
def AddInnerLoop (l : Loop) (inner : Nat) : Loop :=
  { l with inner_loops := some (l.inner_loops.getD [] ++ [inner]) }

end Loop

namespace CFG

/-- `CFG::AddLoop`: the vector is allocated by the first call. -/
def AddLoop (g : CFG) (l : Nat) : CFG :=
  { g with loops := some (g.loops.getD [] ++ [l]) }

/-- `CFG::GetLoopFromHeader`. -/
def GetLoopFromHeader (g : CFG) (h : Nat) : Option Nat :=
  match g.loop_header_map with
  | none => none
  | some m => m.lookup h

end CFG

/-- The body of `if (succ->GetPartiallyVisited()) { ... }` in `DoDFS`: the edge from `bb`
to `sc` is a back edge.  A header seen for the first time gets a new `Loop(sc, bb)`,
whose id is `global_loop_index++`; a known header gets `bb` as one more footer. -/
def backEdge (g : CFG) (bb sc : Nat) (sb : BasicBlock) : Option CFG :=
  let r : Option CFG :=
    if !sb.IsLoopHeader then
      match updBlock g.all_blocks sc BasicBlock.SetLoopHeader, g.loop_header_map with
      | some bs, some m =>
        let loop : Loop := { id := g.global_loop_index, header := sc, footer := bb }
        let ptr := g.loop_store.length
        let g1 : CFG :=
          { g with all_blocks := bs, loop_store := g.loop_store ++ [loop],
                   global_loop_index := (g.global_loop_index + 1) % UINT_MOD }
        let g2 := g1.AddLoop ptr
        let m1 := if (m.lookup sc).isSome then m else m ++ [(sc, ptr)]
        some { g2 with loop_header_map := some m1 }
      | _, _ => none
    else
      match g.GetLoopFromHeader sc with
      | none => none
      | some l =>
        match updLoop g.loop_store l (fun x => x.AddFooter bb) with
        | none => none
        | some ls => some { g with loop_store := ls }
  match r with
  | none => none
  | some g1 =>
    match updBlock g1.all_blocks bb BasicBlock.SetLoopFooter with
    | none => none
    | some bs => some { g1 with all_blocks := bs }

/-- The `for` loop of `DoDFS(bb)` over the successors of `bb` that are still to be seen;
`rec` is the recursive call. -/
def dfsSuccs (rec : CFG → Nat → Option CFG) (bb : Nat) : List Nat → CFG → Option CFG
  | [], g => some g
  | sc :: rest, g =>
    match g.all_blocks[sc]? with
    | none => none
    | some sb =>
      let r1 : Option CFG := if sb.GetPartiallyVisited then backEdge g bb sc sb else some g
      match r1 with
      | none => none
      | some g1 =>
        match g1.all_blocks[sc]? with
        | none => none
        | some sb1 =>
          let r2 : Option CFG := if sb1.GetNotVisited then rec g1 sc else some g1
          match r2 with
          | none => none
          | some g2 => dfsSuccs rec bb rest g2

/-- `CFG::DoDFS(bb)`; the first argument bounds the depth of the recursion. -/
def DoDFS : Nat → CFG → Nat → Option CFG
  | 0, _, _ => none
  | fuel + 1, g, bb =>
    match g.all_blocks[bb]? with
    | none => none
    | some b =>
      if b.GetFullyVisited then none
      else if b.GetPartiallyVisited then some g
      else
        let r1 : Option (List BasicBlock) :=
          if b.GetNotVisited then updBlock g.all_blocks bb BasicBlock.SetPartiallyVisited
          else some g.all_blocks
        match r1 with
        | none => none
        | some bs =>
          match dfsSuccs (DoDFS fuel) bb b.succ { g with all_blocks := bs } with
          | none => none
          | some g2 =>
            match updBlock g2.all_blocks bb BasicBlock.SetFullyVisited with
            | none => none
            | some bs2 => some { g2 with all_blocks := bs2 }

/-! ## Loop::ConstructNatLoop -/

/-- The call `nat_loop.insert(b)` on a `std::set`. -/
def natInsert (set : List Nat) (b : Nat) : List Nat :=
  if b ∈ set then set else set ++ [b]

/-- The state of `ConstructNatLoop` inside its loops: the `Loop` objects, `bb_stack`
(top first) and the local `num_instrs`. -/
structure NatLoopState where
  ls : List Loop
  stack : List Nat
  num : Nat
  deriving DecidableEq, Repr

/-- The `for` loop of `ConstructNatLoop` over the predecessors of the popped block: a
predecessor that is not yet in `nat_loop` of the loop `l` is inserted and pushed. -/
def natLoopPreds (bs : List BasicBlock) (l : Nat) :
    List Nat → NatLoopState → Option NatLoopState
  | [], st => some st
  | pred :: rest, st =>
    match st.ls[l]? with
    | none => none
    | some this =>
      if pred ∈ this.nat_loop then natLoopPreds bs l rest st
      else
        match bs[pred]? with
        | none => none
        | some pb =>
          natLoopPreds bs l rest
            { ls := st.ls.set l { this with nat_loop := natInsert this.nat_loop pred },
              stack := pred :: st.stack,
              num := (st.num + pb.GetNumInstrs) % UINT_MOD }

/-- The block `if (bb->IsLoopHeader()) { ... }` of `ConstructNatLoop` for the popped block
`bb`: the loop of that header becomes an inner loop of `l` when it has no enclosing loop
yet. -/
def natLoopNested (m : List (Nat × Nat)) (l bb : Nat) (b : BasicBlock) (ls : List Loop) :
    Option (List Loop) :=
  if b.IsLoopHeader then
    match ls[l]? with
    | none => none
    | some this =>
      if bb = this.header then none
      else
        match m.lookup bb with
        | none => none
        | some inner =>
          match ls[inner]? with
          | none => none
          | some il =>
            if il.GetEnclosingLoop = none then
              match updLoop ls l (fun x => x.AddInnerLoop inner) with
              | none => none
              | some ls1 => updLoop ls1 inner (fun x => x.SetEnclosingLoop (some l))
            else some ls
  else some ls

/-- The loop `while (!bb_stack.empty())` of `ConstructNatLoop`; the first argument bounds
the number of rounds. -/
def natLoopWhile (bs : List BasicBlock) (m : List (Nat × Nat)) (l : Nat) :
    Nat → NatLoopState → Option NatLoopState
  | fuel, st =>
    match st.stack with
    | [] => some st
    | bb :: stack =>
      match fuel with
      | 0 => none
      | fuel1 + 1 =>
        match bs[bb]? with
        | none => none
        | some b =>
          match natLoopNested m l bb b st.ls with
          | none => none
          | some ls1 =>
            match natLoopPreds bs l b.pred { ls := ls1, stack := stack, num := st.num } with
            | none => none
            | some st1 => natLoopWhile bs m l fuel1 st1

/-- `Loop::ConstructNatLoop(lh_map)` for the loop `l`.  Every round of the `while` loop
pops a block that was pushed when it entered `nat_loop`, so there are no more rounds than
blocks. -/
def ConstructNatLoop (g : CFG) (l : Nat) : Option CFG :=
  match g.loop_header_map, g.loop_store[l]? with
  | some m, some this =>
    match g.all_blocks[this.header]? with
    | none => none
    | some hb =>
      let this1 : Loop := { this with nat_loop := natInsert this.nat_loop this.header }
      let num1 := (0 + hb.GetNumInstrs) % UINT_MOD
      let r : Option NatLoopState :=
        if this.footer ∈ this1.nat_loop then
          some { ls := g.loop_store.set l this1, stack := [], num := num1 }
        else
          match g.all_blocks[this.footer]? with
          | none => none
          | some fb =>
            some { ls := g.loop_store.set l
                           { this1 with nat_loop := natInsert this1.nat_loop this.footer },
                   stack := [this.footer],
                   num := (num1 + fb.GetNumInstrs) % UINT_MOD }
      match r with
      | none => none
      | some st =>
        match natLoopWhile g.all_blocks m l (g.all_blocks.length + 1) st with
        | none => none
        | some st1 =>
          match updLoop st1.ls l (fun x => x.SetNumInstrs st1.num) with
          | none => none
          | some ls2 => some { g with loop_store := ls2 }
  | _, _ => none

/-! ## CFG::DetectLoops -/

/-- The first part of `DetectLoops`: `Assert(constructed == 1)`, the new header map and
`DoDFS(*BlocksBegin())`.  The recursion of `DoDFS` is entered for white blocks only and
turns them gray, so it is never deeper than the number of blocks. -/
def detectBackEdges (g : CFG) : Option CFG :=
  if g.constructed then
    match g.all_blocks with
    | [] => none
    | _ :: _ => DoDFS (g.all_blocks.length + 1) { g with loop_header_map := some [] } 0
  else none

/-- The loop over `*loops` that calls `ConstructNatLoop` for every loop in `ptrs`. -/
def natLoopsFor : List Nat → CFG → Option CFG
  | [], g => some g
  | l :: rest, g =>
    match ConstructNatLoop g l with
    | none => none
    | some g1 => natLoopsFor rest g1

/-- The second part of `DetectLoops`.  The vector `loops` exists only after the first
`AddLoop`; the code reads the pointer in any case. -/
def constructNatLoops (g : CFG) : Option CFG :=
  match g.loops with
  | none => none
  | some ptrs => natLoopsFor ptrs g

/-- One round of the `for` loop inside `while (changed)`: every loop in `ptrs` that has
an enclosing loop gets the level of that loop plus one, as an `unsigned short`. -/
def nestingPass : List Nat → List Loop → Bool → Option (List Loop × Bool)
  | [], ls, changed => some (ls, changed)
  | p :: rest, ls, changed =>
    match ls[p]? with
    | none => none
    | some loop =>
      match loop.GetEnclosingLoop with
      | none => nestingPass rest ls changed
      | some e =>
        match ls[e]? with
        | none => none
        | some el =>
          let old_level := loop.GetNestingLevel
          let new_level := (el.GetNestingLevel + 1) % USHORT_MOD
          nestingPass rest (ls.set p (loop.SetNestingLevel new_level))
            (changed || old_level != new_level)

/-- The loop `while (changed)`; the first argument bounds the number of rounds. -/
def nestingFix (ptrs : List Nat) : Nat → List Loop → Option (List Loop)
  | 0, _ => none
  | fuel + 1, ls =>
    match nestingPass ptrs ls false with
    | none => none
    | some (ls1, changed) => if changed then nestingFix ptrs fuel ls1 else some ls1

/-- The third part of `DetectLoops`: the nesting levels. -/
def adjustNesting (fuel : Nat) (g : CFG) : Option CFG :=
  match g.loops with
  | none => none
  | some ptrs =>
    match nestingFix ptrs fuel g.loop_store with
    | none => none
    | some ls => some { g with loop_store := ls }

/-- The `for` loop that divides the trip counts: `ufactors[loop->Id()]` is read for
every loop of `ptrs`. -/
def unrollFor (ufactors : List Nat) : List Nat → List Loop → Option (List Loop)
  | [], ls => some ls
  | p :: rest, ls =>
    match ls[p]? with
    | none => none
    | some loop =>
      match ufactors[loop.id]? with
      | none => none
      | some ufactor =>
        let loop1 :=
          if ufactor = 0 then loop.SetNumIters 0
          else loop.SetNumIters (loop.GetNumIters / ufactor)
        unrollFor ufactors rest (ls.set p loop1)

/-- The fourth part of `DetectLoops`, run when `unrolled_loops` is set.  The file
`./.uconf` is a parameter: `uconf n` is `none` when the stream is bad or failed after it
was opened, and otherwise the vector `ufactors` that the reading loop leaves for `n`
loops. -/
def applyUnroll (uconf : Nat → Option (List Nat)) (g : CFG) : Option CFG :=
  if g.unrolled_loops then
    match g.loops with
    | none => none
    | some ptrs =>
      match uconf ptrs.length with
      | none => some g
      | some ufactors =>
        if ufactors.length != ptrs.length then some g
        else
          match unrollFor ufactors ptrs g.loop_store with
          | none => none
          | some ls => some { g with loop_store := ls }
  else some g

/-! ## The file ./.uconf -/

/-- The file `./.uconf` as the reading loop of `DetectLoops` sees it, for a file that
holds numbers separated by white space: the numbers in file order (each fits `unsigned`),
and whether white space follows the last number. -/
structure UconfFile where
  factors : List Nat
  trailing : Bool
  deriving DecidableEq, Repr

/-- The state of the stream `uconf_file`: what is still to be read and the two state bits
the loop condition tests. -/
structure UconfStream where
  rest : List Nat
  trailing : Bool
  eof : Bool := false
  fail : Bool := false
  deriving DecidableEq, Repr

/-- The statement `uconf_file >> tmp` of `std::ifstream`.  With nothing but white space
left the extraction fails: both bits are set and `tmp` keeps its value.  Otherwise the
next number is stored, and the end-of-file bit is set when the number ends the file. -/
def UconfStream.extract (st : UconfStream) (tmp : Nat) : UconfStream × Nat :=
  if st.eof || st.fail then ({ st with fail := true }, tmp)
  else
    match st.rest with
    | [] => ({ st with eof := true, fail := true }, tmp)
    | x :: rest => ({ st with rest := rest, eof := rest.isEmpty && !st.trailing }, x)

/-- The reading loop
`for (i = 0; i < loops->size() && !(uconf_file.eof() || uconf_file.fail()); ++i)`;
the first argument is `loops->size() - i`.  The value is pushed whether or not the
extraction has succeeded. -/
def readFactors : Nat → UconfStream → List Nat → List Nat
  | 0, _, ufactors => ufactors
  | k + 1, st, ufactors =>
    if st.eof || st.fail then ufactors
    else
      let r := st.extract 1
      readFactors k r.1 (ufactors ++ [r.2])

/-- The reader that `DetectLoops` runs on `./.uconf`: `none` for the file is a file that
cannot be opened (`uconf_file.fail()` right after the constructor). -/
def uconfRead (file : Option UconfFile) (n : Nat) : Option (List Nat) :=
  match file with
  | none => none
  | some f => some (readFactors n { rest := f.factors, trailing := f.trailing } [])

/-- The `while` loop at the end of `DetectLoops`: `erase` for a loop whose nesting level
is not zero, `++iter` otherwise. -/
def eraseInner (ls : List Loop) : List Nat → Option (List Nat)
  | [] => some []
  | p :: rest =>
    match ls[p]?, eraseInner ls rest with
    | some loop, some kept =>
      if loop.GetNestingLevel != 0 then some kept else some (p :: kept)
    | _, _ => none

/-- The last part of `DetectLoops`: only the outermost loops stay in `*loops`. -/
def cullLoops (g : CFG) : Option CFG :=
  match g.loops with
  | none => none
  | some ptrs =>
    match eraseInner g.loop_store ptrs with
    | none => none
    | some kept => some { g with loops := some kept }

/-- `CFG::DetectLoops()`.  `fuel` bounds the rounds of `while (changed)`; `uconf` stands
for the file `./.uconf`.  The C++ function returns 0; the model returns the CFG. -/
def DetectLoops (fuel : Nat) (uconf : Nat → Option (List Nat)) (g : CFG) : Option CFG :=
  match detectBackEdges g with
  | none => none
  | some g1 =>
    match constructNatLoops g1 with
    | none => none
    | some g2 =>
      match adjustNesting fuel g2 with
      | none => none
      | some g3 =>
        match applyUnroll uconf g3 with
        | none => none
        | some g4 => cullLoops g4

/-! ## FindLoopFooterSuccessor, FindBBSuccessor

From here on the embedding covers the cycle counter.  It reads the instructions through
the stream `s` (a pointer is a position of `s`); the flag `exp_mode` of `Driver.cxx` is
the argument `exp`, and `W` is the value of the `unsigned` argument `num_warps`.  The
stamps `inst_iter->cycles` and the global `stall_cycles` are written for the report only
and never read by the walks: the embedding keeps the dereference of `inst_iter` and
leaves the two values out.  `unsigned long long` is reduced modulo `2^64`. -/

/-- `FindLoopFooterSuccessor(loop)`: the first successor of the footer that is not the
header.  `GetFooter()` is null for a loop with several footers. -/
def FindLoopFooterSuccessor (g : CFG) (l : Nat) : Option Nat :=
  match g.loop_store[l]? with
  | none => none
  | some loop =>
    match loop.GetFooter with
    | none => none
    | some f =>
      match g.all_blocks[f]? with
      | none => none
      | some fb => fb.succ.find? (fun x => x != loop.GetHeader)

/-- `FindBBSuccessor(iter)`. -/
def FindBBSuccessor (g : CFG) (iter : Nat) : Option Nat :=
  match g.all_blocks[iter]? with
  | none => none
  | some b =>
    if 0 < b.NumSucc ∧ b.NumSucc < 3 then
      if b.NumSucc = 1 then b.succ[0]?
      else
        match b.succ[0]?, b.succ[1]? with
        | some s0, some s1 =>
          match g.all_blocks[s0]?, g.all_blocks[s1]? with
          | some succ0, some succ1 =>
            if 0 < succ1.NumPred ∧ 0 < succ0.NumPred then
              if succ1.NumPred = 1 ∨ (succ1.NumPred = 2 ∧ succ1.IsLoopHeader = true) then
                let ok : Option Bool :=
                  if 1 < succ0.NumPred then some true
                  else if succ0.NumSucc = 1 then
                    match succ0.succ[0]? with
                    | none => none
                    | some t =>
                      match g.all_blocks[t]? with
                      | none => none
                      | some tb => some (decide (1 < tb.NumPred))
                  else some false
                match ok with
                | some true => some s1
                | _ => none
              else
                if succ0.NumPred = 1 ∧ 1 < succ1.NumPred then some s0 else none
            else none
          | _, _ => none
        | _, _ => none
    else none

/-! ## The counters and the switch on the opcode -/

/-- The constant `GLOBAL_MEM_LATENCY`. -/
def GLOBAL_MEM_LATENCY : Nat := 500

/-- The locals `total_cycles`, `current_cycles` and `global_load_cycles` of a walk; the
`std::map` from a register to the age of its outstanding load is an association list. -/
structure Counters where
  total : Nat := 0
  current : Nat := 0
  loads : List (Int × Nat) := []
  deriving DecidableEq, Repr

/-- `UpdateCyclesInMap(cmap, new_cycles)`: every entry grows by `new_cycles`.  (The C++
loop erases and re-inserts the entry its iterator stands on.) -/
def UpdateCyclesInMap (cmap : List (Int × Nat)) (new_cycles : Nat) : List (Int × Nat) :=
  cmap.map (fun e => (e.1, (e.2 + new_cycles) % ULL_MOD))

/-- The statements `total_cycles += (current_cycles * num_warps); current_cycles = 0;`. -/
def flush (W : Nat) (c : Counters) : Counters :=
  { c with total := (c.total + (c.current * W) % ULL_MOD) % ULL_MOD, current := 0 }

/-- The statements
`total_cycles += max<unsigned long long>((current_cycles * num_warps), GLOBAL_MEM_LATENCY);
current_cycles = 0;`. -/
def commit (W : Nat) (c : Counters) : Counters :=
  { c with
    total := (c.total + max ((c.current * W) % ULL_MOD) GLOBAL_MEM_LATENCY) % ULL_MOD,
    current := 0 }

/-- The body of `for (unsigned i = 0; i < 3; ++i)` for the source register `src`, in
experimental mode: a register with an outstanding load is taken out of the map, after the
part of the latency that is not yet hidden has been added to `total_cycles`. -/
def useLoad (W : Nat) (c : Counters) (src : Int) : Counters :=
  match c.loads.lookup src with
  | none => c
  | some cycles =>
    let c1 : Counters :=
      if cycles < GLOBAL_MEM_LATENCY then
        let tmp_cycles := max ((c.current * W) % ULL_MOD) (GLOBAL_MEM_LATENCY - cycles)
        { total := (c.total + tmp_cycles) % ULL_MOD, current := 0,
          loads := UpdateCyclesInMap c.loads tmp_cycles }
      else c
    { c1 with loads := c1.loads.filter (fun e => e.1 != src) }

/-- The loop over `src_regs[0 .. 2]`, which runs in experimental mode only. -/
def useLoads (exp : Bool) (W : Nat) (i : Instruction) (c : Counters) : Counters :=
  if exp then useLoad W (useLoad W (useLoad W c i.GetRegSrc0) i.GetRegSrc1) i.GetRegSrc2
  else c

/-- The branches of `switch (inst_iter->GetOpcode())`, which is written three times with
the same cases: `issue` is `current_cycles += 4` (with `UpdateCyclesInMap(.., 4)` in
experimental mode), `memory` the branch of a global or local memory instruction, `sync`
the case `OPR_SYNC`, and `fail` a failed `Assert(false, ..)`. -/
inductive Dispatch where
  | issue
  | memory
  | sync
  | fail
  deriving DecidableEq, Repr

/-- The case `OPR_MEM`, which the cases `OPR_ALU`, `OPR_BRANCH` and `OPR_COND_BRANCH`
fall through to in experimental mode. -/
def memCase (exp : Bool) (i : Instruction) : Dispatch :=
  if i.IsSharedOp || (exp && i.GetOpcode != Opcode.OPR_MEM) then Dispatch.issue
  else if i.IsGlobalOp || i.IsLocalOp then Dispatch.memory
  else Dispatch.fail

/-- The `switch` on the opcode. -/
def dispatch (exp : Bool) (i : Instruction) : Dispatch :=
  match i.GetOpcode with
  | Opcode.OPR_ALU => if !exp then Dispatch.issue else memCase exp i
  | Opcode.OPR_BRANCH => if !exp then Dispatch.issue else memCase exp i
  | Opcode.OPR_COND_BRANCH => if !exp then Dispatch.issue else memCase exp i
  | Opcode.OPR_MEM => memCase exp i
  | Opcode.OPR_SYNC => Dispatch.sync
  | Opcode.OPR_INVALID => Dispatch.fail

/-- The branch `current_cycles += 4; if (exp_mode) UpdateCyclesInMap(.., 4);`; in baseline
mode also the statement `current_cycles += 4` of the first three cases. -/
def issue (exp : Bool) (c : Counters) : Counters :=
  { c with current := (c.current + 4) % ULL_MOD,
           loads := if exp then UpdateCyclesInMap c.loads 4 else c.loads }

/-- The statement `current_cycles += 4`. -/
def charge (c : Counters) : Counters := { c with current := (c.current + 4) % ULL_MOD }

/-- The statement `UpdateCyclesInMap(global_load_cycles, 4)`. -/
def age (c : Counters) : Counters := { c with loads := UpdateCyclesInMap c.loads 4 }

/-- A load in experimental mode: `Assert(global_load_cycles.find(dst) == .end(), ..)` and
the insertion of the destination register with age 4. -/
def recordLoad (i : Instruction) (c : Counters) : Option Counters :=
  match c.loads.lookup i.GetRegDst with
  | some _ => none
  | none => some { c with loads := c.loads ++ [(i.GetRegDst, 4)] }

/-! ## CFG::CountCycles: the walk of a block -/

/-- The loop `while (inst_iter && (inst_iter->IsGlobalOp() || inst_iter->IsLocalOp()))` of
`CountCycles`, with `current_cycles`: it ends on the first instruction that is no global
or local memory instruction, or on the null pointer. -/
def kernelBurst (s : List Instruction) : Nat → Option Nat → Nat → Option (Option Nat × Nat)
  | 0, _, _ => none
  | _ + 1, none, cur => some (none, cur)
  | fuel + 1, some p, cur =>
    match s[p]? with
    | none => none
    | some i =>
      if i.IsGlobalOp || i.IsLocalOp then kernelBurst s fuel i.GetNext ((cur + 4) % ULL_MOD)
      else some (some p, cur)

/-- The body of the `switch` of `CountCycles` for the instruction `i` at `p`: the
counters, and `inst_iter` as the `switch` leaves it. -/
def kernelSwitch (exp : Bool) (s : List Instruction) (W : Nat) (p : Nat) (i : Instruction)
    (c : Counters) : Option (Option Nat × Counters) :=
  match dispatch exp i with
  | Dispatch.issue => some (some p, issue exp c)
  | Dispatch.memory =>
    if exp then
      if i.IsMemLoad then (recordLoad i (age c)).map (fun c1 => (some p, c1))
      else some (some p, commit W (age c))
    else
      match kernelBurst s (s.length + 1) (some p) c.current with
      | none => none
      | some (q, cur) => some (q, commit W { c with current := cur })
  | Dispatch.sync => some (some p, flush W c)
  | Dispatch.fail => none

/-- The loop `while (inst_iter && inst_iter != iter->GetLastInst()->GetNext())` of
`CountCycles`; `stop` is `iter->GetLastInst()->GetNext()`.  After the `switch` the stamp
is written through `inst_iter`, and `inst_iter` moves to its `next`. -/
def kernelInstrs (exp : Bool) (s : List Instruction) (W : Nat) (stop : Option Nat) :
    Nat → Option Nat → Counters → Option Counters
  | 0, _, _ => none
  | _ + 1, none, c => some c
  | fuel + 1, some p, c =>
    if some p = stop then some c
    else
      match s[p]? with
      | none => none
      | some i =>
        match kernelSwitch exp s W p i (useLoads exp W i c) with
        | none => none
        | some (none, _) => none
        | some (some q, c1) =>
          match s[q]? with
          | none => none
          | some iq => kernelInstrs exp s W stop fuel iq.GetNext c1

/-- The `else` branch of the walk of `CountCycles` for the block `b`. -/
def kernelBlock (exp : Bool) (s : List Instruction) (W : Nat) (b : BasicBlock)
    (c : Counters) : Option Counters :=
  match b.GetFirstInst with
  | none => some c
  | some f =>
    match b.GetLastInst with
    | none => none
    | some l =>
      match s[l]? with
      | none => none
      | some il => kernelInstrs exp s W il.GetNext (s.length + 1) (some f) c

/-! ## CFG::CountLoopCycles: a loop with inner loops -/

/-- The `switch` of the walk of a loop with inner loops. -/
def outerSwitch (exp : Bool) (W : Nat) (i : Instruction) (c : Counters) : Option Counters :=
  match dispatch exp i with
  | Dispatch.issue => some (issue exp c)
  | Dispatch.memory =>
    if exp then
      if i.IsMemLoad then recordLoad i (age (charge c))
      else some (flush W (age (charge c)))
    else some (commit W (charge c))
  | Dispatch.sync => some (flush W c)
  | Dispatch.fail => none

/-- The loop `while (inst_iter != block_last_inst)` of the walk of a loop with inner
loops; `stop` is `block_last_inst`. -/
def outerInstrs (exp : Bool) (s : List Instruction) (W : Nat) (stop : Option Nat) :
    Nat → Option Nat → Counters → Option Counters
  | 0, _, _ => none
  | fuel + 1, inst_iter, c =>
    if inst_iter = stop then some c
    else
      match inst_iter with
      | none => none
      | some p =>
        match s[p]? with
        | none => none
        | some i =>
          match outerSwitch exp W i (useLoads exp W i c) with
          | none => none
          | some c1 => outerInstrs exp s W stop fuel i.GetNext c1

/-- The loop `while (inst_iter != last_inst)` of the walk of a loop with inner loops;
`rec` is the recursive call `CountLoopCycles(inner_loop, ..)`.  When control leaves the
block before the end of the loop, the walk goes on with `FindBBSuccessor`, or, when that
block is a loop header, behind the inner loop; the stamp is then written through
`inst_iter`, which is `block_last_inst`. -/
def outerBlocks (exp : Bool) (s : List Instruction) (g : CFG) (W : Nat)
    (rec : Nat → Option Nat) (last_inst : Option Nat) :
    Nat → Nat → Option Nat → Counters → Option Counters
  | 0, _, _, _ => none
  | fuel + 1, bb_iter, inst_iter, c =>
    if inst_iter = last_inst then some c
    else
      match g.all_blocks[bb_iter]? with
      | none => none
      | some b =>
        match b.GetLastInst with
        | none => none
        | some l =>
          match s[l]? with
          | none => none
          | some il =>
            let block_last_inst := il.GetNext
            match outerInstrs exp s W block_last_inst (s.length + 1) inst_iter c with
            | none => none
            | some c1 =>
              if block_last_inst = last_inst then some (flush W c1)
              else
                match FindBBSuccessor g bb_iter with
                | none => none
                | some nb =>
                  match g.all_blocks[nb]? with
                  | none => none
                  | some nbb =>
                    let r : Option (Nat × Counters) :=
                      if nbb.IsLoopHeader then
                        match g.GetLoopFromHeader nb with
                        | none => none
                        | some inner_loop =>
                          match rec inner_loop with
                          | none => none
                          | some tmp_cycles =>
                            match FindLoopFooterSuccessor g inner_loop with
                            | none => none
                            | some fs =>
                              some (fs, { flush W c1 with
                                          total := ((flush W c1).total + tmp_cycles) % ULL_MOD })
                      else some (nb, c1)
                    match r with
                    | none => none
                    | some (bb2, c2) =>
                      match block_last_inst with
                      | none => none
                      | some q =>
                        match s[q]?, g.all_blocks[bb2]? with
                        | some _, some b2 =>
                          outerBlocks exp s g W rec last_inst fuel bb2 b2.GetFirstInst c2
                        | _, _ => none

/-! ## CFG::CountLoopCycles: an innermost loop -/

/-- The loop `while (inst_iter != block_first_inst)` of the walk backwards; `stop` is
`block_first_inst`.  The result is `first_blocking_inst`, null when the loop has run to
its end, and `later_cycles`. -/
def backInstrs (s : List Instruction) (stop : Option Nat) :
    Nat → Option Nat → Nat → Option (Option Nat × Nat)
  | 0, _, _ => none
  | fuel + 1, inst_iter, later =>
    if inst_iter = stop then some (none, later)
    else
      match inst_iter with
      | none => none
      | some p =>
        match s[p]? with
        | none => none
        | some i =>
          if i.IsGlobalOp || i.IsSyncOp || i.IsLocalOp then some (some p, (later + 4) % ULL_MOD)
          else backInstrs s stop fuel i.GetPrev ((later + 4) % ULL_MOD)

/-- The loop `while (inst_iter != loop->GetHeader()->GetFirstInst()->GetPrev())`, which
goes from a block to its first predecessor; `hstop` is the right-hand side of the test. -/
def backBlocks (s : List Instruction) (g : CFG) (hstop : Option Nat) :
    Nat → Nat → Option Nat → Nat → Option (Option Nat × Nat)
  | 0, _, _, _ => none
  | fuel + 1, bb_iter, inst_iter, later =>
    if inst_iter = hstop then some (none, later)
    else
      match g.all_blocks[bb_iter]? with
      | none => none
      | some b =>
        match b.GetFirstInst with
        | none => none
        | some f =>
          match s[f]? with
          | none => none
          | some fi =>
            match backInstrs s fi.GetPrev (s.length + 1) inst_iter later with
            | none => none
            | some (some p, later1) => some (some p, later1)
            | some (none, later1) =>
              if b.NumPred = 1 ∨ b.IsLoopHeader = true then
                match b.pred[0]? with
                | none => none
                | some pb =>
                  match g.all_blocks[pb]? with
                  | none => none
                  | some pbb => backBlocks s g hstop fuel pb pbb.GetLastInst later1
              else none

/-- The loop `while (inst_iter->GetNext() && (inst_iter->GetNext()->IsGlobalOp() ||
inst_iter->GetNext()->IsLocalOp()))` of the walk forwards, with `current_cycles`: it ends
on the last instruction of the burst. -/
def innerBurst (s : List Instruction) : Nat → Nat → Nat → Option (Nat × Nat)
  | 0, _, _ => none
  | fuel + 1, p, cur =>
    match s[p]? with
    | none => none
    | some i =>
      match i.GetNext with
      | none => some (p, cur)
      | some q =>
        match s[q]? with
        | none => none
        | some iq =>
          if iq.IsGlobalOp || iq.IsLocalOp then innerBurst s fuel q ((cur + 4) % ULL_MOD)
          else some (p, cur)

/-- The loop `while (true)` of the walk forwards through an innermost loop; it returns
from the `switch` when `inst_iter` is `first_blocking_inst`. -/
def innerForward (exp : Bool) (s : List Instruction) (W : Nat) (first_blocking_inst : Nat)
    (num_iters : Nat) : Nat → Option Nat → Counters → Option Nat
  | 0, _, _ => none
  | _ + 1, none, _ => none
  | fuel + 1, some p, c =>
    match s[p]? with
    | none => none
    | some i =>
      let c0 := useLoads exp W i c
      match dispatch exp i with
      | Dispatch.issue => innerForward exp s W first_blocking_inst num_iters fuel i.GetNext (issue exp c0)
      | Dispatch.memory =>
        let r : Option (Nat × Counters) :=
          if exp then
            if i.IsMemLoad then (recordLoad i (age (charge c0))).map (fun c1 => (p, c1))
            else some (p, commit W (age (charge c0)))
          else
            match innerBurst s (s.length + 1) p (charge c0).current with
            | none => none
            | some (q, cur) => some (q, commit W { c0 with current := cur })
        match r with
        | none => none
        | some (q, c1) =>
          if q = first_blocking_inst then some ((num_iters * (flush W c1).total) % ULL_MOD)
          else
            match s[q]? with
            | none => none
            | some iq => innerForward exp s W first_blocking_inst num_iters fuel iq.GetNext c1
      | Dispatch.sync =>
        if p = first_blocking_inst then some ((num_iters * (flush W c0).total) % ULL_MOD)
        else innerForward exp s W first_blocking_inst num_iters fuel i.GetNext (flush W c0)
      | Dispatch.fail => none

/-! ## CFG::CountLoopCycles, CFG::CountCycles -/

/-- `CFG::CountLoopCycles(loop, device, num_warps)`; the first argument bounds the depth
of the recursion.  The rounds of the walks are bounded by the number of blocks and of
instructions: a walk that goes on beyond them has come back to a block or instruction it
started a round with, and does not end. -/
def CountLoopCycles (exp : Bool) (s : List Instruction) (g : CFG) (W : Nat) :
    Nat → Nat → Option Nat
  | 0, _ => none
  | depth + 1, l =>
    match g.loop_store[l]? with
    | none => none
    | some loop =>
      match g.all_blocks[loop.GetHeader]?, loop.GetFooter with
      | some hb, some f =>
        match g.all_blocks[f]? with
        | none => none
        | some fb =>
          if loop.HasInnerLoops then
            match fb.GetLastInst with
            | none => none
            | some fl =>
              match s[fl]? with
              | none => none
              | some fli =>
                match outerBlocks exp s g W (CountLoopCycles exp s g W depth) fli.GetNext
                    (g.all_blocks.length + 1) loop.GetHeader hb.GetFirstInst {} with
                | none => none
                | some c =>
                  if c.loads.isEmpty then some ((loop.GetNumIters * (flush W c).total) % ULL_MOD)
                  else none
          else
            match hb.GetFirstInst with
            | none => none
            | some hf =>
              match s[hf]? with
              | none => none
              | some hfi =>
                match backBlocks s g hfi.GetPrev (g.all_blocks.length + 1) f fb.GetLastInst 0 with
                | none => none
                | some (none, later_cycles) =>
                  some (((loop.GetNumIters * later_cycles) % ULL_MOD * W) % ULL_MOD)
                | some (some first_blocking_inst, later_cycles) =>
                  innerForward exp s W first_blocking_inst loop.GetNumIters (s.length + 1)
                    (some hf) { current := later_cycles }
      | _, _ => none

/-- The loop `while (true)` of `CountCycles`, which goes from block to block. -/
def kernelWalk (exp : Bool) (s : List Instruction) (g : CFG) (W : Nat) :
    Nat → Nat → Counters → Option Nat
  | 0, _, _ => none
  | fuel + 1, iter, c =>
    match g.all_blocks[iter]?, g.exit with
    | some b, some x =>
      match g.all_blocks[x]? with
      | none => none
      | some xb =>
        if b.Id = xb.Id then some (flush W c).total
        else if b.IsLoopHeader then
          match g.GetLoopFromHeader iter with
          | none => none
          | some loop =>
            match CountLoopCycles exp s g W (g.loop_store.length + 1) loop with
            | none => none
            | some loop_cycles =>
              match FindLoopFooterSuccessor g loop with
              | none => none
              | some nxt =>
                kernelWalk exp s g W fuel nxt
                  { flush W c with total := ((flush W c).total + loop_cycles) % ULL_MOD }
        else
          match kernelBlock exp s W b c with
          | none => none
          | some c1 =>
            match FindBBSuccessor g iter with
            | none => none
            | some nxt => kernelWalk exp s g W fuel nxt c1
    | _, _ => none

/-- `CFG::CountCycles(device, num_warps)`. -/
def CountCycles (exp : Bool) (s : List Instruction) (g : CFG) (W : Nat) : Option Nat :=
  if g.constructed then
    match g.entry with
    | none => none
    | some entry => kernelWalk exp s g W (g.all_blocks.length + 1) entry {}
  else none

/-! ## Kernel.cxx: Kernel::AddInstruction, Kernel::Construct

The instruction objects of a kernel are kept in `insts`; an `Instruction *` is the index
of the object in `insts`, which is the order in which `Instruction::CreateInstruction`
allocates the objects.  The `std::list` `inst_stream` is the list of these pointers in the
order of the list.  An `InstIter` is identified with the pointer it stands on: a
`std::list` iterator keeps standing on its element when the list is spliced.  The maps
and the set keyed by `InstIter` compare the line numbers of the instructions
(`operator <` of `Kernel.cxx`); every instruction is read from a line of its own, so this
is the order of the pointers.  The statements that `Parser::Parse` returns are a
parameter: an instruction as `Classify` leaves it, a label with the instruction the parser
has attached to it, or a directive. -/

namespace Instruction

def IsCall (i : Instruction) : Bool := i.call_op
def IsRet (i : Instruction) : Bool := i.ret_op
def SetPrev (i : Instruction) (p : Option Nat) : Instruction := { i with prev := p }
def SetNext (i : Instruction) (n : Option Nat) : Instruction := { i with next := n }
def SetBranchTarget (i : Instruction) (t : Option Nat) : Instruction :=
  { i with branch_target := t }

end Instruction

/-- The members `number` and `next_inst` of `class Label`. -/
structure Label where
  number : Nat
  next_inst : Option Nat := none
  deriving DecidableEq, Repr

namespace Label

def GetNumber (l : Label) : Nat := l.number
def GetNextInst (l : Label) : Option Nat := l.next_inst

end Label

/-- What `Parser::Parse` returns: an `Instruction`, a `Label` or a `Directive`. -/
inductive Statement where
  | instruction (i : Instruction)
  | label (l : Label)
  | directive
  deriving DecidableEq, Repr

/-- The instruction objects and the three streams of `class Kernel`; of the directives
only their number is kept. -/
structure Kernel where
  insts : List Instruction := []
  inst_stream : List Nat := []
  label_stream : List Label := []
  directive_stream : Nat := 0
  deriving DecidableEq, Repr

/-- Applies `f` to the instruction that the pointer `p` designates. -/
def updInst (insts : List Instruction) (p : Nat) (f : Instruction → Instruction) :
    Option (List Instruction) :=
  match insts[p]? with
  | none => none
  | some i => some (insts.set p (f i))

/-- The call `m.insert(pair(k, v))` of a `std::map`: an existing entry is kept. -/
def mapInsert {α β : Type} [BEq α] (m : List (α × β)) (k : α) (v : β) : List (α × β) :=
  if (m.lookup k).isSome then m else m ++ [(k, v)]

/-- The call `s.insert(x)` of a `std::set`. -/
def setInsert {α : Type} [BEq α] (s : List α) (x : α) : List α :=
  if s.contains x then s else s ++ [x]

/-- `Instruction::CreateInstruction`: the new object gets the static local `prev` as its
`prev` and becomes the `next` of that instruction.  The result is the store and the
pointer to the new object. -/
def CreateInstruction (insts : List Instruction) (prev : Option Nat) (i : Instruction) :
    Option (List Instruction × Nat) :=
  let instr := insts.length
  let insts1 := insts ++ [{ i with prev := prev, next := none }]
  match prev with
  | none => some (insts1, instr)
  | some q => (updInst insts1 q (fun x => x.SetNext (some instr))).map (fun l => (l, instr))

namespace Kernel

/-- `Kernel::GetLastInst()`: `inst_stream->back()`. -/
def GetLastInst (k : Kernel) : Option Nat := k.inst_stream.getLast?

/-- `Kernel::AddInstruction(inst)`. -/
def AddInstruction (k : Kernel) (inst : Nat) : Option Kernel :=
  let linked : Option (List Instruction) :=
    if 0 < k.inst_stream.length then
      match k.GetLastInst with
      | none => none
      | some last =>
        match updInst k.insts last (fun x => x.SetNext (some inst)) with
        | none => none
        | some insts1 => updInst insts1 inst (fun x => x.SetPrev (some last))
    else some k.insts
  match linked with
  | none => none
  | some insts1 =>
    match updInst insts1 inst (fun x => x.SetNext none) with
    | none => none
    | some insts2 => some { k with insts := insts2, inst_stream := k.inst_stream ++ [inst] }

end Kernel

/-- The kernel, the static local `prev` of `CreateInstruction` (null after
`reset_fields`), and the local `branch_targets` of `Construct`. -/
structure ParseState where
  k : Kernel := {}
  prev : Option Nat := none
  branch_targets : List (Nat × Label) := []
  deriving DecidableEq, Repr

/-- The body of the loop `while (!parser->Done())` for the statement `stmt`. -/
def parseStep (st : ParseState) : Statement → Option ParseState
  | Statement.instruction i =>
    match CreateInstruction st.k.insts st.prev i with
    | none => none
    | some (insts1, p) =>
      match ({ st.k with insts := insts1 } : Kernel).AddInstruction p with
      | none => none
      | some k1 => some { st with k := k1, prev := some p }
  | Statement.label l =>
    some { st with k := { st.k with label_stream := st.k.label_stream ++ [l] },
                   branch_targets := mapInsert st.branch_targets l.GetNumber l }
  | Statement.directive =>
    some { st with k := { st.k with directive_stream := st.k.directive_stream + 1 } }

/-- The loop `while (!parser->Done())` over the statements the parser returns. -/
def parseLoop : List Statement → ParseState → Option ParseState
  | [], st => some st
  | stmt :: rest, st =>
    match parseStep st stmt with
    | none => none
    | some st1 => parseLoop rest st1

/-- The maps, the sets and the stack of `Construct` that keep track of the call sites and
of the entries and exits of the functions. -/
structure InlineMaps where
  fn_entry_exit_map : List (Nat × Nat) := []
  fn_cs_entry_map : List (Nat × Nat) := []
  fn_entry_cs_map : List (Option Nat × Nat) := []
  fn_entries : List (Option Nat) := []
  call_sites : List Nat := []
  function_stack : List Nat := []
  deriving DecidableEq, Repr

/-- The conversion of the `int` label number to the `unsigned` key of `branch_targets`. -/
def labelKey (n : Int) : Nat := (n % 4294967296).toNat

/-- The body of the pass that patches the branch targets, for the instruction `iter`
stands on. -/
def patchStep (branch_targets : List (Nat × Label)) (iter : Nat)
    (st : List Instruction × InlineMaps) : Option (List Instruction × InlineMaps) :=
  match st.1[iter]? with
  | none => none
  | some inst =>
    let entered : Option InlineMaps :=
      if inst.IsBranchTarget && st.2.fn_entries.contains (some iter) then
        match st.2.fn_entry_cs_map.lookup (some iter) with
        | none => none
        | some cs =>
          some { st.2 with fn_cs_entry_map := mapInsert st.2.fn_cs_entry_map cs iter,
                           function_stack := iter :: st.2.function_stack }
      else some st.2
    match entered with
    | none => none
    | some m1 =>
      if inst.IsBranchOp then
        let m2 : InlineMaps :=
          if inst.IsRet then
            match m1.function_stack with
            | [] => m1
            | entry :: rest =>
              { m1 with function_stack := rest,
                        fn_entry_exit_map := mapInsert m1.fn_entry_exit_map entry iter }
          else m1
        let label_number := inst.GetLabelNumber
        if label_number = -1 then
          (updInst st.1 iter (fun x => x.SetBranchTarget none)).map (fun l => (l, m2))
        else
          match branch_targets.lookup (labelKey label_number) with
          | none => none
          | some tmp_label =>
            match updInst st.1 iter (fun x => x.SetBranchTarget tmp_label.GetNextInst) with
            | none => none
            | some insts1 =>
              if inst.IsCall then
                some (insts1,
                  { m2 with
                    fn_entries := setInsert m2.fn_entries tmp_label.GetNextInst,
                    fn_entry_cs_map :=
                      mapInsert m2.fn_entry_cs_map tmp_label.GetNextInst iter,
                    call_sites := setInsert m2.call_sites iter })
              else some (insts1, m2)
      else some (st.1, m1)

/-- The loop `for (InstIter iter = InstBegin(); iter != InstEnd(); ++iter)`. -/
def patchLoop (branch_targets : List (Nat × Label)) :
    List Nat → List Instruction × InlineMaps → Option (List Instruction × InlineMaps)
  | [], st => some st
  | iter :: rest, st =>
    match patchStep branch_targets iter st with
    | none => none
    | some st1 => patchLoop branch_targets rest st1

/-- The call `inst_stream->splice(++cs, *inst_stream, entry, ++exit)`: the elements from
`entry` to `exit` are moved behind `cs`.  The range is no range when `exit` does not come
at or behind `entry`; the position `++cs` must not lie in the range `[entry, ++exit)`, and
nothing moves when it is `++exit`. -/
def spliceAfter (l : List Nat) (cs entry exit : Nat) : Option (List Nat) :=
  let pc := l.indexOf cs
  let pe := l.indexOf entry
  let px := l.indexOf exit
  if pc < l.length ∧ pe < l.length ∧ px < l.length ∧ pe ≤ px then
    if pc + 1 < pe then
      some (l.take (pc + 1) ++ (l.drop pe).take (px + 1 - pe)
        ++ (l.drop (pc + 1)).take (pe - (pc + 1)) ++ l.drop (px + 1))
    else if px < pc then
      some (l.take pe ++ (l.drop (px + 1)).take (pc - px)
        ++ (l.drop pe).take (px + 1 - pe) ++ l.drop (pc + 1))
    else if pc = px then some l
    else none
  else none

/-- The body of the loop that inlines the functions, for the call site `cs`. -/
def inlineStep (m : InlineMaps) (k : Kernel) (cs : Nat) : Option Kernel :=
  match m.fn_cs_entry_map.lookup cs with
  | none => none
  | some entry =>
    match m.fn_entry_exit_map.lookup entry with
    | none => none
    | some exit =>
      match updInst k.insts entry (fun x => x.SetPrev (some cs)) with
      | none => none
      | some i1 =>
        match i1[cs]? with
        | none => none
        | some csi =>
          match updInst i1 exit (fun x => x.SetNext csi.GetNext) with
          | none => none
          | some i2 =>
            match (i2[cs]?).bind Instruction.GetNext with
            | none => none
            | some n =>
              match updInst i2 n (fun x => x.SetPrev (some exit)) with
              | none => none
              | some i3 =>
                match updInst i3 cs (fun x => x.SetNext (some entry)) with
                | none => none
                | some i4 =>
                  match i4[exit]? with
                  | none => none
                  | some exi =>
                    match updInst i4 exit (fun x => x.SetBranchTarget exi.GetNext) with
                    | none => none
                    | some i5 =>
                      match spliceAfter k.inst_stream cs entry exit with
                      | none => none
                      | some stream => some { k with insts := i5, inst_stream := stream }

/-- The loop over `call_sites`. -/
def inlineLoop (m : InlineMaps) : List Nat → Kernel → Option Kernel
  | [], k => some k
  | cs :: rest, k =>
    match inlineStep m k cs with
    | none => none
    | some k1 => inlineLoop m rest k1

/-- `Kernel::Construct()` on the statements that the parser returns.  The C++ function
returns `true`; the model returns the kernel. -/
def Construct (stmts : List Statement) : Option Kernel :=
  match parseLoop stmts {} with
  | none => none
  | some ps =>
    match patchLoop ps.branch_targets ps.k.inst_stream (ps.k.insts, {}) with
    | none => none
    | some (insts, m) => inlineLoop m m.call_sites { ps.k with insts := insts }

/-! ## Specification vocabulary -/

/-- The non-deleted instructions of the stream with their positions, in stream order. -/
def nonDeleted (s : List Instruction) : List (Nat × Instruction) :=
  s.enum.filter (fun x => !x.2.IsDeleted)

/-- The instruction `y` is a leader because of what it is or of what precedes it: it is
flagged as a branch target, or the non-deleted instruction `x` right before it is a
branch or a conditional branch. -/
def leaderAfter (x y : Nat × Instruction) : Prop :=
  y.2.IsBranchTarget = true ∨ x.2.IsBranchOp = true

/-- The list `segs` cuts `nd` at its leaders: the segments are non-empty and make up
`nd`, no instruction inside a segment is a leader, and the first instruction of every
segment but the first is a leader.  (The first instruction of `nd` is a leader by
definition; it starts the first segment.) -/
def Segmented (nd : List (Nat × Instruction)) (segs : List (List (Nat × Instruction))) :
    Prop :=
  segs.flatten = nd ∧
  (∀ seg ∈ segs, seg ≠ []) ∧
  (∀ seg ∈ segs, seg.Chain' (fun x y => ¬ leaderAfter x y)) ∧
  segs.Chain' (fun a b => ∀ x ∈ a.getLast?, ∀ y ∈ b.head?, leaderAfter x y)

/-- What the claims say about a block: first instruction, last instruction, id. -/
def blockInfo (b : BasicBlock) : Option Nat × Option Nat × Nat :=
  (b.begin_instr, b.end_instr, b.id)

/-- The block that the segment number `k` stands for. -/
def segInfo (ks : Nat × List (Nat × Instruction)) : Option Nat × Option Nat × Nat :=
  (ks.2.head?.map Prod.fst, ks.2.getLast?.map Prod.fst, ks.1 % UINT_MOD)

/-- Proof device: one step of cutting a list at its leaders from left to right, with the
closed segments and the open one. -/
def segStep (acc : List (List (Nat × Instruction)) × List (Nat × Instruction))
    (y : Nat × Instruction) : List (List (Nat × Instruction)) × List (Nat × Instruction) :=
  let acc1 : List (List (Nat × Instruction)) × List (Nat × Instruction) :=
    if y.2.IsBranchTarget && !acc.2.isEmpty then (acc.1 ++ [acc.2], [y])
    else (acc.1, acc.2 ++ [y])
  if y.2.IsBranchOp then (acc1.1 ++ [acc1.2], []) else acc1

/-- Proof device: the segments once the end of the list is reached. -/
def segFinal (acc : List (List (Nat × Instruction)) × List (Nat × Instruction)) :
    List (List (Nat × Instruction)) :=
  if acc.2.isEmpty then acc.1 else acc.1 ++ [acc.2]

/-- Proof device: the loop invariant of `ComputeBasicBlocks`.  It ties the locals and the
blocks built so far to the segments cut so far out of the instructions before position
`p`. -/
structure CbbInv (st : CBBState)
    (acc : List (List (Nat × Instruction)) × List (Nat × Instruction)) (p : Nat) : Prop where
  blocks : st.g.all_blocks.map blockInfo = (none, none, 65535) :: acc.1.enum.map segInfo
  index : st.index = acc.1.length % UINT_MOD
  first : st.first = acc.2.head?.map Prod.fst
  cur_open : acc.2 ≠ [] → st.cur = acc.2.getLast?.map Prod.fst
  open_lt : ∀ x ∈ acc.2, x.1 < p
  last_eq : acc.2 = [] → st.last = st.cur
  last_lt : ∀ e, st.last = some e → ∀ x ∈ acc.2, e < x.1
  cur_lt : ∀ c, st.cur = some c → c < p

/-- The first instruction of the segment `b` is a leader after the last one of `a`. -/
def segBoundary (a b : List (Nat × Instruction)) : Prop :=
  ∀ x ∈ a.getLast?, ∀ y ∈ b.head?, leaderAfter x y

/-- Proof device: the closed segments `acc.1` and the open segment `acc.2` cut `done` at
leaders only, and at every leader they have met. -/
structure SegCore (acc : List (List (Nat × Instruction)) × List (Nat × Instruction))
    (done : List (Nat × Instruction)) : Prop where
  flat : acc.1.flatten ++ acc.2 = done
  nonempty : ∀ seg ∈ acc.1, seg ≠ []
  inner_closed : ∀ seg ∈ acc.1, seg.Chain' (fun x y => ¬ leaderAfter x y)
  inner_open : acc.2.Chain' (fun x y => ¬ leaderAfter x y)
  boundary : acc.1.Chain' segBoundary
  boundary_open : ∀ a ∈ acc.1.getLast?, segBoundary a acc.2

/-- Proof device: what `segStep` maintains.  The open segment holds no branch, and when
it is empty the segment closed last ends with a branch. -/
structure SegInv (acc : List (List (Nat × Instruction)) × List (Nat × Instruction))
    (done : List (Nat × Instruction)) : Prop where
  core : SegCore acc done
  open_nobranch : ∀ x ∈ acc.2, x.2.IsBranchOp = false
  closed_branch : acc.2 = [] → ∀ a ∈ acc.1.getLast?, ∀ x ∈ a.getLast?, x.2.IsBranchOp = true

/-- Proof device: the members of a CFG other than the blocks and the block map. -/
def cfgRest (g : CFG) :
    Option Nat × Option Nat × Option (List (Nat × Nat)) × Option (List Nat) × Bool × Bool ×
      List Loop × Nat :=
  (g.entry, g.exit, g.loop_header_map, g.loops, g.constructed, g.unrolled_loops,
    g.loop_store, g.global_loop_index)

/-- A three-instruction stream: a conditional branch over one instruction. -/
def streamCondSkip : List Instruction :=
  [ { next := some 1, opc := Opcode.OPR_COND_BRANCH, branch_op := true, cond_branch := true,
      branch_target := some 2, label_number := 1 },
    { next := some 2, opc := Opcode.OPR_ALU, alu_op := true },
    { next := none, opc := Opcode.OPR_ALU, alu_op := true, is_branch_target := true } ]

/-- The successor list of the block `k` (empty for a pointer that designates no block). -/
def succAt (bs : List BasicBlock) (k : Nat) : List Nat :=
  match bs[k]? with
  | none => []
  | some b => b.succ

/-- The predecessor list of the block `k`. -/
def predAt (bs : List BasicBlock) (k : Nat) : List Nat :=
  match bs[k]? with
  | none => []
  | some b => b.pred

/-- The block `b` without its edges. -/
def blockCore (b : BasicBlock) : BasicBlock := { b with succ := [], pred := [] }

/-- The successor and predecessor lists mirror each other: `b` occurs in the successors
of `a` as often as `a` occurs in the predecessors of `b`. -/
def Mirror (bs : List BasicBlock) : Prop :=
  ∀ a b, (succAt bs a).count b = (predAt bs b).count a

/-- The last instruction of the block `k` of `g`. -/
def termAt (s : List Instruction) (g : CFG) (k : Nat) : Option Instruction :=
  match g.all_blocks[k]? with
  | none => none
  | some b =>
    match b.GetLastInst with
    | none => none
    | some t => s[t]?

/-- The block a branch `t` leads to: the exit sentinel for a branch without target, the
block recorded for the target instruction otherwise. -/
def takenBlock (g : CFG) (t : Instruction) : Option Nat :=
  match t.GetBranchTarget with
  | none => g.exit
  | some bt => g.block_map.lookup (some bt)

/-- The successors a block gets for its own terminator `t`. -/
def branchSucc (g : CFG) (t : Option Instruction) : List Nat :=
  match t with
  | none => []
  | some t => if t.IsBranchOp then (takenBlock g t).toList else []

/-- The terminator `t` lets control fall through to the next block: it is no branch, or
it is a conditional branch. -/
def fallsThrough (t : Option Instruction) : Bool :=
  match t with
  | none => false
  | some t => !t.IsBranchOp || t.IsCondBranch

/-- Proof device: the successor list of the block `k` when `ConstructCFG` has gone
through the blocks `1 .. j`. -/
def expSucc (s : List Instruction) (g : CFG) (j k : Nat) : List Nat :=
  if k = 0 then (if 1 ≤ j then [1] else [])
  else if k < j then
    branchSucc g (termAt s g k) ++ (if fallsThrough (termAt s g k) then [k + 1] else [])
  else if k = j then branchSucc g (termAt s g k)
  else []

/-- Proof device: the loop invariant of `ConstructCFG` after the blocks `1 .. j`. -/
structure WireInv (s : List Instruction) (g : CFG) (j : Nat) (st : WireState) : Prop where
  core : st.blocks.map blockCore = g.all_blocks.map blockCore
  bb : st.bb = if j = 0 then none else some j
  prev : st.prev = if j = 0 then some 0
                   else if fallsThrough (termAt s g j) then some j else none
  succ : ∀ k, succAt st.blocks k = expSucc s g j k
  mirror : Mirror st.blocks
  resolved : ∀ k, 1 ≤ k → k ≤ j →
    ∃ t, termAt s g k = some t ∧ (t.IsBranchOp = true → ∃ x, takenBlock g t = some x)

/-- A block as its constructor leaves it: no edges, no loop flags, not visited. -/
def FreshBlock (b : BasicBlock) : Prop :=
  b.succ = [] ∧ b.pred = [] ∧ b.loop_header = false ∧ b.loop_footer = false ∧
  b.vs = VisitState.COLOR_WHITE

/-- Every entry of the block map leads from an instruction to a block that begins with
that instruction. -/
def MapInv (g : CFG) : Prop :=
  ∀ key v, g.block_map.lookup key = some v →
    ∃ b, g.all_blocks[v]? = some b ∧ b.begin_instr = key

/-- Proof device: the successor list of the block `k` once `ConstructCFG` is done with a
CFG of `n` interior blocks; the last of them gets the exit sentinel `n + 1` in any case. -/
def finalSucc (s : List Instruction) (g : CFG) (n k : Nat) : List Nat :=
  expSucc s g n k ++ (if k = n then [n + 1] else [])

/-- Proof device: the facts about a CFG `g1` that the constructor `CFG::CFG` has built
from the stream `s`; `g` is the CFG between `ComputeBasicBlocks` and `ConstructCFG`, and
`segs` are the segments of the stream that became the interior blocks. -/
structure Built (s : List Instruction) (u : Bool) (gli : Nat) (g g1 : CFG)
    (segs : List (List (Nat × Instruction))) : Prop where
  computed : ComputeBasicBlocks s { unrolled_loops := u, global_loop_index := gli } = some g
  wired : ConstructCFG s g = some g1
  segmented : Segmented (nonDeleted s) segs
  interior : 1 ≤ segs.length
  info : g.all_blocks.map blockInfo
    = (none, none, 65535) :: segs.enum.map segInfo ++ [(none, none, 65536)]
  length : g.all_blocks.length = segs.length + 2
  core : g1.all_blocks.map blockCore = g.all_blocks.map blockCore
  fresh : ∀ b ∈ g.all_blocks, FreshBlock b
  mapInv : MapInv g
  mirror : Mirror g1.all_blocks
  succ : ∀ k, succAt g1.all_blocks k = finalSucc s g segs.length k
  resolved : ∀ k, 1 ≤ k → k ≤ segs.length →
    ∃ t, termAt s g k = some t ∧ (t.IsBranchOp = true → ∃ x, takenBlock g t = some x)
  exit0 : g.exit = some (segs.length + 1)
  entry : g1.entry = some 0
  exit : g1.exit = some (segs.length + 1)
  loops : g1.loops = none
  loop_store : g1.loop_store = []
  loop_header_map : g1.loop_header_map = none
  constructed : g1.constructed = true
  unrolled : g1.unrolled_loops = u
  gli : g1.global_loop_index = gli

/-- A stream that is a single `ret`: a branch without target. -/
def streamRet : List Instruction :=
  [ { next := none, opc := Opcode.OPR_BRANCH, branch_op := true, ret_op := true,
      label_number := -1 } ]

/-- Three ALU instructions linked in stream order, the second one deleted. -/
def streamDeletedMiddle : List Instruction :=
  [ { next := some 1, opc := Opcode.OPR_ALU, alu_op := true },
    { next := some 2, opc := Opcode.OPR_ALU, alu_op := true, deleted := true },
    { next := none, opc := Opcode.OPR_ALU, alu_op := true } ]

/-- The CFG the constructor builds for `streamCondSkip`. -/
def cfgCondSkip : CFG := (mkCFG streamCondSkip false 0).getD {}

/-- The block of `cfgCondSkip` that ends in the conditional branch. -/
def blockCondSkip : BasicBlock :=
  (cfgCondSkip.all_blocks[1]?).getD { begin_instr := none, end_instr := none, id := 0 }

/-- The conditional branch that opens `streamCondSkip`. -/
def condSkipBranch : Instruction :=
  { next := some 1, opc := Opcode.OPR_COND_BRANCH, branch_op := true, cond_branch := true,
    branch_target := some 2, label_number := 1 }

/-- The loop-header flag of the block `k` (`false` for a pointer to no block). -/
def headerFlag (bs : List BasicBlock) (k : Nat) : Bool :=
  match bs[k]? with
  | none => false
  | some b => b.IsLoopHeader

/-- The loop-footer flag of the block `k`. -/
def footerFlag (bs : List BasicBlock) (k : Nat) : Bool :=
  match bs[k]? with
  | none => false
  | some b => b.IsLoopFooter

/-- The block `b` without what loop detection writes: the two loop flags and the colour. -/
def blockStatic (b : BasicBlock) : BasicBlock :=
  { b with loop_header := false, loop_footer := false, vs := VisitState.COLOR_WHITE }

/-- What loop detection never changes in a CFG: the blocks up to flags and colour, the
sentinels, the block map and the two flags of the CFG. -/
def SameGraph (g g1 : CFG) : Prop :=
  g1.all_blocks.map blockStatic = g.all_blocks.map blockStatic ∧
  g1.entry = g.entry ∧ g1.exit = g.exit ∧ g1.block_map = g.block_map ∧
  g1.constructed = g.constructed ∧ g1.unrolled_loops = g.unrolled_loops

/-- The loops found so far are consistent with the CFG: every loop has an edge from its
primary footer to its header, both blocks carry their flag, and the header map leads
from the header to the loop; every flagged header and every entry of the header map
belongs to a loop. -/
structure LoopsOk (g : CFG) : Prop where
  loop_ok : ∀ l L, g.loop_store[l]? = some L →
    g.GetLoopFromHeader L.header = some l ∧
    headerFlag g.all_blocks L.header = true ∧
    footerFlag g.all_blocks L.footer = true ∧
    L.header ∈ succAt g.all_blocks L.footer
  header_ok : ∀ k, headerFlag g.all_blocks k = true →
    ∃ l L, g.GetLoopFromHeader k = some l ∧ g.loop_store[l]? = some L ∧ L.header = k
  map_ok : ∀ h l, g.GetLoopFromHeader h = some l →
    ∃ L, g.loop_store[l]? = some L ∧ L.header = h

/-- The header and the primary footer of a loop. -/
def loopEnds (L : Loop) : Nat × Nat := (L.header, L.footer)

/-- A loop as `DoDFS` leaves it: no natural loop and no nesting yet. -/
def LoopFresh (L : Loop) : Prop :=
  L.nat_loop = [] ∧ L.enclosing_loop = none ∧ L.inner_loops = none ∧ L.nesting_level = 0 ∧
  L.num_iters = 256

/-- Proof device: what holds of the CFG all through `DoDFS`. -/
structure DfsInv (g : CFG) : Prop where
  ok : LoopsOk g
  map : ∃ m, g.loop_header_map = some m
  fresh : ∀ L ∈ g.loop_store, LoopFresh L
  listed : g.loops.getD [] = List.range g.loop_store.length

/-- A successor edge from `a` to `b` with both ends in the set `N`. -/
def natEdge (bs : List BasicBlock) (N : List Nat) (a b : Nat) : Prop :=
  a ∈ N ∧ b ∈ N ∧ b ∈ succAt bs a

/-- From every block of the natural-loop set of `L` the header of `L` is reached along
successor edges that stay in the set. -/
def NatInv (bs : List BasicBlock) (L : Loop) : Prop :=
  ∀ b ∈ L.nat_loop, Relation.ReflTransGen (natEdge bs L.nat_loop) b L.header

/-- The header, the primary footer and the natural-loop set of a loop. -/
def loopShape (L : Loop) : Nat × Nat × List Nat := (L.header, L.footer, L.nat_loop)

/-- Proof device: the invariant of the loops of `ConstructNatLoop` for the loop `l`;
`ls0` are the loop objects when the call starts. -/
structure NatState (bs : List BasicBlock) (ls0 : List Loop) (l : Nat)
    (st : NatLoopState) : Prop where
  all : ∀ L ∈ st.ls, NatInv bs L
  ends : st.ls.map loopEnds = ls0.map loopEnds
  this : ∃ this, st.ls[l]? = some this ∧ this.header ∈ this.nat_loop ∧
    ∀ x ∈ st.stack, x ∈ this.nat_loop

/-- Proof device: what holds of the CFG from the end of `DoDFS` on. -/
structure NatPhase (g : CFG) : Prop where
  ok : LoopsOk g
  map : ∃ m, g.loop_header_map = some m
  mirror : Mirror g.all_blocks
  nat : ∀ L ∈ g.loop_store, NatInv g.all_blocks L

/-- The nesting level of the loop `l`. -/
def levelAt (ls : List Loop) (l : Nat) : Option Nat :=
  match ls[l]? with
  | none => none
  | some L => some L.GetNestingLevel

/-- No usable file `./.uconf`. -/
def noUconf : Nat → Option (List Nat) := fun _ => none

/-- A loop with a second entry.  Instruction 0 branches conditionally into the loop body
(instruction 2) and falls through to instruction 1; instruction 2 branches back to
instruction 1; instruction 3 returns. -/
def streamSideEntry : List Instruction :=
  [ { next := some 1, opc := Opcode.OPR_COND_BRANCH, branch_op := true, cond_branch := true,
      branch_target := some 2, label_number := 2 },
    { next := some 2, opc := Opcode.OPR_ALU, alu_op := true, is_branch_target := true },
    { next := some 3, opc := Opcode.OPR_COND_BRANCH, branch_op := true, cond_branch := true,
      branch_target := some 1, label_number := 1, is_branch_target := true },
    { next := none, opc := Opcode.OPR_BRANCH, branch_op := true, ret_op := true,
      label_number := -1 } ]

/-- The CFG of `streamSideEntry` after `DetectLoops`. -/
def cfgSideEntry : CFG :=
  ((mkCFG streamSideEntry false 0).bind (DetectLoops 1 noUconf)).getD {}

/-- A loop with a `continue`: instruction 0 is the loop header and branches conditionally
back to itself, instruction 1 branches back to instruction 0 unconditionally. -/
def streamContinue : List Instruction :=
  [ { next := some 1, opc := Opcode.OPR_COND_BRANCH, branch_op := true, cond_branch := true,
      branch_target := some 0, label_number := 1, is_branch_target := true },
    { next := none, opc := Opcode.OPR_BRANCH, branch_op := true,
      branch_target := some 0, label_number := 1 } ]

/-- Two loops that are entered through each other's body.  Instruction 0 branches
conditionally to instruction 2 and falls through to instruction 1; instruction 2 branches
conditionally back to instruction 1; instruction 3 branches back to instruction 0. -/
def streamIrreducible : List Instruction :=
  [ { next := some 1, opc := Opcode.OPR_COND_BRANCH, branch_op := true, cond_branch := true,
      branch_target := some 2, label_number := 2, is_branch_target := true },
    { next := some 2, opc := Opcode.OPR_ALU, alu_op := true, is_branch_target := true },
    { next := some 3, opc := Opcode.OPR_COND_BRANCH, branch_op := true, cond_branch := true,
      branch_target := some 1, label_number := 1, is_branch_target := true },
    { next := none, opc := Opcode.OPR_BRANCH, branch_op := true,
      branch_target := some 0, label_number := 0 } ]

/-- The CFG of `streamIrreducible` as the constructor builds it. -/
def cfgIrreducible : CFG := (mkCFG streamIrreducible false 0).getD {}

/-- The CFG of `streamIrreducible` when the natural loops have been constructed. -/
def cfgIrreducibleNat : CFG :=
  ((detectBackEdges cfgIrreducible).bind constructNatLoops).getD {}

/-- The CFG of `streamSideEntry` as the constructor builds it. -/
def cfgSideEntryBuilt : CFG := (mkCFG streamSideEntry false 0).getD {}

/-- The CFG of `streamContinue` after `DetectLoops`. -/
def cfgContinue : CFG :=
  ((mkCFG streamContinue false 0).bind (DetectLoops 1 noUconf)).getD {}

/-- The `next` fields follow the order of the stream, as `Kernel::AddInstruction` sets
them: every instruction points to the one after it, the last one to nothing. -/
def WellLinked (s : List Instruction) : Prop :=
  ∀ p i, s[p]? = some i → i.GetNext = if p + 1 < s.length then some (p + 1) else none

/-- The instruction belongs to one of the classes the constructor of `BasicBlock`
counts. -/
def Classified (i : Instruction) : Prop :=
  i.IsAluOp = true ∨ i.IsBranchOp = true ∨ i.IsSharedOp = true ∨ i.IsLocalOp = true ∨
  i.IsGlobalOp = true ∨ i.IsSyncOp = true

/-- The sum of the six counters. -/
def OpCounts.total (c : OpCounts) : Nat :=
  c.alu + c.global + c.shared + c.loc + c.branch + c.sync

/-- The pointer to position `p` of the stream: null past the end. -/
def ptrAt (s : List Instruction) (p : Nat) : Option Nat :=
  if p < s.length then some p else none

/-- Proof device: what makes every block of `ComputeBasicBlocks` well-formed.  The open
block starts at or before the current instruction, which lies before position `p`. -/
def CbbRange (st : CBBState) (p : Nat) : Prop :=
  (∀ f, st.first = some f → ∃ c, st.cur = some c ∧ f ≤ c) ∧ (∀ c, st.cur = some c → c < p)

/-- The colours of the blocks, in the order of `all_blocks`. -/
def colours (bs : List BasicBlock) : List VisitState := bs.map (fun b => b.vs)

/-- Proof device: the number of white blocks, which bounds the depth of `DoDFS`. -/
def whiteCount (g : CFG) : Nat := (colours g.all_blocks).count VisitState.COLOR_WHITE

/-- Proof device: what bounds the rounds of the `while` loop of `ConstructNatLoop` for the
loop `l`.  The natural-loop set holds pairwise different blocks of the CFG, and `k` is at
least the height `n` of the stack plus the number of blocks that are not in the set. -/
def NatBound (bs : List BasicBlock) (l : Nat) (ls : List Loop) (n k : Nat) : Prop :=
  ∃ this, ls[l]? = some this ∧ this.nat_loop.Nodup ∧ (∀ x ∈ this.nat_loop, x < bs.length) ∧
    n + bs.length ≤ k + this.nat_loop.length

/-- Proof device: from the loop objects `ls` to `ls1` every loop keeps its header and its
primary footer, and its natural-loop set only grows. -/
def NatGrows (ls ls1 : List Loop) : Prop :=
  ∀ (k : Nat) (L : Loop), ls[k]? = some L →
    ∃ L1, ls1[k]? = some L1 ∧ loopEnds L1 = loopEnds L ∧ ∀ x ∈ L.nat_loop, x ∈ L1.nat_loop

/-- The sum of the total op counts of the interior blocks: all blocks but the first (the
entry sentinel) and the last (the exit sentinel). -/
def interiorOpCount (g : CFG) : Nat :=
  (g.all_blocks.tail.dropLast.map (fun b => b.total_op_count)).sum

/-- Two nested loops.  Instruction 0 is the header of the outer loop; instructions 1 to 5
are the inner loop, a single block that ends in a conditional branch back to
instruction 1; instruction 6 is the footer of the outer loop, a conditional branch back
to instruction 0; instruction 7 returns. -/
def streamNested : List Instruction :=
  [ { prev := none, next := some 1, opc := Opcode.OPR_ALU, alu_op := true,
      is_branch_target := true },
    { prev := some 0, next := some 2, opc := Opcode.OPR_ALU, alu_op := true,
      is_branch_target := true },
    { prev := some 1, next := some 3, opc := Opcode.OPR_ALU, alu_op := true },
    { prev := some 2, next := some 4, opc := Opcode.OPR_ALU, alu_op := true },
    { prev := some 3, next := some 5, opc := Opcode.OPR_ALU, alu_op := true },
    { prev := some 4, next := some 6, opc := Opcode.OPR_COND_BRANCH, branch_op := true,
      cond_branch := true, branch_target := some 1, label_number := 2 },
    { prev := some 5, next := some 7, opc := Opcode.OPR_COND_BRANCH, branch_op := true,
      cond_branch := true, branch_target := some 0, label_number := 1 },
    { prev := some 6, next := none, opc := Opcode.OPR_BRANCH, branch_op := true,
      ret_op := true, label_number := -1 } ]

/-- A table with one factor for each of the two loops of `streamNested`. -/
def uconfTwo : UconfFile := { factors := [12, 25], trailing := true }

/-- A table with two factors, one more than `streamContinue` has loops. -/
def uconfLong : UconfFile := { factors := [2, 2], trailing := true }

/-- A table with one factor, one less than `streamNested` has loops, that ends right
after the factor. -/
def uconfShort : UconfFile := { factors := [2], trailing := false }

/-- The CFG of `streamNested` as the constructor builds it with the unrolled flag set. -/
def cfgNestedBuilt : CFG := (mkCFG streamNested true 0).getD {}

/-- The CFG of `streamNested` after `DetectLoops` with the table `uconfTwo`. -/
def cfgNestedUnrolled : CFG :=
  (DetectLoops 2 (uconfRead (some uconfTwo)) cfgNestedBuilt).getD {}

/-- The CFG of `streamNested` after `DetectLoops` with the table `uconfShort`. -/
def cfgNestedShort : CFG :=
  (DetectLoops 2 (uconfRead (some uconfShort)) cfgNestedBuilt).getD {}

/-- The CFG of `streamRet` as the constructor builds it. -/
def cfgRet : CFG := (mkCFG streamRet false 0).getD {}

/-- The `prev` fields follow the order of the stream. -/
def PrevLinked (s : List Instruction) : Prop :=
  ∀ p i, s[p]? = some i → i.GetPrev = if p = 0 then none else some (p - 1)

/-- A stream that makes a single block: no instruction is deleted or a branch, and no
instruction after the first is a branch target. -/
def StraightLine (s : List Instruction) : Prop :=
  (∀ i ∈ s, i.IsDeleted = false ∧ i.IsBranchOp = false) ∧
  ∀ p i, s[p]? = some i → 0 < p → i.IsBranchTarget = false

/-- An ALU instruction as `Instruction::Classify` leaves it. -/
def aluInstr : Instruction := { opc := Opcode.OPR_ALU, alu_op := true }

/-- A load from shared memory as `Instruction::Classify` leaves it. -/
def sharedLoad : Instruction :=
  { opc := Opcode.OPR_MEM, mem_op := true, shared_op := true, memop_type := MemOp.MEM_LOAD }

/-- A load from global memory as `Instruction::Classify` leaves it. -/
def globalLoad : Instruction :=
  { opc := Opcode.OPR_MEM, mem_op := true, global_op := true, memop_type := MemOp.MEM_LOAD }

/-- The instructions `l` as a stream: `prev` and `next` are set as `CreateInstruction`
sets them, in the order of the list. -/
def linkStream (l : List Instruction) : List Instruction :=
  l.enum.map (fun x =>
    { x.2 with prev := if x.1 = 0 then none else some (x.1 - 1),
               next := if x.1 + 1 < l.length then some (x.1 + 1) else none })

/-- Ten ALU instructions. -/
def streamTenAlu : List Instruction := linkStream (List.replicate 10 aluInstr)

/-- The CFG of `streamTenAlu`. -/
def cfgTenAlu : CFG := (mkCFG streamTenAlu false 0).getD {}

/-- A global load followed by `n` ALU instructions. -/
def streamLoadAlu (n : Nat) : List Instruction :=
  linkStream (globalLoad :: List.replicate n aluInstr)

/-- The CFG of `streamLoadAlu n`. -/
def cfgLoadAlu (n : Nat) : CFG := (mkCFG (streamLoadAlu n) false 0).getD {}

/-- An ALU instruction followed by a global load, which ends the stream. -/
def streamAluLoad : List Instruction := linkStream [aluInstr, globalLoad]

/-- The CFG of `streamAluLoad`. -/
def cfgAluLoad : CFG := (mkCFG streamAluLoad false 0).getD {}

/-- The pointer to the position before `n`: null before position 0. -/
def prevPtr (n : Nat) : Option Nat := if n = 0 then none else some (n - 1)

/-- The blocks of the list lead from the footer of a loop back to its header: each block
has one predecessor or is a loop header, its first predecessor is the next block of the
list (for the last block of the list, a block that ends right before position `lo`), and
together the blocks hold the positions `lo` to `hi`, each block the positions right
before those of the block before it in the list. -/
def BackChain (g : CFG) : List Nat → Nat → Nat → Prop
  | [], _, _ => False
  | [b], lo, hi =>
    ∃ blk pb pbb, g.all_blocks[b]? = some blk ∧ blk.GetFirstInst = some lo ∧
      blk.GetLastInst = some hi ∧ lo ≤ hi ∧ (blk.NumPred = 1 ∨ blk.IsLoopHeader = true) ∧
      blk.pred[0]? = some pb ∧ g.all_blocks[pb]? = some pbb ∧ pbb.GetLastInst = prevPtr lo
  | b :: c :: rest, lo, hi =>
    ∃ blk mid, g.all_blocks[b]? = some blk ∧ blk.GetFirstInst = some mid ∧
      blk.GetLastInst = some hi ∧ lo < mid ∧ mid ≤ hi ∧
      (blk.NumPred = 1 ∨ blk.IsLoopHeader = true) ∧ blk.pred[0]? = some c ∧
      BackChain g (c :: rest) lo (mid - 1)

/-- An instruction that the walks charge 4 cycles and nothing else in baseline mode: its
opcode is that of an ALU instruction or of a branch, and it is no global, local or sync
instruction. -/
def IssueOnly (i : Instruction) : Prop :=
  (i.GetOpcode = Opcode.OPR_ALU ∨ i.GetOpcode = Opcode.OPR_BRANCH ∨
    i.GetOpcode = Opcode.OPR_COND_BRANCH) ∧
  i.IsGlobalOp = false ∧ i.IsLocalOp = false ∧ i.IsSyncOp = false

/-- A conditional branch to position `t` as `Instruction::Classify` and the resolution of
the labels leave it. -/
def condBranch (t : Nat) : Instruction :=
  { opc := Opcode.OPR_COND_BRANCH, branch_op := true, cond_branch := true,
    branch_target := some t, label_number := 1 }

/-- The instruction `ret` as `Instruction::Classify` leaves it. -/
def retInstr : Instruction :=
  { opc := Opcode.OPR_BRANCH, branch_op := true, ret_op := true, label_number := -1 }

/-- An ALU instruction that a label stands before. -/
def aluTarget : Instruction := { aluInstr with is_branch_target := true }

/-- A loop with a conditional inside.  Instruction 0, the header, branches over
instruction 1 to instruction 2, which branches back to instruction 0; instruction 3
returns. -/
def streamCondLoop : List Instruction :=
  linkStream [{ condBranch 2 with is_branch_target := true }, aluInstr,
    { condBranch 0 with is_branch_target := true }, retInstr]

/-- The CFG of `streamCondLoop` after `DetectLoops`, without a table of unroll factors. -/
def cfgCondLoop : CFG :=
  ((mkCFG streamCondLoop false 0).bind (DetectLoops 2 noUconf)).getD {}

/-- A loop of two blocks.  Instructions 0 and 1 are the header, which ends in a
conditional branch out of the loop to instruction 4; instructions 2 and 3 are the footer,
which ends in the conditional branch back to instruction 0; instruction 5 returns. -/
def streamBreak : List Instruction :=
  linkStream [aluTarget, condBranch 4, aluInstr, condBranch 0, aluTarget, retInstr]

/-- The CFG of `streamBreak` after `DetectLoops`, without a table of unroll factors. -/
def cfgBreak : CFG :=
  ((mkCFG streamBreak false 0).bind (DetectLoops 2 noUconf)).getD {}

/-- A loop of a single block: a global load, four ALU instructions and the conditional
branch back to the load; instruction 6 returns. -/
def streamLoadLoop : List Instruction :=
  linkStream [{ globalLoad with is_branch_target := true }, aluInstr, aluInstr, aluInstr,
    aluInstr, condBranch 0, retInstr]

/-- The CFG of `streamLoadLoop` after `DetectLoops`, without a table of unroll factors. -/
def cfgLoadLoop : CFG :=
  ((mkCFG streamLoadLoop false 0).bind (DetectLoops 2 noUconf)).getD {}

/-- The instructions at the positions `lo` to `hi` of the stream: the body of a loop whose
header starts at `lo` and whose footer ends at `hi`. -/
def loopBody (s : List Instruction) (lo hi : Nat) : List Instruction :=
  (s.drop lo).take (hi + 1 - lo)

instance : DecidablePred IssueOnly := fun i => by
  unfold IssueOnly
  infer_instance

/-- The CFG `cfgLoadLoop` with the trip count of its loop set to 100. -/
def cfgLoadLoopTrips : CFG :=
  { cfgLoadLoop with
    loop_store := cfgLoadLoop.loop_store.modify (fun l => l.SetNumIters 100) 0 }

/-- A barrier as `Instruction::Classify` leaves it. -/
def syncInstr : Instruction := { opc := Opcode.OPR_SYNC, sync_op := true }

/-- `a` ALU instructions, a barrier, and `b` more ALU instructions. -/
def streamAluSyncAlu (a b : Nat) : List Instruction :=
  linkStream (List.replicate a aluInstr ++ syncInstr :: List.replicate b aluInstr)

/-- The CFG of `streamAluSyncAlu a b`. -/
def cfgAluSyncAlu (a b : Nat) : CFG := (mkCFG (streamAluSyncAlu a b) false 0).getD {}

/-- The class the constructor of `BasicBlock` counts the instruction in: the first of
ALU, branch, shared, local, global and sync that the instruction belongs to. -/
def classTally (l : List Instruction) : OpCounts :=
  { alu := l.countP (fun i => i.IsAluOp),
    branch := l.countP (fun i => !i.IsAluOp && i.IsBranchOp),
    shared := l.countP (fun i => !i.IsAluOp && !i.IsBranchOp && i.IsSharedOp),
    loc := l.countP (fun i => !i.IsAluOp && !i.IsBranchOp && !i.IsSharedOp && i.IsLocalOp),
    global := l.countP (fun i => !i.IsAluOp && !i.IsBranchOp && !i.IsSharedOp &&
      !i.IsLocalOp && i.IsGlobalOp),
    sync := l.countP (fun i => !i.IsAluOp && !i.IsBranchOp && !i.IsSharedOp &&
      !i.IsLocalOp && !i.IsGlobalOp && i.IsSyncOp) }

/-- A block of four instructions of different classes: an ALU instruction, a load from
shared memory, a load from global memory and a barrier. -/
def streamMixed : List Instruction :=
  linkStream [aluInstr, sharedLoad, globalLoad, syncInstr]

/-- The CFG of `streamNested` after `DetectLoops`, built while the static counter
`Loop::global_loop_index` is 0: the first CFG of the process. -/
def cfgNestedFirst : CFG :=
  ((mkCFG streamNested false 0).bind (DetectLoops 2 noUconf)).getD {}

/-- The CFG of `streamNested` after `DetectLoops`, built a second time in the same
process: the static counter starts with the value the first run has left. -/
def cfgNestedSecond : CFG :=
  ((mkCFG streamNested false cfgNestedFirst.global_loop_index).bind
    (DetectLoops 2 noUconf)).getD {}

/-- A call of the function behind the label `n`, as `Instruction::Classify` leaves it. -/
def callInstr (n : Int) : Instruction :=
  { opc := Opcode.OPR_BRANCH, branch_op := true, call_op := true, label_number := n }

/-- A kernel with one call.  Instruction 1 calls the function behind label 1, whose body
(instructions 4 to 6) follows the `ret` of the kernel, instruction 3. -/
def stmtsCall : List Statement :=
  [Statement.directive, Statement.instruction aluInstr,
   Statement.instruction (callInstr 1), Statement.instruction aluInstr,
   Statement.instruction retInstr,
   Statement.label { number := 1, next_inst := some 4 },
   Statement.instruction aluTarget, Statement.instruction aluInstr,
   Statement.instruction retInstr]

/-- The kernel that `Construct` makes of `stmtsCall`. -/
def kernelCall : Kernel := (Construct stmtsCall).getD {}

/-- The instructions among the statements, in the order of the statements. -/
def instrsOf : List Statement → List Instruction
  | [] => []
  | Statement.instruction i :: rest => i :: instrsOf rest
  | _ :: rest => instrsOf rest

/-- The labels among the statements, in the order of the statements. -/
def labelsOf : List Statement → List Label
  | [] => []
  | Statement.label l :: rest => l :: labelsOf rest
  | _ :: rest => labelsOf rest

/-- The number of directives among the statements. -/
def directivesOf : List Statement → Nat
  | [] => 0
  | Statement.directive :: rest => directivesOf rest + 1
  | _ :: rest => directivesOf rest

/-- The map `branch_targets` with the labels `ls` inserted into `m` one after the other:
of two labels with the same number the first one stays. -/
def labelTable (m : List (Nat × Label)) (ls : List Label) : List (Nat × Label) :=
  ls.foldl (fun t l => mapInsert t l.GetNumber l) m

/-- The state of `Construct` when the parser is done: the instructions are linked in the
order in which they were read. -/
def parsed (stmts : List Statement) : ParseState :=
  { k := { insts := linkStream (instrsOf stmts),
           inst_stream := List.range (instrsOf stmts).length,
           label_stream := labelsOf stmts,
           directive_stream := directivesOf stmts },
    prev := prevPtr (instrsOf stmts).length,
    branch_targets := labelTable [] (labelsOf stmts) }

/-- The instruction as the pass over the branch targets leaves it: a branch with the
label number -1 gets the null target, another branch the instruction behind its label. -/
def patched (branch_targets : List (Nat × Label)) (i : Instruction) : Instruction :=
  if i.IsBranchOp then
    if i.GetLabelNumber = -1 then i.SetBranchTarget none
    else
      match branch_targets.lookup (labelKey i.GetLabelNumber) with
      | some lab => i.SetBranchTarget lab.GetNextInst
      | none => i
  else i

/-- The exits that the first pass has matched with a function entry. -/
def matchedExits (m : InlineMaps) : List Nat := m.fn_entry_exit_map.map Prod.snd

/-- Proof device: where the element at position `q` of the stream stands after the
elements at the positions `j .. j + len - 1` have been moved behind position `i`. -/
def movedTo (i j len q : Nat) : Nat :=
  if q ≤ i then q else if q < j then q + len else if q < j + len then q - (j - (i + 1)) else q

/-- The stream after the elements at the positions `j .. j + len - 1` have been moved
behind position `i`. -/
def movedStream (S : List Nat) (i j len : Nat) : List Nat :=
  S.take (i + 1) ++ (S.drop j).take len ++ (S.drop (i + 1)).take (j - (i + 1))
    ++ S.drop (j + len)

/-- The function body that the first pass has matched with the call site `c`: its entry
and its exit. -/
def bodyOf (m : InlineMaps) (c : Nat) : Option (Nat × Nat) :=
  match m.fn_cs_entry_map.lookup c with
  | none => none
  | some e =>
    match m.fn_entry_exit_map.lookup e with
    | none => none
    | some x => some (e, x)

/-- The call site `c` has not been inlined yet: the instruction `c + 1` comes right
behind it in the stream, and the body `e .. x` stands in its order somewhere behind
that. -/
def Pending (S : List Nat) (c e x : Nat) : Prop :=
  ∃ i j, S[i]? = some c ∧ S[i + 1]? = some (c + 1) ∧ i + 1 < j ∧
    ∀ d, d ≤ x - e → S[j + d]? = some (e + d)

/-- The call site `c` has been inlined: in the stream it is followed by the instructions
`e .. x` in their order, and these by the instruction `c + 1`. -/
def Inlined (S : List Nat) (c e x : Nat) : Prop :=
  ∃ i, S[i]? = some c ∧ (∀ d, d ≤ x - e → S[i + 1 + d]? = some (e + d)) ∧
    S[i + (x - e) + 2]? = some (c + 1)

/-- What the body `e .. x` of the call site `c` has to satisfy among `n` instructions and
the call sites `sites`: it lies behind the instruction `c + 1`, no call site and no
instruction right behind a call site belongs to it, and it has no instruction in common
with the body of another call site. -/
def bodyApart (m : InlineMaps) (n : Nat) (sites : List Nat) (c : Nat) : Bool :=
  match bodyOf m c with
  | none => false
  | some (e, x) =>
    decide (c + 1 < e) && decide (e ≤ x) && decide (x < n) &&
    sites.all (fun c2 =>
      !(decide (e ≤ c2) && decide (c2 ≤ x)) && !(decide (e ≤ c2 + 1) && decide (c2 + 1 ≤ x)) &&
      (c2 == c ||
        match bodyOf m c2 with
        | none => false
        | some (e2, x2) => decide (x < e2) || decide (x2 < e)))

/-- Every call site has been matched with a function body, and the bodies lie apart from
the call sites and from each other: functions that are called once, from outside the
function bodies. -/
def FlatCalls (m : InlineMaps) (n : Nat) (sites : List Nat) : Prop :=
  ∀ c ∈ sites, bodyApart m n sites c = true

/-- The first pass of `Construct` over the instructions that the parser has returned:
the instructions with their branch targets, and the maps of the call sites. -/
def firstPass (stmts : List Statement) : Option (List Instruction × InlineMaps) :=
  patchLoop (labelTable [] (labelsOf stmts)) (List.range (instrsOf stmts).length)
    (linkStream (instrsOf stmts), {})

/-- A kernel with a call in a function body.  Instruction 1 calls the function behind
label 1, the instructions 3 to 5; instruction 4 of that body calls the function behind
label 2, the instructions 6 and 7. -/
def stmtsNested : List Statement :=
  [Statement.instruction aluInstr, Statement.instruction (callInstr 1),
   Statement.instruction retInstr,
   Statement.label { number := 1, next_inst := some 3 },
   Statement.instruction aluTarget, Statement.instruction (callInstr 2),
   Statement.instruction retInstr,
   Statement.label { number := 2, next_inst := some 6 },
   Statement.instruction aluTarget, Statement.instruction retInstr]

/-- The kernel that `Construct` makes of `stmtsNested`. -/
def kernelNested : Kernel := (Construct stmtsNested).getD {}

/-- A kernel with two calls, one behind the other.  Instruction 0 calls the function
behind label 1, the instructions 3 and 4; instruction 1 calls the function behind label 2,
the instructions 5 and 6. -/
def stmtsTwoCalls : List Statement :=
  [Statement.instruction (callInstr 1), Statement.instruction (callInstr 2),
   Statement.instruction retInstr,
   Statement.label { number := 1, next_inst := some 3 },
   Statement.instruction aluTarget, Statement.instruction retInstr,
   Statement.label { number := 2, next_inst := some 5 },
   Statement.instruction aluTarget, Statement.instruction retInstr]

/-- The result of the first pass for `stmtsTwoCalls`. -/
def passTwoCalls : List Instruction × InlineMaps := (firstPass stmtsTwoCalls).getD ([], {})

/-- Three loads whose results are used one after the other: a load into register 1, two
ALU instructions, a load into register 2, two ALU instructions, an ALU instruction that
reads register 1, one ALU instruction, a load into register 3 that reads register 2, and
an ALU instruction that reads register 3. -/
def streamStagger : List Instruction :=
  linkStream [{ globalLoad with reg_dst := 1 }, aluInstr, aluInstr,
    { globalLoad with reg_dst := 2 }, aluInstr, aluInstr,
    { aluInstr with reg_src0 := 1 }, aluInstr,
    { globalLoad with reg_dst := 3, reg_src0 := 2 }, { aluInstr with reg_src0 := 3 }]

/-- The CFG of `streamStagger`. -/
def cfgStagger : CFG := (mkCFG streamStagger false 0).getD {}

/-! ## The cycle counters with the word size as a parameter

The definitions of the cycle counters again, with the modulus `M` of the arithmetic in
the place of `2^64`.  For `M = 2^64` they are the definitions above (`CountCyclesAt_word`);
for `M = 0` the arithmetic is that of the natural numbers, without overflow. -/

/-- `UpdateCyclesInMap` with the sums and products taken modulo `M`; for `M = 0` they are those of
the natural numbers. -/
def UpdateCyclesInMapAt (M : Nat) (cmap : List (Int × Nat)) (new_cycles : Nat) : List (Int × Nat) :=
  cmap.map (fun e => (e.1, (e.2 + new_cycles) % M))

/-- `flush` with the sums and products taken modulo `M`; for `M = 0` they are those of
the natural numbers. -/
def flushAt (M : Nat) (W : Nat) (c : Counters) : Counters :=
  { c with total := (c.total + (c.current * W) % M) % M, current := 0 }

/-- `commit` with the sums and products taken modulo `M`; for `M = 0` they are those of
the natural numbers. -/
def commitAt (M : Nat) (W : Nat) (c : Counters) : Counters :=
  { c with
    total := (c.total + max ((c.current * W) % M) GLOBAL_MEM_LATENCY) % M,
    current := 0 }

/-- `useLoad` with the sums and products taken modulo `M`; for `M = 0` they are those of
the natural numbers. -/
def useLoadAt (M : Nat) (W : Nat) (c : Counters) (src : Int) : Counters :=
  match c.loads.lookup src with
  | none => c
  | some cycles =>
    let c1 : Counters :=
      if cycles < GLOBAL_MEM_LATENCY then
        let tmp_cycles := max ((c.current * W) % M) (GLOBAL_MEM_LATENCY - cycles)
        { total := (c.total + tmp_cycles) % M, current := 0,
          loads := UpdateCyclesInMapAt M c.loads tmp_cycles }
      else c
    { c1 with loads := c1.loads.filter (fun e => e.1 != src) }

/-- `useLoads` with the sums and products taken modulo `M`; for `M = 0` they are those of
the natural numbers. -/
def useLoadsAt (M : Nat) (exp : Bool) (W : Nat) (i : Instruction) (c : Counters) : Counters :=
  if exp then useLoadAt M W (useLoadAt M W (useLoadAt M W c i.GetRegSrc0) i.GetRegSrc1) i.GetRegSrc2
  else c

/-- `issue` with the sums and products taken modulo `M`; for `M = 0` they are those of
the natural numbers. -/
def issueAt (M : Nat) (exp : Bool) (c : Counters) : Counters :=
  { c with current := (c.current + 4) % M,
           loads := if exp then UpdateCyclesInMapAt M c.loads 4 else c.loads }

/-- `charge` with the sums and products taken modulo `M`; for `M = 0` they are those of
the natural numbers. -/
def chargeAt (M : Nat) (c : Counters) : Counters := { c with current := (c.current + 4) % M }

/-- `age` with the sums and products taken modulo `M`; for `M = 0` they are those of
the natural numbers. -/
def ageAt (M : Nat) (c : Counters) : Counters := { c with loads := UpdateCyclesInMapAt M c.loads 4 }

/-- `kernelBurst` with the sums and products taken modulo `M`; for `M = 0` they are those of
the natural numbers. -/
def kernelBurstAt (M : Nat) (s : List Instruction) : Nat → Option Nat → Nat → Option (Option Nat × Nat)
  | 0, _, _ => none
  | _ + 1, none, cur => some (none, cur)
  | fuel + 1, some p, cur =>
    match s[p]? with
    | none => none
    | some i =>
      if i.IsGlobalOp || i.IsLocalOp then kernelBurstAt M s fuel i.GetNext ((cur + 4) % M)
      else some (some p, cur)

/-- `kernelSwitch` with the sums and products taken modulo `M`; for `M = 0` they are those of
the natural numbers. -/
def kernelSwitchAt (M : Nat) (exp : Bool) (s : List Instruction) (W : Nat) (p : Nat) (i : Instruction)
    (c : Counters) : Option (Option Nat × Counters) :=
  match dispatch exp i with
  | Dispatch.issue => some (some p, issueAt M exp c)
  | Dispatch.memory =>
    if exp then
      if i.IsMemLoad then (recordLoad i (ageAt M c)).map (fun c1 => (some p, c1))
      else some (some p, commitAt M W (ageAt M c))
    else
      match kernelBurstAt M s (s.length + 1) (some p) c.current with
      | none => none
      | some (q, cur) => some (q, commitAt M W { c with current := cur })
  | Dispatch.sync => some (some p, flushAt M W c)
  | Dispatch.fail => none

/-- `kernelInstrs` with the sums and products taken modulo `M`; for `M = 0` they are those of
the natural numbers. -/
def kernelInstrsAt (M : Nat) (exp : Bool) (s : List Instruction) (W : Nat) (stop : Option Nat) :
    Nat → Option Nat → Counters → Option Counters
  | 0, _, _ => none
  | _ + 1, none, c => some c
  | fuel + 1, some p, c =>
    if some p = stop then some c
    else
      match s[p]? with
      | none => none
      | some i =>
        match kernelSwitchAt M exp s W p i (useLoadsAt M exp W i c) with
        | none => none
        | some (none, _) => none
        | some (some q, c1) =>
          match s[q]? with
          | none => none
          | some iq => kernelInstrsAt M exp s W stop fuel iq.GetNext c1

/-- `kernelBlock` with the sums and products taken modulo `M`; for `M = 0` they are those of
the natural numbers. -/
def kernelBlockAt (M : Nat) (exp : Bool) (s : List Instruction) (W : Nat) (b : BasicBlock)
    (c : Counters) : Option Counters :=
  match b.GetFirstInst with
  | none => some c
  | some f =>
    match b.GetLastInst with
    | none => none
    | some l =>
      match s[l]? with
      | none => none
      | some il => kernelInstrsAt M exp s W il.GetNext (s.length + 1) (some f) c

/-- `outerSwitch` with the sums and products taken modulo `M`; for `M = 0` they are those of
the natural numbers. -/
def outerSwitchAt (M : Nat) (exp : Bool) (W : Nat) (i : Instruction) (c : Counters) : Option Counters :=
  match dispatch exp i with
  | Dispatch.issue => some (issueAt M exp c)
  | Dispatch.memory =>
    if exp then
      if i.IsMemLoad then recordLoad i (ageAt M (chargeAt M c))
      else some (flushAt M W (ageAt M (chargeAt M c)))
    else some (commitAt M W (chargeAt M c))
  | Dispatch.sync => some (flushAt M W c)
  | Dispatch.fail => none

/-- `outerInstrs` with the sums and products taken modulo `M`; for `M = 0` they are those of
the natural numbers. -/
def outerInstrsAt (M : Nat) (exp : Bool) (s : List Instruction) (W : Nat) (stop : Option Nat) :
    Nat → Option Nat → Counters → Option Counters
  | 0, _, _ => none
  | fuel + 1, inst_iter, c =>
    if inst_iter = stop then some c
    else
      match inst_iter with
      | none => none
      | some p =>
        match s[p]? with
        | none => none
        | some i =>
          match outerSwitchAt M exp W i (useLoadsAt M exp W i c) with
          | none => none
          | some c1 => outerInstrsAt M exp s W stop fuel i.GetNext c1

/-- `outerBlocks` with the sums and products taken modulo `M`; for `M = 0` they are those of
the natural numbers. -/
def outerBlocksAt (M : Nat) (exp : Bool) (s : List Instruction) (g : CFG) (W : Nat)
    (rec : Nat → Option Nat) (last_inst : Option Nat) :
    Nat → Nat → Option Nat → Counters → Option Counters
  | 0, _, _, _ => none
  | fuel + 1, bb_iter, inst_iter, c =>
    if inst_iter = last_inst then some c
    else
      match g.all_blocks[bb_iter]? with
      | none => none
      | some b =>
        match b.GetLastInst with
        | none => none
        | some l =>
          match s[l]? with
          | none => none
          | some il =>
            let block_last_inst := il.GetNext
            match outerInstrsAt M exp s W block_last_inst (s.length + 1) inst_iter c with
            | none => none
            | some c1 =>
              if block_last_inst = last_inst then some (flushAt M W c1)
              else
                match FindBBSuccessor g bb_iter with
                | none => none
                | some nb =>
                  match g.all_blocks[nb]? with
                  | none => none
                  | some nbb =>
                    let r : Option (Nat × Counters) :=
                      if nbb.IsLoopHeader then
                        match g.GetLoopFromHeader nb with
                        | none => none
                        | some inner_loop =>
                          match rec inner_loop with
                          | none => none
                          | some tmp_cycles =>
                            match FindLoopFooterSuccessor g inner_loop with
                            | none => none
                            | some fs =>
                              some (fs, { flushAt M W c1 with
                                          total := ((flushAt M W c1).total + tmp_cycles) % M })
                      else some (nb, c1)
                    match r with
                    | none => none
                    | some (bb2, c2) =>
                      match block_last_inst with
                      | none => none
                      | some q =>
                        match s[q]?, g.all_blocks[bb2]? with
                        | some _, some b2 =>
                          outerBlocksAt M exp s g W rec last_inst fuel bb2 b2.GetFirstInst c2
                        | _, _ => none

/-- `backInstrs` with the sums and products taken modulo `M`; for `M = 0` they are those of
the natural numbers. -/
def backInstrsAt (M : Nat) (s : List Instruction) (stop : Option Nat) :
    Nat → Option Nat → Nat → Option (Option Nat × Nat)
  | 0, _, _ => none
  | fuel + 1, inst_iter, later =>
    if inst_iter = stop then some (none, later)
    else
      match inst_iter with
      | none => none
      | some p =>
        match s[p]? with
        | none => none
        | some i =>
          if i.IsGlobalOp || i.IsSyncOp || i.IsLocalOp then some (some p, (later + 4) % M)
          else backInstrsAt M s stop fuel i.GetPrev ((later + 4) % M)

/-- `backBlocks` with the sums and products taken modulo `M`; for `M = 0` they are those of
the natural numbers. -/
def backBlocksAt (M : Nat) (s : List Instruction) (g : CFG) (hstop : Option Nat) :
    Nat → Nat → Option Nat → Nat → Option (Option Nat × Nat)
  | 0, _, _, _ => none
  | fuel + 1, bb_iter, inst_iter, later =>
    if inst_iter = hstop then some (none, later)
    else
      match g.all_blocks[bb_iter]? with
      | none => none
      | some b =>
        match b.GetFirstInst with
        | none => none
        | some f =>
          match s[f]? with
          | none => none
          | some fi =>
            match backInstrsAt M s fi.GetPrev (s.length + 1) inst_iter later with
            | none => none
            | some (some p, later1) => some (some p, later1)
            | some (none, later1) =>
              if b.NumPred = 1 ∨ b.IsLoopHeader = true then
                match b.pred[0]? with
                | none => none
                | some pb =>
                  match g.all_blocks[pb]? with
                  | none => none
                  | some pbb => backBlocksAt M s g hstop fuel pb pbb.GetLastInst later1
              else none

/-- `innerBurst` with the sums and products taken modulo `M`; for `M = 0` they are those of
the natural numbers. -/
def innerBurstAt (M : Nat) (s : List Instruction) : Nat → Nat → Nat → Option (Nat × Nat)
  | 0, _, _ => none
  | fuel + 1, p, cur =>
    match s[p]? with
    | none => none
    | some i =>
      match i.GetNext with
      | none => some (p, cur)
      | some q =>
        match s[q]? with
        | none => none
        | some iq =>
          if iq.IsGlobalOp || iq.IsLocalOp then innerBurstAt M s fuel q ((cur + 4) % M)
          else some (p, cur)

/-- `innerForward` with the sums and products taken modulo `M`; for `M = 0` they are those of
the natural numbers. -/
def innerForwardAt (M : Nat) (exp : Bool) (s : List Instruction) (W : Nat) (first_blocking_inst : Nat)
    (num_iters : Nat) : Nat → Option Nat → Counters → Option Nat
  | 0, _, _ => none
  | _ + 1, none, _ => none
  | fuel + 1, some p, c =>
    match s[p]? with
    | none => none
    | some i =>
      let c0 := useLoadsAt M exp W i c
      match dispatch exp i with
      | Dispatch.issue => innerForwardAt M exp s W first_blocking_inst num_iters fuel i.GetNext (issueAt M exp c0)
      | Dispatch.memory =>
        let r : Option (Nat × Counters) :=
          if exp then
            if i.IsMemLoad then (recordLoad i (ageAt M (chargeAt M c0))).map (fun c1 => (p, c1))
            else some (p, commitAt M W (ageAt M (chargeAt M c0)))
          else
            match innerBurstAt M s (s.length + 1) p (chargeAt M c0).current with
            | none => none
            | some (q, cur) => some (q, commitAt M W { c0 with current := cur })
        match r with
        | none => none
        | some (q, c1) =>
          if q = first_blocking_inst then some ((num_iters * (flushAt M W c1).total) % M)
          else
            match s[q]? with
            | none => none
            | some iq => innerForwardAt M exp s W first_blocking_inst num_iters fuel iq.GetNext c1
      | Dispatch.sync =>
        if p = first_blocking_inst then some ((num_iters * (flushAt M W c0).total) % M)
        else innerForwardAt M exp s W first_blocking_inst num_iters fuel i.GetNext (flushAt M W c0)
      | Dispatch.fail => none

/-- `CountLoopCycles` with the sums and products taken modulo `M`; for `M = 0` they are those of
the natural numbers. -/
def CountLoopCyclesAt (M : Nat) (exp : Bool) (s : List Instruction) (g : CFG) (W : Nat) :
    Nat → Nat → Option Nat
  | 0, _ => none
  | depth + 1, l =>
    match g.loop_store[l]? with
    | none => none
    | some loop =>
      match g.all_blocks[loop.GetHeader]?, loop.GetFooter with
      | some hb, some f =>
        match g.all_blocks[f]? with
        | none => none
        | some fb =>
          if loop.HasInnerLoops then
            match fb.GetLastInst with
            | none => none
            | some fl =>
              match s[fl]? with
              | none => none
              | some fli =>
                match outerBlocksAt M exp s g W (CountLoopCyclesAt M exp s g W depth) fli.GetNext
                    (g.all_blocks.length + 1) loop.GetHeader hb.GetFirstInst {} with
                | none => none
                | some c =>
                  if c.loads.isEmpty then some ((loop.GetNumIters * (flushAt M W c).total) % M)
                  else none
          else
            match hb.GetFirstInst with
            | none => none
            | some hf =>
              match s[hf]? with
              | none => none
              | some hfi =>
                match backBlocksAt M s g hfi.GetPrev (g.all_blocks.length + 1) f fb.GetLastInst 0 with
                | none => none
                | some (none, later_cycles) =>
                  some (((loop.GetNumIters * later_cycles) % M * W) % M)
                | some (some first_blocking_inst, later_cycles) =>
                  innerForwardAt M exp s W first_blocking_inst loop.GetNumIters (s.length + 1)
                    (some hf) { current := later_cycles }
      | _, _ => none

/-- `kernelWalk` with the sums and products taken modulo `M`; for `M = 0` they are those of
the natural numbers. -/
def kernelWalkAt (M : Nat) (exp : Bool) (s : List Instruction) (g : CFG) (W : Nat) :
    Nat → Nat → Counters → Option Nat
  | 0, _, _ => none
  | fuel + 1, iter, c =>
    match g.all_blocks[iter]?, g.exit with
    | some b, some x =>
      match g.all_blocks[x]? with
      | none => none
      | some xb =>
        if b.Id = xb.Id then some (flushAt M W c).total
        else if b.IsLoopHeader then
          match g.GetLoopFromHeader iter with
          | none => none
          | some loop =>
            match CountLoopCyclesAt M exp s g W (g.loop_store.length + 1) loop with
            | none => none
            | some loop_cycles =>
              match FindLoopFooterSuccessor g loop with
              | none => none
              | some nxt =>
                kernelWalkAt M exp s g W fuel nxt
                  { flushAt M W c with total := ((flushAt M W c).total + loop_cycles) % M }
        else
          match kernelBlockAt M exp s W b c with
          | none => none
          | some c1 =>
            match FindBBSuccessor g iter with
            | none => none
            | some nxt => kernelWalkAt M exp s g W fuel nxt c1
    | _, _ => none

/-- `CountCycles` with the sums and products taken modulo `M`; for `M = 0` they are those of
the natural numbers. -/
def CountCyclesAt (M : Nat) (exp : Bool) (s : List Instruction) (g : CFG) (W : Nat) : Option Nat :=
  if g.constructed then
    match g.entry with
    | none => none
    | some entry => kernelWalkAt M exp s g W (g.all_blocks.length + 1) entry {}
  else none

/-- Two optional results are related: both are present and related, or both are
missing. -/
def OptRel {α β : Type} (R : α → β → Prop) : Option α → Option β → Prop
  | some a, some b => R a b
  | none, none => True
  | _, _ => False

/-- The counters of two runs in baseline mode that differ in the number of warps: the
same `current_cycles` and the same map, and a `total_cycles` that is no larger in the
first run. -/
def CountersLe (c1 c2 : Counters) : Prop :=
  c1.current = c2.current ∧ c1.loads = c2.loads ∧ c1.total ≤ c2.total

/-- A loop of a single block, an ALU instruction, a global load and the conditional
branch back, followed by one ALU instruction that ends the stream. -/
def streamLoopTail : List Instruction :=
  linkStream [aluTarget, globalLoad, condBranch 0, aluInstr]

/-- The CFG of `streamLoopTail` after `DetectLoops`, without a table of unroll factors. -/
def cfgLoopTail : CFG :=
  ((mkCFG streamLoopTail false 0).bind (DetectLoops 2 noUconf)).getD {}

/-- Two blocks, of which the first ends in a global load: an ALU instruction and the
load, then an ALU instruction that a label stands before and one more. -/
def streamLoadEndsBlock : List Instruction :=
  linkStream [aluInstr, globalLoad, aluTarget, aluInstr]

/-- The CFG of `streamLoadEndsBlock`. -/
def cfgLoadEndsBlock : CFG := (mkCFG streamLoadEndsBlock false 0).getD {}

/-- Two blocks, of which the second ends the stream with a global load. -/
def streamLoadEndsStream : List Instruction :=
  linkStream [aluInstr, aluTarget, globalLoad]

/-- The CFG of `streamLoadEndsStream`. -/
def cfgLoadEndsStream : CFG := (mkCFG streamLoadEndsStream false 0).getD {}

/-- A global store as `Instruction::Classify` leaves it. -/
def globalStore : Instruction :=
  { opc := Opcode.OPR_MEM, mem_op := true, global_op := true, memop_type := MemOp.MEM_STORE }

/-- A global load into register 1 followed by an ALU instruction that reads no
register. -/
def streamLoadThenAlu : List Instruction :=
  linkStream [{ globalLoad with reg_dst := 1 }, aluInstr]

/-- The CFG of `streamLoadThenAlu`. -/
def cfgLoadThenAlu : CFG := (mkCFG streamLoadThenAlu false 0).getD {}

/-- The registers that have an entry in the map of the outstanding loads, in the order of
the entries. -/
def loadRegs (c : Counters) : List Int := c.loads.map Prod.fst

/-- The sum of the total op counts of the blocks `N`. -/
def opSum (bs : List BasicBlock) (N : List Nat) : Nat :=
  (N.map (fun b => ((bs[b]?).map BasicBlock.GetNumInstrs).getD 0)).sum

/-- Proof device: the local `num_instrs` of `ConstructNatLoop` is the sum over the blocks
that are in `nat_loop` of the loop `l`, of which none is there twice. -/
def CountedLoop (bs : List BasicBlock) (l : Nat) (st : NatLoopState) : Prop :=
  ∃ this, st.ls[l]? = some this ∧ this.nat_loop.Nodup ∧
    st.num = opSum bs this.nat_loop % UINT_MOD

/-- The CFG of `streamNested` after the depth-first search, before the natural loops are
constructed. -/
def cfgNestedDfs : CFG := ((mkCFG streamNested false 0).bind detectBackEdges).getD {}

/-- The CFG `cfgNestedDfs` after `ConstructNatLoop` for the outer loop. -/
def cfgNestedNat : CFG := (ConstructNatLoop cfgNestedDfs 1).getD {}

/-- The body of `CountLoopCycles` for the loop `l`, with `rec` in the place of the
recursive calls for the inner loops. -/
def loopCycles (exp : Bool) (s : List Instruction) (g : CFG) (W : Nat)
    (rec : Nat → Option Nat) (l : Nat) : Option Nat :=
  match g.loop_store[l]? with
  | none => none
  | some loop =>
    match g.all_blocks[loop.GetHeader]?, loop.GetFooter with
    | some hb, some f =>
      match g.all_blocks[f]? with
      | none => none
      | some fb =>
        if loop.HasInnerLoops then
          match fb.GetLastInst with
          | none => none
          | some fl =>
            match s[fl]? with
            | none => none
            | some fli =>
              match outerBlocks exp s g W rec fli.GetNext
                  (g.all_blocks.length + 1) loop.GetHeader hb.GetFirstInst {} with
              | none => none
              | some c =>
                if c.loads.isEmpty then some ((loop.GetNumIters * (flush W c).total) % ULL_MOD)
                else none
        else
          match hb.GetFirstInst with
          | none => none
          | some hf =>
            match s[hf]? with
            | none => none
            | some hfi =>
              match backBlocks s g hfi.GetPrev (g.all_blocks.length + 1) f fb.GetLastInst 0 with
              | none => none
              | some (none, later_cycles) =>
                some (((loop.GetNumIters * later_cycles) % ULL_MOD * W) % ULL_MOD)
              | some (some first_blocking_inst, later_cycles) =>
                innerForward exp s W first_blocking_inst loop.GetNumIters (s.length + 1)
                  (some hf) { current := later_cycles }
    | _, _ => none

/-- The CFG `g` with the trip count of the loop `l` set to `n`. -/
def withTrips (g : CFG) (l n : Nat) : CFG :=
  { g with loop_store := g.loop_store.modify (fun L => L.SetNumIters n) l }

/-- Three nested loops whose outer back edge the depth-first search finds first.
Instruction 0, the header of the outer loop, is a conditional branch to instruction 5,
the footer of the outer loop, which branches back to instruction 0; instruction 1 is the
header of the middle loop and instruction 4 its footer; the instructions 2 and 3 are the
inner loop; instruction 6 ends the stream. -/
def streamOuterFirst : List Instruction :=
  linkStream [{ condBranch 5 with is_branch_target := true }, aluTarget, aluTarget,
    condBranch 2, condBranch 1, { condBranch 0 with is_branch_target := true }, aluInstr]

/-- The CFG of `streamOuterFirst` after `DetectLoops`, without a table of unroll
factors. -/
def cfgOuterFirst : CFG :=
  ((mkCFG streamOuterFirst false 0).bind (DetectLoops 4 noUconf)).getD {}

/-- The three nested loops of `streamOuterFirst` with an ALU instruction in the place of
the conditional branch of instruction 0: the depth-first search finds the inner back edge
first. -/
def streamInnerFirst : List Instruction :=
  linkStream [aluTarget, aluTarget, aluTarget, condBranch 2, condBranch 1, condBranch 0,
    aluInstr]

/-- The CFG of `streamInnerFirst` after `DetectLoops`, without a table of unroll
factors. -/
def cfgInnerFirst : CFG :=
  ((mkCFG streamInnerFirst false 0).bind (DetectLoops 4 noUconf)).getD {}

/-! # Lemmas and theorems -/

/-! ## ComputeBasicBlocks cuts the stream at its leaders -/

theorem mkBasicBlock_info {s : List Instruction} {b e : Option Nat} {u : Nat}
    {bb : BasicBlock} (h : mkBasicBlock s b e u = some bb) :
    bb.begin_instr = b ∧ bb.end_instr = e ∧ bb.id = u ∧ bb.succ = [] ∧ bb.pred = [] ∧
    bb.loop_header = false ∧ bb.loop_footer = false ∧ bb.vs = VisitState.COLOR_WHITE := by
  unfold mkBasicBlock at h
  simp only at h
  split at h
  · exact absurd h (by simp)
  · simp only [Option.some.injEq] at h
    subst h
    simp

theorem closeBlock_spec {s : List Instruction} {st st1 : CBBState} {l : Option Nat}
    (h : closeBlock s st l = some st1) :
    ∃ bb, mkBasicBlock s st.first l st.index = some bb ∧
      st1.g.all_blocks = st.g.all_blocks ++ [bb] ∧
      st1.index = (st.index + 1) % UINT_MOD ∧
      st1.first = st.first ∧ st1.last = st.last ∧ st1.cur = st.cur ∧ st1.prev = st.prev := by
  unfold closeBlock at h
  split at h
  · exact absurd h (by simp)
  · rename_i bb hbb
    simp only [Option.some.injEq] at h
    subst h
    refine ⟨bb, hbb, ?_, rfl, rfl, rfl, rfl, rfl⟩
    simp only [CFG.AddBasicBlock, CFG.blockMapInsert]
    split <;> rfl

theorem enum_map_segInfo_append (closed : List (List (Nat × Instruction)))
    (o : List (Nat × Instruction)) :
    (closed ++ [o]).enum.map segInfo
      = closed.enum.map segInfo ++ [segInfo (closed.length, o)] := by
  simp [List.enum_append, List.enumFrom]

theorem succ_mod_uint (k : Nat) : (k % UINT_MOD + 1) % UINT_MOD = (k + 1) % UINT_MOD := by
  simp [Nat.add_mod]

/-- Closing the open segment `o` as the block `(first, l)` keeps the block list in step
with the segments. -/
theorem CbbInv_close {s : List Instruction} {st st1 : CBBState}
    {closed : List (List (Nat × Instruction))} {o : List (Nat × Instruction)}
    {l : Option Nat}
    (hb : st.g.all_blocks.map blockInfo = (none, none, 65535) :: closed.enum.map segInfo)
    (hi : st.index = closed.length % UINT_MOD)
    (hf : st.first = o.head?.map Prod.fst)
    (hl : l = o.getLast?.map Prod.fst)
    (h : closeBlock s st l = some st1) :
    st1.g.all_blocks.map blockInfo
        = (none, none, 65535) :: (closed ++ [o]).enum.map segInfo ∧
    st1.index = (closed ++ [o]).length % UINT_MOD ∧
    st1.first = st.first ∧ st1.last = st.last ∧ st1.cur = st.cur ∧ st1.prev = st.prev := by
  obtain ⟨bb, hbb, hblocks, hidx, h1, h2, h3, h4⟩ := closeBlock_spec h
  obtain ⟨i1, i2, i3, -⟩ := mkBasicBlock_info hbb
  refine ⟨?_, ?_, h1, h2, h3, h4⟩
  · rw [hblocks, List.map_append, hb, enum_map_segInfo_append]
    simp [blockInfo, segInfo, i1, i2, i3, hf, hl, hi]
  · rw [hidx, hi, succ_mod_uint]; simp

theorem getLast?_cons_snoc {α : Type} (x : α) (xs : List α) (y : α) :
    (x :: (xs ++ [y])).getLast? = some y := by
  rw [← List.cons_append, List.getLast?_append]; simp

theorem cbbStep_inv_cons {s : List Instruction} {p : Nat} {i : Instruction} {st st1 : CBBState}
    {closed : List (List (Nat × Instruction))} {x : Nat × Instruction}
    {xs : List (Nat × Instruction)}
    (hd : i.IsDeleted = false) (hinv : CbbInv st (closed, x :: xs) p)
    (h : cbbStep s p i st = some st1) :
    CbbInv st1 (segStep (closed, x :: xs) (p, i)) (p + 1) := by
  obtain ⟨hb, hi, hf, hco, hol, hle, hll, hcl⟩ := hinv
  simp only at hb hi hf hco hol hle hll hcl
  unfold cbbStep at h
  simp only [hd, Bool.false_eq_true, if_false] at h
  simp only [List.head?_cons, Option.map_some'] at hf
  have hcur := hco (by simp)
  have hxp : x.1 < p := hol x (by simp)
  have hne : (some x.1 != some p) = true := by
    simp only [bne_iff_ne, ne_eq, Option.some.injEq]; omega
  have hfn : ¬ (some x.1 = (none : Option Nat)) := by simp
  simp only [hf, hfn, if_false, hne, Bool.and_true] at h
  have hlastp : ∀ e, st.last = some e → e < p := fun e he => lt_trans (hll e he x (by simp)) hxp
  have hseg0 : (x :: xs).isEmpty = false := rfl
  cases hT : i.IsBranchTarget <;> cases hB : i.IsBranchOp <;>
    simp only [hT, hB, if_true, if_false, Bool.false_eq_true] at h
  · simp only [Option.some.injEq] at h
    subst h
    simp only [segStep, hT, hB, Bool.false_and, Bool.false_eq_true, if_false]
    refine ⟨hb, hi, by simp [hf], by simp [getLast?_cons_snoc], ?_, by simp, ?_, by simp⟩
    · intro y hy
      simp only [List.mem_append, List.mem_singleton] at hy
      rcases hy with hy | hy
      · exact Nat.lt_succ_of_lt (hol y hy)
      · subst hy; simp
    · intro e he y hy
      simp only [List.mem_append, List.mem_singleton] at hy
      rcases hy with hy | hy
      · exact hll e he y hy
      · subst hy; exact hlastp e he
  · split at h
    · exact absurd h (by simp)
    · rename_i st4 h4
      simp only [Option.some.injEq] at h
      subst h
      obtain ⟨k1, k2, k3, k4, k5, k6⟩ :=
        CbbInv_close (o := x :: xs ++ [(p, i)]) (by exact hb) (by exact hi) (by simp [hf])
          (by simp [getLast?_cons_snoc]) h4
      simp only [segStep, hT, hB, Bool.false_and, Bool.false_eq_true, if_false, if_true]
      simp only at k3 k4 k5 k6
      refine ⟨k1, k2, by simp, by simp, by simp, ?_, by simp, ?_⟩
      · intro _; simp [k4, k5]
      · intro c hc; simp only [k5, Option.some.injEq] at hc; omega
  · split at h
    · exact absurd h (by simp)
    · rename_i r3 st3 h3
      split at h3
      · exact absurd h3 (by simp)
      · rename_i st3a h3a
        simp only [Option.some.injEq] at h3 h
        subst h3
        subst h
        obtain ⟨k1, k2, k3, k4, k5, k6⟩ :=
          CbbInv_close (o := x :: xs) (by exact hb) (by exact hi) (by simp [hf])
            (by exact hcur) h3a
        simp only [segStep, hT, hB, hseg0, Bool.not_false, Bool.and_true, if_true,
          Bool.false_eq_true, if_false]
        simp only at k3 k4 k5 k6
        refine ⟨k1, k2, by simp [k5], by simp [k5], by simp, by simp, ?_, ?_⟩
        · intro e he y hy
          simp only [List.mem_singleton] at hy
          subst hy
          exact hcl e (k4 ▸ he)
        · intro c hc; simp only [k5, Option.some.injEq] at hc; omega
  · split at h
    · exact absurd h (by simp)
    · rename_i r3 st3 h3
      split at h3
      · exact absurd h3 (by simp)
      · rename_i st3a h3a
        simp only [Option.some.injEq] at h3
        subst h3
        split at h
        · exact absurd h (by simp)
        · rename_i st4 h4
          simp only [Option.some.injEq] at h
          subst h
          obtain ⟨k1, k2, k3, k4, k5, k6⟩ :=
            CbbInv_close (o := x :: xs) (by exact hb) (by exact hi) (by simp [hf])
              (by exact hcur) h3a
          simp only at k3 k4 k5 k6
          obtain ⟨m1, m2, m3, m4, m5, m6⟩ :=
            CbbInv_close (o := [(p, i)]) (by exact k1) (by exact k2) (by simp [k5])
              (by simp [k5]) h4
          simp only at m3 m4 m5 m6
          simp only [segStep, hT, hB, hseg0, Bool.not_false, Bool.and_true, if_true]
          refine ⟨m1, m2, by simp, by simp, by simp, ?_, by simp, ?_⟩
          · intro _; simp [m4, m5]
          · intro c hc; simp only [m5, k5, Option.some.injEq] at hc; omega

theorem cbbStep_inv_nil {s : List Instruction} {p : Nat} {i : Instruction} {st st1 : CBBState}
    {closed : List (List (Nat × Instruction))}
    (hd : i.IsDeleted = false) (hinv : CbbInv st (closed, []) p)
    (h : cbbStep s p i st = some st1) :
    CbbInv st1 (segStep (closed, []) (p, i)) (p + 1) := by
  obtain ⟨hb, hi, hf, hco, hol, hle, hll, hcl⟩ := hinv
  simp only at hb hi hf hco hol hle hll hcl
  unfold cbbStep at h
  simp only [hd, Bool.false_eq_true, if_false] at h
  simp only [List.head?_nil, Option.map_none'] at hf
  have hlc : st.last = st.cur := by simpa using hle
  have hseg1 : ∀ b, (if (b && !([] : List (Nat × Instruction)).isEmpty) = true
      then (closed ++ [[]], [(p, i)]) else (closed, [] ++ [(p, i)])) = (closed, [(p, i)]) := by
    intro b; simp
  cases hB : i.IsBranchOp <;>
    simp only [hf, hB, bne_self_eq_false, Bool.and_false, if_true,
      if_false, Bool.false_eq_true] at h
  · simp only [Option.some.injEq] at h
    subst h
    simp only [segStep, hseg1, hB, Bool.false_eq_true, if_false]
    refine ⟨hb, hi, by simp, by simp, by simp, by simp, ?_, by simp⟩
    intro e he x hx
    simp only [List.mem_singleton] at hx
    subst hx
    exact hcl e (hlc ▸ he)
  · split at h
    · exact absurd h (by simp)
    · rename_i st4 h4
      simp only [Option.some.injEq] at h
      subst h
      obtain ⟨k1, k2, k3, k4, k5, k6⟩ :=
        CbbInv_close (o := [(p, i)]) (by exact hb) (by exact hi) (by simp) (by simp) h4
      simp only [segStep, hseg1, hB, if_true]
      simp only at k3 k4 k5 k6
      refine ⟨k1, k2, by simp, by simp, by simp, ?_, by simp, ?_⟩
      · intro _; simp [k4, k5]
      · intro c hc; simp only [k5, Option.some.injEq] at hc; omega

theorem CbbInv_mono {st : CBBState} {acc} {p q : Nat} (h : CbbInv st acc p) (hpq : p ≤ q) :
    CbbInv st acc q :=
  { h with
    open_lt := fun x hx => lt_of_lt_of_le (h.open_lt x hx) hpq
    cur_lt := fun c hc => lt_of_lt_of_le (h.cur_lt c hc) hpq }

/-- The loop of `ComputeBasicBlocks` keeps the invariant: what it has built after the
instructions `rest` (at positions `p`, `p + 1`, ...) is what `segStep` cuts out of the
non-deleted ones among them. -/
theorem cbbLoop_inv {s : List Instruction} :
    ∀ (rest : List Instruction) (p : Nat) (st st1 : CBBState)
      (acc : List (List (Nat × Instruction)) × List (Nat × Instruction)),
      CbbInv st acc p → cbbLoop s rest p st = some st1 →
      CbbInv st1 (((rest.enumFrom p).filter (fun x => !x.2.IsDeleted)).foldl segStep acc)
        (p + rest.length) := by
  intro rest
  induction rest with
  | nil => intro p st st1 acc hinv h; simp only [cbbLoop, Option.some.injEq] at h; subst h; simpa using hinv
  | cons i rest ih =>
    intro p st st1 acc hinv h
    simp only [cbbLoop] at h
    split at h
    · exact absurd h (by simp)
    · rename_i st2 h2
      cases hd : i.IsDeleted
      · have hstep : CbbInv st2 (segStep acc (p, i)) (p + 1) := by
          obtain ⟨closed, o⟩ := acc
          rcases o with _ | ⟨x, xs⟩
          · exact cbbStep_inv_nil hd hinv h2
          · exact cbbStep_inv_cons hd hinv h2
        have := ih (p + 1) st2 st1 _ hstep h
        simp only [List.enumFrom_cons, List.length_cons]
        rw [List.filter_cons_of_pos (by simp [hd]), List.foldl_cons]
        rw [show p + (rest.length + 1) = p + 1 + rest.length by omega]
        exact this
      · have h2' : st2 = st := by
          have : cbbStep s p i st = some st := by simp [cbbStep, hd]
          rw [this] at h2; exact (Option.some.inj h2).symm
        subst h2'
        have := ih (p + 1) st2 st1 acc (CbbInv_mono hinv (Nat.le_succ p)) h
        simp only [List.enumFrom_cons, List.length_cons]
        rw [List.filter_cons_of_neg (by simp [hd])]
        rw [show p + (rest.length + 1) = p + 1 + rest.length by omega]
        exact this

theorem SegCore_close {closed : List (List (Nat × Instruction))} {o : List (Nat × Instruction)}
    {done : List (Nat × Instruction)} (h : SegCore (closed, o) done) (ho : o ≠ []) :
    SegCore (closed ++ [o], []) done := by
  obtain ⟨h1, h2, h3, h4, h6, h7⟩ := h
  simp only at h1 h2 h3 h4 h6 h7
  refine ⟨by simpa using h1, ?_, ?_, List.chain'_nil, ?_, ?_⟩
  · intro seg hseg
    simp only [List.mem_append, List.mem_singleton] at hseg
    rcases hseg with hseg | hseg
    · exact h2 seg hseg
    · subst hseg; exact ho
  · intro seg hseg
    simp only [List.mem_append, List.mem_singleton] at hseg
    rcases hseg with hseg | hseg
    · exact h3 seg hseg
    · subst hseg; exact h4
  · simp only
    rw [List.chain'_append]
    refine ⟨h6, List.chain'_singleton _, ?_⟩
    intro a ha b hb
    simp only [List.head?_cons, Option.mem_def, Option.some.injEq] at hb
    subst hb
    exact h7 a ha
  · intro a _
    simp [segBoundary]

theorem SegCore_target {closed : List (List (Nat × Instruction))} {o : List (Nat × Instruction)}
    {done : List (Nat × Instruction)} {y : Nat × Instruction}
    (h : SegCore (closed, o) done) (ho : o ≠ []) (hT : y.2.IsBranchTarget = true) :
    SegCore (closed ++ [o], [y]) (done ++ [y]) := by
  have hc := SegCore_close h ho
  obtain ⟨h1, h2, h3, h4, h6, h7⟩ := hc
  simp only at h1 h2 h3 h4 h6 h7
  refine ⟨by simp only; rw [← h1]; simp, h2, h3, List.chain'_singleton _, h6, ?_⟩
  intro a _ x _ z hz
  simp only [List.head?_cons, Option.mem_def, Option.some.injEq] at hz
  subst hz
  exact Or.inl hT

theorem SegCore_append {closed : List (List (Nat × Instruction))} {o : List (Nat × Instruction)}
    {done : List (Nat × Instruction)} {y : Nat × Instruction}
    (h : SegCore (closed, o) done)
    (hin : ∀ x ∈ o.getLast?, ¬ leaderAfter x y)
    (hout : o = [] → ∀ a ∈ closed.getLast?, ∀ x ∈ a.getLast?, leaderAfter x y) :
    SegCore (closed, o ++ [y]) (done ++ [y]) := by
  obtain ⟨h1, h2, h3, h4, h6, h7⟩ := h
  simp only at h1 h2 h3 h4 h6 h7
  refine ⟨by simp only; rw [← h1]; simp, h2, h3, ?_, h6, ?_⟩
  · simp only
    rw [List.chain'_append]
    refine ⟨h4, List.chain'_singleton _, ?_⟩
    intro x hx z hz
    simp only [List.head?_cons, Option.mem_def, Option.some.injEq] at hz
    subst hz
    exact hin x hx
  · intro a ha x hx z hz
    rcases o with _ | ⟨w, ws⟩
    · simp only [List.nil_append, List.head?_cons, Option.mem_def, Option.some.injEq] at hz
      subst hz
      exact hout rfl a ha x hx
    · exact h7 a ha x hx z (by simpa using hz)

theorem SegInv_step {acc : List (List (Nat × Instruction)) × List (Nat × Instruction)}
    {done : List (Nat × Instruction)} (y : Nat × Instruction) (h : SegInv acc done) :
    SegInv (segStep acc y) (done ++ [y]) := by
  obtain ⟨closed, o⟩ := acc
  obtain ⟨hc, hnb, hcb⟩ := h
  simp only at hnb hcb
  unfold segStep
  by_cases hto : (y.2.IsBranchTarget && !o.isEmpty) = true
  · have hT : y.2.IsBranchTarget = true := by
      simp only [Bool.and_eq_true] at hto; exact hto.1
    have ho : o ≠ [] := by
      simp only [Bool.and_eq_true, Bool.not_eq_true', List.isEmpty_eq_false] at hto; exact hto.2
    have h1 := SegCore_target hc ho hT
    simp only [hto, if_true]
    cases hB : y.2.IsBranchOp
    · simp only [Bool.false_eq_true, if_false]
      refine ⟨h1, ?_, by simp⟩
      intro x hx
      simp only [List.mem_singleton] at hx
      subst hx; exact hB
    · simp only [if_true]
      refine ⟨SegCore_close h1 (by simp), by simp, ?_⟩
      intro _ a ha x hx
      simp only [List.getLast?_concat, Option.mem_def, Option.some.injEq] at ha
      subst ha
      simp only [List.getLast?_singleton, Option.mem_def, Option.some.injEq] at hx
      subst hx; exact hB
  · have hcase : y.2.IsBranchTarget = false ∨ o = [] := by
      cases hT : y.2.IsBranchTarget
      · exact Or.inl rfl
      · right
        simp only [hT, Bool.true_and, Bool.not_eq_true', List.isEmpty_eq_false] at hto
        simpa using hto
    have h1 : SegCore (closed, o ++ [y]) (done ++ [y]) := by
      apply SegCore_append hc
      · intro x hx hl
        have hxo : x ∈ o := List.mem_of_getLast?_eq_some hx
        rcases hl with hl | hl
        · rcases hcase with hT | ho
          · rw [hT] at hl; exact absurd hl (by simp)
          · subst ho; simp at hxo
        · rw [hnb x hxo] at hl; exact absurd hl (by simp)
      · intro ho a ha x hx
        exact Or.inr (hcb ho a ha x hx)
    simp only [hto, if_false, Bool.false_eq_true]
    cases hB : y.2.IsBranchOp
    · simp only [Bool.false_eq_true, if_false]
      refine ⟨h1, ?_, by simp⟩
      intro x hx
      simp only [List.mem_append, List.mem_singleton] at hx
      rcases hx with hx | hx
      · exact hnb x hx
      · subst hx; exact hB
    · simp only [if_true]
      refine ⟨SegCore_close h1 (by simp), by simp, ?_⟩
      intro _ a ha x hx
      simp only [List.getLast?_concat, Option.mem_def, Option.some.injEq] at ha
      subst ha
      simp only [List.getLast?_concat, Option.mem_def, Option.some.injEq] at hx
      subst hx; exact hB

theorem SegInv_foldl :
    ∀ (l : List (Nat × Instruction))
      (acc : List (List (Nat × Instruction)) × List (Nat × Instruction))
      (done : List (Nat × Instruction)),
      SegInv acc done → SegInv (l.foldl segStep acc) (done ++ l) := by
  intro l
  induction l with
  | nil => intro acc done h; simpa using h
  | cons y l ih =>
    intro acc done h
    have := ih (segStep acc y) (done ++ [y]) (SegInv_step y h)
    simpa using this

theorem SegInv_init : SegInv ([], []) [] :=
  ⟨⟨rfl, by simp, by simp, List.chain'_nil, List.chain'_nil, by simp⟩, by simp, by simp⟩

theorem Segmented_segFinal {acc : List (List (Nat × Instruction)) × List (Nat × Instruction)}
    {done : List (Nat × Instruction)} (h : SegInv acc done) :
    Segmented done (segFinal acc) := by
  obtain ⟨closed, o⟩ := acc
  unfold segFinal
  rcases o with _ | ⟨x, xs⟩
  · obtain ⟨⟨h1, h2, h3, _, h6, _⟩, _, _⟩ := h
    simp only at h1 h2 h3 h6
    simp only [List.isEmpty_nil, if_true]
    exact ⟨by simpa using h1, h2, h3, h6⟩
  · have hc := SegCore_close h.core (List.cons_ne_nil x xs)
    obtain ⟨h1, h2, h3, _, h6, _⟩ := hc
    simp only at h1 h2 h3 h6
    simp only [List.isEmpty_cons, Bool.false_eq_true, if_false]
    exact ⟨by simpa using h1, h2, h3, h6⟩

theorem length_le_flatten_length {α : Type} :
    ∀ (segs : List (List α)), (∀ seg ∈ segs, seg ≠ []) → segs.length ≤ segs.flatten.length := by
  intro segs
  induction segs with
  | nil => intro _; simp
  | cons a segs ih =>
    intro h
    have ha : a ≠ [] := h a (by simp)
    have hpos : 0 < a.length := List.length_pos.mpr ha
    have := ih (fun seg hseg => h seg (by simp [hseg]))
    simp only [List.length_cons, List.flatten_cons, List.length_append]
    omega

theorem nonDeleted_length_le (s : List Instruction) : (nonDeleted s).length ≤ s.length := by
  unfold nonDeleted
  calc (s.enum.filter _).length ≤ s.enum.length := List.length_filter_le _ _
    _ = s.length := List.enum_length

theorem closeBlock_rest {s : List Instruction} {st st1 : CBBState} {l : Option Nat}
    (h : closeBlock s st l = some st1) : cfgRest st1.g = cfgRest st.g := by
  unfold closeBlock at h
  split at h
  · exact absurd h (by simp)
  · simp only [Option.some.injEq] at h
    subst h
    simp only [CFG.AddBasicBlock, CFG.blockMapInsert, cfgRest]
    split <;> rfl

/-- The loop body of `ComputeBasicBlocks` touches the CFG only where it closes a block:
what closing a block preserves, the loop body preserves. -/
theorem cbbStep_preserves {s : List Instruction} (P : CFG → Prop)
    (hP : ∀ (st : CBBState) (l : Option Nat) (st1 : CBBState),
      closeBlock s st l = some st1 → P st.g → P st1.g)
    {p : Nat} {i : Instruction} {st st1 : CBBState}
    (h : cbbStep s p i st = some st1) (h0 : P st.g) : P st1.g := by
  unfold cbbStep at h
  cases hd : i.IsDeleted
  · simp only [hd, Bool.false_eq_true, if_false] at h
    have key : ∀ (f : Option Nat) (b : Bool),
        (match (if (b && f != some p) = true then
            match closeBlock s { first := f, last := st.cur, cur := some p, prev := st.cur,
                                 index := st.index, g := st.g } st.cur with
            | none => none
            | some st3 => some { st3 with first := st3.cur }
          else some { first := f, last := st.last, cur := some p, prev := st.cur,
                      index := st.index, g := st.g }) with
        | none => none
        | some st3 =>
          if i.IsBranchOp = true then
            match closeBlock s { st3 with last := st3.cur } st3.cur with
            | none => none
            | some st4 => some { st4 with first := none }
          else some st3) = some st1 → P st1.g := by
      intro f b hk
      split at hk
      · exact absurd hk (by simp)
      · rename_i st3 h3
        have e3 : P st3.g := by
          cases hc : (b && f != some p)
          · simp only [hc, Bool.false_eq_true, if_false, Option.some.injEq] at h3
            subst h3; exact h0
          · simp only [hc, if_true] at h3
            split at h3
            · exact absurd h3 (by simp)
            · rename_i st3a h3a
              simp only [Option.some.injEq] at h3
              subst h3
              exact hP _ _ st3a h3a h0
        cases hB : i.IsBranchOp
        · simp only [hB, Bool.false_eq_true, if_false, Option.some.injEq] at hk
          subst hk; exact e3
        · simp only [hB, if_true] at hk
          split at hk
          · exact absurd hk (by simp)
          · rename_i st4 h4
            simp only [Option.some.injEq] at hk
            subst hk
            exact hP _ _ st4 h4 e3
    cases hf : st.first
    · simp only [hf, if_true] at h
      exact key (some p) i.IsBranchTarget h
    · rename_i f
      simp only [hf, if_false] at h
      exact key (some f) i.IsBranchTarget (by simpa using h)
  · simp only [hd, if_true, Option.some.injEq] at h
    subst h; exact h0

theorem cbbLoop_preserves {s : List Instruction} (P : CFG → Prop)
    (hP : ∀ (st : CBBState) (l : Option Nat) (st1 : CBBState),
      closeBlock s st l = some st1 → P st.g → P st1.g) :
    ∀ (rest : List Instruction) (p : Nat) (st st1 : CBBState),
      cbbLoop s rest p st = some st1 → P st.g → P st1.g := by
  intro rest
  induction rest with
  | nil => intro p st st1 h h0; simp only [cbbLoop, Option.some.injEq] at h; subst h; exact h0
  | cons i rest ih =>
    intro p st st1 h h0
    simp only [cbbLoop] at h
    split at h
    · exact absurd h (by simp)
    · rename_i st2 h2
      exact ih _ _ _ h (cbbStep_preserves P hP h2 h0)

theorem cbbLoop_rest {s : List Instruction} (rest : List Instruction) (p : Nat)
    (st st1 : CBBState) (h : cbbLoop s rest p st = some st1) :
    cfgRest st1.g = cfgRest st.g :=
  cbbLoop_preserves (fun g => cfgRest g = cfgRest st.g)
    (fun _ _ _ hc h0 => (closeBlock_rest hc).trans h0) rest p st st1 h rfl

/-- The blocks `ComputeBasicBlocks` builds are the entry sentinel, one block for each
segment of the stream cut at its leaders, and the exit sentinel. -/
theorem ComputeBasicBlocks_blocks {s : List Instruction} {g0 g : CFG}
    (h0 : g0.all_blocks = []) (h : ComputeBasicBlocks s g0 = some g) :
    ∃ segs, Segmented (nonDeleted s) segs ∧
      g.all_blocks.map blockInfo
        = (none, none, 65535) :: segs.enum.map segInfo ++ [(none, none, 65536)] ∧
      g.entry = some 0 ∧ g.exit = some (segs.length + 1) := by
  unfold ComputeBasicBlocks at h
  split at h
  · exact absurd h (by simp)
  · rename_i entry hentry
    simp only at h
    split at h
    · exact absurd h (by simp)
    · rename_i st hloop
      have hinit : CbbInv { g := ({ g0 with entry := some g0.all_blocks.length }).AddBasicBlock entry }
          ([], []) 0 := by
        obtain ⟨i1, i2, i3, -⟩ := mkBasicBlock_info hentry
        refine ⟨?_, by simp, by simp, by simp, by simp, by simp, by simp, by simp⟩
        simp [CFG.AddBasicBlock, h0, blockInfo, i1, i2, i3]
      have hinv := cbbLoop_inv s 0 _ st _ hinit hloop
      have hseg := SegInv_foldl ((s.enumFrom 0).filter (fun x => !x.2.IsDeleted)) _ _ SegInv_init
      simp only [List.nil_append] at hseg
      generalize hacc : List.foldl segStep ([], [])
        (List.filter (fun x => !x.2.IsDeleted) (List.enumFrom 0 s)) = acc at hinv hseg
      obtain ⟨closed, o⟩ := acc
      have hfinal := Segmented_segFinal hseg
      refine ⟨segFinal (closed, o), hfinal, ?_⟩
      have hrest := cbbLoop_rest s 0 _ st hloop
      have hentry0 : st.g.entry = some 0 := by
        have := congrArg (fun r => r.1) hrest
        simpa [cfgRest, CFG.AddBasicBlock, h0] using this
      obtain ⟨hb, hi, hf, hco, hol, hle, hll, hcl⟩ := hinv
      simp only at hb hi hf hco hol hle hll hcl
      rcases o with _ | ⟨x, xs⟩
      · have hlc : st.last = st.cur := by simpa using hle
        simp only [hlc, bne_self_eq_false, Bool.false_eq_true, if_false] at h
        split at h
        · exact absurd h (by simp)
        · rename_i ex hex
          obtain ⟨i1, i2, i3, -⟩ := mkBasicBlock_info hex
          simp only [Option.some.injEq] at h
          subst h
          have hlen : st.g.all_blocks.length = closed.length + 1 := by
            have := congrArg List.length hb
            simpa using this
          simp [CFG.AddBasicBlock, segFinal, hb, blockInfo, i1, i2, i3, hlen, hentry0]
      · have hcur := hco (by simp)
        have hne : (st.last != st.cur) = true := by
          simp only [bne_iff_ne, ne_eq]
          intro heq
          obtain ⟨z, hz⟩ : ∃ z, (x :: xs).getLast? = some z := by
            cases hgl : (x :: xs).getLast? with
            | none => simp at hgl
            | some z => exact ⟨z, rfl⟩
          rw [hz] at hcur
          simp only [Option.map_some'] at hcur
          have := hll z.1 (heq.trans hcur) z (List.mem_of_getLast?_eq_some hz)
          omega
        simp only [hne, if_true] at h
        split at h
        · exact absurd h (by simp)
        · rename_i st1 hclose
          obtain ⟨k1, k2, k3, k4, k5, k6⟩ :=
            CbbInv_close (o := x :: xs) hb hi hf hcur hclose
          split at h
          · exact absurd h (by simp)
          · rename_i ex hex
            obtain ⟨i1, i2, i3, -⟩ := mkBasicBlock_info hex
            simp only [Option.some.injEq] at h
            subst h
            have hlen : st1.g.all_blocks.length = (closed ++ [x :: xs]).length + 1 := by
              have := congrArg List.length k1
              simpa using this
            simp only [CFG.AddBasicBlock, segFinal, List.isEmpty_cons, Bool.false_eq_true,
              if_false, List.map_append, k1, List.map_cons, List.map_nil, blockInfo, i1, i2, i3,
              hlen, List.cons_append, and_true]
            have hrest1 := closeBlock_rest hclose
            have hentry1 : st1.g.entry = some 0 := by
              have := congrArg (fun r => r.1) hrest1
              simpa [cfgRest, hentry0] using this
            simp [hentry1]

/-- C1.  `ComputeBasicBlocks` starts an interior block exactly at the leaders.  The
non-deleted instructions of the stream are cut into segments `segs`: every segment is
non-empty, the segments in order make up the non-deleted instructions, no instruction
inside a segment is a leader (it is not a branch target and does not follow a branch),
and every segment after the first starts with a leader.  The blocks are the entry
sentinel, then for the segment number `k` a block with id `k` that runs from the first to
the last instruction of the segment, then the exit sentinel.  (The stream has fewer than
`2^32` instructions, so that the `unsigned` block counter does not wrap.) -/
theorem C1_ComputeBasicBlocks_leaders (s : List Instruction) (g0 g : CFG)
    (h0 : g0.all_blocks = []) (hlen : s.length < UINT_MOD)
    (h : ComputeBasicBlocks s g0 = some g) :
    ∃ segs : List (List (Nat × Instruction)),
      Segmented (nonDeleted s) segs ∧
      g.all_blocks.map blockInfo
        = (none, none, 65535)
            :: segs.enum.map
                 (fun ks => (ks.2.head?.map Prod.fst, ks.2.getLast?.map Prod.fst, ks.1))
            ++ [(none, none, 65536)] := by
  obtain ⟨segs, hseg, hb, -, -⟩ := ComputeBasicBlocks_blocks h0 h
  refine ⟨segs, hseg, ?_⟩
  rw [hb]
  congr 2
  apply List.map_congr_left
  intro ks hks
  have hk : ks.1 < segs.length := by
    obtain ⟨k, seg⟩ := ks
    exact (List.mk_mem_enum_iff_getElem?.mp hks |> fun h => (List.getElem?_eq_some_iff.mp h).1)
  have h1 : segs.length ≤ (nonDeleted s).length := by
    have := length_le_flatten_length segs hseg.2.1
    rw [hseg.1] at this; exact this
  have h2 := nonDeleted_length_le s
  have : ks.1 % UINT_MOD = ks.1 := Nat.mod_eq_of_lt (by omega)
  simp [segInfo, this]

theorem C1_ComputeBasicBlocks_leaders_witness :
    ∃ g, ComputeBasicBlocks streamCondSkip {} = some g ∧
      ∃ segs : List (List (Nat × Instruction)),
        Segmented (nonDeleted streamCondSkip) segs ∧
        g.all_blocks.map blockInfo
          = (none, none, 65535)
              :: segs.enum.map
                   (fun ks => (ks.2.head?.map Prod.fst, ks.2.getLast?.map Prod.fst, ks.1))
              ++ [(none, none, 65536)] :=
  have hs : (ComputeBasicBlocks streamCondSkip {}).isSome = true := by decide
  ⟨(ComputeBasicBlocks streamCondSkip {}).get hs, (Option.some_get hs).symm,
    C1_ComputeBasicBlocks_leaders streamCondSkip {} _ rfl (by simp [UINT_MOD, streamCondSkip])
      (Option.some_get hs).symm⟩

/-! ## ConstructCFG -/

theorem updBlock_getElem? {bs bs1 : List BasicBlock} {k : Nat} {f : BasicBlock → BasicBlock}
    (h : updBlock bs k f = some bs1) :
    k < bs.length ∧ bs1.length = bs.length ∧
    ∀ i, bs1[i]? = if i = k then (bs[i]?).map f else bs[i]? := by
  unfold updBlock at h
  split at h
  · exact absurd h (by simp)
  · rename_i b hb
    have hk : k < bs.length := (List.getElem?_eq_some_iff.mp hb).1
    have e := (Option.some.inj h).symm
    subst e
    refine ⟨hk, by simp, ?_⟩
    intro i
    rw [List.getElem?_set]
    by_cases hik : k = i
    · subst hik; simp [hk, hb]
    · have : ¬ i = k := fun h => hik h.symm
      simp [hik, this]

/-- The effect of `addEdge`: `b` is appended to the successors of `a`, `a` to the
predecessors of `b`, and nothing else changes. -/
theorem addEdge_spec {bs bs2 : List BasicBlock} {a b : Nat} (h : addEdge bs a b = some bs2) :
    a < bs.length ∧ b < bs.length ∧
    bs2.map blockCore = bs.map blockCore ∧
    (∀ k, succAt bs2 k = succAt bs k ++ (if k = a then [b] else [])) ∧
    (∀ k, predAt bs2 k = predAt bs k ++ (if k = b then [a] else [])) := by
  unfold addEdge at h
  split at h
  · exact absurd h (by simp)
  · rename_i bs1 h1
    obtain ⟨ha, hl1, g1⟩ := updBlock_getElem? h1
    obtain ⟨hb, hl2, g2⟩ := updBlock_getElem? h
    have key : ∀ i, bs2[i]? = (bs[i]?).map (fun x : BasicBlock =>
        { x with succ := x.succ ++ (if i = a then [b] else []),
                 pred := x.pred ++ (if i = b then [a] else []) }) := by
      intro i
      rw [g2, g1]
      cases hi : bs[i]? with
      | none => simp
      | some x =>
        by_cases hia : i = a
        · subst hia
          by_cases hib : i = b
          · subst hib; simp [BasicBlock.AddSucc, BasicBlock.AddPred]
          · simp [hib, BasicBlock.AddSucc, BasicBlock.AddPred]
        · by_cases hib : i = b
          · subst hib; simp [hia, BasicBlock.AddSucc, BasicBlock.AddPred]
          · simp [hia, hib]
    refine ⟨ha, by omega, ?_, ?_, ?_⟩
    · apply List.ext_getElem?
      intro i
      simp only [List.getElem?_map, key]
      cases bs[i]? <;> simp [blockCore]
    · intro k
      simp only [succAt, key]
      cases hk : bs[k]? with
      | none => simp; intro hka; subst hka; exact absurd hk (by simp [List.getElem?_eq_none_iff]; omega)
      | some x => simp
    · intro k
      simp only [predAt, key]
      cases hk : bs[k]? with
      | none => simp; intro hkb; subst hkb; exact absurd hk (by simp [List.getElem?_eq_none_iff]; omega)
      | some x => simp

theorem addEdge_mirror {bs bs2 : List BasicBlock} {a b : Nat} (h : addEdge bs a b = some bs2)
    (hm : Mirror bs) : Mirror bs2 := by
  obtain ⟨-, -, -, hs, hp⟩ := addEdge_spec h
  intro x y
  rw [hs, hp, List.count_append, List.count_append, hm x y]
  congr 1
  by_cases hxa : x = a <;> by_cases hyb : y = b <;> simp [hxa, hyb, List.count_singleton]

theorem core_getElem? {bs bs' : List BasicBlock} (h : bs.map blockCore = bs'.map blockCore)
    (k : Nat) : (bs[k]?).map blockCore = (bs'[k]?).map blockCore := by
  have := congrArg (fun l => l[k]?) h
  simpa [List.getElem?_map] using this

theorem core_end_instr {bs bs' : List BasicBlock} (h : bs.map blockCore = bs'.map blockCore)
    {k : Nat} {b : BasicBlock} (hb : bs[k]? = some b) :
    ∃ b', bs'[k]? = some b' ∧ b'.end_instr = b.end_instr ∧ b'.begin_instr = b.begin_instr := by
  have := core_getElem? h k
  rw [hb] at this
  cases hb' : bs'[k]? with
  | none => rw [hb'] at this; simp at this
  | some b' =>
    rw [hb'] at this
    simp only [Option.map_some', Option.some.injEq] at this
    refine ⟨b', rfl, ?_, ?_⟩
    · have := congrArg BasicBlock.end_instr this
      simpa [blockCore] using this.symm
    · have := congrArg BasicBlock.begin_instr this
      simpa [blockCore] using this.symm

/-- The first half of the loop body of `ConstructCFG` for the block `j + 1`: the pending
fall-through edge from the block before is added. -/
theorem wireStep_first {s : List Instruction} {g : CFG} {j : Nat} {st : WireState}
    (hinv : WireInv s g j st) {st1 : WireState}
    (h : (match st.prev with
          | some p =>
            match addEdge st.blocks p (j + 1) with
            | none => none
            | some bs => some ({ prev := none, bb := some (j + 1), blocks := bs } : WireState)
          | none => some { st with bb := some (j + 1) }) = some st1) :
    st1.prev = none ∧ st1.bb = some (j + 1) ∧
    st1.blocks.map blockCore = g.all_blocks.map blockCore ∧ Mirror st1.blocks ∧
    succAt st1.blocks (j + 1) = [] ∧
    ∀ k, k ≠ j + 1 → succAt st1.blocks k = expSucc s g (j + 1) k := by
  obtain ⟨hcore, hbb, hprev, hsucc, hmir, -⟩ := hinv
  have hnew : succAt st.blocks (j + 1) = [] := by
    rw [hsucc]; simp [expSucc]
  by_cases hj : j = 0
  · subst hj
    simp only [if_true] at hprev
    simp only [hprev] at h
    split at h
    · exact absurd h (by simp)
    · rename_i bs hbs
      simp only [Option.some.injEq] at h
      subst h
      obtain ⟨-, -, c, hs, -⟩ := addEdge_spec hbs
      refine ⟨rfl, rfl, c.trans hcore, addEdge_mirror hbs hmir, ?_, ?_⟩
      · simp only [hs, hnew]; simp
      · intro k hk
        simp only [hs, hsucc]
        by_cases hk0 : k = 0
        · subst hk0; simp [expSucc]
        · simp only [expSucc, hk0, if_false]
          have h1 : ¬ k < 0 + 1 := by omega
          have h2 : ¬ k = 0 + 1 := by omega
          simp [h1, h2, hk0]
  · simp only [hj, if_false] at hprev
    cases hf : fallsThrough (termAt s g j)
    · simp only [hf, Bool.false_eq_true, if_false] at hprev
      simp only [hprev, Option.some.injEq] at h
      subst h
      refine ⟨rfl, rfl, hcore, hmir, hnew, ?_⟩
      intro k hk
      simp only [hsucc, expSucc]
      by_cases hk0 : k = 0
      · subst hk0
        have : 1 ≤ j := by omega
        simp [this]
      · simp only [hk0, if_false]
        by_cases hkj : k < j
        · have : k < j + 1 := by omega
          simp [hkj, this]
        · by_cases hkj2 : k = j
          · subst hkj2; simp [hf]
          · have h1 : ¬ k < j + 1 := by omega
            simp [hkj, hkj2, h1, hk]
    · simp only [hf, if_true] at hprev
      simp only [hprev] at h
      split at h
      · exact absurd h (by simp)
      · rename_i bs hbs
        simp only [Option.some.injEq] at h
        subst h
        obtain ⟨-, -, c, hs, -⟩ := addEdge_spec hbs
        refine ⟨rfl, rfl, c.trans hcore, addEdge_mirror hbs hmir, ?_, ?_⟩
        · simp only [hs, hnew]; simp
        · intro k hk
          simp only [hs, hsucc, expSucc]
          by_cases hk0 : k = 0
          · subst hk0
            have : 1 ≤ j := by omega
            have h0 : ¬ (0 = j) := by omega
            simp [this, h0]
          · simp only [hk0, if_false]
            by_cases hkj : k < j
            · have : k < j + 1 := by omega
              have h2 : ¬ k = j := by omega
              simp [hkj, this, h2]
            · by_cases hkj2 : k = j
              · subst hkj2; simp [hf]
              · have h1 : ¬ k < j + 1 := by omega
                simp [hkj, hkj2, h1, hk]

theorem termAt_of_core {s : List Instruction} {g : CFG} {bs : List BasicBlock} {k : Nat}
    {blk : BasicBlock} (hcore : bs.map blockCore = g.all_blocks.map blockCore)
    (hblk : bs[k]? = some blk) :
    termAt s g k = match blk.GetLastInst with
                   | none => none
                   | some t => s[t]? := by
  obtain ⟨b', hb', he, -⟩ := core_end_instr hcore hblk
  simp only [termAt, hb', BasicBlock.GetLastInst, he]

/-- The loop body of `ConstructCFG` for the block `j + 1` keeps the invariant. -/
theorem wireStep_inv {s : List Instruction} {g : CFG} {j : Nat} {st st' : WireState}
    (hinv : WireInv s g j st) (h : wireStep s g (j + 1) st = some st') :
    WireInv s g (j + 1) st' := by
  unfold wireStep at h
  simp only at h
  split at h
  · exact absurd h (by simp)
  · rename_i st1 h1
    obtain ⟨p1, p2, p3, p4, p5, p6⟩ := wireStep_first hinv h1
    split at h
    · exact absurd h (by simp)
    · rename_i blk hblk
      have hterm := termAt_of_core (s := s) p3 hblk
      split at h
      · exact absurd h (by simp)
      · rename_i t ht
        rw [ht] at hterm
        simp only at hterm
        split at h
        · exact absurd h (by simp)
        · rename_i terminator hterminator
          rw [hterminator] at hterm
          have hj1 : ¬ (j + 1 = 0) := by omega
          have hres : (terminator.IsBranchOp = true → ∃ x, takenBlock g terminator = some x) →
              ∀ k, 1 ≤ k → k ≤ j + 1 →
              ∃ t, termAt s g k = some t ∧
                (t.IsBranchOp = true → ∃ x, takenBlock g t = some x) := by
            intro hnew k hk1 hk2
            by_cases hkj : k ≤ j
            · exact hinv.resolved k hk1 hkj
            · have : k = j + 1 := by omega
              subst this
              exact ⟨terminator, hterm, hnew⟩
          cases hB : terminator.IsBranchOp
          · simp only [hB, Bool.false_eq_true, if_false, Option.some.injEq] at h
            subst h
            refine ⟨p3, by simp [p2], ?_, ?_, p4, hres (fun hb => by rw [hB] at hb; simp at hb)⟩
            · simp [hterm, fallsThrough, hB]
            · intro k
              by_cases hk : k = j + 1
              · subst hk
                simp only
                rw [p5]
                simp [expSucc, hterm, branchSucc, hB]
              · exact p6 k hk
          · simp only [hB, if_true] at h
            split at h
            · exact absurd h (by simp)
            · rename_i bs hbs
              have htaken : ∃ x, takenBlock g terminator = some x ∧
                  addEdge st1.blocks (j + 1) x = some bs := by
                unfold takenBlock
                split at hbs
                · rename_i hbt
                  split at hbs
                  · split at hbs
                    · exact absurd hbs (by simp)
                    · rename_i x hx
                      exact ⟨x, hx, hbs⟩
                  · exact absurd hbs (by simp)
                · rename_i bt hbt
                  split at hbs
                  · exact absurd hbs (by simp)
                  · rename_i tb htb
                    exact ⟨tb, htb, hbs⟩
              obtain ⟨x, hx, hedge⟩ := htaken
              obtain ⟨-, -, c, hs, -⟩ := addEdge_spec hedge
              have hm := addEdge_mirror hedge p4
              have hsucc : ∀ k, succAt bs k = expSucc s g (j + 1) k := by
                intro k
                rw [hs]
                by_cases hk : k = j + 1
                · subst hk
                  rw [p5]
                  simp [expSucc, hterm, branchSucc, hB, hx]
                · simp only [hk, if_false, List.append_nil]
                  exact p6 k hk
              cases hC : terminator.IsCondBranch
              · simp only [hC, Bool.false_eq_true, if_false, Option.some.injEq] at h
                subst h
                exact ⟨c.trans p3, by simp [p2], by simp [hterm, fallsThrough, hB, hC, p1],
                  hsucc, hm, hres (fun _ => ⟨x, hx⟩)⟩
              · simp only [hC, if_true, Option.some.injEq] at h
                subst h
                exact ⟨c.trans p3, by simp [p2], by simp [hterm, fallsThrough, hB, hC],
                  hsucc, hm, hres (fun _ => ⟨x, hx⟩)⟩

theorem closeBlock_fresh {s : List Instruction} {st st1 : CBBState} {l : Option Nat}
    (h : closeBlock s st l = some st1) (h0 : ∀ b ∈ st.g.all_blocks, FreshBlock b) :
    ∀ b ∈ st1.g.all_blocks, FreshBlock b := by
  obtain ⟨bb, hbb, hblocks, -⟩ := closeBlock_spec h
  obtain ⟨-, -, -, i4, i5, i6, i7, i8⟩ := mkBasicBlock_info hbb
  intro b hb
  rw [hblocks] at hb
  simp only [List.mem_append, List.mem_singleton] at hb
  rcases hb with hb | hb
  · exact h0 b hb
  · subst hb; exact ⟨i4, i5, i6, i7, i8⟩

theorem closeBlock_mapInv {s : List Instruction} {st st1 : CBBState} {l : Option Nat}
    (h : closeBlock s st l = some st1) (h0 : MapInv st.g) : MapInv st1.g := by
  unfold closeBlock at h
  split at h
  · exact absurd h (by simp)
  · rename_i bb hbb
    obtain ⟨i1, -⟩ := mkBasicBlock_info hbb
    simp only [Option.some.injEq] at h
    subst h
    intro key v hlk
    simp only [CFG.AddBasicBlock, CFG.blockMapInsert] at hlk ⊢
    have hold : ∀ key v, st.g.block_map.lookup key = some v →
        ∃ b, (st.g.all_blocks ++ [bb])[v]? = some b ∧ b.begin_instr = key := by
      intro key v hk
      obtain ⟨b, hb, hbe⟩ := h0 key v hk
      have hv : v < st.g.all_blocks.length := (List.getElem?_eq_some_iff.mp hb).1
      exact ⟨b, by rw [List.getElem?_append_left hv]; exact hb, hbe⟩
    split at hlk
    · split
      · exact hold key v hlk
      · rename_i h1 h2; exact absurd h1 h2
    · rename_i hnone
      split
      · rename_i h2; exact absurd h2 hnone
      · simp only at hlk
        rw [List.lookup_append] at hlk
        cases hl : st.g.block_map.lookup key with
        | some w =>
          rw [hl] at hlk
          simp only [Option.or, Option.some.injEq] at hlk
          subst hlk
          exact hold key w hl
        | none =>
          rw [hl] at hlk
          simp only [Option.or, List.lookup_cons, List.lookup_nil] at hlk
          split at hlk
          · rename_i heq
            simp only [Option.some.injEq] at hlk
            subst hlk
            have : key = st.first := by simpa using heq
            subst this
            exact ⟨bb, by simp, i1⟩
          · exact absurd hlk (by simp)

theorem MapInv_append {g : CFG} (h : MapInv g) (bb : BasicBlock) (x : Option Nat) :
    MapInv (({ g with exit := x }).AddBasicBlock bb) := by
  intro key v hk
  obtain ⟨b, hb, hbe⟩ := h key v hk
  have hv : v < g.all_blocks.length := (List.getElem?_eq_some_iff.mp hb).1
  exact ⟨b, by simp only [CFG.AddBasicBlock]; rw [List.getElem?_append_left hv]; exact hb, hbe⟩

/-- What `ComputeBasicBlocks` leaves besides the block ranges: fresh blocks, a block map
that leads to blocks by their first instruction, and the other members untouched. -/
theorem ComputeBasicBlocks_props {s : List Instruction} {g0 g : CFG}
    (h0 : g0.all_blocks = []) (hm : g0.block_map = [])
    (h : ComputeBasicBlocks s g0 = some g) :
    (∀ b ∈ g.all_blocks, FreshBlock b) ∧ MapInv g ∧
    g.loop_header_map = g0.loop_header_map ∧ g.loops = g0.loops ∧
    g.constructed = g0.constructed ∧ g.unrolled_loops = g0.unrolled_loops ∧
    g.loop_store = g0.loop_store ∧ g.global_loop_index = g0.global_loop_index := by
  unfold ComputeBasicBlocks at h
  split at h
  · exact absurd h (by simp)
  · rename_i entry hentry
    simp only at h
    split at h
    · exact absurd h (by simp)
    · rename_i st hloop
      obtain ⟨-, -, -, i4, i5, i6, i7, i8⟩ := mkBasicBlock_info hentry
      have hP0 : (∀ b ∈ (({ g0 with entry := some g0.all_blocks.length }).AddBasicBlock
            entry).all_blocks, FreshBlock b) ∧
          MapInv (({ g0 with entry := some g0.all_blocks.length }).AddBasicBlock entry) := by
        constructor
        · intro b hb
          simp only [CFG.AddBasicBlock, h0, List.nil_append, List.mem_singleton] at hb
          subst hb; exact ⟨i4, i5, i6, i7, i8⟩
        · intro key v hk
          simp [CFG.AddBasicBlock, hm] at hk
      have hP := cbbLoop_preserves (s := s)
        (fun g => (∀ b ∈ g.all_blocks, FreshBlock b) ∧ MapInv g)
        (fun _ _ _ hc hp => ⟨closeBlock_fresh hc hp.1, closeBlock_mapInv hc hp.2⟩)
        s 0 _ st hloop hP0
      have hrest := cbbLoop_rest s 0 _ st hloop
      have key : ∀ st1 : CBBState, (∀ b ∈ st1.g.all_blocks, FreshBlock b) → MapInv st1.g →
          cfgRest st1.g = cfgRest st.g →
          (match mkBasicBlock s none none 65536 with
            | none => none
            | some exit =>
              some (({ st1.g with exit := some st1.g.all_blocks.length }).AddBasicBlock exit))
            = some g →
          (∀ b ∈ g.all_blocks, FreshBlock b) ∧ MapInv g ∧
          g.loop_header_map = g0.loop_header_map ∧ g.loops = g0.loops ∧
          g.constructed = g0.constructed ∧ g.unrolled_loops = g0.unrolled_loops ∧
          g.loop_store = g0.loop_store ∧ g.global_loop_index = g0.global_loop_index := by
        intro st1 hf1 hm1 hr1 hk
        split at hk
        · exact absurd hk (by simp)
        · rename_i ex hex
          obtain ⟨-, -, -, j4, j5, j6, j7, j8⟩ := mkBasicBlock_info hex
          simp only [Option.some.injEq] at hk
          subst hk
          have hr := hr1.trans hrest
          simp only [cfgRest, CFG.AddBasicBlock, Prod.mk.injEq] at hr
          obtain ⟨-, -, r3, r4, r5, r6, r7, r8⟩ := hr
          refine ⟨?_, MapInv_append hm1 ex _, r3, r4, r5, r6, r7, r8⟩
          intro b hb
          simp only [CFG.AddBasicBlock, List.mem_append, List.mem_singleton] at hb
          rcases hb with hb | hb
          · exact hf1 b hb
          · subst hb; exact ⟨j4, j5, j6, j7, j8⟩
      split at h
      · exact absurd h (by simp)
      · rename_i st1 hst1
        split at hst1
        · exact key st1 (closeBlock_fresh hst1 hP.1) (closeBlock_mapInv hst1 hP.2)
            (closeBlock_rest hst1) h
        · simp only [Option.some.injEq] at hst1
          subst hst1
          exact key st hP.1 hP.2 rfl h

theorem wireLoop_inv {s : List Instruction} {g : CFG} :
    ∀ (m j : Nat) (st st' : WireState), WireInv s g j st →
      wireLoop s g (List.range' (j + 1) m) st = some st' → WireInv s g (j + m) st' := by
  intro m
  induction m with
  | zero =>
    intro j st st' hinv h
    simp only [List.range'_zero, wireLoop, Option.some.injEq] at h
    subst h; exact hinv
  | succ m ih =>
    intro j st st' hinv h
    simp only [List.range'_succ, wireLoop] at h
    split at h
    · exact absurd h (by simp)
    · rename_i st1 h1
      have := ih (j + 1) st1 st' (wireStep_inv hinv h1) h
      rw [show j + (m + 1) = j + 1 + m by omega]
      exact this

theorem succAt_fresh {bs : List BasicBlock} (h : ∀ b ∈ bs, FreshBlock b) (k : Nat) :
    succAt bs k = [] ∧ predAt bs k = [] := by
  unfold succAt predAt
  cases hk : bs[k]? with
  | none => simp
  | some b =>
    obtain ⟨hlt, hget⟩ := List.getElem?_eq_some_iff.mp hk
    have := h b (hget ▸ List.getElem_mem hlt)
    exact ⟨this.1, this.2.1⟩

/-- The successor lists `ConstructCFG` builds, for a CFG that `ComputeBasicBlocks` left
with `n` interior blocks. -/
theorem ConstructCFG_spec {s : List Instruction} {g g' : CFG} {n : Nat}
    (hentry : g.entry = some 0) (hexit : g.exit = some (n + 1))
    (hlen : g.all_blocks.length = n + 2) (hfresh : ∀ b ∈ g.all_blocks, FreshBlock b)
    (h : ConstructCFG s g = some g') :
    1 ≤ n ∧ g'.all_blocks.map blockCore = g.all_blocks.map blockCore ∧
    Mirror g'.all_blocks ∧ (∀ k, succAt g'.all_blocks k = finalSucc s g n k) ∧
    g' = { g with all_blocks := g'.all_blocks, block_map := [], constructed := true } ∧
    (∀ k, 1 ≤ k → k ≤ n →
      ∃ t, termAt s g k = some t ∧ (t.IsBranchOp = true → ∃ x, takenBlock g t = some x)) := by
  unfold ConstructCFG at h
  split at h
  · exact absurd h (by simp)
  · rename_i st hloop
    have hinit : WireInv s g 0 { prev := g.entry, blocks := g.all_blocks } := by
      refine ⟨rfl, by simp, by simp [hentry], ?_, ?_, fun k h1 h2 => by omega⟩
      · intro k
        simp only
        rw [(succAt_fresh hfresh k).1]
        by_cases hk : k = 0
        · simp [expSucc, hk]
        · simp [expSucc, hk]
      · intro a b
        simp only
        rw [(succAt_fresh hfresh a).1, (succAt_fresh hfresh b).2]
        simp
    have hrange : interiorRange g = List.range' (0 + 1) n := by
      simp [interiorRange, hlen]
    rw [hrange] at hloop
    have hinv := wireLoop_inv n 0 _ st hinit hloop
    simp only [Nat.zero_add] at hinv
    obtain ⟨hcore, hbb, hprev, hsucc, hmir, hres⟩ := hinv
    rw [hexit] at h
    by_cases hn : n = 0
    · simp only [hn, if_true] at hbb
      simp only [hbb] at h
      exact absurd h (by simp)
    · simp only [hn, if_false] at hbb
      simp only [hbb] at h
      split at h
      · exact absurd h (by simp)
      · rename_i bs hbs
        simp only [Option.some.injEq] at h
        subst h
        obtain ⟨-, -, c, hs, -⟩ := addEdge_spec hbs
        refine ⟨by omega, c.trans hcore, addEdge_mirror hbs hmir, ?_, by simp [hexit], hres⟩
        intro k
        simp only [hs, hsucc, finalSucc]

theorem mkCFG_spec {s : List Instruction} {u : Bool} {gli : Nat} {g1 : CFG}
    (h : mkCFG s u gli = some g1) : ∃ g segs, Built s u gli g g1 segs := by
  unfold mkCFG at h
  split at h
  · exact absurd h (by simp)
  · rename_i g hg
    obtain ⟨segs, hseg, hinfo, hentry, hexit⟩ := ComputeBasicBlocks_blocks rfl hg
    obtain ⟨hfresh, hmap, r1, r2, r3, r4, r5, r6⟩ := ComputeBasicBlocks_props rfl rfl hg
    have hlen : g.all_blocks.length = segs.length + 2 := by
      have := congrArg List.length hinfo
      simpa using this
    obtain ⟨hn, hcore, hmir, hsucc, heq, hres⟩ := ConstructCFG_spec hentry hexit hlen hfresh h
    refine ⟨g, segs, hg, h, hseg, hn, hinfo, hlen, hcore, hfresh, hmap, hmir, hsucc, hres, hexit,
      ?_, ?_, ?_, ?_, ?_, ?_, ?_, ?_⟩
    · rw [heq]; exact hentry
    · rw [heq]; exact hexit
    · rw [heq]; exact r2
    · rw [heq]; exact r5
    · rw [heq]; exact r1
    · rw [heq]
    · rw [heq]; exact r4
    · rw [heq]; exact r6

theorem branchSucc_length_le (g : CFG) (t : Option Instruction) :
    (branchSucc g t).length ≤ 1 := by
  unfold branchSucc
  cases t with
  | none => simp
  | some t =>
    simp only
    split
    · cases takenBlock g t <;> simp
    · simp

theorem succAt_of_getElem? {bs : List BasicBlock} {k : Nat} {b : BasicBlock}
    (h : bs[k]? = some b) : succAt bs k = b.succ := by
  simp [succAt, h]

theorem Built.length1 {s : List Instruction} {u : Bool} {gli : Nat} {g g1 : CFG}
    {segs : List (List (Nat × Instruction))} (hb : Built s u gli g g1 segs) :
    g1.all_blocks.length = segs.length + 2 := by
  have := congrArg List.length hb.core
  simpa [hb.length] using this

/-- The successor list of an interior block: what its terminator adds, then the
fall-through. -/
theorem Built.succ_interior {s : List Instruction} {u : Bool} {gli : Nat} {g g1 : CFG}
    {segs : List (List (Nat × Instruction))} (hb : Built s u gli g g1 segs)
    {k : Nat} (hk1 : 1 ≤ k) (hk2 : k ≤ segs.length) :
    succAt g1.all_blocks k
      = branchSucc g (termAt s g k) ++
          (if k = segs.length then [segs.length + 1]
           else if fallsThrough (termAt s g k) then [k + 1] else []) := by
  rw [hb.succ k]
  have hk0 : ¬ k = 0 := by omega
  by_cases hkn : k = segs.length
  · subst hkn
    simp [finalSucc, expSucc, hk0]
  · have : k < segs.length := by omega
    simp [finalSucc, expSucc, hk0, hkn, this]

theorem Built.succ_entry {s : List Instruction} {u : Bool} {gli : Nat} {g g1 : CFG}
    {segs : List (List (Nat × Instruction))} (hb : Built s u gli g g1 segs) :
    succAt g1.all_blocks 0 = [1] := by
  rw [hb.succ 0]
  have h1 := hb.interior
  have : ¬ (0 = segs.length) := by omega
  simp [finalSucc, expSucc, h1, this]

theorem Built.succ_exit {s : List Instruction} {u : Bool} {gli : Nat} {g g1 : CFG}
    {segs : List (List (Nat × Instruction))} (hb : Built s u gli g g1 segs) :
    succAt g1.all_blocks (segs.length + 1) = [] := by
  rw [hb.succ]
  simp [finalSucc, expSucc]

theorem Built.succ_length {s : List Instruction} {u : Bool} {gli : Nat} {g g1 : CFG}
    {segs : List (List (Nat × Instruction))} (hb : Built s u gli g g1 segs) (k : Nat) :
    (succAt g1.all_blocks k).length ≤ 2 ∧
    (1 ≤ k → k ≤ segs.length → 1 ≤ (succAt g1.all_blocks k).length) := by
  by_cases hk0 : k = 0
  · subst hk0
    rw [hb.succ_entry]
    exact ⟨by simp, fun h => by omega⟩
  · by_cases hkn : k ≤ segs.length
    · have hk1 : 1 ≤ k := by omega
      rw [hb.succ_interior hk1 hkn]
      have hbr := branchSucc_length_le g (termAt s g k)
      obtain ⟨t, ht, hres⟩ := hb.resolved k hk1 hkn
      constructor
      · simp only [List.length_append]
        split
        · simp; omega
        · split <;> simp <;> omega
      · intro _ _
        simp only [List.length_append]
        by_cases hlast : k = segs.length
        · simp [hlast]
        · simp only [hlast, if_false]
          cases hB : t.IsBranchOp
          · simp [ht, fallsThrough, hB]
          · obtain ⟨x, hx⟩ := hres hB
            simp [ht, branchSucc, hB, hx]
    · have hs : succAt g1.all_blocks k = [] := by
        rw [hb.succ]
        have h1 : ¬ k < segs.length := by omega
        have h2 : ¬ k = segs.length := by omega
        simp [finalSucc, expSucc, hk0, h1, h2]
      rw [hs]
      exact ⟨by simp, fun _ h => absurd h hkn⟩

/-- C5.  In a CFG built from a stream with at least one non-deleted instruction, every
block has at most two successors, every interior block has at least one, the entry
sentinel (block 0 of the list) has exactly one successor, the block after it, which is
the interior block with id 0, and the exit sentinel (the last block of the list) has
none. -/
theorem C5_successor_counts (s : List Instruction) (u : Bool) (gli : Nat) (g : CFG)
    (hne : nonDeleted s ≠ []) (h : mkCFG s u gli = some g) :
    (∀ b ∈ g.all_blocks, b.succ.length ≤ 2) ∧
    (∀ k b, 1 ≤ k → k + 1 < g.all_blocks.length → g.all_blocks[k]? = some b →
      1 ≤ b.succ.length) ∧
    (g.entry = some 0 ∧
      ∃ e b0, g.all_blocks[0]? = some e ∧ e.id = 65535 ∧ e.succ = [1] ∧
        g.all_blocks[1]? = some b0 ∧ b0.id = 0) ∧
    (g.exit = some (g.all_blocks.length - 1) ∧
      ∃ x, g.all_blocks[g.all_blocks.length - 1]? = some x ∧ x.id = 65536 ∧ x.succ = []) := by
  obtain ⟨g0, segs, hb⟩ := mkCFG_spec h
  have hlen := hb.length1
  have hinfo : g.all_blocks.map blockInfo
      = (none, none, 65535) :: segs.enum.map segInfo ++ [(none, none, 65536)] := by
    have : g.all_blocks.map blockInfo = g0.all_blocks.map blockInfo := by
      have := congrArg (List.map blockInfo) hb.core
      simpa [List.map_map, Function.comp_def, blockInfo, blockCore] using this
    rw [this, hb.info]
  obtain ⟨seg0, segs', hsegs⟩ : ∃ a l, segs = a :: l := by
    cases hs : segs with
    | nil => have := hb.interior; simp [hs] at this
    | cons a l => exact ⟨a, l, rfl⟩
  refine ⟨?_, ?_, ⟨hb.entry, ?_⟩, ⟨?_, ?_⟩⟩
  · intro b hbm
    obtain ⟨k, hk, hget⟩ := List.getElem_of_mem hbm
    have hk' : g.all_blocks[k]? = some b := by
      rw [List.getElem?_eq_getElem hk, hget]
    rw [← succAt_of_getElem? hk']
    exact (hb.succ_length k).1
  · intro k b hk1 hk2 hget
    rw [← succAt_of_getElem? hget]
    exact (hb.succ_length k).2 hk1 (by omega)
  · have h0 : 0 < g.all_blocks.length := by omega
    have h1 : 1 < g.all_blocks.length := by omega
    refine ⟨g.all_blocks[0], g.all_blocks[1], List.getElem?_eq_getElem h0, ?_, ?_,
      List.getElem?_eq_getElem h1, ?_⟩
    · have := congrArg (fun l => l[0]?) hinfo
      simp [List.getElem?_map, List.getElem?_eq_getElem h0, blockInfo] at this
      exact this.2.2
    · rw [← succAt_of_getElem? (List.getElem?_eq_getElem h0)]
      exact hb.succ_entry
    · have := congrArg (fun l => l[1]?) hinfo
      simp [List.getElem?_map, List.getElem?_eq_getElem h1, blockInfo, hsegs,
        List.enum_cons, segInfo] at this
      exact this.2.2
  · rw [hb.exit, hlen]; rfl
  · have hx : g.all_blocks.length - 1 < g.all_blocks.length := by omega
    refine ⟨g.all_blocks[g.all_blocks.length - 1], List.getElem?_eq_getElem hx, ?_, ?_⟩
    · have := congrArg (fun l => l.getLast?) hinfo
      simp only [List.getLast?_map] at this
      rw [show (none, none, 65535) :: List.map segInfo segs.enum ++ [(none, none, 65536)]
          = ((none, none, 65535) :: List.map segInfo segs.enum) ++ [(none, none, 65536)] by simp,
        List.getLast?_concat] at this
      rw [List.getLast?_eq_getElem?] at this
      simp [List.getElem?_eq_getElem hx, blockInfo] at this
      exact this.2.2
    · rw [← succAt_of_getElem? (List.getElem?_eq_getElem hx)]
      have : g.all_blocks.length - 1 = segs.length + 1 := by omega
      rw [this]
      exact hb.succ_exit

theorem C5_successor_counts_witness :
    nonDeleted streamCondSkip ≠ [] ∧ mkCFG streamCondSkip false 0 = some cfgCondSkip ∧
    (∀ b ∈ cfgCondSkip.all_blocks, b.succ.length ≤ 2) ∧
    (∀ k b, 1 ≤ k → k + 1 < cfgCondSkip.all_blocks.length →
      cfgCondSkip.all_blocks[k]? = some b → 1 ≤ b.succ.length) ∧
    (cfgCondSkip.entry = some 0 ∧
      ∃ e b0, cfgCondSkip.all_blocks[0]? = some e ∧ e.id = 65535 ∧ e.succ = [1] ∧
        cfgCondSkip.all_blocks[1]? = some b0 ∧ b0.id = 0) ∧
    (cfgCondSkip.exit = some (cfgCondSkip.all_blocks.length - 1) ∧
      ∃ x, cfgCondSkip.all_blocks[cfgCondSkip.all_blocks.length - 1]? = some x ∧
        x.id = 65536 ∧ x.succ = []) :=
  ⟨by decide, by decide,
    C5_successor_counts streamCondSkip false 0 cfgCondSkip (by decide) (by decide)⟩

/-- C2, as stated, fails.  In `streamCondSkip` the block of instruction 0 ends in a
conditional branch to instruction 2.  Its fall-through successor is block 2 (instruction
1) and its taken-branch successor is block 3 (instruction 2); the successor list is
`[3, 2]`: the branch target comes first. -/
theorem C2_counterexample :
    (mkCFG streamCondSkip false 0).map
        (fun g => g.all_blocks.map (fun b => (b.begin_instr, b.end_instr, b.succ)))
      = some [(none, none, [1]), (some 0, some 0, [3, 2]), (some 1, some 1, [3]),
              (some 2, some 2, [4]), (none, none, [])] := by
  decide

/-- C2, amended.  For every interior block `k` that ends in a conditional branch,
`ConstructCFG` gives the block exactly two successors, the taken-branch successor first
and the fall-through successor second.  The taken-branch successor is a block that
begins at the branch target (the exit sentinel for a branch without target); the
fall-through successor is the next block of the list (the exit sentinel after the last
interior block). -/
theorem C2_branch_target_before_fall_through (s : List Instruction) (u : Bool) (gli : Nat)
    (g : CFG) (k e : Nat) (b : BasicBlock) (t : Instruction)
    (h : mkCFG s u gli = some g)
    (hk1 : 1 ≤ k) (hk2 : k + 1 < g.all_blocks.length)
    (hb : g.all_blocks[k]? = some b) (he : b.GetLastInst = some e) (ht : s[e]? = some t)
    (hbr : t.IsBranchOp = true) (hc : t.IsCondBranch = true) :
    ∃ tb, b.succ = [tb, k + 1] ∧
      match t.GetBranchTarget with
      | none => g.exit = some tb
      | some bt => ∃ blk, g.all_blocks[tb]? = some blk ∧ blk.GetFirstInst = some bt := by
  obtain ⟨g0, segs, hB⟩ := mkCFG_spec h
  have hlen := hB.length1
  have hkn : k ≤ segs.length := by omega
  have hterm : termAt s g0 k = some t := by
    rw [termAt_of_core hB.core hb, he]; exact ht
  obtain ⟨t', ht', hres⟩ := hB.resolved k hk1 hkn
  rw [hterm] at ht'
  have ht'' := Option.some.inj ht'
  subst ht''
  obtain ⟨tb, htb⟩ := hres hbr
  have hsucc := hB.succ_interior hk1 hkn
  rw [succAt_of_getElem? hb, hterm] at hsucc
  refine ⟨tb, ?_, ?_⟩
  · rw [hsucc]
    simp only [branchSucc, hbr, if_true, htb, Option.toList, fallsThrough, hc, Bool.or_true]
    by_cases hlast : k = segs.length
    · simp [hlast]
    · simp [hlast]
  · unfold takenBlock at htb
    cases hbt : t.GetBranchTarget with
    | none =>
      rw [hbt] at htb
      simp only at htb ⊢
      rw [hB.exit, ← hB.exit0]; exact htb
    | some bt =>
      rw [hbt] at htb
      simp only at htb ⊢
      obtain ⟨blk0, hblk0, hbegin⟩ := hB.mapInv _ _ htb
      obtain ⟨blk, hblk, -, hbeg⟩ := core_end_instr hB.core.symm hblk0
      exact ⟨blk, hblk, by simp [BasicBlock.GetFirstInst, hbeg, hbegin]⟩

theorem C2_branch_target_before_fall_through_witness :
    mkCFG streamCondSkip false 0 = some cfgCondSkip ∧
    cfgCondSkip.all_blocks[1]? = some blockCondSkip ∧
    ∃ tb, blockCondSkip.succ = [tb, 1 + 1] ∧
      match condSkipBranch.GetBranchTarget with
      | none => cfgCondSkip.exit = some tb
      | some bt => ∃ blk, cfgCondSkip.all_blocks[tb]? = some blk ∧ blk.GetFirstInst = some bt :=
  ⟨by decide, by decide,
    C2_branch_target_before_fall_through streamCondSkip false 0 cfgCondSkip 1 0
      blockCondSkip condSkipBranch (by decide) (by decide) (by decide) (by decide)
      (by decide) (by decide) (by decide) (by decide)⟩

/-- C4 (the code departs from it).  In `streamRet` the only interior block ends in a
return, an unconditional branch without target.  The claim gives it one successor, the
exit sentinel; `ConstructCFG` gives it the exit sentinel twice, once for the branch and
once by the unconditional fall-through of the last block. -/
theorem C4_last_block_return_two_successors :
    (mkCFG streamRet false 0).map
        (fun g => (g.exit, g.all_blocks.map (fun b => (b.id, b.end_instr, b.succ))))
      = some (some 2, [(65535, none, [1]), (0, some 0, [2, 2]), (65536, none, [])]) := by
  decide

/-- C3 (the code departs from it).  In `streamDeletedMiddle` two of the three
instructions are not deleted, but the one interior block has a total op count of 3: the
constructor of `BasicBlock` follows the `next` fields from the first to the last
instruction of the block and counts the deleted instruction between them. -/
theorem C3_deleted_instruction_counted :
    (nonDeleted streamDeletedMiddle).length = 2 ∧
    (ComputeBasicBlocks streamDeletedMiddle {}).map
        (fun g => g.all_blocks.map (fun b => (b.id, b.begin_instr, b.end_instr, b.total_op_count)))
      = some [(65535, none, none, 0), (0, some 0, some 2, 3), (65536, none, none, 0)] := by
  decide

/-! ## DoDFS -/

theorem SameGraph.refl (g : CFG) : SameGraph g g := ⟨rfl, rfl, rfl, rfl, rfl, rfl⟩

theorem SameGraph.trans {g g1 g2 : CFG} (h1 : SameGraph g g1) (h2 : SameGraph g1 g2) :
    SameGraph g g2 :=
  ⟨h2.1.trans h1.1, h2.2.1.trans h1.2.1, h2.2.2.1.trans h1.2.2.1,
    h2.2.2.2.1.trans h1.2.2.2.1, h2.2.2.2.2.1.trans h1.2.2.2.2.1,
    h2.2.2.2.2.2.trans h1.2.2.2.2.2⟩

theorem static_getElem? {bs bs' : List BasicBlock}
    (h : bs'.map blockStatic = bs.map blockStatic) (k : Nat) :
    (bs'[k]?).map blockStatic = (bs[k]?).map blockStatic := by
  have := congrArg (fun l => l[k]?) h
  simpa [List.getElem?_map] using this

theorem static_succAt {bs bs' : List BasicBlock}
    (h : bs'.map blockStatic = bs.map blockStatic) (k : Nat) :
    succAt bs' k = succAt bs k ∧ predAt bs' k = predAt bs k := by
  have := static_getElem? h k
  unfold succAt predAt
  cases h1 : bs'[k]? with
  | none =>
    cases h2 : bs[k]? with
    | none => simp
    | some b => rw [h1, h2] at this; simp at this
  | some b' =>
    cases h2 : bs[k]? with
    | none => rw [h1, h2] at this; simp at this
    | some b =>
      rw [h1, h2] at this
      simp only [Option.map_some', Option.some.injEq] at this
      have e1 := congrArg BasicBlock.succ this
      have e2 := congrArg BasicBlock.pred this
      simp only [blockStatic] at e1 e2
      exact ⟨e1, e2⟩

/-- Updating one block by a function that only touches flags and colour. -/
theorem updBlock_static {bs bs1 : List BasicBlock} {k : Nat} {f : BasicBlock → BasicBlock}
    (h : updBlock bs k f = some bs1) (hf : ∀ b, blockStatic (f b) = blockStatic b) :
    bs1.map blockStatic = bs.map blockStatic := by
  obtain ⟨-, -, hg⟩ := updBlock_getElem? h
  apply List.ext_getElem?
  intro i
  simp only [List.getElem?_map, hg]
  by_cases hik : i = k
  · simp only [hik, if_true, Option.map_map]
    cases bs[k]? <;> simp [hf]
  · simp [hik]

theorem updBlock_headerFlag {bs bs1 : List BasicBlock} {k : Nat} {f : BasicBlock → BasicBlock}
    (h : updBlock bs k f = some bs1) (i : Nat) :
    headerFlag bs1 i = if i = k then
        (match bs[k]? with | none => false | some b => (f b).IsLoopHeader)
      else headerFlag bs i := by
  obtain ⟨-, -, hg⟩ := updBlock_getElem? h
  unfold headerFlag
  rw [hg]
  by_cases hik : i = k
  · subst hik
    simp only [if_true]
    cases bs[i]? <;> simp
  · simp [hik]

theorem updBlock_footerFlag {bs bs1 : List BasicBlock} {k : Nat} {f : BasicBlock → BasicBlock}
    (h : updBlock bs k f = some bs1) (i : Nat) :
    footerFlag bs1 i = if i = k then
        (match bs[k]? with | none => false | some b => (f b).IsLoopFooter)
      else footerFlag bs i := by
  obtain ⟨-, -, hg⟩ := updBlock_getElem? h
  unfold footerFlag
  rw [hg]
  by_cases hik : i = k
  · subst hik
    simp only [if_true]
    cases bs[i]? <;> simp
  · simp [hik]

theorem SetPartiallyVisited_static (b : BasicBlock) :
    blockStatic b.SetPartiallyVisited = blockStatic b := rfl

theorem SetFullyVisited_static (b : BasicBlock) :
    blockStatic b.SetFullyVisited = blockStatic b := rfl

theorem SetLoopFooter_static (b : BasicBlock) :
    blockStatic b.SetLoopFooter = blockStatic b := rfl

theorem SetLoopHeader_static (b : BasicBlock) :
    blockStatic b.SetLoopHeader = blockStatic b := rfl

/-- A block update that keeps the header flags and does not clear a footer flag keeps
the loops consistent. -/
theorem LoopsOk_updBlock {g : CFG} {bs : List BasicBlock} {k : Nat}
    {f : BasicBlock → BasicBlock}
    (h : updBlock g.all_blocks k f = some bs)
    (hs : ∀ b, blockStatic (f b) = blockStatic b)
    (hh : ∀ b, (f b).IsLoopHeader = b.IsLoopHeader)
    (hf : ∀ b, b.IsLoopFooter = true → (f b).IsLoopFooter = true)
    (hinv : LoopsOk g) : LoopsOk { g with all_blocks := bs } := by
  have hstat := updBlock_static h hs
  have hhead : ∀ i, headerFlag bs i = headerFlag g.all_blocks i := by
    intro i
    rw [updBlock_headerFlag h]
    by_cases hik : i = k
    · subst hik
      simp only [if_true, headerFlag]
      cases g.all_blocks[i]? <;> simp [hh]
    · simp [hik]
  have hfoot : ∀ i, footerFlag g.all_blocks i = true → footerFlag bs i = true := by
    intro i hi
    rw [updBlock_footerFlag h]
    by_cases hik : i = k
    · subst hik
      simp only [if_true]
      unfold footerFlag at hi
      cases hb : g.all_blocks[i]? with
      | none => rw [hb] at hi; simp at hi
      | some b => rw [hb] at hi; simp only at hi ⊢; exact hf b hi
    · simp [hik, hi]
  refine ⟨?_, ?_, ?_⟩
  · intro l L hl
    obtain ⟨a1, a2, a3, a4⟩ := hinv.loop_ok l L hl
    refine ⟨a1, ?_, hfoot _ a3, ?_⟩
    · simp only; rw [hhead]; exact a2
    · simp only; rw [(static_succAt hstat _).1]; exact a4
  · intro i hi
    simp only at hi
    rw [hhead] at hi
    exact hinv.header_ok i hi
  · intro hd l hl
    exact hinv.map_ok hd l hl

theorem updLoop_getElem? {ls ls1 : List Loop} {l : Nat} {f : Loop → Loop}
    (h : updLoop ls l f = some ls1) :
    l < ls.length ∧ ls1.length = ls.length ∧
    ∀ i, ls1[i]? = if i = l then (ls[i]?).map f else ls[i]? := by
  unfold updLoop at h
  split at h
  · exact absurd h (by simp)
  · rename_i b hb
    have hk : l < ls.length := (List.getElem?_eq_some_iff.mp hb).1
    have e := (Option.some.inj h).symm
    subst e
    refine ⟨hk, by simp, ?_⟩
    intro i
    rw [List.getElem?_set]
    by_cases hik : l = i
    · subst hik; simp [hk, hb]
    · have : ¬ i = l := fun h => hik h.symm
      simp [hik, this]

theorem updLoop_ends {ls ls1 : List Loop} {l : Nat} {f : Loop → Loop}
    (h : updLoop ls l f = some ls1) (hf : ∀ L, loopEnds (f L) = loopEnds L) :
    ls1.map loopEnds = ls.map loopEnds := by
  obtain ⟨-, -, hg⟩ := updLoop_getElem? h
  apply List.ext_getElem?
  intro i
  simp only [List.getElem?_map, hg]
  by_cases hik : i = l
  · simp only [hik, if_true, Option.map_map]
    cases ls[l]? <;> simp [hf]
  · simp [hik]

theorem ends_getElem? {ls ls1 : List Loop} (h : ls1.map loopEnds = ls.map loopEnds)
    {i : Nat} {L1 : Loop} (h1 : ls1[i]? = some L1) :
    ∃ L, ls[i]? = some L ∧ L.header = L1.header ∧ L.footer = L1.footer := by
  have := congrArg (fun l => l[i]?) h
  simp only [List.getElem?_map, h1, Option.map_some'] at this
  cases h2 : ls[i]? with
  | none => rw [h2] at this; simp at this
  | some L =>
    rw [h2] at this
    simp only [Option.map_some', Option.some.injEq, loopEnds, Prod.mk.injEq] at this
    exact ⟨L, rfl, this.1.symm, this.2.symm⟩

/-- The loops stay consistent when the loop objects change without moving any header or
footer, and blocks and header map stay as they are. -/
theorem LoopsOk_of_ends {g g1 : CFG} (hinv : LoopsOk g)
    (hb : g1.all_blocks = g.all_blocks) (hm : g1.loop_header_map = g.loop_header_map)
    (he : g1.loop_store.map loopEnds = g.loop_store.map loopEnds) : LoopsOk g1 := by
  have hget : ∀ h, g1.GetLoopFromHeader h = g.GetLoopFromHeader h := by
    intro h; simp [CFG.GetLoopFromHeader, hm]
  refine ⟨?_, ?_, ?_⟩
  · intro l L1 hl
    obtain ⟨L, hL, e1, e2⟩ := ends_getElem? he hl
    have := hinv.loop_ok l L hL
    rw [hget, hb, ← e1, ← e2]
    exact this
  · intro k hk
    rw [hb] at hk
    obtain ⟨l, L, a1, a2, a3⟩ := hinv.header_ok k hk
    obtain ⟨L1, hL1, e1, -⟩ := ends_getElem? he.symm a2
    exact ⟨l, L1, by rw [hget]; exact a1, hL1, by rw [← a3, ← e1]⟩
  · intro h l hl
    rw [hget] at hl
    obtain ⟨L, a1, a2⟩ := hinv.map_ok h l hl
    obtain ⟨L1, hL1, e1, -⟩ := ends_getElem? he.symm a1
    exact ⟨L1, hL1, by rw [← a2, ← e1]⟩

theorem headerFlag_of_getElem? {bs : List BasicBlock} {k : Nat} {b : BasicBlock}
    (h : bs[k]? = some b) : headerFlag bs k = b.IsLoopHeader := by
  simp [headerFlag, h]

/-- A back edge from `bb` to a block `sc` that is no header yet: the new loop. -/
theorem backEdge_new {g g1 : CFG} {bb sc : Nat} {sb : BasicBlock}
    (hsb : g.all_blocks[sc]? = some sb) (hnh : sb.IsLoopHeader = false)
    (hedge : sc ∈ succAt g.all_blocks bb)
    (h : backEdge g bb sc sb = some g1) (hinv : LoopsOk g) :
    LoopsOk g1 ∧ SameGraph g g1 ∧
    g1.loop_store.length = g.loop_store.length + 1 ∧
    (∃ m, g1.loop_header_map = some m) := by
  unfold backEdge at h
  simp only [hnh, Bool.not_false, if_true] at h
  split at h
  · exact absurd h (by simp)
  · rename_i r g2 hg2
    split at hg2
    · rename_i bs m hbs hm
      simp only [Option.some.injEq] at hg2
      subst hg2
      split at h
      · exact absurd h (by simp)
      · rename_i bs' hbs'
        simp only [CFG.AddLoop] at hbs' h
        simp only [Option.some.injEq] at h
        subst h
        have hlookup : m.lookup sc = none := by
          cases hl : m.lookup sc with
          | none => rfl
          | some l' =>
            have hget : g.GetLoopFromHeader sc = some l' := by
              simp [CFG.GetLoopFromHeader, hm, hl]
            obtain ⟨L, hL, hLh⟩ := hinv.map_ok sc l' hget
            have := (hinv.loop_ok l' L hL).2.1
            rw [hLh, headerFlag_of_getElem? hsb, hnh] at this
            exact absurd this (by simp)
        simp only [hlookup, Option.isSome_none, Bool.false_eq_true, if_false]
        have hstat1 := updBlock_static hbs SetLoopHeader_static
        have hstat2 := updBlock_static hbs' SetLoopFooter_static
        have hstat := hstat2.trans hstat1
        have hhead : ∀ i, headerFlag bs' i = if i = sc then true else headerFlag g.all_blocks i := by
          intro i
          rw [updBlock_headerFlag hbs']
          have h1 := updBlock_headerFlag hbs i
          by_cases hib : i = bb
          · subst hib
            simp only [if_true]
            have : (match bs[i]? with
                | none => false
                | some b => b.SetLoopFooter.IsLoopHeader) = headerFlag bs i := by
              unfold headerFlag; cases bs[i]? <;> rfl
            rw [this, h1]
            by_cases his : i = sc
            · subst his; simp [hsb, BasicBlock.SetLoopHeader, BasicBlock.IsLoopHeader]
            · simp [his]
          · simp only [hib, if_false]
            rw [h1]
            by_cases his : i = sc
            · subst his; simp [hsb, BasicBlock.SetLoopHeader, BasicBlock.IsLoopHeader]
            · simp [his]
        have hfoot : ∀ i, (i = bb ∨ footerFlag g.all_blocks i = true) → footerFlag bs' i = true := by
          intro i hi
          rw [updBlock_footerFlag hbs']
          obtain ⟨hbb, -, -⟩ := updBlock_getElem? hbs'
          by_cases hib : i = bb
          · subst hib
            simp only [if_true]
            cases hx : bs[i]? with
            | none => exact absurd hx (by simp [List.getElem?_eq_none_iff]; omega)
            | some b => simp [BasicBlock.SetLoopFooter, BasicBlock.IsLoopFooter]
          · simp only [hib, if_false]
            rcases hi with hi | hi
            · exact absurd hi hib
            · rw [updBlock_footerFlag hbs]
              by_cases his : i = sc
              · subst his
                simp only [if_true, hsb]
                simp only [footerFlag, hsb] at hi
                simpa [BasicBlock.SetLoopHeader, BasicBlock.IsLoopFooter] using hi
              · simp [his, hi]
        have hgetm : ∀ hd, (m ++ [(sc, g.loop_store.length)]).lookup hd
            = (m.lookup hd).or (if hd = sc then some g.loop_store.length else none) := by
          intro hd
          rw [List.lookup_append]
          congr 1
          simp only [List.lookup_cons, List.lookup_nil]
          by_cases hds : hd = sc
          · subst hds; simp
          · have : (hd == sc) = false := by simpa using hds
            simp [this, hds]
        refine ⟨⟨?_, ?_, ?_⟩, ⟨hstat, rfl, rfl, rfl, rfl, rfl⟩, by simp, ⟨_, rfl⟩⟩
        · intro l L hl
          simp only at hl ⊢
          simp only [CFG.GetLoopFromHeader, hgetm]
          by_cases hlo : l < g.loop_store.length
          · rw [List.getElem?_append_left hlo] at hl
            obtain ⟨a1, a2, a3, a4⟩ := hinv.loop_ok l L hl
            simp only [CFG.GetLoopFromHeader, hm] at a1
            refine ⟨by simp [a1], ?_, hfoot _ (Or.inr a3), ?_⟩
            · rw [hhead]; simp [a2]
            · rw [(static_succAt hstat _).1]; exact a4
          · have hl' := hl
            rw [List.getElem?_append_right (by omega)] at hl'
            have hidx : l - g.loop_store.length = 0 := by
              by_contra hne
              have : [({ id := g.global_loop_index, header := sc, footer := bb } : Loop)][l - g.loop_store.length]? = none := by
                apply List.getElem?_eq_none; simp; omega
              rw [this] at hl'; simp at hl'
            rw [hidx] at hl'
            simp only [List.getElem?_cons_zero, Option.some.injEq] at hl'
            subst hl'
            have hleq : l = g.loop_store.length := by omega
            refine ⟨by simp [hlookup, hleq], ?_, hfoot _ (Or.inl rfl), ?_⟩
            · rw [hhead]; simp
            · rw [(static_succAt hstat _).1]; exact hedge
        · intro k hk
          simp only at hk ⊢
          rw [hhead] at hk
          simp only [CFG.GetLoopFromHeader, hgetm]
          by_cases hks : k = sc
          · subst hks
            refine ⟨g.loop_store.length, { id := g.global_loop_index, header := k, footer := bb },
              by simp [hlookup], by simp, rfl⟩
          · simp only [hks, if_false] at hk
            obtain ⟨l, L, a1, a2, a3⟩ := hinv.header_ok k hk
            simp only [CFG.GetLoopFromHeader, hm] at a1
            have hlo : l < g.loop_store.length := (List.getElem?_eq_some_iff.mp a2).1
            exact ⟨l, L, by simp [a1], by rw [List.getElem?_append_left hlo]; exact a2, a3⟩
        · intro hd l hl
          simp only [CFG.GetLoopFromHeader, hgetm] at hl
          simp only
          cases hlk : m.lookup hd with
          | some l' =>
            simp only [hlk, Option.or, Option.some.injEq] at hl
            subst hl
            obtain ⟨L, a1, a2⟩ := hinv.map_ok hd l' (by simp [CFG.GetLoopFromHeader, hm, hlk])
            have hlo : l' < g.loop_store.length := (List.getElem?_eq_some_iff.mp a1).1
            exact ⟨L, by rw [List.getElem?_append_left hlo]; exact a1, a2⟩
          | none =>
            simp only [hlk, Option.or] at hl
            by_cases hds : hd = sc
            · simp only [hds, if_true, Option.some.injEq] at hl
              subst hl
              exact ⟨{ id := g.global_loop_index, header := sc, footer := bb }, by simp, hds.symm⟩
            · simp [hds] at hl
    · exact absurd hg2 (by simp)

theorem AddFooter_ends (bb : Nat) (L : Loop) : loopEnds (L.AddFooter bb) = loopEnds L := rfl

/-- A back edge from `bb` to a block that is a header already: one more footer. -/
theorem backEdge_old {g g1 : CFG} {bb sc : Nat} {sb : BasicBlock}
    (hh : sb.IsLoopHeader = true)
    (h : backEdge g bb sc sb = some g1) (hinv : LoopsOk g) :
    LoopsOk g1 ∧ SameGraph g g1 ∧
    g1.loop_store.length = g.loop_store.length ∧
    g1.loop_header_map = g.loop_header_map := by
  unfold backEdge at h
  simp only [hh, Bool.not_true, Bool.false_eq_true, if_false] at h
  split at h
  · exact absurd h (by simp)
  · rename_i r g2 hg2
    split at hg2
    · exact absurd hg2 (by simp)
    · rename_i l hl
      split at hg2
      · exact absurd hg2 (by simp)
      · rename_i ls hls
        simp only [Option.some.injEq] at hg2
        subst hg2
        split at h
        · exact absurd h (by simp)
        · rename_i bs' hbs'
          simp only [Option.some.injEq] at h
          subst h
          simp only at hbs'
          have hends := updLoop_ends hls (AddFooter_ends bb)
          have h2 : LoopsOk { g with loop_store := ls } :=
            LoopsOk_of_ends hinv rfl rfl hends
          have h3 := LoopsOk_updBlock (g := { g with loop_store := ls }) hbs'
            SetLoopFooter_static (fun _ => rfl)
            (fun b _ => by simp [BasicBlock.SetLoopFooter, BasicBlock.IsLoopFooter]) h2
          have hstat := updBlock_static hbs' SetLoopFooter_static
          obtain ⟨-, hlen, -⟩ := updLoop_getElem? hls
          exact ⟨h3, ⟨hstat, rfl, rfl, rfl, rfl, rfl⟩, hlen, rfl⟩

theorem backEdge_new_store {g g1 : CFG} {bb sc : Nat} {sb : BasicBlock}
    (hnh : sb.IsLoopHeader = false) (h : backEdge g bb sc sb = some g1) :
    g1.loop_store = g.loop_store ++ [{ id := g.global_loop_index, header := sc, footer := bb }] ∧
    g1.loops = some (g.loops.getD [] ++ [g.loop_store.length]) := by
  unfold backEdge at h
  simp only [hnh, Bool.not_false, if_true] at h
  split at h
  · exact absurd h (by simp)
  · rename_i r g2 hg2
    split at hg2
    · simp only [Option.some.injEq] at hg2
      subst hg2
      split at h
      · exact absurd h (by simp)
      · simp only [Option.some.injEq] at h
        subst h
        exact ⟨rfl, rfl⟩
    · exact absurd hg2 (by simp)

theorem backEdge_old_store {g g1 : CFG} {bb sc : Nat} {sb : BasicBlock}
    (hh : sb.IsLoopHeader = true) (h : backEdge g bb sc sb = some g1) :
    (∃ l, updLoop g.loop_store l (fun x => x.AddFooter bb) = some g1.loop_store) ∧
    g1.loops = g.loops := by
  unfold backEdge at h
  simp only [hh, Bool.not_true, Bool.false_eq_true, if_false] at h
  split at h
  · exact absurd h (by simp)
  · rename_i r g2 hg2
    split at hg2
    · exact absurd hg2 (by simp)
    · rename_i l hl
      split at hg2
      · exact absurd hg2 (by simp)
      · rename_i ls hls
        simp only [Option.some.injEq] at hg2
        subst hg2
        split at h
        · exact absurd h (by simp)
        · simp only [Option.some.injEq] at h
          subst h
          exact ⟨⟨l, hls⟩, rfl⟩

theorem updLoop_forall {ls ls1 : List Loop} {l : Nat} {f : Loop → Loop} {P : Loop → Prop}
    (h : updLoop ls l f = some ls1) (hf : ∀ L, P L → P (f L)) (h0 : ∀ L ∈ ls, P L) :
    ∀ L ∈ ls1, P L := by
  obtain ⟨-, -, hg⟩ := updLoop_getElem? h
  intro L hL
  obtain ⟨i, hi, hget⟩ := List.getElem_of_mem hL
  have h1 : ls1[i]? = some L := by rw [List.getElem?_eq_getElem hi, hget]
  rw [hg] at h1
  by_cases hil : i = l
  · simp only [hil, if_true] at h1
    cases hx : ls[l]? with
    | none => rw [hx] at h1; simp at h1
    | some x =>
      rw [hx] at h1
      simp only [Option.map_some', Option.some.injEq] at h1
      subst h1
      obtain ⟨hlt, hget'⟩ := List.getElem?_eq_some_iff.mp hx
      exact hf x (h0 x (hget' ▸ List.getElem_mem hlt))
  · simp only [hil, if_false] at h1
    obtain ⟨hlt, hget'⟩ := List.getElem?_eq_some_iff.mp h1
    exact h0 L (hget' ▸ List.getElem_mem hlt)

/-- A back edge keeps the invariant of the search. -/
theorem backEdge_inv {g g1 : CFG} {bb sc : Nat} {sb : BasicBlock}
    (hsb : g.all_blocks[sc]? = some sb) (hedge : sc ∈ succAt g.all_blocks bb)
    (h : backEdge g bb sc sb = some g1) (hinv : DfsInv g) :
    DfsInv g1 ∧ SameGraph g g1 := by
  cases hh : sb.IsLoopHeader
  · obtain ⟨a1, a2, a3, a4⟩ := backEdge_new hsb hh hedge h hinv.ok
    obtain ⟨s1, s2⟩ := backEdge_new_store hh h
    refine ⟨⟨a1, a4, ?_, ?_⟩, a2⟩
    · intro L hL
      rw [s1] at hL
      simp only [List.mem_append, List.mem_singleton] at hL
      rcases hL with hL | hL
      · exact hinv.fresh L hL
      · subst hL; exact ⟨rfl, rfl, rfl, rfl, rfl⟩
    · rw [s2, s1]
      simp [hinv.listed, List.range_succ]
  · obtain ⟨a1, a2, a3, a4⟩ := backEdge_old hh h hinv.ok
    obtain ⟨⟨l, s1⟩, s2⟩ := backEdge_old_store hh h
    refine ⟨⟨a1, by rw [a4]; exact hinv.map, ?_, ?_⟩, a2⟩
    · exact updLoop_forall s1 (fun L hL => hL) hinv.fresh
    · rw [s2, a3]; exact hinv.listed

theorem DfsInv_updBlock {g : CFG} {bs : List BasicBlock} {k : Nat}
    {f : BasicBlock → BasicBlock}
    (h : updBlock g.all_blocks k f = some bs)
    (hs : ∀ b, blockStatic (f b) = blockStatic b)
    (hh : ∀ b, (f b).IsLoopHeader = b.IsLoopHeader)
    (hf : ∀ b, b.IsLoopFooter = true → (f b).IsLoopFooter = true)
    (hinv : DfsInv g) :
    DfsInv { g with all_blocks := bs } ∧ SameGraph g { g with all_blocks := bs } :=
  ⟨⟨LoopsOk_updBlock h hs hh hf hinv.ok, hinv.map, hinv.fresh, hinv.listed⟩,
    ⟨updBlock_static h hs, rfl, rfl, rfl, rfl, rfl⟩⟩

theorem dfsSuccs_inv {rec : CFG → Nat → Option CFG} {bb : Nat}
    (hrec : ∀ g sc g', rec g sc = some g' → DfsInv g → DfsInv g' ∧ SameGraph g g') :
    ∀ (list : List Nat) (g g' : CFG), (∀ sc ∈ list, sc ∈ succAt g.all_blocks bb) →
      dfsSuccs rec bb list g = some g' → DfsInv g → DfsInv g' ∧ SameGraph g g' := by
  intro list
  induction list with
  | nil =>
    intro g g' _ h hinv
    simp only [dfsSuccs, Option.some.injEq] at h
    subst h
    exact ⟨hinv, SameGraph.refl g⟩
  | cons sc rest ih =>
    intro g g' hmem h hinv
    simp only [dfsSuccs] at h
    split at h
    · exact absurd h (by simp)
    · rename_i sb hsb
      split at h
      · exact absurd h (by simp)
      · rename_i g1 hg1
        have h1 : DfsInv g1 ∧ SameGraph g g1 := by
          split at hg1
          · exact backEdge_inv hsb (hmem sc (by simp)) hg1 hinv
          · simp only [Option.some.injEq] at hg1
            subst hg1
            exact ⟨hinv, SameGraph.refl g⟩
        split at h
        · exact absurd h (by simp)
        · rename_i sb1 hsb1
          split at h
          · exact absurd h (by simp)
          · rename_i g2 hg2
            have h2 : DfsInv g2 ∧ SameGraph g1 g2 := by
              split at hg2
              · exact hrec _ _ _ hg2 h1.1
              · simp only [Option.some.injEq] at hg2
                subst hg2
                exact ⟨h1.1, SameGraph.refl g1⟩
            have hsame := h1.2.trans h2.2
            have hmem2 : ∀ x ∈ rest, x ∈ succAt g2.all_blocks bb := by
              intro x hx
              rw [(static_succAt hsame.1 bb).1]
              exact hmem x (by simp [hx])
            obtain ⟨h3, h4⟩ := ih g2 g' hmem2 h h2.1
            exact ⟨h3, hsame.trans h4⟩

/-- The depth-first search keeps the loops consistent and does not touch the graph. -/
theorem DoDFS_inv : ∀ (fuel : Nat) (g : CFG) (bb : Nat) (g' : CFG),
    DoDFS fuel g bb = some g' → DfsInv g → DfsInv g' ∧ SameGraph g g' := by
  intro fuel
  induction fuel with
  | zero => intro g bb g' h; simp [DoDFS] at h
  | succ fuel ih =>
    intro g bb g' h hinv
    simp only [DoDFS] at h
    split at h
    · exact absurd h (by simp)
    · rename_i b hb
      split at h
      · exact absurd h (by simp)
      · split at h
        · simp only [Option.some.injEq] at h
          subst h
          exact ⟨hinv, SameGraph.refl g⟩
        · split at h
          · exact absurd h (by simp)
          · rename_i bs hbs
            have h1 : DfsInv { g with all_blocks := bs } ∧
                SameGraph g { g with all_blocks := bs } := by
              split at hbs
              · exact DfsInv_updBlock hbs SetPartiallyVisited_static (fun _ => rfl)
                  (fun _ hb => hb) hinv
              · simp only [Option.some.injEq] at hbs
                subst hbs
                exact ⟨hinv, SameGraph.refl g⟩
            split at h
            · exact absurd h (by simp)
            · rename_i g2 hg2
              have hmem : ∀ sc ∈ b.succ,
                  sc ∈ succAt ({ g with all_blocks := bs } : CFG).all_blocks bb := by
                intro sc hsc
                rw [(static_succAt h1.2.1 bb).1, succAt_of_getElem? hb]
                exact hsc
              obtain ⟨h2, h3⟩ := dfsSuccs_inv (ih) b.succ _ g2 hmem hg2 h1.1
              split at h
              · exact absurd h (by simp)
              · rename_i bs2 hbs2
                simp only [Option.some.injEq] at h
                subst h
                obtain ⟨h4, h5⟩ := DfsInv_updBlock hbs2 SetFullyVisited_static (fun _ => rfl)
                  (fun _ hb => hb) h2
                exact ⟨h4, (h1.2.trans h3).trans h5⟩

/-! ## ConstructNatLoop -/

theorem mem_natInsert {N : List Nat} {p x : Nat} : x ∈ natInsert N p ↔ x ∈ N ∨ x = p := by
  unfold natInsert
  split
  · rename_i hp
    constructor
    · intro h; exact Or.inl h
    · intro h
      rcases h with h | h
      · exact h
      · subst h; exact hp
  · simp

theorem natEdge_mono {bs : List BasicBlock} {N N' : List Nat} (h : ∀ x ∈ N, x ∈ N')
    {a b : Nat} (he : natEdge bs N a b) : natEdge bs N' a b :=
  ⟨h a he.1, h b he.2.1, he.2.2⟩

/-- Inserting the header, or a block with a successor in the set, keeps `NatInv`. -/
theorem NatInv_insert {bs : List BasicBlock} {L : Loop} {p : Nat} (h : NatInv bs L)
    (hp : p = L.header ∨ ∃ bb ∈ L.nat_loop, bb ∈ succAt bs p) :
    NatInv bs { L with nat_loop := natInsert L.nat_loop p } := by
  intro b hb
  simp only at hb ⊢
  have hsub : ∀ x ∈ L.nat_loop, x ∈ natInsert L.nat_loop p :=
    fun x hx => mem_natInsert.mpr (Or.inl hx)
  have hold : ∀ x ∈ L.nat_loop,
      Relation.ReflTransGen (natEdge bs (natInsert L.nat_loop p)) x L.header :=
    fun x hx => Relation.ReflTransGen.mono (fun _ _ he => natEdge_mono hsub he) (h x hx)
  rcases mem_natInsert.mp hb with hb | hb
  · exact hold b hb
  · subst hb
    rcases hp with hp | ⟨bb, hbb, hs⟩
    · rw [hp]
    · exact Relation.ReflTransGen.head
        ⟨mem_natInsert.mpr (Or.inr rfl), hsub bb hbb, hs⟩ (hold bb hbb)

theorem Mirror.succ_of_pred {bs : List BasicBlock} (hm : Mirror bs) {p b : Nat}
    (h : p ∈ predAt bs b) : b ∈ succAt bs p := by
  have := hm p b
  have hpos : 0 < (predAt bs b).count p := List.count_pos_iff.mpr h
  rw [← this] at hpos
  exact List.count_pos_iff.mp hpos

theorem Mirror_of_static {bs bs' : List BasicBlock}
    (h : bs'.map blockStatic = bs.map blockStatic) (hm : Mirror bs) : Mirror bs' := by
  intro a b
  rw [(static_succAt h a).1, (static_succAt h b).2]
  exact hm a b

theorem set_forall {α : Type} {ls : List α} {l : Nat} {x : α} {P : α → Prop}
    (h : ∀ y ∈ ls, P y) (hx : P x) : ∀ y ∈ ls.set l x, P y := by
  intro y hy
  rcases List.mem_or_eq_of_mem_set hy with hy | hy
  · exact h y hy
  · subst hy; exact hx

theorem set_map_eq {α β : Type} {ls : List α} {l : Nat} {x y : α} (f : α → β)
    (hl : ls[l]? = some x) (hf : f y = f x) : (ls.set l y).map f = ls.map f := by
  apply List.ext_getElem?
  intro i
  simp only [List.getElem?_map, List.getElem?_set]
  by_cases hil : l = i
  · subst hil
    have hlt : l < ls.length := (List.getElem?_eq_some_iff.mp hl).1
    simp [hlt, hl, hf]
  · simp [hil]

theorem getElem?_set_self' {α : Type} {ls : List α} {l : Nat} {x y : α}
    (hl : ls[l]? = some x) : (ls.set l y)[l]? = some y := by
  have hlt : l < ls.length := (List.getElem?_eq_some_iff.mp hl).1
  rw [List.getElem?_set]; simp [hlt]

/-- The loop over the predecessors of the popped block `bb` keeps the invariant. -/
theorem natLoopPreds_inv {bs : List BasicBlock} {ls0 : List Loop} {l bb : Nat} :
    ∀ (preds : List Nat) (st st' : NatLoopState),
      (∀ p ∈ preds, bb ∈ succAt bs p) →
      NatState bs ls0 l { st with stack := bb :: st.stack } →
      natLoopPreds bs l preds st = some st' →
      NatState bs ls0 l { st' with stack := bb :: st'.stack } := by
  intro preds
  induction preds with
  | nil =>
    intro st st' _ hinv h
    simp only [natLoopPreds, Option.some.injEq] at h
    subst h; exact hinv
  | cons pred rest ih =>
    intro st st' hmem hinv h
    simp only [natLoopPreds] at h
    split at h
    · exact absurd h (by simp)
    · rename_i this hthis
      have hrest : ∀ p ∈ rest, bb ∈ succAt bs p := fun p hp => hmem p (by simp [hp])
      split at h
      · exact ih st st' hrest hinv h
      · split at h
        · exact absurd h (by simp)
        · rename_i pb hpb
          refine ih _ st' hrest ?_ h
          obtain ⟨hall, hends, this', hthis', hhead, hstack⟩ := hinv
          simp only at hall hends hthis' hstack
          rw [hthis] at hthis'
          have e := Option.some.inj hthis'
          subst e
          have hbbin : bb ∈ this.nat_loop := hstack bb (by simp)
          refine ⟨?_, ?_, ?_⟩
          · simp only
            exact set_forall hall
              (NatInv_insert (hall this (by
                obtain ⟨hlt, hget⟩ := List.getElem?_eq_some_iff.mp hthis
                exact hget ▸ List.getElem_mem hlt))
                (Or.inr ⟨bb, hbbin, hmem pred (by simp)⟩))
          · simp only
            refine (set_map_eq loopEnds hthis ?_).trans hends
            rfl
          · refine ⟨_, getElem?_set_self' hthis, mem_natInsert.mpr (Or.inl hhead), ?_⟩
            intro x hx
            simp only [List.mem_cons] at hx
            apply mem_natInsert.mpr
            rcases hx with hx | hx | hx
            · exact Or.inl (hx ▸ hbbin)
            · exact Or.inr hx
            · exact Or.inl (hstack x (by simp [hx]))

theorem NatInv_of_shape {bs : List BasicBlock} {L L' : Loop}
    (h : loopShape L' = loopShape L) (hn : NatInv bs L) : NatInv bs L' := by
  simp only [loopShape, Prod.mk.injEq] at h
  obtain ⟨h1, -, h3⟩ := h
  intro b hb
  rw [h3] at hb ⊢
  rw [h1]
  exact hn b hb

theorem ends_of_shape {L L' : Loop} (h : loopShape L' = loopShape L) :
    loopEnds L' = loopEnds L := by
  simp only [loopShape, Prod.mk.injEq] at h
  simp [loopEnds, h.1, h.2.1]

/-- An update of one loop object that keeps header, footer and natural-loop set keeps
the invariant of `ConstructNatLoop`. -/
theorem updLoop_natState {bs : List BasicBlock} {ls0 ls1 : List Loop} {l k : Nat}
    {st : NatLoopState} {f : Loop → Loop}
    (h : updLoop st.ls k f = some ls1) (hf : ∀ L, loopShape (f L) = loopShape L)
    (hinv : NatState bs ls0 l st) : NatState bs ls0 l { st with ls := ls1 } := by
  obtain ⟨hall, hends, this, hthis, hhead, hstack⟩ := hinv
  obtain ⟨-, -, hg⟩ := updLoop_getElem? h
  refine ⟨?_, ?_, ?_⟩
  · exact updLoop_forall h (fun L hL => NatInv_of_shape (hf L) hL) hall
  · exact (updLoop_ends h (fun L => ends_of_shape (hf L))).trans hends
  · by_cases hlk : l = k
    · subst hlk
      refine ⟨f this, by simp only; rw [hg]; simp [hthis], ?_, ?_⟩
      · have := hf this
        simp only [loopShape, Prod.mk.injEq] at this
        rw [this.1, this.2.2]; exact hhead
      · intro x hx
        have := hf this
        simp only [loopShape, Prod.mk.injEq] at this
        rw [this.2.2]; exact hstack x hx
    · exact ⟨this, by simp only; rw [hg]; simp [hlk, hthis], hhead, hstack⟩

theorem natLoopNested_inv {bs : List BasicBlock} {ls0 ls1 : List Loop} {l bb : Nat}
    {m : List (Nat × Nat)} {b : BasicBlock} {st : NatLoopState}
    (h : natLoopNested m l bb b st.ls = some ls1) (hinv : NatState bs ls0 l st) :
    NatState bs ls0 l { st with ls := ls1 } := by
  unfold natLoopNested at h
  split at h
  · split at h
    · exact absurd h (by simp)
    · split at h
      · exact absurd h (by simp)
      · split at h
        · exact absurd h (by simp)
        · split at h
          · exact absurd h (by simp)
          · split at h
            · split at h
              · exact absurd h (by simp)
              · rename_i ls' hls'
                have h1 := updLoop_natState hls' (fun _ => rfl) hinv
                have h2 : NatState bs ls0 l
                    { ({ st with ls := ls' } : NatLoopState) with ls := ls1 } :=
                  updLoop_natState h (fun _ => rfl) h1
                exact h2
            · simp only [Option.some.injEq] at h
              subst h; exact hinv
  · simp only [Option.some.injEq] at h
    subst h; exact hinv

theorem NatState_pop {bs : List BasicBlock} {ls0 : List Loop} {l bb : Nat}
    {st : NatLoopState} (h : NatState bs ls0 l { st with stack := bb :: st.stack }) :
    NatState bs ls0 l st := by
  obtain ⟨hall, hends, this, hthis, hhead, hstack⟩ := h
  exact ⟨hall, hends, this, hthis, hhead, fun x hx => hstack x (by simp [hx])⟩

theorem predAt_of_getElem? {bs : List BasicBlock} {k : Nat} {b : BasicBlock}
    (h : bs[k]? = some b) : predAt bs k = b.pred := by
  simp [predAt, h]

/-- The `while` loop of `ConstructNatLoop` keeps the invariant. -/
theorem natLoopWhile_inv {bs : List BasicBlock} {ls0 : List Loop} {l : Nat}
    {m : List (Nat × Nat)} (hm : Mirror bs) :
    ∀ (fuel : Nat) (st st' : NatLoopState), NatState bs ls0 l st →
      natLoopWhile bs m l fuel st = some st' → NatState bs ls0 l st' := by
  intro fuel
  induction fuel with
  | zero =>
    intro st st' hinv h
    unfold natLoopWhile at h
    split at h
    · simp only [Option.some.injEq] at h; subst h; exact hinv
    · simp at h
  | succ fuel ih =>
    intro st st' hinv h
    unfold natLoopWhile at h
    split at h
    · simp only [Option.some.injEq] at h; subst h; exact hinv
    · rename_i bb stack hstack
      simp only at h
      split at h
      · exact absurd h (by simp)
      · rename_i b hb
        split at h
        · exact absurd h (by simp)
        · rename_i ls1 hls1
          split at h
          · exact absurd h (by simp)
          · rename_i st1 hst1
            have h1 := natLoopNested_inv hls1 hinv
            have h1' : NatState bs ls0 l
                { ({ ls := ls1, stack := stack, num := st.num } : NatLoopState) with
                  stack := bb :: stack } := by
              simpa [hstack] using h1
            have hmem : ∀ p ∈ b.pred, bb ∈ succAt bs p := by
              intro p hp
              apply hm.succ_of_pred
              rw [predAt_of_getElem? hb]; exact hp
            have h2 := natLoopPreds_inv b.pred _ st1 hmem h1' hst1
            exact ih st1 st' (NatState_pop h2) h

theorem mem_of_getElem?' {α : Type} {ls : List α} {i : Nat} {x : α} (h : ls[i]? = some x) :
    x ∈ ls := by
  obtain ⟨hlt, hget⟩ := List.getElem?_eq_some_iff.mp h
  exact hget ▸ List.getElem_mem hlt

/-- One call of `ConstructNatLoop` changes the loop objects only, moves no header or
footer, and leaves every natural-loop set such that its blocks reach the header inside
the set. -/
theorem ConstructNatLoop_inv {g g1 : CFG} {l : Nat} (h : ConstructNatLoop g l = some g1)
    (hinv : NatPhase g) :
    NatPhase g1 ∧ g1 = { g with loop_store := g1.loop_store } ∧
    g1.loop_store.map loopEnds = g.loop_store.map loopEnds := by
  unfold ConstructNatLoop at h
  split at h
  · rename_i m this hm hthis
    split at h
    · exact absurd h (by simp)
    · rename_i hb hhb
      simp only at h
      split at h
      · exact absurd h (by simp)
      · rename_i st hst
        have hthisN : NatInv g.all_blocks this := hinv.nat this (mem_of_getElem?' hthis)
        have hN1 : NatInv g.all_blocks
            { this with nat_loop := natInsert this.nat_loop this.header } :=
          NatInv_insert hthisN (Or.inl rfl)
        have hedge : this.header ∈ succAt g.all_blocks this.footer :=
          (hinv.ok.loop_ok l this hthis).2.2.2
        have hstate : NatState g.all_blocks g.loop_store l st := by
          split at hst
          · simp only [Option.some.injEq] at hst
            subst hst
            refine ⟨set_forall hinv.nat hN1, ?_, _, getElem?_set_self' hthis,
              mem_natInsert.mpr (Or.inr rfl), by simp⟩
            refine (set_map_eq loopEnds hthis ?_)
            rfl
          · split at hst
            · exact absurd hst (by simp)
            · simp only [Option.some.injEq] at hst
              subst hst
              have hN2 := NatInv_insert (p := this.footer) hN1
                (Or.inr ⟨this.header, mem_natInsert.mpr (Or.inr rfl), hedge⟩)
              refine ⟨set_forall hinv.nat hN2, ?_, _, getElem?_set_self' hthis,
                mem_natInsert.mpr (Or.inl (mem_natInsert.mpr (Or.inr rfl))), ?_⟩
              · refine (set_map_eq loopEnds hthis ?_)
                rfl
              · intro x hx
                simp only [List.mem_singleton] at hx
                exact mem_natInsert.mpr (Or.inr hx)
        split at h
        · exact absurd h (by simp)
        · rename_i st1 hst1
          have h1 := natLoopWhile_inv hinv.mirror _ st st1 hstate hst1
          split at h
          · exact absurd h (by simp)
          · rename_i ls2 hls2
            simp only [Option.some.injEq] at h
            subst h
            have h2 := updLoop_natState hls2 (fun _ => rfl) h1
            refine ⟨⟨?_, hinv.map, hinv.mirror, h2.all⟩, rfl, h2.ends⟩
            exact LoopsOk_of_ends hinv.ok rfl rfl h2.ends
  · exact absurd h (by simp)

theorem natLoopsFor_inv : ∀ (ptrs : List Nat) (g g1 : CFG),
    natLoopsFor ptrs g = some g1 → NatPhase g →
    NatPhase g1 ∧ g1 = { g with loop_store := g1.loop_store } ∧
    g1.loop_store.map loopEnds = g.loop_store.map loopEnds := by
  intro ptrs
  induction ptrs with
  | nil =>
    intro g g1 h hinv
    simp only [natLoopsFor, Option.some.injEq] at h
    subst h
    exact ⟨hinv, rfl, rfl⟩
  | cons l rest ih =>
    intro g g1 h hinv
    simp only [natLoopsFor] at h
    split at h
    · exact absurd h (by simp)
    · rename_i g2 hg2
      obtain ⟨a1, a2, a3⟩ := ConstructNatLoop_inv hg2 hinv
      obtain ⟨b1, b2, b3⟩ := ih g2 g1 h a1
      refine ⟨b1, ?_, b3.trans a3⟩
      rw [b2, a2]

/-! ## The last parts of DetectLoops -/

theorem nestingPass_shape : ∀ (ptrs : List Nat) (ls ls1 : List Loop) (ch ch1 : Bool),
    nestingPass ptrs ls ch = some (ls1, ch1) → ls1.map loopShape = ls.map loopShape := by
  intro ptrs
  induction ptrs with
  | nil =>
    intro ls ls1 ch ch1 h
    simp only [nestingPass, Option.some.injEq, Prod.mk.injEq] at h
    rw [h.1]
  | cons p rest ih =>
    intro ls ls1 ch ch1 h
    simp only [nestingPass] at h
    split at h
    · exact absurd h (by simp)
    · rename_i loop hloop
      split at h
      · exact ih _ _ _ _ h
      · split at h
        · exact absurd h (by simp)
        · have := ih _ _ _ _ h
          rw [this]
          exact set_map_eq loopShape hloop rfl

theorem nestingFix_shape {ptrs : List Nat} : ∀ (fuel : Nat) (ls ls1 : List Loop),
    nestingFix ptrs fuel ls = some ls1 → ls1.map loopShape = ls.map loopShape := by
  intro fuel
  induction fuel with
  | zero => intro ls ls1 h; simp [nestingFix] at h
  | succ fuel ih =>
    intro ls ls1 h
    simp only [nestingFix] at h
    split at h
    · exact absurd h (by simp)
    · rename_i ls2 ch hpass
      have h1 := nestingPass_shape _ _ _ _ _ hpass
      split at h
      · exact (ih _ _ h).trans h1
      · simp only [Option.some.injEq] at h
        subst h; exact h1

theorem unrollFor_shape {ufactors : List Nat} : ∀ (ptrs : List Nat) (ls ls1 : List Loop),
    unrollFor ufactors ptrs ls = some ls1 →
    ls1.map loopShape = ls.map loopShape ∧
    ls1.map Loop.GetNestingLevel = ls.map Loop.GetNestingLevel := by
  intro ptrs
  induction ptrs with
  | nil =>
    intro ls ls1 h
    simp only [unrollFor, Option.some.injEq] at h
    subst h; exact ⟨rfl, rfl⟩
  | cons p rest ih =>
    intro ls ls1 h
    simp only [unrollFor] at h
    split at h
    · exact absurd h (by simp)
    · rename_i loop hloop
      split at h
      · exact absurd h (by simp)
      · rename_i ufactor huf
        obtain ⟨a1, a2⟩ := ih _ _ h
        constructor
        · rw [a1]
          refine set_map_eq loopShape hloop ?_
          split <;> rfl
        · rw [a2]
          refine set_map_eq Loop.GetNestingLevel hloop ?_
          split <;> rfl

theorem eraseInner_eq_filter {ls : List Loop} : ∀ (ptrs kept : List Nat),
    eraseInner ls ptrs = some kept →
    kept = ptrs.filter (fun p => levelAt ls p == some 0) := by
  intro ptrs
  induction ptrs with
  | nil => intro kept h; simp only [eraseInner, Option.some.injEq] at h; subst h; rfl
  | cons p rest ih =>
    intro kept h
    simp only [eraseInner] at h
    split at h
    · rename_i loop kept' hloop hkept'
      have := ih kept' hkept'
      have hlev : levelAt ls p = some loop.GetNestingLevel := by simp [levelAt, hloop]
      by_cases hz : loop.GetNestingLevel = 0
      · simp only [hz, bne_self_eq_false, Bool.false_eq_true, if_false, Option.some.injEq] at h
        subst h
        rw [List.filter_cons_of_pos (by simp [hlev, hz]), this]
      · have hne : (loop.GetNestingLevel != 0) = true := by simpa using hz
        simp only [hne, if_true, Option.some.injEq] at h
        subst h
        rw [List.filter_cons_of_neg (by simp [hlev, hz]), this]
    · exact absurd h (by simp)

theorem shape_getElem? {ls ls1 : List Loop} (h : ls1.map loopShape = ls.map loopShape)
    {i : Nat} {L1 : Loop} (h1 : ls1[i]? = some L1) :
    ∃ L, ls[i]? = some L ∧ loopShape L1 = loopShape L := by
  have := congrArg (fun l => l[i]?) h
  simp only [List.getElem?_map, h1, Option.map_some'] at this
  cases h2 : ls[i]? with
  | none => rw [h2] at this; simp at this
  | some L =>
    rw [h2] at this
    simp only [Option.map_some', Option.some.injEq] at this
    exact ⟨L, rfl, this⟩

theorem ends_of_shape_map {ls ls1 : List Loop} (h : ls1.map loopShape = ls.map loopShape) :
    ls1.map loopEnds = ls.map loopEnds := by
  have : loopEnds = (fun x : Nat × Nat × List Nat => (x.1, x.2.1)) ∘ loopShape := by
    funext L; rfl
  rw [this, ← List.map_map, ← List.map_map, h]

theorem NatPhase_of_shape {g g1 : CFG} (hinv : NatPhase g)
    (hb : g1.all_blocks = g.all_blocks) (hm : g1.loop_header_map = g.loop_header_map)
    (hs : g1.loop_store.map loopShape = g.loop_store.map loopShape) : NatPhase g1 := by
  refine ⟨LoopsOk_of_ends hinv.ok hb hm (ends_of_shape_map hs), by rw [hm]; exact hinv.map,
    by rw [hb]; exact hinv.mirror, ?_⟩
  intro L1 hL1
  obtain ⟨i, hi, hget⟩ := List.getElem_of_mem hL1
  have h1 : g1.loop_store[i]? = some L1 := by rw [List.getElem?_eq_getElem hi, hget]
  obtain ⟨L, hL, hshape⟩ := shape_getElem? hs h1
  rw [hb]
  exact NatInv_of_shape hshape (hinv.nat L (mem_of_getElem?' hL))

theorem headerFlag_of_fresh {s : List Instruction} {u : Bool} {gli : Nat} {g g1 : CFG}
    {segs : List (List (Nat × Instruction))} (hb : Built s u gli g g1 segs) (k : Nat) :
    headerFlag g1.all_blocks k = false := by
  unfold headerFlag
  cases h1 : g1.all_blocks[k]? with
  | none => rfl
  | some b =>
    have := core_getElem? hb.core k
    rw [h1] at this
    cases h0 : g.all_blocks[k]? with
    | none => rw [h0] at this; simp at this
    | some b0 =>
      rw [h0] at this
      simp only [Option.map_some', Option.some.injEq] at this
      have e := congrArg BasicBlock.loop_header this
      simp only [blockCore] at e
      have := (hb.fresh b0 (mem_of_getElem?' h0)).2.2.1
      simp only [BasicBlock.IsLoopHeader, e, this]

/-- The search for back edges, started on a freshly built CFG. -/
theorem detectBackEdges_inv {s : List Instruction} {u : Bool} {gli : Nat} {g g1 gd : CFG}
    {segs : List (List (Nat × Instruction))} (hb : Built s u gli g g1 segs)
    (h : detectBackEdges g1 = some gd) : DfsInv gd ∧ SameGraph g1 gd := by
  unfold detectBackEdges at h
  split at h
  · split at h
    · exact absurd h (by simp)
    · have hinit : DfsInv { g1 with loop_header_map := some [] } := by
        refine ⟨⟨?_, ?_, ?_⟩, ⟨[], rfl⟩, ?_, ?_⟩
        · intro l L hl
          simp [hb.loop_store] at hl
        · intro k hk
          simp only at hk
          rw [headerFlag_of_fresh hb] at hk
          exact absurd hk (by simp)
        · intro hd l hl
          simp [CFG.GetLoopFromHeader] at hl
        · intro L hL
          simp [hb.loop_store] at hL
        · simp [hb.loops, hb.loop_store]
      obtain ⟨a1, a2⟩ := DoDFS_inv _ _ _ _ h hinit
      exact ⟨a1, SameGraph.trans ⟨rfl, rfl, rfl, rfl, rfl, rfl⟩ a2⟩
  · exact absurd h (by simp)

theorem levelAt_of_map {ls ls1 : List Loop}
    (h : ls1.map Loop.GetNestingLevel = ls.map Loop.GetNestingLevel) (p : Nat) :
    levelAt ls1 p = levelAt ls p := by
  have := congrArg (fun l => l[p]?) h
  simp only [List.getElem?_map] at this
  unfold levelAt
  cases h1 : ls1[p]? <;> cases h2 : ls[p]? <;> rw [h1, h2] at this <;> simp at this ⊢
  exact this

/-- What `DetectLoops` leaves on a freshly built CFG `g1`: `gd` is the CFG after the
search for back edges and `ptrs` its loop list, which holds every loop object in the
order of discovery. -/
theorem DetectLoops_spec {s : List Instruction} {u : Bool} {gli : Nat} {g g1 g' : CFG}
    {segs : List (List (Nat × Instruction))} {fuel : Nat} {uconf : Nat → Option (List Nat)}
    (hb : Built s u gli g g1 segs) (h : DetectLoops fuel uconf g1 = some g') :
    ∃ gd ptrs, detectBackEdges g1 = some gd ∧ gd.loops = some ptrs ∧
      ptrs = List.range gd.loop_store.length ∧
      NatPhase g' ∧ g'.all_blocks = gd.all_blocks ∧ SameGraph g1 g' ∧
      g'.loop_store.map loopEnds = gd.loop_store.map loopEnds ∧
      g'.loops = some (ptrs.filter (fun p => levelAt g'.loop_store p == some 0)) := by
  unfold DetectLoops at h
  split at h
  · exact absurd h (by simp)
  · rename_i gd hgd
    obtain ⟨hdfs, hsame⟩ := detectBackEdges_inv hb hgd
    have hphase : NatPhase gd := by
      refine ⟨hdfs.ok, hdfs.map, Mirror_of_static hsame.1 hb.mirror, ?_⟩
      intro L hL b hbm
      rw [(hdfs.fresh L hL).1] at hbm
      simp at hbm
    split at h
    · exact absurd h (by simp)
    · rename_i g2 hg2
      unfold constructNatLoops at hg2
      split at hg2
      · exact absurd hg2 (by simp)
      · rename_i ptrs hptrs
        have hrange : ptrs = List.range gd.loop_store.length := by
          have := hdfs.listed
          rw [hptrs] at this
          simpa using this
        obtain ⟨a1, a2, a3⟩ := natLoopsFor_inv ptrs gd g2 hg2 hphase
        have hloops2 : g2.loops = some ptrs := by rw [a2]; exact hptrs
        split at h
        · exact absurd h (by simp)
        · rename_i g3 hg3
          unfold adjustNesting at hg3
          rw [hloops2] at hg3
          simp only at hg3
          split at hg3
          · exact absurd hg3 (by simp)
          · rename_i ls3 hls3
            simp only [Option.some.injEq] at hg3
            subst hg3
            have hshape3 := nestingFix_shape _ _ _ hls3
            have b1 : NatPhase { g2 with loop_store := ls3 } :=
              NatPhase_of_shape a1 rfl rfl hshape3
            split at h
            · exact absurd h (by simp)
            · rename_i g4 hg4
              have hg4' : ∃ ls4, g4 = { g2 with loop_store := ls4, loops := some ptrs } ∧
                  ls4.map loopShape = ls3.map loopShape ∧
                  ls4.map Loop.GetNestingLevel = ls3.map Loop.GetNestingLevel := by
                unfold applyUnroll at hg4
                split at hg4
                · simp only [hloops2] at hg4
                  split at hg4
                  · simp only [Option.some.injEq] at hg4
                    exact ⟨ls3, hg4.symm, rfl, rfl⟩
                  · split at hg4
                    · simp only [Option.some.injEq] at hg4
                      exact ⟨ls3, hg4.symm, rfl, rfl⟩
                    · split at hg4
                      · exact absurd hg4 (by simp)
                      · rename_i ls4 hls4
                        simp only [Option.some.injEq] at hg4
                        obtain ⟨c1, c2⟩ := unrollFor_shape _ _ _ hls4
                        exact ⟨ls4, hg4.symm, c1, c2⟩
                · simp only [Option.some.injEq] at hg4
                  exact ⟨ls3, hg4.symm, rfl, rfl⟩
              obtain ⟨ls4, e4, s4, n4⟩ := hg4'
              subst e4
              unfold cullLoops at h
              simp only at h
              split at h
              · exact absurd h (by simp)
              · rename_i kept hkept
                simp only [Option.some.injEq] at h
                subst h
                have hk := eraseInner_eq_filter _ _ hkept
                have c1 : NatPhase { g2 with loop_store := ls4 } :=
                  NatPhase_of_shape b1 rfl rfl s4
                have hblocks : g2.all_blocks = gd.all_blocks := by rw [a2]
                refine ⟨gd, ptrs, hgd, hptrs, hrange, ?_, hblocks, ?_, ?_, ?_⟩
                · exact NatPhase_of_shape c1 rfl rfl rfl
                · refine SameGraph.trans hsame ?_
                  rw [a2]
                  exact ⟨rfl, rfl, rfl, rfl, rfl, rfl⟩
                · simp only
                  rw [ends_of_shape_map s4, ends_of_shape_map hshape3]; exact a3
                · simp only
                  rw [hk]

/-! ## The claims on loop detection -/

/-- C6.  After `DetectLoops` on a freshly built CFG, for every detected loop `L` (every
`Loop` object the search has allocated): the header of `L` is a successor of the primary
footer of `L`, the header carries the loop-header flag, the footer carries the
loop-footer flag, and the header map sends the header to `L`.  No two detected loops
share a header, and a block that carries the loop-header flag is the header of a
detected loop. -/
theorem C6_detected_loops (s : List Instruction) (u : Bool) (gli fuel : Nat)
    (uconf : Nat → Option (List Nat)) (g g' : CFG)
    (h1 : mkCFG s u gli = some g) (h2 : DetectLoops fuel uconf g = some g') :
    (∀ (l : Nat) (L : Loop), g'.loop_store[l]? = some L →
      L.header ∈ succAt g'.all_blocks L.footer ∧
      headerFlag g'.all_blocks L.header = true ∧
      footerFlag g'.all_blocks L.footer = true ∧
      g'.GetLoopFromHeader L.header = some l) ∧
    (∀ (l1 l2 : Nat) (L1 L2 : Loop), g'.loop_store[l1]? = some L1 → g'.loop_store[l2]? = some L2 →
      L1.header = L2.header → l1 = l2) ∧
    (∀ k, headerFlag g'.all_blocks k = true →
      ∃ (l : Nat) (L : Loop), g'.loop_store[l]? = some L ∧ L.header = k) := by
  obtain ⟨g0, segs, hb⟩ := mkCFG_spec h1
  obtain ⟨gd, ptrs, -, -, -, hphase, -⟩ := DetectLoops_spec hb h2
  refine ⟨?_, ?_, ?_⟩
  · intro l L hl
    obtain ⟨a1, a2, a3, a4⟩ := hphase.ok.loop_ok l L hl
    exact ⟨a4, a2, a3, a1⟩
  · intro l1 l2 L1 L2 hl1 hl2 hh
    have e1 := (hphase.ok.loop_ok l1 L1 hl1).1
    have e2 := (hphase.ok.loop_ok l2 L2 hl2).1
    rw [hh, e2] at e1
    exact (Option.some.inj e1).symm
  · intro k hk
    obtain ⟨l, L, -, a2, a3⟩ := hphase.ok.header_ok k hk
    exact ⟨l, L, a2, a3⟩

/-- C10.  When `DetectLoops` returns on a freshly built CFG, the loop list of the CFG is
the list `ptrs` of the loops the search has discovered (every loop object, in the order
of discovery), filtered by nesting level 0. -/
theorem C10_outermost_loops_kept (s : List Instruction) (u : Bool) (gli fuel : Nat)
    (uconf : Nat → Option (List Nat)) (g g' : CFG)
    (h1 : mkCFG s u gli = some g) (h2 : DetectLoops fuel uconf g = some g') :
    ∃ gd ptrs, detectBackEdges g = some gd ∧ gd.loops = some ptrs ∧
      ptrs = List.range g'.loop_store.length ∧
      g'.loops = some (ptrs.filter (fun p => levelAt g'.loop_store p == some 0)) := by
  obtain ⟨g0, segs, hb⟩ := mkCFG_spec h1
  obtain ⟨gd, ptrs, a1, a2, a3, -, -, -, a7, a8⟩ := DetectLoops_spec hb h2
  refine ⟨gd, ptrs, a1, a2, ?_, a8⟩
  have := congrArg List.length a7
  simp only [List.length_map] at this
  rw [this]; exact a3

theorem sideEntry_built : mkCFG streamSideEntry false 0 = some cfgSideEntryBuilt := by
  decide

theorem sideEntry_detected : DetectLoops 1 noUconf cfgSideEntryBuilt = some cfgSideEntry := by
  decide

theorem C6_detected_loops_witness :
    mkCFG streamSideEntry false 0 = some cfgSideEntryBuilt ∧
    DetectLoops 1 noUconf cfgSideEntryBuilt = some cfgSideEntry ∧
    cfgSideEntry.loop_store.length = 1 ∧
    (∀ (l : Nat) (L : Loop), cfgSideEntry.loop_store[l]? = some L →
      L.header ∈ succAt cfgSideEntry.all_blocks L.footer ∧
      headerFlag cfgSideEntry.all_blocks L.header = true ∧
      footerFlag cfgSideEntry.all_blocks L.footer = true ∧
      cfgSideEntry.GetLoopFromHeader L.header = some l) ∧
    (∀ (l1 l2 : Nat) (L1 L2 : Loop), cfgSideEntry.loop_store[l1]? = some L1 →
      cfgSideEntry.loop_store[l2]? = some L2 → L1.header = L2.header → l1 = l2) ∧
    (∀ k, headerFlag cfgSideEntry.all_blocks k = true →
      ∃ (l : Nat) (L : Loop), cfgSideEntry.loop_store[l]? = some L ∧ L.header = k) :=
  ⟨sideEntry_built, sideEntry_detected, by decide,
    C6_detected_loops streamSideEntry false 0 1 noUconf cfgSideEntryBuilt cfgSideEntry
      sideEntry_built sideEntry_detected⟩

theorem C10_outermost_loops_kept_witness :
    mkCFG streamSideEntry false 0 = some cfgSideEntryBuilt ∧
    DetectLoops 1 noUconf cfgSideEntryBuilt = some cfgSideEntry ∧
    ∃ gd ptrs, detectBackEdges cfgSideEntryBuilt = some gd ∧ gd.loops = some ptrs ∧
      ptrs = List.range cfgSideEntry.loop_store.length ∧
      cfgSideEntry.loops
        = some (ptrs.filter (fun p => levelAt cfgSideEntry.loop_store p == some 0)) :=
  ⟨sideEntry_built, sideEntry_detected,
    C10_outermost_loops_kept streamSideEntry false 0 1 noUconf cfgSideEntryBuilt
      cfgSideEntry sideEntry_built sideEntry_detected⟩

/-- C7 (the code departs from it).  In `streamContinue` the search finds one loop with
header block 1; its primary footer is block 1 itself and block 2, the source of the
second back edge, is recorded by `AddFooter` and carries the loop-footer flag.  The
natural-loop set built by `ConstructNatLoop` is `[1]`: the additional footer is not in
it. -/
theorem C7_additional_footer_outside_nat_loop :
    (mkCFG streamContinue false 0).bind (DetectLoops 1 noUconf) = some cfgContinue ∧
    cfgContinue.loop_store.map (fun L => (L.header, L.footer, L.footers, L.nat_loop))
      = [(1, 1, some [2], [1])] ∧
    succAt cfgContinue.all_blocks 2 = [1, 3] ∧
    footerFlag cfgContinue.all_blocks 2 = true :=
  ⟨by decide, by decide, by decide, by decide⟩

/-- Two loops that enclose each other: the round of the nesting-level loop changes a
level in every round, so the loop `while (changed)` never ends. -/
theorem nestingFix_cycle : ∀ (fuel : Nat) (A B : Loop),
    A.enclosing_loop = some 1 → B.enclosing_loop = some 0 →
    nestingFix [0, 1] fuel [A, B] = none := by
  intro fuel
  induction fuel with
  | zero => intro A B _ _; rfl
  | succ fuel ih =>
    intro A B hA hB
    simp only [nestingFix, nestingPass, List.getElem?_cons_zero, List.getElem?_cons_succ,
      Loop.GetEnclosingLoop, hA, hB, List.set_cons_zero, List.set_cons_succ,
      Loop.GetNestingLevel, Loop.SetNestingLevel, Bool.false_or]
    split
    · exact ih _ _ rfl rfl
    · rename_i hch
      exfalso
      apply hch
      simp only [Bool.or_eq_true, bne_iff_ne, ne_eq, USHORT_MOD]
      by_contra hcon
      push_neg at hcon
      obtain ⟨e1, e2⟩ := hcon
      omega

theorem irreducible_built : mkCFG streamIrreducible false 0 = some cfgIrreducible := by
  decide

theorem irreducible_nat :
    (detectBackEdges cfgIrreducible).bind constructNatLoops = some cfgIrreducibleNat := by
  decide

/-- C9 (the code departs from it).  For `streamIrreducible` the search finds two loops,
and `ConstructNatLoop` makes each of them the enclosing loop of the other, because the
header of each lies in the natural-loop set of the other.  The loop `while (changed)`
then raises a nesting level in every round: `DetectLoops` does not return, whatever the
number of rounds it is given. -/
theorem C9_nesting_fixpoint_diverges :
    mkCFG streamIrreducible false 0 = some cfgIrreducible ∧
    (detectBackEdges cfgIrreducible).bind constructNatLoops = some cfgIrreducibleNat ∧
    cfgIrreducibleNat.loop_store.map (fun L => (L.header, L.footer, L.enclosing_loop))
      = [(3, 2, some 1), (1, 4, some 0)] ∧
    ∀ (fuel : Nat) (uconf : Nat → Option (List Nat)),
      DetectLoops fuel uconf cfgIrreducible = none := by
  refine ⟨irreducible_built, irreducible_nat, by decide, ?_⟩
  intro fuel uconf
  have hnat := irreducible_nat
  unfold DetectLoops
  cases hd : detectBackEdges cfgIrreducible with
  | none => rfl
  | some gd =>
    rw [hd] at hnat
    simp only [Option.some_bind] at hnat
    simp only [hnat]
    have hloops : cfgIrreducibleNat.loops = some [0, 1] := by decide
    obtain ⟨A, B, hAB, hA, hB⟩ : ∃ A B, cfgIrreducibleNat.loop_store = [A, B] ∧
        A.enclosing_loop = some 1 ∧ B.enclosing_loop = some 0 := by
      refine ⟨(cfgIrreducibleNat.loop_store[0]?).getD { id := 0, header := 0, footer := 0 },
        (cfgIrreducibleNat.loop_store[1]?).getD { id := 0, header := 0, footer := 0 },
        by decide, by decide, by decide⟩
    have : adjustNesting fuel cfgIrreducibleNat = none := by
      unfold adjustNesting
      rw [hloops, hAB]
      simp only [nestingFix_cycle fuel A B hA hB]
    rw [this]

/-! ## The constructor of BasicBlock on a stream linked in order -/

theorem countInstr_some {i : Instruction} (h : Classified i) (c : OpCounts) :
    ∃ c1, countInstr i c = some c1 := by
  unfold countInstr
  rcases h with h | h | h | h | h | h
  · simp [h]
  · split
    · exact ⟨_, rfl⟩
    · simp [h]
  · split
    · exact ⟨_, rfl⟩
    · split
      · exact ⟨_, rfl⟩
      · simp [h]
  · split
    · exact ⟨_, rfl⟩
    · split
      · exact ⟨_, rfl⟩
      · split
        · exact ⟨_, rfl⟩
        · simp [h]
  · split
    · exact ⟨_, rfl⟩
    · split
      · exact ⟨_, rfl⟩
      · split
        · exact ⟨_, rfl⟩
        · split
          · exact ⟨_, rfl⟩
          · simp [h]
  · split
    · exact ⟨_, rfl⟩
    · split
      · exact ⟨_, rfl⟩
      · split
        · exact ⟨_, rfl⟩
        · split
          · exact ⟨_, rfl⟩
          · split
            · exact ⟨_, rfl⟩
            · simp [h]

theorem countInstr_total {i : Instruction} {c c1 : OpCounts} (h : countInstr i c = some c1)
    (hb : c.total + 1 < UINT_MOD) : c1.total = c.total + 1 := by
  unfold countInstr at h
  unfold OpCounts.total at hb ⊢
  have hm : ∀ x, x + 1 < UINT_MOD → (x + 1) % UINT_MOD = x + 1 :=
    fun x hx => Nat.mod_eq_of_lt hx
  split at h
  · simp only [Option.some.injEq] at h; subst h
    simp only [hm c.alu (by omega)]; omega
  · split at h
    · simp only [Option.some.injEq] at h; subst h
      simp only [hm c.branch (by omega)]; omega
    · split at h
      · simp only [Option.some.injEq] at h; subst h
        simp only [hm c.shared (by omega)]; omega
      · split at h
        · simp only [Option.some.injEq] at h; subst h
          simp only [hm c.loc (by omega)]; omega
        · split at h
          · simp only [Option.some.injEq] at h; subst h
            simp only [hm c.global (by omega)]; omega
          · split at h
            · simp only [Option.some.injEq] at h; subst h
              simp only [hm c.sync (by omega)]; omega
            · exact absurd h (by simp)

theorem ptrAt_ne {s : List Instruction} {b n : Nat} (hn : 0 < n) :
    some b ≠ ptrAt s (b + n) := by
  unfold ptrAt
  split
  · intro h; have := Option.some.inj h; omega
  · simp

/-- On a stream linked in order the counting loop started at position `b` with `n`
instructions to go returns, and it has counted `n` instructions. -/
theorem countLoop_walk {s : List Instruction} (hw : WellLinked s) :
    ∀ (n b fuel : Nat) (c : OpCounts), b + n ≤ s.length → n < fuel →
      (∀ p i, b ≤ p → p < b + n → s[p]? = some i → Classified i) →
      ∃ c', countLoop s (ptrAt s (b + n)) fuel (ptrAt s b) c = some c' ∧
        (c.total + n < UINT_MOD → c'.total = c.total + n) := by
  intro n
  induction n with
  | zero =>
    intro b fuel c _ hf _
    obtain ⟨f, rfl⟩ : ∃ f, fuel = f + 1 := ⟨fuel - 1, by omega⟩
    exact ⟨c, by simp [countLoop], fun _ => rfl⟩
  | succ n ih =>
    intro b fuel c hlen hf hcl
    obtain ⟨f, rfl⟩ : ∃ f, fuel = f + 1 := ⟨fuel - 1, by omega⟩
    have hb : b < s.length := by omega
    have hptr : ptrAt s b = some b := by simp [ptrAt, hb]
    have hne : some b ≠ ptrAt s (b + (n + 1)) := ptrAt_ne (by omega)
    obtain ⟨i, hi⟩ : ∃ i, s[b]? = some i := ⟨s[b], List.getElem?_eq_getElem hb⟩
    obtain ⟨c1, hc1⟩ := countInstr_some (hcl b i (le_refl b) (by omega) hi) c
    have hnext : i.GetNext = ptrAt s (b + 1) := by
      rw [hw b i hi]; rfl
    obtain ⟨c', hc', htot⟩ := ih (b + 1) f c1 (by omega) (by omega)
      (fun p j hp1 hp2 hj => hcl p j (by omega) (by omega) hj)
    refine ⟨c', ?_, ?_⟩
    · rw [hptr]
      simp only [countLoop, hne, if_false, hi, hc1, hnext]
      rw [show b + (n + 1) = b + 1 + n by omega]
      exact hc'
    · intro hbound
      have h1 := countInstr_total hc1 (by omega)
      rw [htot (by omega), h1]; omega

/-- On a stream linked in order the constructor returns for a range `b .. e` of classified
instructions, and the total op count is the number of instructions in the range. -/
theorem mkBasicBlock_walk {s : List Instruction} (hw : WellLinked s)
    (hc : ∀ i ∈ s, Classified i) {b e : Nat} (u : Nat) (hbe : b ≤ e) (he : e < s.length) :
    ∃ bb, mkBasicBlock s (some b) (some e) u = some bb ∧
      (e + 1 - b < UINT_MOD → bb.total_op_count = e + 1 - b) := by
  obtain ⟨ie, hie⟩ : ∃ i, s[e]? = some i := ⟨s[e], List.getElem?_eq_getElem he⟩
  have hstop : ie.GetNext = ptrAt s (b + (e + 1 - b)) := by
    rw [hw e ie hie, show b + (e + 1 - b) = e + 1 by omega]; rfl
  have hstart : some b = ptrAt s b := by simp [ptrAt]; omega
  obtain ⟨c', hc', htot⟩ := countLoop_walk hw (e + 1 - b) b (s.length + 2) {} (by omega)
    (by omega) (fun p i _ _ hi => hc i (mem_of_getElem?' hi))
  rw [← hstart, ← hstop] at hc'
  have hmk : mkBasicBlock s (some b) (some e) u =
      some { begin_instr := some b, end_instr := some e, id := u,
             alu_op_count := c'.alu, global_op_count := c'.global,
             shared_op_count := c'.shared, local_op_count := c'.loc,
             branch_op_count := c'.branch, sync_op_count := c'.sync,
             total_op_count :=
               (c'.alu + c'.global + c'.shared + c'.loc + c'.branch + c'.sync) % UINT_MOD } := by
    simp only [mkBasicBlock, hie, hc']
  refine ⟨_, hmk, ?_⟩
  intro hbound
  have h0 : ({} : OpCounts).total = 0 := rfl
  have := htot (by rw [h0]; omega)
  rw [h0, Nat.zero_add] at this
  simp only [OpCounts.total] at this
  simp only
  rw [this]
  exact Nat.mod_eq_of_lt hbound

theorem closeBlock_some {s : List Instruction} (hw : WellLinked s)
    (hc : ∀ i ∈ s, Classified i) (st : CBBState) {f e : Nat}
    (hf : st.first = some f) (hfe : f ≤ e) (he : e < s.length) :
    ∃ st1, closeBlock s st (some e) = some st1 := by
  obtain ⟨bb, hbb, -⟩ := mkBasicBlock_walk hw hc st.index hfe he
  simp only [closeBlock, hf, hbb]
  exact ⟨_, rfl⟩

/-- On a well-formed stream the loop body of `ComputeBasicBlocks` returns. -/
theorem cbbStep_some {s : List Instruction} (hw : WellLinked s)
    (hc : ∀ i ∈ s, Classified i) {p : Nat} {i : Instruction} {st : CBBState}
    (hp : p < s.length) (hq : CbbRange st p) :
    ∃ st1, cbbStep s p i st = some st1 ∧ CbbRange st1 (p + 1) := by
  obtain ⟨hq1, hq2⟩ := hq
  unfold cbbStep
  cases hd : i.IsDeleted
  · simp only [Bool.false_eq_true, if_false]
    have key : ∀ (f : Nat), f ≤ p →
        (i.IsBranchTarget = true → f ≠ p → ∃ c, st.cur = some c ∧ f ≤ c ∧ c < p) →
        ∃ st1, (match (if (i.IsBranchTarget && some f != some p) = true then
            match closeBlock s { first := some f, last := st.cur, cur := some p,
                                 prev := st.cur, index := st.index, g := st.g } st.cur with
            | none => none
            | some st3 => some { st3 with first := st3.cur }
          else some { first := some f, last := st.last, cur := some p, prev := st.cur,
                      index := st.index, g := st.g }) with
        | none => none
        | some st3 =>
          if i.IsBranchOp = true then
            match closeBlock s { st3 with last := st3.cur } st3.cur with
            | none => none
            | some st4 => some { st4 with first := none }
          else some st3) = some st1 ∧ CbbRange st1 (p + 1) := by
      intro f hfp hclose
      have stage1 : ∃ st3 : CBBState,
          (if (i.IsBranchTarget && some f != some p) = true then
            match closeBlock s { first := some f, last := st.cur, cur := some p,
                                 prev := st.cur, index := st.index, g := st.g } st.cur with
            | none => none
            | some st3 => some { st3 with first := st3.cur }
          else some { first := some f, last := st.last, cur := some p, prev := st.cur,
                      index := st.index, g := st.g }) = some st3 ∧
          st3.cur = some p ∧ ∃ f3, st3.first = some f3 ∧ f3 ≤ p := by
        by_cases hcond : (i.IsBranchTarget && some f != some p) = true
        · simp only [hcond, if_true]
          have hT : i.IsBranchTarget = true := by
            simp only [Bool.and_eq_true] at hcond; exact hcond.1
          have hne : f ≠ p := by
            simp only [Bool.and_eq_true, bne_iff_ne, ne_eq, Option.some.injEq] at hcond
            exact hcond.2
          obtain ⟨c, hcur, hfc, hcp⟩ := hclose hT hne
          rw [hcur]
          obtain ⟨st3a, h3a⟩ := closeBlock_some hw hc
            { first := some f, last := some c, cur := some p, prev := some c,
              index := st.index, g := st.g } rfl hfc (by omega)
          rw [h3a]
          obtain ⟨-, -, -, -, -, -, k3, -⟩ := closeBlock_spec h3a
          simp only at k3
          exact ⟨_, rfl, k3, p, k3, le_refl p⟩
        · simp only [hcond, if_false]
          exact ⟨_, rfl, rfl, f, rfl, hfp⟩
      obtain ⟨st3, h3, hcur3, f3, hf3, hf3p⟩ := stage1
      rw [h3]
      simp only
      cases hB : i.IsBranchOp
      · simp only [Bool.false_eq_true, if_false]
        refine ⟨st3, rfl, ?_, ?_⟩
        · intro f' hf'
          rw [hf3] at hf'
          exact ⟨p, hcur3, by rw [← Option.some.inj hf']; exact hf3p⟩
        · intro c hcc
          rw [hcur3] at hcc
          have := Option.some.inj hcc
          omega
      · simp only [if_true]
        rw [hcur3]
        obtain ⟨st4, h4⟩ := closeBlock_some hw hc
          { st3 with last := some p, cur := some p } hf3 hf3p hp
        rw [h4]
        obtain ⟨-, -, -, -, -, -, k3, -⟩ := closeBlock_spec h4
        simp only at k3
        refine ⟨_, rfl, ?_, ?_⟩
        · intro f' hf'; simp at hf'
        · intro c hcc
          simp only [k3, Option.some.injEq] at hcc
          omega
    cases hfirst : st.first with
    | none =>
      simp only [if_true]
      exact key p (le_refl p) (fun _ hne => absurd rfl hne)
    | some f =>
      obtain ⟨c, hcur, hfc⟩ := hq1 f hfirst
      have hcp := hq2 c hcur
      have hfn : ¬ (some f = (none : Option Nat)) := by simp
      simp only [hfn, if_false]
      exact key f (by omega) (fun _ _ => ⟨c, hcur, hfc, hcp⟩)
  · simp only [if_true]
    exact ⟨st, rfl, hq1, fun c hcc => Nat.lt_succ_of_lt (hq2 c hcc)⟩

theorem cbbLoop_some {s : List Instruction} (hw : WellLinked s)
    (hc : ∀ i ∈ s, Classified i) :
    ∀ (rest : List Instruction) (p : Nat) (st : CBBState),
      p + rest.length ≤ s.length → CbbRange st p →
      ∃ st1, cbbLoop s rest p st = some st1 ∧ CbbRange st1 (p + rest.length) := by
  intro rest
  induction rest with
  | nil => intro p st _ hq; exact ⟨st, rfl, hq⟩
  | cons i rest ih =>
    intro p st hp hq
    simp only [List.length_cons] at hp
    obtain ⟨st1, h1, hq1⟩ := cbbStep_some (i := i) hw hc (by omega : p < s.length) hq
    obtain ⟨st2, h2, hq2⟩ := ih (p + 1) st1 (by omega) hq1
    refine ⟨st2, ?_, ?_⟩
    · simp only [cbbLoop, h1, h2]
    · rw [List.length_cons, show p + (rest.length + 1) = p + 1 + rest.length by omega]
      exact hq2

/-- `ComputeBasicBlocks` returns on every stream that is linked in order and whose
instructions all belong to a class the constructor of `BasicBlock` counts: the walk of
the constructor reaches the end of the range of every block it is given. -/
theorem ComputeBasicBlocks_total {s : List Instruction} (hw : WellLinked s)
    (hc : ∀ i ∈ s, Classified i) (g : CFG) :
    ∃ g1, ComputeBasicBlocks s g = some g1 := by
  have hmk : ∀ u, ∃ bb, mkBasicBlock s none none u = some bb := fun u => ⟨_, rfl⟩
  obtain ⟨entry, hentry⟩ := hmk 65535
  obtain ⟨exit, hexit⟩ := hmk 65536
  obtain ⟨st, hst, hq1, hq2⟩ := cbbLoop_some hw hc s 0
    { g := ({ g with entry := some g.all_blocks.length }).AddBasicBlock entry }
    (by omega) ⟨fun f hf => by simp at hf, fun c hcc => by simp at hcc⟩
  have hr : ∃ st1, (if st.last != st.cur then closeBlock s st st.cur else some st)
      = some st1 := by
    by_cases hne : (st.last != st.cur) = true
    · simp only [hne, if_true]
      cases hcur : st.cur with
      | none =>
        have : ∃ bb, mkBasicBlock s st.first none st.index = some bb := by
          cases st.first <;> exact ⟨_, rfl⟩
        obtain ⟨bb, hbb⟩ := this
        simp only [closeBlock, hbb]
        exact ⟨_, rfl⟩
      | some c =>
        have hcl := hq2 c hcur
        cases hfirst : st.first with
        | none =>
          have : ∃ bb, mkBasicBlock s none (some c) st.index = some bb := ⟨_, rfl⟩
          obtain ⟨bb, hbb⟩ := this
          simp only [closeBlock, hfirst, hbb]
          exact ⟨_, rfl⟩
        | some f =>
          obtain ⟨c1, hc1, hfc⟩ := hq1 f hfirst
          rw [hcur] at hc1
          have := Option.some.inj hc1
          exact closeBlock_some hw hc st hfirst (by omega) (by omega)
    · simp only [hne]
      exact ⟨st, rfl⟩
  obtain ⟨st1, hst1⟩ := hr
  unfold ComputeBasicBlocks
  rw [hentry]
  simp only
  rw [hst]
  simp only
  rw [hst1]
  simp only
  rw [hexit]
  exact ⟨_, rfl⟩

/-! ## The nesting levels when the loop `while (changed)` ends -/

theorem SetNestingLevel_self (L : Loop) : L.SetNestingLevel L.GetNestingLevel = L := by
  cases L; rfl

theorem set_getElem?_self {α : Type} {l : List α} {k : Nat} {x : α} (h : l[k]? = some x) :
    l.set k x = l := by
  apply List.ext_getElem?
  intro i
  rw [List.getElem?_set]
  by_cases hik : k = i
  · subst hik
    have hk : k < l.length := (List.getElem?_eq_some_iff.mp h).1
    simp [hk, h]
  · simp [hik]

/-- A round of the nesting-level loop that ends with `changed == false` has changed no
loop, and every loop of the list with an enclosing loop is one level below it. -/
theorem nestingPass_false : ∀ (ptrs : List Nat) (ls ls1 : List Loop) (ch : Bool),
    nestingPass ptrs ls ch = some (ls1, false) →
    ch = false ∧ ls1 = ls ∧
    ∀ p ∈ ptrs, ∃ L, ls[p]? = some L ∧
      ∀ e, L.GetEnclosingLoop = some e →
        ∃ E, ls[e]? = some E ∧ L.GetNestingLevel = (E.GetNestingLevel + 1) % USHORT_MOD := by
  intro ptrs
  induction ptrs with
  | nil =>
    intro ls ls1 ch h
    simp only [nestingPass, Option.some.injEq, Prod.mk.injEq] at h
    exact ⟨h.2, h.1.symm, fun p hp => absurd hp (List.not_mem_nil p)⟩
  | cons p rest ih =>
    intro ls ls1 ch h
    simp only [nestingPass] at h
    split at h
    · exact absurd h (by simp)
    · rename_i L hL
      split at h
      · rename_i hnone
        obtain ⟨h1, h2, h3⟩ := ih _ _ _ h
        refine ⟨h1, h2, ?_⟩
        intro q hq
        rcases List.mem_cons.mp hq with rfl | hq
        · exact ⟨L, hL, fun e he => by rw [hnone] at he; exact absurd he (by simp)⟩
        · exact h3 q hq
      · rename_i e he
        split at h
        · exact absurd h (by simp)
        · rename_i E hE
          obtain ⟨h1, h2, h3⟩ := ih _ _ _ h
          simp only [Bool.or_eq_false_iff, bne_eq_false_iff_eq, beq_iff_eq] at h1
          obtain ⟨hch, hlev⟩ := h1
          have hset : ls.set p (L.SetNestingLevel ((E.GetNestingLevel + 1) % USHORT_MOD))
              = ls := by
            rw [← hlev, SetNestingLevel_self]
            exact set_getElem?_self hL
          rw [hset] at h2 h3
          refine ⟨hch, h2, ?_⟩
          intro q hq
          rcases List.mem_cons.mp hq with rfl | hq
          · refine ⟨L, hL, ?_⟩
            intro e1 he1
            rw [he] at he1
            have := Option.some.inj he1
            subst this
            exact ⟨E, hE, hlev⟩
          · exact h3 q hq

/-- When the loop `while (changed)` of `DetectLoops` ends, every loop of the list that has
an enclosing loop has the nesting level of that loop plus one (as an `unsigned short`). -/
theorem nestingFix_levels {ptrs : List Nat} : ∀ (fuel : Nat) (ls ls1 : List Loop),
    nestingFix ptrs fuel ls = some ls1 →
    ∀ p ∈ ptrs, ∃ L, ls1[p]? = some L ∧
      ∀ e, L.GetEnclosingLoop = some e →
        ∃ E, ls1[e]? = some E ∧ L.GetNestingLevel = (E.GetNestingLevel + 1) % USHORT_MOD := by
  intro fuel
  induction fuel with
  | zero => intro ls ls1 h; simp [nestingFix] at h
  | succ fuel ih =>
    intro ls ls1 h
    simp only [nestingFix] at h
    split at h
    · exact absurd h (by simp)
    · rename_i ls2 ch hpass
      cases ch with
      | true =>
        simp only [if_true] at h
        exact ih _ _ h
      | false =>
        simp only [Bool.false_eq_true, if_false, Option.some.injEq] at h
        subst h
        obtain ⟨-, h2, h3⟩ := nestingPass_false _ _ _ _ hpass
        rw [h2]
        exact h3

/-- The nesting-level loop leaves a loop without an enclosing loop as it is. -/
theorem nestingPass_outer : ∀ (ptrs : List Nat) (ls ls1 : List Loop) (ch ch1 : Bool),
    nestingPass ptrs ls ch = some (ls1, ch1) →
    ∀ (q : Nat) (L : Loop), ls[q]? = some L → L.GetEnclosingLoop = none → ls1[q]? = some L := by
  intro ptrs
  induction ptrs with
  | nil =>
    intro ls ls1 ch ch1 h q L hq _
    simp only [nestingPass, Option.some.injEq, Prod.mk.injEq] at h
    rw [← h.1]; exact hq
  | cons p rest ih =>
    intro ls ls1 ch ch1 h q L hq hnone
    simp only [nestingPass] at h
    split at h
    · exact absurd h (by simp)
    · rename_i Lp hLp
      split at h
      · exact ih _ _ _ _ h q L hq hnone
      · rename_i e he
        split at h
        · exact absurd h (by simp)
        · rename_i E hE
          refine ih _ _ _ _ h q L ?_ hnone
          rw [List.getElem?_set]
          by_cases hpq : p = q
          · subst hpq
            rw [hLp] at hq
            have := Option.some.inj hq
            subst this
            rw [hnone] at he
            exact absurd he (by simp)
          · simp [hpq, hq]

theorem nestingFix_outer {ptrs : List Nat} : ∀ (fuel : Nat) (ls ls1 : List Loop),
    nestingFix ptrs fuel ls = some ls1 →
    ∀ (q : Nat) (L : Loop), ls[q]? = some L → L.GetEnclosingLoop = none → ls1[q]? = some L := by
  intro fuel
  induction fuel with
  | zero => intro ls ls1 h; simp [nestingFix] at h
  | succ fuel ih =>
    intro ls ls1 h q L hq hnone
    simp only [nestingFix] at h
    split at h
    · exact absurd h (by simp)
    · rename_i ls2 ch hpass
      have h1 := nestingPass_outer _ _ _ _ _ hpass q L hq hnone
      split at h
      · exact ih _ _ h q L h1 hnone
      · simp only [Option.some.injEq] at h
        subst h
        exact h1

/-! ## The depth of the recursion of DoDFS -/

theorem count_set {α : Type} [DecidableEq α] (a : α) :
    ∀ (l : List α) (k : Nat) (x y : α), l[k]? = some y →
      (l.set k x).count a + (if y = a then 1 else 0)
        = l.count a + (if x = a then 1 else 0) := by
  intro l
  induction l with
  | nil => intro k x y h; simp at h
  | cons z l ih =>
    intro k x y h
    cases k with
    | zero =>
      simp only [List.getElem?_cons_zero, Option.some.injEq] at h
      subst h
      simp only [List.set_cons_zero, List.count_cons, beq_iff_eq]
      omega
    | succ k =>
      simp only [List.getElem?_cons_succ] at h
      have := ih k x y h
      simp only [List.set_cons_succ, List.count_cons, beq_iff_eq]
      omega

theorem updBlock_colours {bs bs1 : List BasicBlock} {k : Nat} {f : BasicBlock → BasicBlock}
    (h : updBlock bs k f = some bs1) (hf : ∀ b, (f b).vs = b.vs) :
    colours bs1 = colours bs := by
  unfold updBlock at h
  split at h
  · exact absurd h (by simp)
  · rename_i b hb
    simp only [Option.some.injEq] at h
    subst h
    exact set_map_eq (fun b => b.vs) hb (hf b)

theorem updBlock_count {bs bs1 : List BasicBlock} {k : Nat} {f : BasicBlock → BasicBlock}
    {b : BasicBlock} (h : updBlock bs k f = some bs1) (hb : bs[k]? = some b) :
    (colours bs1).count VisitState.COLOR_WHITE
        + (if b.vs = VisitState.COLOR_WHITE then 1 else 0)
      = (colours bs).count VisitState.COLOR_WHITE
        + (if (f b).vs = VisitState.COLOR_WHITE then 1 else 0) := by
  unfold updBlock at h
  rw [hb] at h
  simp only [Option.some.injEq] at h
  subst h
  have hc : (colours bs)[k]? = some b.vs := by simp [colours, hb]
  have := count_set VisitState.COLOR_WHITE (colours bs) k (f b).vs b.vs hc
  have hset : colours (bs.set k (f b)) = (colours bs).set k (f b).vs := by
    simp [colours, List.map_set]
  rw [hset]
  exact this

theorem backEdge_colours {g g1 : CFG} {bb sc : Nat} {sb : BasicBlock}
    (h : backEdge g bb sc sb = some g1) : colours g1.all_blocks = colours g.all_blocks := by
  unfold backEdge at h
  simp only at h
  split at h
  · exact absurd h (by simp)
  · rename_i g2 hg2
    split at h
    · exact absurd h (by simp)
    · rename_i bs hbs
      simp only [Option.some.injEq] at h
      subst h
      have h1 := updBlock_colours hbs (fun _ => rfl)
      simp only
      rw [h1]
      split at hg2
      · split at hg2
        · rename_i bs0 m hbs0 hm
          simp only [Option.some.injEq] at hg2
          subst hg2
          exact updBlock_colours hbs0 (fun _ => rfl)
        · exact absurd hg2 (by simp)
      · split at hg2
        · exact absurd hg2 (by simp)
        · split at hg2
          · exact absurd hg2 (by simp)
          · simp only [Option.some.injEq] at hg2
            subst hg2
            rfl

theorem backEdge_whiteCount {g g1 : CFG} {bb sc : Nat} {sb : BasicBlock}
    (h : backEdge g bb sc sb = some g1) : whiteCount g1 = whiteCount g := by
  unfold whiteCount
  rw [backEdge_colours h]

/-- The loop over the successors does the same with two recursive calls that agree on
every CFG with at most `k` white blocks. -/
theorem dfsSuccs_fuel (rec1 rec2 : CFG → Nat → Option CFG) (k : Nat)
    (hrec : ∀ g sc, whiteCount g ≤ k →
      rec2 g sc = rec1 g sc ∧ ∀ r, rec1 g sc = some r → whiteCount r ≤ whiteCount g)
    (bb : Nat) :
    ∀ (succs : List Nat) (g : CFG), whiteCount g ≤ k →
      dfsSuccs rec2 bb succs g = dfsSuccs rec1 bb succs g ∧
      ∀ r, dfsSuccs rec1 bb succs g = some r → whiteCount r ≤ whiteCount g := by
  intro succs
  induction succs with
  | nil =>
    intro g _
    refine ⟨rfl, ?_⟩
    intro r hr
    simp only [dfsSuccs, Option.some.injEq] at hr
    rw [← hr]
  | cons sc rest ih =>
    intro g hg
    simp only [dfsSuccs]
    cases hsb : g.all_blocks[sc]? with
    | none => exact ⟨rfl, fun r hr => absurd hr (by simp)⟩
    | some sb =>
      simp only
      cases hr1 : (if sb.GetPartiallyVisited = true then backEdge g bb sc sb else some g) with
      | none => exact ⟨rfl, fun r hr => absurd hr (by simp)⟩
      | some g1 =>
        have hw1 : whiteCount g1 = whiteCount g := by
          split at hr1
          · exact backEdge_whiteCount hr1
          · simp only [Option.some.injEq] at hr1
            rw [← hr1]
        simp only
        cases hsb1 : g1.all_blocks[sc]? with
        | none => exact ⟨rfl, fun r hr => absurd hr (by simp)⟩
        | some sb1 =>
          simp only
          cases hnv : sb1.GetNotVisited with
          | false =>
            simp only [Bool.false_eq_true, if_false]
            obtain ⟨e1, e2⟩ := ih g1 (by omega)
            exact ⟨e1, fun r hr => by have := e2 r hr; omega⟩
          | true =>
            simp only [if_true]
            obtain ⟨q1, q2⟩ := hrec g1 sc (by omega)
            rw [q1]
            cases hrc : rec1 g1 sc with
            | none => exact ⟨rfl, fun r hr => absurd hr (by simp)⟩
            | some g2 =>
              simp only
              have hw2 := q2 g2 hrc
              obtain ⟨e1, e2⟩ := ih g2 (by omega)
              exact ⟨e1, fun r hr => by have := e2 r hr; omega⟩

/-- The recursion of `DoDFS` is never deeper than the number of white blocks: with more
fuel than white blocks the result does not depend on the fuel. -/
theorem DoDFS_fuel : ∀ (fuel : Nat) (g : CFG) (bb : Nat), whiteCount g < fuel →
    (∀ fuel1, whiteCount g < fuel1 → DoDFS fuel1 g bb = DoDFS fuel g bb) ∧
    ∀ r, DoDFS fuel g bb = some r → whiteCount r ≤ whiteCount g := by
  intro fuel
  induction fuel with
  | zero => intro g bb h; omega
  | succ n ih =>
    intro g bb hw
    have key : ∀ n1, whiteCount g < n1 + 1 →
        DoDFS (n1 + 1) g bb = DoDFS (n + 1) g bb ∧
        ∀ r, DoDFS (n + 1) g bb = some r → whiteCount r ≤ whiteCount g := by
      intro n1 hw1
      simp only [DoDFS]
      cases hb : g.all_blocks[bb]? with
      | none => exact ⟨rfl, fun r hr => absurd hr (by simp)⟩
      | some b =>
        simp only
        cases hvs : b.vs with
        | COLOR_BLACK =>
          have h1 : b.GetFullyVisited = true := by simp [BasicBlock.GetFullyVisited, hvs]
          simp only [h1, if_true]
          exact ⟨trivial, fun r hr => absurd hr (by simp)⟩
        | COLOR_GRAY =>
          have h1 : b.GetFullyVisited = false := by simp [BasicBlock.GetFullyVisited, hvs]
          have h2 : b.GetPartiallyVisited = true := by
            simp [BasicBlock.GetPartiallyVisited, hvs]
          simp only [h1, h2, Bool.false_eq_true, if_false, if_true]
          refine ⟨trivial, fun r hr => ?_⟩
          simp only [Option.some.injEq] at hr
          rw [← hr]
        | COLOR_WHITE =>
          have h1 : b.GetFullyVisited = false := by simp [BasicBlock.GetFullyVisited, hvs]
          have h2 : b.GetPartiallyVisited = false := by
            simp [BasicBlock.GetPartiallyVisited, hvs]
          have h3 : b.GetNotVisited = true := by simp [BasicBlock.GetNotVisited, hvs]
          simp only [h1, h2, h3, Bool.false_eq_true, if_false, if_true]
          cases hu : updBlock g.all_blocks bb BasicBlock.SetPartiallyVisited with
          | none => exact ⟨rfl, fun r hr => absurd hr (by simp)⟩
          | some bs =>
            simp only
            have hcnt := updBlock_count hu hb
            simp only [hvs, if_true, BasicBlock.SetPartiallyVisited] at hcnt
            have hcnt1 : whiteCount { g with all_blocks := bs } + 1 = whiteCount g := by
              simp only [whiteCount]
              simpa using hcnt
            obtain ⟨e1, e2⟩ := dfsSuccs_fuel (DoDFS n) (DoDFS n1)
              (whiteCount { g with all_blocks := bs })
              (fun g0 sc h0 => ⟨(ih g0 sc (by omega)).1 n1 (by omega),
                (ih g0 sc (by omega)).2⟩) bb b.succ { g with all_blocks := bs } (le_refl _)
            rw [e1]
            refine ⟨rfl, ?_⟩
            intro r hr
            cases hd : dfsSuccs (DoDFS n) bb b.succ { g with all_blocks := bs } with
            | none => rw [hd] at hr; exact absurd hr (by simp)
            | some g2 =>
              rw [hd] at hr
              simp only at hr
              have hw2 := e2 g2 hd
              cases hu2 : updBlock g2.all_blocks bb BasicBlock.SetFullyVisited with
              | none => rw [hu2] at hr; exact absurd hr (by simp)
              | some bs2 =>
                rw [hu2] at hr
                simp only [Option.some.injEq] at hr
                subst hr
                obtain ⟨hk, -, -⟩ := updBlock_getElem? hu2
                obtain ⟨b2, hb2⟩ : ∃ b2, g2.all_blocks[bb]? = some b2 :=
                  ⟨_, List.getElem?_eq_getElem hk⟩
                have hcnt2 := updBlock_count hu2 hb2
                simp only [BasicBlock.SetFullyVisited] at hcnt2
                have : whiteCount { g2 with all_blocks := bs2 } ≤ whiteCount g2 := by
                  simp only [whiteCount]
                  simp at hcnt2
                  omega
                omega
    refine ⟨?_, (key n hw).2⟩
    intro fuel1 h1
    cases fuel1 with
    | zero => omega
    | succ n1 => exact (key n1 h1).1

theorem whiteCount_le (g : CFG) : whiteCount g ≤ g.all_blocks.length := by
  unfold whiteCount colours
  have := List.count_le_length VisitState.COLOR_WHITE (g.all_blocks.map (fun b => b.vs))
  simpa using this

/-- The fuel that `detectBackEdges` gives to `DoDFS` is enough: more fuel gives the same
result. -/
theorem detectBackEdges_fuel (g : CFG) (fuel : Nat) (h : g.all_blocks.length < fuel) :
    DoDFS fuel { g with loop_header_map := some [] } 0
      = DoDFS (g.all_blocks.length + 1) { g with loop_header_map := some [] } 0 := by
  have hw := whiteCount_le { g with loop_header_map := some [] }
  simp only at hw
  exact (DoDFS_fuel (g.all_blocks.length + 1) { g with loop_header_map := some [] } 0
    (by omega)).1 fuel (by omega)

/-! ## The rounds of the while loop of ConstructNatLoop -/

theorem nodup_length_le {N : List Nat} {n : Nat} (hn : N.Nodup) (hb : ∀ x ∈ N, x < n) :
    N.length ≤ n := by
  have hsub : N ⊆ List.range n := fun x hx => List.mem_range.mpr (hb x hx)
  have := (hn.subperm hsub).length_le
  simpa using this

theorem updLoop_bound {bs : List BasicBlock} {ls ls1 : List Loop} {l k0 n k : Nat}
    {f : Loop → Loop} (h : updLoop ls k0 f = some ls1)
    (hf : ∀ L, (f L).nat_loop = L.nat_loop) (hb : NatBound bs l ls n k) :
    NatBound bs l ls1 n k := by
  obtain ⟨this, hthis, h1, h2, h3⟩ := hb
  obtain ⟨-, -, hg⟩ := updLoop_getElem? h
  by_cases hlk : l = k0
  · subst hlk
    refine ⟨f this, by rw [hg]; simp [hthis], ?_, ?_, ?_⟩
    · rw [hf]; exact h1
    · rw [hf]; exact h2
    · rw [hf]; exact h3
  · exact ⟨this, by rw [hg]; simp [hlk, hthis], h1, h2, h3⟩

theorem natLoopNested_bound {bs : List BasicBlock} {ls ls1 : List Loop} {l bb n k : Nat}
    {m : List (Nat × Nat)} {b : BasicBlock}
    (h : natLoopNested m l bb b ls = some ls1) (hb : NatBound bs l ls n k) :
    NatBound bs l ls1 n k := by
  unfold natLoopNested at h
  split at h
  · split at h
    · exact absurd h (by simp)
    · split at h
      · exact absurd h (by simp)
      · split at h
        · exact absurd h (by simp)
        · split at h
          · exact absurd h (by simp)
          · split at h
            · split at h
              · exact absurd h (by simp)
              · rename_i ls2 h2
                exact updLoop_bound h (fun _ => rfl) (updLoop_bound h2 (fun _ => rfl) hb)
            · simp only [Option.some.injEq] at h
              subst h; exact hb
  · simp only [Option.some.injEq] at h
    subst h; exact hb

theorem natLoopPreds_bound {bs : List BasicBlock} {l k : Nat} :
    ∀ (preds : List Nat) (st st1 : NatLoopState),
      natLoopPreds bs l preds st = some st1 →
      NatBound bs l st.ls st.stack.length k →
      NatBound bs l st1.ls st1.stack.length k := by
  intro preds
  induction preds with
  | nil =>
    intro st st1 h hb
    simp only [natLoopPreds, Option.some.injEq] at h
    subst h; exact hb
  | cons pred rest ih =>
    intro st st1 h hb
    simp only [natLoopPreds] at h
    split at h
    · exact absurd h (by simp)
    · rename_i this hthis
      split at h
      · exact ih _ _ h hb
      · rename_i hnot
        split at h
        · exact absurd h (by simp)
        · rename_i pb hpb
          refine ih _ _ h ?_
          obtain ⟨this0, hthis0, h1, h2, h3⟩ := hb
          rw [hthis] at hthis0
          have e := Option.some.inj hthis0
          subst e
          have hins : natInsert this.nat_loop pred = this.nat_loop ++ [pred] := by
            simp [natInsert, hnot]
          have hpl : pred < bs.length := (List.getElem?_eq_some_iff.mp hpb).1
          refine ⟨_, getElem?_set_self' hthis, ?_, ?_, ?_⟩
          · simp only [hins]
            rw [List.nodup_append]
            refine ⟨h1, List.nodup_singleton pred, ?_⟩
            intro x hx hx1
            rw [List.mem_singleton] at hx1
            subst hx1
            exact hnot hx
          · intro x hx
            simp only [hins, List.mem_append, List.mem_singleton] at hx
            rcases hx with hx | hx
            · exact h2 x hx
            · rw [hx]; exact hpl
          · simp only [hins, List.length_append, List.length_cons, List.length_nil]
            omega

theorem natLoopWhile_nil {bs : List BasicBlock} {m : List (Nat × Nat)} {l : Nat}
    (fuel : Nat) {st : NatLoopState} (hs : st.stack = []) :
    natLoopWhile bs m l fuel st = some st := by
  unfold natLoopWhile
  simp only [hs]

/-- The `while` loop of `ConstructNatLoop` makes at most `k` rounds when `NatBound` holds
with `k`: with at least that much fuel the result does not depend on the fuel. -/
theorem natLoopWhile_fuel {bs : List BasicBlock} {m : List (Nat × Nat)} {l : Nat} :
    ∀ (fuel : Nat) (st : NatLoopState) (k : Nat),
      NatBound bs l st.ls st.stack.length k → k ≤ fuel →
      ∀ fuel1, k ≤ fuel1 → natLoopWhile bs m l fuel1 st = natLoopWhile bs m l fuel st := by
  intro fuel
  induction fuel with
  | zero =>
    intro st k hb hk fuel1 _
    obtain ⟨this, -, h1, h2, h3⟩ := hb
    have hlen := nodup_length_le h1 h2
    have hs : st.stack = [] := List.length_eq_zero.mp (by omega)
    rw [natLoopWhile_nil fuel1 hs, natLoopWhile_nil 0 hs]
  | succ f ih =>
    intro st k hb hk fuel1 hk1
    cases hs : st.stack with
    | nil => rw [natLoopWhile_nil fuel1 hs, natLoopWhile_nil (f + 1) hs]
    | cons bb stack =>
      have hk0 : 1 ≤ k := by
        obtain ⟨this, -, h1, h2, h3⟩ := hb
        have hlen := nodup_length_le h1 h2
        rw [hs] at h3
        simp only [List.length_cons] at h3
        omega
      cases fuel1 with
      | zero => omega
      | succ f1 =>
        unfold natLoopWhile
        simp only [hs]
        cases hbb : bs[bb]? with
        | none => rfl
        | some b =>
          simp only
          cases hn : natLoopNested m l bb b st.ls with
          | none => rfl
          | some ls1 =>
            simp only
            cases hp : natLoopPreds bs l b.pred { ls := ls1, stack := stack, num := st.num } with
            | none => rfl
            | some st1 =>
              simp only
              have hb1 : NatBound bs l ls1 stack.length (k - 1) := by
                have := natLoopNested_bound hn hb
                obtain ⟨this, e0, e1, e2, e3⟩ := this
                refine ⟨this, e0, e1, e2, ?_⟩
                rw [hs] at e3
                simp only [List.length_cons] at e3
                omega
              have hb2 := natLoopPreds_bound b.pred _ st1 hp hb1
              exact ih st1 (k - 1) hb2 (by omega) f1 (by omega)

/-- The state with which `ConstructNatLoop` enters its `while` loop, for a loop whose
natural-loop set is still empty: the number of blocks bounds the rounds, so the fuel of
the model, one more than that, is enough. -/
theorem ConstructNatLoop_start {g : CFG} {l : Nat} {this : Loop} {hb : BasicBlock}
    {st : NatLoopState} (hthis : g.loop_store[l]? = some this) (hfresh : this.nat_loop = [])
    (hhb : g.all_blocks[this.header]? = some hb)
    (hst : (if this.footer ∈ natInsert this.nat_loop this.header then
          some { ls := g.loop_store.set l
                         { this with nat_loop := natInsert this.nat_loop this.header },
                 stack := [], num := (0 + hb.GetNumInstrs) % UINT_MOD }
        else
          match g.all_blocks[this.footer]? with
          | none => none
          | some fb =>
            some { ls := g.loop_store.set l
                           { this with nat_loop :=
                               natInsert (natInsert this.nat_loop this.header) this.footer },
                   stack := [this.footer],
                   num := ((0 + hb.GetNumInstrs) % UINT_MOD + fb.GetNumInstrs) % UINT_MOD })
      = some st) :
    NatBound g.all_blocks l st.ls st.stack.length g.all_blocks.length := by
  have hh : this.header < g.all_blocks.length := (List.getElem?_eq_some_iff.mp hhb).1
  rw [hfresh] at hst
  have hins : natInsert [] this.header = [this.header] := by simp [natInsert]
  rw [hins] at hst
  split at hst
  · simp only [Option.some.injEq] at hst
    subst hst
    refine ⟨_, getElem?_set_self' hthis, ?_, ?_, ?_⟩
    · simp
    · intro x hx
      simp only [List.mem_singleton] at hx
      rw [hx]; exact hh
    · simp
  · rename_i hne
    split at hst
    · exact absurd hst (by simp)
    · rename_i fb hfb
      have hf : this.footer < g.all_blocks.length := (List.getElem?_eq_some_iff.mp hfb).1
      simp only [Option.some.injEq] at hst
      subst hst
      have hins2 : natInsert [this.header] this.footer = [this.header, this.footer] := by
        simp only [natInsert, hne, if_false]
        rfl
      refine ⟨_, getElem?_set_self' hthis, ?_, ?_, ?_⟩
      · simp only [hins2]
        simp only [List.mem_singleton] at hne
        simp [Ne.symm hne]
      · intro x hx
        simp only [hins2, List.mem_cons, List.mem_singleton, List.not_mem_nil, or_false] at hx
        rcases hx with hx | hx
        · rw [hx]; exact hh
        · rw [hx]; exact hf
      · simp only [hins2, List.length_cons, List.length_nil]
        omega

/-! ## The header and the primary footer are in the natural-loop set -/

theorem NatGrows_refl (ls : List Loop) : NatGrows ls ls :=
  fun _ L h => ⟨L, h, rfl, fun _ hx => hx⟩

theorem NatGrows_trans {ls ls1 ls2 : List Loop} (h1 : NatGrows ls ls1)
    (h2 : NatGrows ls1 ls2) : NatGrows ls ls2 := by
  intro k L hL
  obtain ⟨L1, a1, a2, a3⟩ := h1 k L hL
  obtain ⟨L2, b1, b2, b3⟩ := h2 k L1 a1
  exact ⟨L2, b1, b2.trans a2, fun x hx => b3 x (a3 x hx)⟩

theorem NatGrows_set {ls : List Loop} {l : Nat} {this y : Loop} (hl : ls[l]? = some this)
    (he : loopEnds y = loopEnds this) (hn : ∀ x ∈ this.nat_loop, x ∈ y.nat_loop) :
    NatGrows ls (ls.set l y) := by
  intro k L hL
  by_cases hlk : l = k
  · subst hlk
    rw [hl] at hL
    have e := Option.some.inj hL
    subst e
    exact ⟨y, getElem?_set_self' hl, he, hn⟩
  · refine ⟨L, ?_, rfl, fun _ hx => hx⟩
    rw [List.getElem?_set]
    simp [hlk, hL]

theorem NatGrows_updLoop {ls ls1 : List Loop} {k0 : Nat} {f : Loop → Loop}
    (h : updLoop ls k0 f = some ls1) (hf : ∀ L, loopShape (f L) = loopShape L) :
    NatGrows ls ls1 := by
  obtain ⟨-, -, hg⟩ := updLoop_getElem? h
  intro k L hL
  have hs := hf L
  simp only [loopShape, Prod.mk.injEq] at hs
  by_cases hk : k = k0
  · subst hk
    refine ⟨f L, by rw [hg]; simp [hL], ?_, ?_⟩
    · simp only [loopEnds, Prod.mk.injEq]
      exact ⟨hs.1, hs.2.1⟩
    · intro x hx
      rw [hs.2.2]; exact hx
  · exact ⟨L, by rw [hg]; simp [hk, hL], rfl, fun _ hx => hx⟩

theorem natLoopNested_grows {ls ls1 : List Loop} {l bb : Nat} {m : List (Nat × Nat)}
    {b : BasicBlock} (h : natLoopNested m l bb b ls = some ls1) : NatGrows ls ls1 := by
  unfold natLoopNested at h
  split at h
  · split at h
    · exact absurd h (by simp)
    · split at h
      · exact absurd h (by simp)
      · split at h
        · exact absurd h (by simp)
        · split at h
          · exact absurd h (by simp)
          · split at h
            · split at h
              · exact absurd h (by simp)
              · rename_i ls2 h2
                exact NatGrows_trans (NatGrows_updLoop h2 (fun _ => rfl))
                  (NatGrows_updLoop h (fun _ => rfl))
            · simp only [Option.some.injEq] at h
              subst h; exact NatGrows_refl _
  · simp only [Option.some.injEq] at h
    subst h; exact NatGrows_refl _

theorem natLoopPreds_grows {bs : List BasicBlock} {l : Nat} :
    ∀ (preds : List Nat) (st st1 : NatLoopState),
      natLoopPreds bs l preds st = some st1 → NatGrows st.ls st1.ls := by
  intro preds
  induction preds with
  | nil =>
    intro st st1 h
    simp only [natLoopPreds, Option.some.injEq] at h
    subst h; exact NatGrows_refl _
  | cons pred rest ih =>
    intro st st1 h
    simp only [natLoopPreds] at h
    split at h
    · exact absurd h (by simp)
    · rename_i this hthis
      split at h
      · exact ih _ _ h
      · split at h
        · exact absurd h (by simp)
        · refine NatGrows_trans ?_ (ih _ _ h)
          exact NatGrows_set hthis rfl (fun x hx => mem_natInsert.mpr (Or.inl hx))

theorem natLoopWhile_grows {bs : List BasicBlock} {m : List (Nat × Nat)} {l : Nat} :
    ∀ (fuel : Nat) (st st1 : NatLoopState),
      natLoopWhile bs m l fuel st = some st1 → NatGrows st.ls st1.ls := by
  intro fuel
  induction fuel with
  | zero =>
    intro st st1 h
    unfold natLoopWhile at h
    split at h
    · simp only [Option.some.injEq] at h; subst h; exact NatGrows_refl _
    · simp at h
  | succ fuel ih =>
    intro st st1 h
    unfold natLoopWhile at h
    split at h
    · simp only [Option.some.injEq] at h; subst h; exact NatGrows_refl _
    · simp only at h
      split at h
      · exact absurd h (by simp)
      · split at h
        · exact absurd h (by simp)
        · rename_i ls1 hn
          split at h
          · exact absurd h (by simp)
          · rename_i st2 hp
            have g1 := natLoopNested_grows hn
            have g2 := natLoopPreds_grows _ _ _ hp
            exact NatGrows_trans (NatGrows_trans g1 g2) (ih _ _ h)

/-- One call of `ConstructNatLoop` for the loop `l` puts the header and the primary footer
of `l` into its natural-loop set, and takes nothing out of any natural-loop set. -/
theorem ConstructNatLoop_grows {g g1 : CFG} {l : Nat} (h : ConstructNatLoop g l = some g1) :
    NatGrows g.loop_store g1.loop_store ∧
    ∃ L1, g1.loop_store[l]? = some L1 ∧ L1.header ∈ L1.nat_loop ∧
      L1.footer ∈ L1.nat_loop := by
  unfold ConstructNatLoop at h
  split at h
  · rename_i m this hm hthis
    split at h
    · exact absurd h (by simp)
    · rename_i hb hhb
      simp only at h
      split at h
      · exact absurd h (by simp)
      · rename_i st hst
        have hstart : NatGrows g.loop_store st.ls ∧
            ∃ L0, st.ls[l]? = some L0 ∧ loopEnds L0 = loopEnds this ∧
              this.header ∈ L0.nat_loop ∧ this.footer ∈ L0.nat_loop := by
          split at hst
          · rename_i hfoot
            simp only [Option.some.injEq] at hst
            subst hst
            exact ⟨NatGrows_set hthis rfl (fun x hx => mem_natInsert.mpr (Or.inl hx)),
              _, getElem?_set_self' hthis, rfl, mem_natInsert.mpr (Or.inr rfl), hfoot⟩
          · split at hst
            · exact absurd hst (by simp)
            · simp only [Option.some.injEq] at hst
              subst hst
              exact ⟨NatGrows_set hthis rfl
                  (fun x hx => mem_natInsert.mpr (Or.inl (mem_natInsert.mpr (Or.inl hx)))),
                _, getElem?_set_self' hthis, rfl,
                mem_natInsert.mpr (Or.inl (mem_natInsert.mpr (Or.inr rfl))),
                mem_natInsert.mpr (Or.inr rfl)⟩
        obtain ⟨hg0, L0, hL0, he0, hh0, hf0⟩ := hstart
        split at h
        · exact absurd h (by simp)
        · rename_i st1 hst1
          split at h
          · exact absurd h (by simp)
          · rename_i ls2 hls2
            simp only [Option.some.injEq] at h
            subst h
            have hg1 := natLoopWhile_grows _ _ _ hst1
            have hg2 := NatGrows_updLoop hls2 (fun _ => rfl)
            have hall := NatGrows_trans hg1 hg2
            refine ⟨NatGrows_trans hg0 hall, ?_⟩
            obtain ⟨L1, a1, a2, a3⟩ := hall l L0 hL0
            have e := a2.trans he0
            simp only [loopEnds, Prod.mk.injEq] at e
            refine ⟨L1, a1, ?_, ?_⟩
            · rw [e.1]; exact a3 _ hh0
            · rw [e.2]; exact a3 _ hf0
  · exact absurd h (by simp)

theorem natLoopsFor_grows : ∀ (ptrs : List Nat) (g g1 : CFG),
    natLoopsFor ptrs g = some g1 →
    NatGrows g.loop_store g1.loop_store ∧
    ∀ l ∈ ptrs, ∃ L1, g1.loop_store[l]? = some L1 ∧ L1.header ∈ L1.nat_loop ∧
      L1.footer ∈ L1.nat_loop := by
  intro ptrs
  induction ptrs with
  | nil =>
    intro g g1 h
    simp only [natLoopsFor, Option.some.injEq] at h
    subst h
    exact ⟨NatGrows_refl _, fun l hl => absurd hl (List.not_mem_nil l)⟩
  | cons l rest ih =>
    intro g g1 h
    simp only [natLoopsFor] at h
    split at h
    · exact absurd h (by simp)
    · rename_i g2 hg2
      obtain ⟨a1, L1, a2, a3, a4⟩ := ConstructNatLoop_grows hg2
      obtain ⟨b1, b2⟩ := ih g2 g1 h
      refine ⟨NatGrows_trans a1 b1, ?_⟩
      intro k hk
      rcases List.mem_cons.mp hk with rfl | hk
      · obtain ⟨L2, c1, c2, c3⟩ := b1 k L1 a2
        simp only [loopEnds, Prod.mk.injEq] at c2
        exact ⟨L2, c1, by rw [c2.1]; exact c3 _ a3, by rw [c2.2]; exact c3 _ a4⟩
      · exact b2 k hk

/-- The parts of `DetectLoops` after `ConstructNatLoop` change no header, no primary
footer and no natural-loop set. -/
theorem DetectLoops_shape {fuel : Nat} {uconf : Nat → Option (List Nat)} {g1 g' : CFG}
    (h : DetectLoops fuel uconf g1 = some g') :
    ∃ gd ptrs g2, detectBackEdges g1 = some gd ∧ gd.loops = some ptrs ∧
      natLoopsFor ptrs gd = some g2 ∧
      g'.loop_store.map loopShape = g2.loop_store.map loopShape := by
  unfold DetectLoops at h
  split at h
  · exact absurd h (by simp)
  · rename_i gd hgd
    split at h
    · exact absurd h (by simp)
    · rename_i g2 hg2
      unfold constructNatLoops at hg2
      split at hg2
      · exact absurd hg2 (by simp)
      · rename_i ptrs hptrs
        refine ⟨gd, ptrs, g2, hgd, hptrs, hg2, ?_⟩
        split at h
        · exact absurd h (by simp)
        · rename_i g3 hg3
          have s3 : g3.loop_store.map loopShape = g2.loop_store.map loopShape := by
            unfold adjustNesting at hg3
            split at hg3
            · exact absurd hg3 (by simp)
            · split at hg3
              · exact absurd hg3 (by simp)
              · rename_i ls3 hls3
                simp only [Option.some.injEq] at hg3
                subst hg3
                exact nestingFix_shape _ _ _ hls3
          split at h
          · exact absurd h (by simp)
          · rename_i g4 hg4
            have s4 : g4.loop_store.map loopShape = g3.loop_store.map loopShape := by
              unfold applyUnroll at hg4
              split at hg4
              · split at hg4
                · exact absurd hg4 (by simp)
                · split at hg4
                  · simp only [Option.some.injEq] at hg4
                    subst hg4; rfl
                  · split at hg4
                    · simp only [Option.some.injEq] at hg4
                      subst hg4; rfl
                    · split at hg4
                      · exact absurd hg4 (by simp)
                      · rename_i ls4 hls4
                        simp only [Option.some.injEq] at hg4
                        subst hg4
                        exact (unrollFor_shape _ _ _ hls4).1
              · simp only [Option.some.injEq] at hg4
                subst hg4; rfl
            have s5 : g'.loop_store.map loopShape = g4.loop_store.map loopShape := by
              unfold cullLoops at h
              split at h
              · exact absurd h (by simp)
              · split at h
                · exact absurd h (by simp)
                · simp only [Option.some.injEq] at h
                  subst h; rfl
            exact s5.trans (s4.trans s3)

/-- After `DetectLoops` on a freshly built CFG, the header and the primary footer of every
detected loop are in the natural-loop set of the loop. -/
theorem DetectLoops_ends_in_nat_loop {s : List Instruction} {u : Bool} {gli : Nat}
    {g g1 g' : CFG} {segs : List (List (Nat × Instruction))} {fuel : Nat}
    {uconf : Nat → Option (List Nat)}
    (hb : Built s u gli g g1 segs) (h : DetectLoops fuel uconf g1 = some g') :
    ∀ (l : Nat) (L : Loop), g'.loop_store[l]? = some L →
      L.header ∈ L.nat_loop ∧ L.footer ∈ L.nat_loop := by
  obtain ⟨gd, ptrs, g2, hgd, hptrs, hg2, hshape⟩ := DetectLoops_shape h
  obtain ⟨hdfs, -⟩ := detectBackEdges_inv hb hgd
  have hrange : ptrs = List.range gd.loop_store.length := by
    have := hdfs.listed
    rw [hptrs] at this
    simpa using this
  obtain ⟨hgrow, hall⟩ := natLoopsFor_grows ptrs gd g2 hg2
  intro l L hl
  obtain ⟨L2, hL2, hs⟩ := shape_getElem? hshape hl
  have hlen : l < gd.loop_store.length := by
    by_contra hcon
    have hnone : gd.loop_store[l]? = none := List.getElem?_eq_none (by omega)
    have hphase : NatPhase gd := by
      refine ⟨hdfs.ok, hdfs.map, Mirror_of_static (detectBackEdges_inv hb hgd).2.1 hb.mirror, ?_⟩
      intro L0 hL0 b hbm
      rw [(hdfs.fresh L0 hL0).1] at hbm
      simp at hbm
    obtain ⟨-, -, a3⟩ := natLoopsFor_inv ptrs gd g2 hg2 hphase
    have hl2 : l < g2.loop_store.length := (List.getElem?_eq_some_iff.mp hL2).1
    have := congrArg List.length a3
    simp only [List.length_map] at this
    omega
  obtain ⟨L1, b1, b2, b3⟩ := hall l (by rw [hrange]; exact List.mem_range.mpr hlen)
  rw [hL2] at b1
  have e := Option.some.inj b1
  subst e
  simp only [loopShape, Prod.mk.injEq] at hs
  rw [hs.1, hs.2.1, hs.2.2]
  exact ⟨b2, b3⟩

/-! ## The op counts of a stream without deleted instructions -/

theorem mkBasicBlock_self {s : List Instruction} {b e : Option Nat} {u : Nat}
    {bb : BasicBlock} (h : mkBasicBlock s b e u = some bb) :
    mkBasicBlock s bb.begin_instr bb.end_instr bb.id = some bb := by
  obtain ⟨h1, h2, h3, -⟩ := mkBasicBlock_info h
  rw [h1, h2, h3]; exact h

/-- Every block of the CFG that `ComputeBasicBlocks` returns is as the constructor of
`BasicBlock` makes it from its first instruction, its last instruction and its id. -/
theorem ComputeBasicBlocks_made {s : List Instruction} {g0 g : CFG}
    (h0 : g0.all_blocks = []) (h : ComputeBasicBlocks s g0 = some g) :
    ∀ bb ∈ g.all_blocks, mkBasicBlock s bb.begin_instr bb.end_instr bb.id = some bb := by
  have hclose : ∀ (st : CBBState) (l : Option Nat) (st1 : CBBState),
      closeBlock s st l = some st1 →
      (∀ bb ∈ st.g.all_blocks, mkBasicBlock s bb.begin_instr bb.end_instr bb.id = some bb) →
      ∀ bb ∈ st1.g.all_blocks, mkBasicBlock s bb.begin_instr bb.end_instr bb.id = some bb := by
    intro st l st1 hc hP bb hbb
    obtain ⟨b1, hb1, hall, -⟩ := closeBlock_spec hc
    rw [hall, List.mem_append, List.mem_singleton] at hbb
    rcases hbb with hbb | hbb
    · exact hP bb hbb
    · rw [hbb]; exact mkBasicBlock_self hb1
  unfold ComputeBasicBlocks at h
  split at h
  · exact absurd h (by simp)
  · rename_i entry hentry
    simp only at h
    split at h
    · exact absurd h (by simp)
    · rename_i st hloop
      have hst := cbbLoop_preserves
        (fun g => ∀ bb ∈ g.all_blocks,
          mkBasicBlock s bb.begin_instr bb.end_instr bb.id = some bb)
        hclose s 0 _ st hloop (by
          intro bb hbb
          simp only [CFG.AddBasicBlock, h0, List.nil_append, List.mem_singleton] at hbb
          rw [hbb]; exact mkBasicBlock_self hentry)
      split at h
      · exact absurd h (by simp)
      · rename_i st1 hst1
        have hst1P : ∀ bb ∈ st1.g.all_blocks,
            mkBasicBlock s bb.begin_instr bb.end_instr bb.id = some bb := by
          split at hst1
          · exact hclose _ _ _ hst1 hst
          · simp only [Option.some.injEq] at hst1
            rw [← hst1]; exact hst
        split at h
        · exact absurd h (by simp)
        · rename_i exit hexit
          simp only [Option.some.injEq] at h
          subst h
          intro bb hbb
          simp only [CFG.AddBasicBlock, List.mem_append, List.mem_singleton] at hbb
          rcases hbb with hbb | hbb
          · exact hst1P bb hbb
          · rw [hbb]; exact mkBasicBlock_self hexit

theorem enumFrom_split {α : Type} {A B : List (Nat × α)} {s : List α} {off : Nat}
    (h : A ++ B = s.enumFrom off) :
    A.length ≤ s.length ∧ A = (s.take A.length).enumFrom off ∧
      B = (s.drop A.length).enumFrom (off + A.length) := by
  have hlen : A.length + B.length = s.length := by
    have := congrArg List.length h
    simpa using this
  have hA : A.length ≤ s.length := by omega
  have h1 : s.enumFrom off = (s.take A.length).enumFrom off
      ++ (s.drop A.length).enumFrom (off + A.length) := by
    conv_lhs => rw [← List.take_append_drop A.length s]
    rw [List.enumFrom_append]
    simp [List.length_take, Nat.min_eq_left hA]
  rw [h1] at h
  have := List.append_inj h (by simp [List.length_take, Nat.min_eq_left hA])
  exact ⟨hA, this.1, this.2⟩

/-- A segment of a list of numbered instructions holds consecutive positions. -/
theorem seg_contiguous {α : Type} : ∀ (segs : List (List (Nat × α))) (s : List α)
    (off k : Nat) (seg : List (Nat × α)),
    segs.flatten = s.enumFrom off → segs[k]? = some seg → seg ≠ [] →
    ∃ a, off ≤ a ∧ a + seg.length ≤ off + s.length ∧
      seg.head?.map Prod.fst = some a ∧
      seg.getLast?.map Prod.fst = some (a + seg.length - 1) := by
  intro segs
  induction segs with
  | nil => intro s off k seg _ hk; simp at hk
  | cons sg rest ih =>
    intro s off k seg hfl hk hne
    simp only [List.flatten_cons] at hfl
    obtain ⟨hA, hsg, hrest⟩ := enumFrom_split hfl
    cases k with
    | zero =>
      simp only [List.getElem?_cons_zero, Option.some.injEq] at hk
      subst hk
      have hpos : 0 < sg.length := List.length_pos.mpr hne
      have htl : (s.take sg.length).length = sg.length := by
        simp [List.length_take, Nat.min_eq_left hA]
      refine ⟨off, le_refl _, by omega, ?_, ?_⟩
      · rw [List.head?_eq_getElem?]
        conv_lhs => rw [hsg]
        rw [List.getElem?_enumFrom]
        have : 0 < (s.take sg.length).length := by omega
        simp [List.getElem?_eq_getElem this]
      · rw [List.getLast?_eq_getElem?]
        have hidx : sg.length - 1 < (s.take sg.length).length := by omega
        have hget : sg[sg.length - 1]? = ((s.take sg.length).enumFrom off)[sg.length - 1]? :=
          congrArg (fun l => l[sg.length - 1]?) hsg
        rw [hget, List.getElem?_enumFrom, List.getElem?_eq_getElem hidx]
        simp only [Option.map_some', Option.some.injEq]
        omega
    | succ k =>
      simp only [List.getElem?_cons_succ] at hk
      obtain ⟨a, a1, a2, a3, a4⟩ := ih (s.drop sg.length) (off + sg.length) k seg hrest hk hne
      refine ⟨a, by omega, ?_, a3, a4⟩
      simp only [List.length_drop] at a2
      omega

theorem nonDeleted_all {s : List Instruction} (hd : ∀ i ∈ s, i.IsDeleted = false) :
    nonDeleted s = s.enumFrom 0 := by
  have hall : List.filter (fun x : Nat × Instruction => !x.2.IsDeleted) s.enum = s.enum := by
    rw [List.filter_eq_self]
    intro x hx
    have hmem : x.2 ∈ s := by
      obtain ⟨k, i⟩ := x
      have := List.mk_mem_enum_iff_getElem?.mp hx
      exact mem_of_getElem?' this
    simp [hd x.2 hmem]
  unfold nonDeleted
  rw [hall]
  rfl

/-- The op counts on the streams the constructor is written for.  When the stream is
linked in order, every instruction belongs to a class, and no instruction is deleted, the
total op counts of the interior blocks add up to the number of instructions. -/
theorem interiorOpCount_without_deleted {s : List Instruction} {g0 g : CFG}
    (hw : WellLinked s) (hc : ∀ i ∈ s, Classified i)
    (hd : ∀ i ∈ s, i.IsDeleted = false) (hlen : s.length < UINT_MOD)
    (h0 : g0.all_blocks = []) (h : ComputeBasicBlocks s g0 = some g) :
    interiorOpCount g = (nonDeleted s).length := by
  obtain ⟨segs, hseg, hinfo, -, -⟩ := ComputeBasicBlocks_blocks h0 h
  have hmade := ComputeBasicBlocks_made h0 h
  have hnd := nonDeleted_all hd
  obtain ⟨hflat, hnonempty, -, -⟩ := hseg
  rw [hnd] at hflat
  have hI : g.all_blocks.tail.dropLast.map blockInfo = segs.enum.map segInfo := by
    rw [List.map_dropLast, List.map_tail, hinfo]
    simp
  have hIlen : g.all_blocks.tail.dropLast.length = segs.length := by
    have := congrArg List.length hI
    simpa using this
  have hsub : ∀ bb ∈ g.all_blocks.tail.dropLast, bb ∈ g.all_blocks := fun bb hbb =>
    List.mem_of_mem_tail (List.mem_of_mem_dropLast hbb)
  have hcounts : g.all_blocks.tail.dropLast.map (fun b => b.total_op_count)
      = segs.map List.length := by
    apply List.ext_getElem?
    intro k
    simp only [List.getElem?_map]
    cases hk : g.all_blocks.tail.dropLast[k]? with
    | none =>
      have : segs.length ≤ k := by
        rw [← hIlen]; exact List.getElem?_eq_none_iff.mp hk
      simp [List.getElem?_eq_none this]
    | some bb =>
      have hkl : k < segs.length := by
        rw [← hIlen]; exact (List.getElem?_eq_some_iff.mp hk).1
      have hsk : segs[k]? = some segs[k] := List.getElem?_eq_getElem hkl
      have hne : segs[k] ≠ [] := hnonempty _ (List.getElem_mem hkl)
      obtain ⟨a, a1, a2, a3, a4⟩ := seg_contiguous segs s 0 k segs[k] hflat hsk hne
      have hbi : blockInfo bb = segInfo (k, segs[k]) := by
        have := congrArg (fun l => l[k]?) hI
        simp only [List.getElem?_map, hk, Option.map_some'] at this
        have he : segs.enum[k]? = some (k, segs[k]) := by
          rw [List.enum, List.getElem?_enumFrom, hsk]
          simp
        rw [he] at this
        simpa using this
      simp only [blockInfo, segInfo, Prod.mk.injEq, a3, a4] at hbi
      have hpos : 0 < segs[k].length := List.length_pos.mpr hne
      have hm := hmade bb (hsub bb (mem_of_getElem?' hk))
      rw [hbi.1, hbi.2.1] at hm
      obtain ⟨bb1, hbb1, htot⟩ := mkBasicBlock_walk hw hc bb.id
        (by omega : a ≤ a + segs[k].length - 1) (by omega : a + segs[k].length - 1 < s.length)
      rw [hm] at hbb1
      have e := Option.some.inj hbb1
      subst e
      have := htot (by omega)
      simp only [hsk, Option.map_some', Option.some.injEq]
      rw [this]
      omega
  unfold interiorOpCount
  rw [hcounts, ← List.length_flatten, hflat, hnd]

/-! ## What ConstructNatLoop and the nesting levels leave alone -/

theorem updLoop_frame {α : Type} (f : Loop → α) {ls ls1 : List Loop} {k : Nat}
    {u : Loop → Loop} (h : updLoop ls k u = some ls1) (hu : ∀ L, f (u L) = f L) :
    ls1.map f = ls.map f := by
  unfold updLoop at h
  split at h
  · exact absurd h (by simp)
  · rename_i x hx
    simp only [Option.some.injEq] at h
    subst h
    exact set_map_eq f hx (hu x)

theorem natLoopNested_frame {α : Type} (f : Loop → α)
    (h2 : ∀ (L : Loop) (i : Nat), f (L.AddInnerLoop i) = f L)
    (h3 : ∀ (L : Loop) (e : Option Nat), f (L.SetEnclosingLoop e) = f L)
    {ls ls1 : List Loop} {l bb : Nat} {m : List (Nat × Nat)} {b : BasicBlock}
    (h : natLoopNested m l bb b ls = some ls1) : ls1.map f = ls.map f := by
  unfold natLoopNested at h
  split at h
  · split at h
    · exact absurd h (by simp)
    · split at h
      · exact absurd h (by simp)
      · split at h
        · exact absurd h (by simp)
        · split at h
          · exact absurd h (by simp)
          · split at h
            · split at h
              · exact absurd h (by simp)
              · rename_i ls2 hls2
                rw [updLoop_frame f h (fun L => h3 L _), updLoop_frame f hls2 (fun L => h2 L _)]
            · simp only [Option.some.injEq] at h
              subst h; rfl
  · simp only [Option.some.injEq] at h
    subst h; rfl

theorem natLoopPreds_frame {α : Type} (f : Loop → α)
    (h1 : ∀ (L : Loop) (N : List Nat), f { L with nat_loop := N } = f L)
    {bs : List BasicBlock} {l : Nat} :
    ∀ (preds : List Nat) (st st1 : NatLoopState),
      natLoopPreds bs l preds st = some st1 → st1.ls.map f = st.ls.map f := by
  intro preds
  induction preds with
  | nil =>
    intro st st1 h
    simp only [natLoopPreds, Option.some.injEq] at h
    subst h; rfl
  | cons pred rest ih =>
    intro st st1 h
    simp only [natLoopPreds] at h
    split at h
    · exact absurd h (by simp)
    · rename_i this hthis
      split at h
      · exact ih _ _ h
      · split at h
        · exact absurd h (by simp)
        · rw [ih _ _ h]
          exact set_map_eq f hthis (h1 this _)

theorem natLoopWhile_frame {α : Type} (f : Loop → α)
    (h1 : ∀ (L : Loop) (N : List Nat), f { L with nat_loop := N } = f L)
    (h2 : ∀ (L : Loop) (i : Nat), f (L.AddInnerLoop i) = f L)
    (h3 : ∀ (L : Loop) (e : Option Nat), f (L.SetEnclosingLoop e) = f L)
    {bs : List BasicBlock} {m : List (Nat × Nat)} {l : Nat} :
    ∀ (fuel : Nat) (st st1 : NatLoopState),
      natLoopWhile bs m l fuel st = some st1 → st1.ls.map f = st.ls.map f := by
  intro fuel
  induction fuel with
  | zero =>
    intro st st1 h
    unfold natLoopWhile at h
    split at h
    · simp only [Option.some.injEq] at h; subst h; rfl
    · simp at h
  | succ fuel ih =>
    intro st st1 h
    unfold natLoopWhile at h
    split at h
    · simp only [Option.some.injEq] at h; subst h; rfl
    · simp only at h
      split at h
      · exact absurd h (by simp)
      · split at h
        · exact absurd h (by simp)
        · rename_i ls1 hn
          split at h
          · exact absurd h (by simp)
          · rename_i st2 hp
            rw [ih _ _ h, natLoopPreds_frame f h1 _ _ _ hp]
            exact natLoopNested_frame f h2 h3 hn

/-- A field of the loop objects that neither `nat_loop.insert`, `AddInnerLoop`,
`SetEnclosingLoop` nor `SetNumInstrs` writes is the same after `ConstructNatLoop`. -/
theorem ConstructNatLoop_frame {α : Type} (f : Loop → α)
    (h1 : ∀ (L : Loop) (N : List Nat), f { L with nat_loop := N } = f L)
    (h2 : ∀ (L : Loop) (i : Nat), f (L.AddInnerLoop i) = f L)
    (h3 : ∀ (L : Loop) (e : Option Nat), f (L.SetEnclosingLoop e) = f L)
    (h4 : ∀ (L : Loop) (n : Nat), f (L.SetNumInstrs n) = f L)
    {g g1 : CFG} {l : Nat} (h : ConstructNatLoop g l = some g1) :
    g1.loop_store.map f = g.loop_store.map f := by
  unfold ConstructNatLoop at h
  split at h
  · rename_i m this hm hthis
    split at h
    · exact absurd h (by simp)
    · rename_i hb hhb
      simp only at h
      split at h
      · exact absurd h (by simp)
      · rename_i st hst
        have hstart : st.ls.map f = g.loop_store.map f := by
          split at hst
          · simp only [Option.some.injEq] at hst
            subst hst
            exact set_map_eq f hthis (h1 this _)
          · split at hst
            · exact absurd hst (by simp)
            · simp only [Option.some.injEq] at hst
              subst hst
              exact set_map_eq f hthis (h1 this _)
        split at h
        · exact absurd h (by simp)
        · rename_i st1 hst1
          split at h
          · exact absurd h (by simp)
          · rename_i ls2 hls2
            simp only [Option.some.injEq] at h
            subst h
            simp only
            rw [updLoop_frame f hls2 (fun L => h4 L _),
              natLoopWhile_frame f h1 h2 h3 _ _ _ hst1, hstart]
  · exact absurd h (by simp)

theorem natLoopsFor_frame {α : Type} (f : Loop → α)
    (h1 : ∀ (L : Loop) (N : List Nat), f { L with nat_loop := N } = f L)
    (h2 : ∀ (L : Loop) (i : Nat), f (L.AddInnerLoop i) = f L)
    (h3 : ∀ (L : Loop) (e : Option Nat), f (L.SetEnclosingLoop e) = f L)
    (h4 : ∀ (L : Loop) (n : Nat), f (L.SetNumInstrs n) = f L) :
    ∀ (ptrs : List Nat) (g g1 : CFG), natLoopsFor ptrs g = some g1 →
      g1.loop_store.map f = g.loop_store.map f := by
  intro ptrs
  induction ptrs with
  | nil =>
    intro g g1 h
    simp only [natLoopsFor, Option.some.injEq] at h
    subst h; rfl
  | cons l rest ih =>
    intro g g1 h
    simp only [natLoopsFor] at h
    split at h
    · exact absurd h (by simp)
    · rename_i g2 hg2
      rw [ih g2 g1 h, ConstructNatLoop_frame f h1 h2 h3 h4 hg2]

theorem nestingPass_frame {α : Type} (f : Loop → α)
    (h5 : ∀ (L : Loop) (n : Nat), f (L.SetNestingLevel n) = f L) :
    ∀ (ptrs : List Nat) (ls ls1 : List Loop) (ch ch1 : Bool),
      nestingPass ptrs ls ch = some (ls1, ch1) → ls1.map f = ls.map f := by
  intro ptrs
  induction ptrs with
  | nil =>
    intro ls ls1 ch ch1 h
    simp only [nestingPass, Option.some.injEq, Prod.mk.injEq] at h
    rw [h.1]
  | cons p rest ih =>
    intro ls ls1 ch ch1 h
    simp only [nestingPass] at h
    split at h
    · exact absurd h (by simp)
    · rename_i L hL
      split at h
      · exact ih _ _ _ _ h
      · split at h
        · exact absurd h (by simp)
        · rw [ih _ _ _ _ h]
          exact set_map_eq f hL (h5 L _)

theorem nestingFix_frame {α : Type} (f : Loop → α)
    (h5 : ∀ (L : Loop) (n : Nat), f (L.SetNestingLevel n) = f L) {ptrs : List Nat} :
    ∀ (fuel : Nat) (ls ls1 : List Loop),
      nestingFix ptrs fuel ls = some ls1 → ls1.map f = ls.map f := by
  intro fuel
  induction fuel with
  | zero => intro ls ls1 h; simp [nestingFix] at h
  | succ fuel ih =>
    intro ls ls1 h
    simp only [nestingFix] at h
    split at h
    · exact absurd h (by simp)
    · rename_i ls2 ch hpass
      have h1 := nestingPass_frame f h5 _ _ _ _ _ hpass
      split at h
      · rw [ih _ _ h, h1]
      · simp only [Option.some.injEq] at h
        subst h; exact h1

/-! ## Reading the unroll factors -/

theorem readFactors_stopped : ∀ (k : Nat) (st : UconfStream) (uf : List Nat),
    (st.eof || st.fail) = true → readFactors k st uf = uf := by
  intro k st uf h
  cases k with
  | zero => rfl
  | succ k => simp only [readFactors, h, if_true]

/-- A table with at least as many factors as there are loops: the reading loop takes one
factor for each loop, in file order, and leaves the rest of the file unread. -/
theorem readFactors_take : ∀ (k : Nat) (rest uf : List Nat) (tr : Bool),
    k ≤ rest.length →
    readFactors k { rest := rest, trailing := tr } uf = uf ++ rest.take k := by
  intro k
  induction k with
  | zero => intro rest uf tr _; simp [readFactors]
  | succ k ih =>
    intro rest uf tr hk
    cases rest with
    | nil => simp at hk
    | cons x rest1 =>
      simp only [List.length_cons, Nat.add_le_add_iff_right] at hk
      simp only [readFactors, UconfStream.extract, Bool.or_self, Bool.false_eq_true, if_false]
      cases k with
      | zero => simp [readFactors]
      | succ k1 =>
        have hne : rest1.isEmpty = false := by
          cases rest1 with
          | nil => simp at hk
          | cons _ _ => rfl
        simp only [hne, Bool.false_and]
        rw [ih rest1 (uf ++ [x]) tr hk]
        simp

/-- A table with fewer factors than there are loops: the reading loop takes all of them,
and one more value, the initial `1` of `tmp`, when the last extraction finds white space
only (white space after the last factor, or an empty file). -/
theorem readFactors_short : ∀ (k : Nat) (rest uf : List Nat) (tr : Bool),
    rest.length < k →
    readFactors k { rest := rest, trailing := tr } uf
      = uf ++ rest ++ (if (tr || rest.isEmpty) = true then [1] else []) := by
  intro k
  induction k with
  | zero => intro rest uf tr h; omega
  | succ k ih =>
    intro rest uf tr hk
    cases rest with
    | nil =>
      simp only [readFactors, UconfStream.extract, Bool.or_self, Bool.false_eq_true, if_false]
      rw [readFactors_stopped k _ _ (by simp)]
      simp
    | cons x rest1 =>
      simp only [List.length_cons, Nat.add_lt_add_iff_right] at hk
      simp only [readFactors, UconfStream.extract, Bool.or_self, Bool.false_eq_true, if_false]
      cases rest1 with
      | nil =>
        cases tr with
        | false =>
          rw [readFactors_stopped k _ _ (by simp)]
          simp
        | true =>
          have := ih [] (uf ++ [x]) true hk
          simp only [List.isEmpty_nil, Bool.not_true, Bool.and_false]
          rw [this]
          simp
      | cons y rest2 =>
        have := ih (y :: rest2) (uf ++ [x]) tr hk
        simp only [List.isEmpty_cons, Bool.false_and]
        rw [this]
        simp

/-! ## The loop that divides the trip counts -/

/-- The `for` loop over a list of pairwise different loops rewrites the trip count of
every loop of the list once, with the factor at the position of its id, and leaves the
other loops as they are. -/
theorem unrollFor_spec {uf : List Nat} : ∀ (ptrs : List Nat) (ls ls1 : List Loop),
    unrollFor uf ptrs ls = some ls1 → ptrs.Nodup →
    ∀ (p : Nat) (L1 : Loop), ls1[p]? = some L1 →
      ∃ L, ls[p]? = some L ∧
        ((p ∈ ptrs → ∃ u, uf[L.id]? = some u ∧
            L1 = if u = 0 then L.SetNumIters 0 else L.SetNumIters (L.GetNumIters / u)) ∧
         (p ∉ ptrs → L1 = L)) := by
  intro ptrs
  induction ptrs with
  | nil =>
    intro ls ls1 h _ p L1 hp
    simp only [unrollFor, Option.some.injEq] at h
    subst h
    exact ⟨L1, hp, fun hm => absurd hm (List.not_mem_nil p), fun _ => rfl⟩
  | cons p0 rest ih =>
    intro ls ls1 h hnd p L1 hp
    simp only [unrollFor] at h
    split at h
    · exact absurd h (by simp)
    · rename_i loop hloop
      split at h
      · exact absurd h (by simp)
      · rename_i u hu
        obtain ⟨hp0, hnd1⟩ := List.nodup_cons.mp hnd
        obtain ⟨L', hL', hin, hout⟩ := ih _ _ h hnd1 p L1 hp
        by_cases hpp : p0 = p
        · subst hpp
          rw [getElem?_set_self' hloop] at hL'
          have e := Option.some.inj hL'
          refine ⟨loop, hloop, ?_, fun hn => absurd (List.mem_cons_self _ _) hn⟩
          intro _
          refine ⟨u, hu, ?_⟩
          rw [hout hp0, ← e]
        · rw [List.getElem?_set] at hL'
          simp only [hpp, if_false] at hL'
          refine ⟨L', hL', ?_, ?_⟩
          · intro hm
            rcases List.mem_cons.mp hm with hm | hm
            · exact absurd hm.symm hpp
            · exact hin hm
          · intro hn
            exact hout (fun hm => hn (List.mem_cons_of_mem _ hm))

/-! ## The unroll factors in DetectLoops -/

theorem ConstructNatLoop_rest {g g1 : CFG} {l : Nat} (h : ConstructNatLoop g l = some g1) :
    g1 = { g with loop_store := g1.loop_store } := by
  unfold ConstructNatLoop at h
  split at h
  · split at h
    · exact absurd h (by simp)
    · simp only at h
      split at h
      · exact absurd h (by simp)
      · split at h
        · exact absurd h (by simp)
        · split at h
          · exact absurd h (by simp)
          · simp only [Option.some.injEq] at h
            subst h; rfl
  · exact absurd h (by simp)

theorem natLoopsFor_rest : ∀ (ptrs : List Nat) (g g1 : CFG),
    natLoopsFor ptrs g = some g1 → g1 = { g with loop_store := g1.loop_store } := by
  intro ptrs
  induction ptrs with
  | nil =>
    intro g g1 h
    simp only [natLoopsFor, Option.some.injEq] at h
    subst h; rfl
  | cons l rest ih =>
    intro g g1 h
    simp only [natLoopsFor] at h
    split at h
    · exact absurd h (by simp)
    · rename_i g2 hg2
      have a := ConstructNatLoop_rest hg2
      have b := ih g2 g1 h
      rw [b, a]

/-- The five parts of `DetectLoops`, one after the other. -/
theorem DetectLoops_parts {fuel : Nat} {uconf : Nat → Option (List Nat)} {g1 g' : CFG}
    (h : DetectLoops fuel uconf g1 = some g') :
    ∃ gd ptrs g2 ls3 g4, detectBackEdges g1 = some gd ∧ gd.loops = some ptrs ∧
      natLoopsFor ptrs gd = some g2 ∧ nestingFix ptrs fuel g2.loop_store = some ls3 ∧
      applyUnroll uconf { gd with loop_store := ls3 } = some g4 ∧
      g'.loop_store = g4.loop_store := by
  unfold DetectLoops at h
  split at h
  · exact absurd h (by simp)
  · rename_i gd hgd
    split at h
    · exact absurd h (by simp)
    · rename_i g2 hg2
      unfold constructNatLoops at hg2
      split at hg2
      · exact absurd hg2 (by simp)
      · rename_i ptrs hptrs
        have hrest := natLoopsFor_rest ptrs gd g2 hg2
        have hloops2 : g2.loops = some ptrs := by rw [hrest]; exact hptrs
        split at h
        · exact absurd h (by simp)
        · rename_i g3 hg3
          unfold adjustNesting at hg3
          rw [hloops2] at hg3
          simp only at hg3
          split at hg3
          · exact absurd hg3 (by simp)
          · rename_i ls3 hls3
            simp only [Option.some.injEq] at hg3
            subst hg3
            split at h
            · exact absurd h (by simp)
            · rename_i g4 hg4
              refine ⟨gd, ptrs, g2, ls3, g4, hgd, hptrs, hg2, hls3, ?_, ?_⟩
              · rw [hrest] at hg4
                simp only at hg4
                rw [← hptrs] at hg4
                exact hg4
              · unfold cullLoops at h
                split at h
                · exact absurd h (by simp)
                · split at h
                  · exact absurd h (by simp)
                  · simp only [Option.some.injEq] at h
                    subst h; rfl

/-- Every loop has the default trip count when `DetectLoops` comes to the unroll
factors, and the loop list holds every loop once. -/
theorem DetectLoops_before_unroll {s : List Instruction} {u : Bool} {gli : Nat}
    {g g1 gd g2 : CFG} {segs : List (List (Nat × Instruction))} {fuel : Nat}
    {ptrs : List Nat} {ls3 : List Loop}
    (hb : Built s u gli g g1 segs) (hgd : detectBackEdges g1 = some gd)
    (hptrs : gd.loops = some ptrs) (hg2 : natLoopsFor ptrs gd = some g2)
    (hls3 : nestingFix ptrs fuel g2.loop_store = some ls3) :
    ptrs = List.range ls3.length ∧ (∀ L ∈ ls3, L.GetNumIters = 256) ∧
    gd.unrolled_loops = u := by
  obtain ⟨hdfs, hsame⟩ := detectBackEdges_inv hb hgd
  have hrange : ptrs = List.range gd.loop_store.length := by
    have := hdfs.listed
    rw [hptrs] at this
    simpa using this
  have f2 := natLoopsFor_frame Loop.GetNumIters (fun _ _ => rfl) (fun _ _ => rfl)
    (fun _ _ => rfl) (fun _ _ => rfl) ptrs gd g2 hg2
  have f3 := nestingFix_frame Loop.GetNumIters (fun _ _ => rfl) fuel _ _ hls3
  have hmap : ls3.map Loop.GetNumIters = gd.loop_store.map Loop.GetNumIters := f3.trans f2
  have hlen : ls3.length = gd.loop_store.length := by
    have := congrArg List.length hmap
    simpa using this
  refine ⟨by rw [hlen]; exact hrange, ?_, ?_⟩
  · intro L hL
    obtain ⟨i, hi, hget⟩ := List.getElem_of_mem hL
    have h1 : (ls3.map Loop.GetNumIters)[i]? = some L.GetNumIters := by
      simp [List.getElem?_eq_getElem hi, hget]
    rw [hmap] at h1
    simp only [List.getElem?_map, Option.map_eq_some'] at h1
    obtain ⟨L0, hL0, e⟩ := h1
    rw [← e]
    exact (hdfs.fresh L0 (mem_of_getElem?' hL0)).2.2.2.2
  · rw [hsame.2.2.2.2.2]; exact hb.unrolled

theorem applyUnroll_length {uconf : Nat → Option (List Nat)} {g g4 : CFG}
    (h : applyUnroll uconf g = some g4) : g4.loop_store.length = g.loop_store.length := by
  unfold applyUnroll at h
  split at h
  · split at h
    · exact absurd h (by simp)
    · split at h
      · simp only [Option.some.injEq] at h
        subst h; rfl
      · split at h
        · simp only [Option.some.injEq] at h
          subst h; rfl
        · split at h
          · exact absurd h (by simp)
          · rename_i ls4 hls4
            simp only [Option.some.injEq] at h
            subst h
            have := congrArg List.length (unrollFor_shape _ _ _ hls4).1
            simpa using this
  · simp only [Option.some.injEq] at h
    subst h; rfl

/-- C11.  The unrolled flag is set and the file `./.uconf` holds as many factors as
`DetectLoops` has found loops.  Then, after `DetectLoops`, the trip count of the loop with
id `i` is 0 if the factor `u` at position `i` of the table is 0, and otherwise the
quotient of the default trip count 256, which every loop has before the pass, by `u`. -/
theorem C11_unroll_factors_applied (s : List Instruction) (gli fuel : Nat)
    (file : UconfFile) (g g' : CFG)
    (h1 : mkCFG s true gli = some g)
    (h2 : DetectLoops fuel (uconfRead (some file)) g = some g')
    (hn : file.factors.length = g'.loop_store.length) :
    ∀ (l : Nat) (L : Loop), g'.loop_store[l]? = some L →
      ∃ u, file.factors[L.Id]? = some u ∧
        L.GetNumIters = if u = 0 then 0 else 256 / u := by
  obtain ⟨g0, segs, hb⟩ := mkCFG_spec h1
  obtain ⟨gd, ptrs, g2, ls3, g4, hgd, hptrs, hg2, hls3, hg4, hstore⟩ := DetectLoops_parts h2
  obtain ⟨hrange, htrip, hun⟩ := DetectLoops_before_unroll hb hgd hptrs hg2 hls3
  have hlen4 := applyUnroll_length hg4
  simp only at hlen4
  have hplen : ptrs.length = ls3.length := by rw [hrange]; simp
  have hfl : file.factors.length = ptrs.length := by
    rw [hn, hstore, hlen4, hplen]
  unfold applyUnroll at hg4
  simp only [hun, if_true, hptrs, uconfRead] at hg4
  rw [readFactors_take ptrs.length file.factors [] file.trailing (by omega)] at hg4
  have htake : file.factors.take ptrs.length = file.factors := by
    exact List.take_of_length_le (le_of_eq hfl)
  simp only [List.nil_append, htake, hfl, bne_self_eq_false, Bool.false_eq_true, if_false] at hg4
  split at hg4
  · exact absurd hg4 (by simp)
  · rename_i ls4 hls4
    simp only [Option.some.injEq] at hg4
    subst hg4
    intro l L hl
    rw [hstore] at hl
    simp only at hl
    have hnd : ptrs.Nodup := by rw [hrange]; exact List.nodup_range _
    obtain ⟨L0, hL0, hin, -⟩ := unrollFor_spec ptrs ls3 ls4 hls4 hnd l L hl
    have hl3 : l < ls3.length := (List.getElem?_eq_some_iff.mp hL0).1
    obtain ⟨u, hu, hL⟩ := hin (by rw [hrange]; exact List.mem_range.mpr hl3)
    have h256 := htrip L0 (mem_of_getElem?' hL0)
    refine ⟨u, ?_, ?_⟩
    · have hid : L.Id = L0.id := by
        rw [hL]; split <;> rfl
      rw [hid]; exact hu
    · rw [hL]
      split
      · rfl
      · simp only [Loop.GetNumIters, Loop.SetNumIters] at h256 ⊢
        rw [h256]

theorem nested_built : mkCFG streamNested true 0 = some cfgNestedBuilt := by
  decide

theorem nested_unrolled :
    DetectLoops 2 (uconfRead (some uconfTwo)) cfgNestedBuilt = some cfgNestedUnrolled := by
  decide

theorem C11_unroll_factors_applied_witness :
    mkCFG streamNested true 0 = some cfgNestedBuilt ∧
    DetectLoops 2 (uconfRead (some uconfTwo)) cfgNestedBuilt = some cfgNestedUnrolled ∧
    uconfTwo.factors = [12, 25] ∧
    cfgNestedUnrolled.loop_store.map (fun L => (L.Id, L.GetNumIters)) = [(0, 21), (1, 10)] ∧
    ∀ (l : Nat) (L : Loop), cfgNestedUnrolled.loop_store[l]? = some L →
      ∃ u, uconfTwo.factors[L.Id]? = some u ∧
        L.GetNumIters = if u = 0 then 0 else 256 / u :=
  ⟨nested_built, nested_unrolled, rfl, by decide,
    C11_unroll_factors_applied streamNested 0 2 uconfTwo cfgNestedBuilt cfgNestedUnrolled
      nested_built nested_unrolled (by decide)⟩

/-- The trip counts stay at the default when the file cannot be opened, or when the
reading loop ends with a number of values that is not the number of loops. -/
theorem DetectLoops_default_trips {s : List Instruction} {u : Bool} {gli : Nat}
    {g g1 g' : CFG} {segs : List (List (Nat × Instruction))} {fuel : Nat}
    {uconf : Nat → Option (List Nat)}
    (hb : Built s u gli g g1 segs) (h : DetectLoops fuel uconf g1 = some g')
    (hu : ∀ uf, uconf g'.loop_store.length = some uf → uf.length ≠ g'.loop_store.length) :
    ∀ L ∈ g'.loop_store, L.GetNumIters = 256 := by
  obtain ⟨gd, ptrs, g2, ls3, g4, hgd, hptrs, hg2, hls3, hg4, hstore⟩ := DetectLoops_parts h
  obtain ⟨hrange, htrip, hun⟩ := DetectLoops_before_unroll hb hgd hptrs hg2 hls3
  have hlen4 := applyUnroll_length hg4
  simp only at hlen4
  have hplen : ptrs.length = g'.loop_store.length := by
    rw [hstore, hlen4, hrange]; simp
  suffices hs : g4.loop_store = ls3 by
    rw [hstore, hs]; exact htrip
  unfold applyUnroll at hg4
  split at hg4
  · simp only [hptrs] at hg4
    split at hg4
    · simp only [Option.some.injEq] at hg4
      subst hg4; rfl
    · rename_i uf huf
      split at hg4
      · simp only [Option.some.injEq] at hg4
        subst hg4; rfl
      · rename_i hne
        rw [hplen] at huf
        have := hu uf huf
        simp only [bne_iff_ne, ne_eq, Decidable.not_not] at hne
        rw [hplen] at hne
        exact absurd hne this
  · simp only [Option.some.injEq] at hg4
    subst hg4; rfl

/-- C12, as the claim states it, fails.  `streamContinue` has one loop and the table
`uconfLong` holds two factors: the reading loop stops after the first one, the sizes
agree, and the trip count of the loop becomes `256 / 2`. -/
theorem C12_counterexample :
    uconfLong.factors.length = 2 ∧
    ((mkCFG streamContinue true 0).bind
        (DetectLoops 1 (uconfRead (some uconfLong)))).map
      (fun g => g.loop_store.map Loop.GetNumIters) = some [128] := by
  decide

/-- C12, amended.  The unrolled flag is set and the table holds fewer factors than
`DetectLoops` has found loops; the file ends right after its last factor, or at least two
factors are missing, so that the reading loop ends with fewer values than loops.  Then
every loop keeps the default trip count 256. -/
theorem C12_fewer_factors_default (s : List Instruction) (gli fuel : Nat)
    (file : UconfFile) (g g' : CFG)
    (h1 : mkCFG s true gli = some g)
    (h2 : DetectLoops fuel (uconfRead (some file)) g = some g')
    (hfew : file.factors.length < g'.loop_store.length)
    (hend : file.factors.length + 1 < g'.loop_store.length ∨
      (file.trailing = false ∧ file.factors ≠ [])) :
    ∀ L ∈ g'.loop_store, L.GetNumIters = 256 := by
  obtain ⟨g0, segs, hb⟩ := mkCFG_spec h1
  refine DetectLoops_default_trips hb h2 ?_
  intro uf huf
  simp only [uconfRead, Option.some.injEq] at huf
  rw [readFactors_short _ _ _ _ hfew] at huf
  subst huf
  simp only [List.nil_append, List.length_append]
  rcases hend with hend | ⟨ht, hne⟩
  · split <;> simp <;> omega
  · have : file.factors.isEmpty = false := by
      cases hf : file.factors with
      | nil => exact absurd hf hne
      | cons _ _ => rfl
    simp only [ht, this, Bool.or_self, Bool.false_eq_true, if_false, List.length_nil]
    omega

theorem nested_short :
    DetectLoops 2 (uconfRead (some uconfShort)) cfgNestedBuilt = some cfgNestedShort := by
  decide

theorem C12_fewer_factors_default_witness :
    mkCFG streamNested true 0 = some cfgNestedBuilt ∧
    DetectLoops 2 (uconfRead (some uconfShort)) cfgNestedBuilt = some cfgNestedShort ∧
    uconfShort.factors.length = 1 ∧ cfgNestedShort.loop_store.length = 2 ∧
    ∀ L ∈ cfgNestedShort.loop_store, L.GetNumIters = 256 :=
  ⟨nested_built, nested_short, rfl, by decide,
    C12_fewer_factors_default streamNested 0 2 uconfShort cfgNestedBuilt cfgNestedShort
      nested_built nested_short (by decide) (Or.inr ⟨rfl, by decide⟩)⟩

/-- C13 (the code departs from it).  For the empty stream `ComputeBasicBlocks` makes the
two sentinels, without successors.  The loop of `ConstructCFG` runs from `BlocksBegin() + 1`
to `BlocksEnd() - 1` and has no round, so the local `bb` is never assigned when
`bb->AddSucc(exit)` is reached: the constructor of `CFG` does not return a CFG, the entry
sentinel never gets the exit sentinel as successor, and there is nothing for
`CountCycles` to walk. -/
theorem C13_empty_stream_no_cfg :
    (ComputeBasicBlocks [] {}).map
        (fun g => g.all_blocks.map (fun b => (b.Id, b.succ, b.pred)))
      = some [(65535, [], []), (65536, [], [])] ∧
    ∀ (unrolled : Bool) (gli : Nat), mkCFG [] unrolled gli = none :=
  ⟨by decide, fun _ _ => rfl⟩

theorem ret_built : mkCFG streamRet false 0 = some cfgRet := by
  decide

/-- C14 (the code departs from it).  The CFG of `streamRet` is constructed and has no back
edge: the search of `DetectLoops` calls `AddLoop` for no block, so the vector `loops` is
never allocated, and the loop over `*loops` that follows reads the pointer all the same.
`DetectLoops` does not run to completion, whatever the number of rounds and the file
`./.uconf`. -/
theorem C14_no_back_edge_loops_unallocated :
    mkCFG streamRet false 0 = some cfgRet ∧
    (detectBackEdges cfgRet).map (fun g => (g.loops, g.loop_store.length)) = some (none, 0) ∧
    ∀ (fuel : Nat) (uconf : Nat → Option (List Nat)), DetectLoops fuel uconf cfgRet = none := by
  refine ⟨ret_built, by decide, ?_⟩
  intro fuel uconf
  have h : (detectBackEdges cfgRet).bind constructNatLoops = none := by decide
  unfold DetectLoops
  cases hd : detectBackEdges cfgRet with
  | none => rfl
  | some gd =>
    rw [hd] at h
    simp only [Option.some_bind] at h
    simp only [h]

/-! ## The CFG of a stream that makes a single block -/

theorem mem_enumFrom_zero {s : List Instruction} {x : Nat × Instruction}
    (h : x ∈ s.enumFrom 0) : s[x.1]? = some x.2 := by
  obtain ⟨k, i⟩ := x
  exact List.mk_mem_enum_iff_getElem?.mp h

theorem straight_segs {s : List Instruction} (hne : s ≠ []) (hsl : StraightLine s)
    {segs : List (List (Nat × Instruction))} (hseg : Segmented (nonDeleted s) segs) :
    segs = [s.enumFrom 0] := by
  have hnd : nonDeleted s = s.enumFrom 0 := nonDeleted_all (fun i hi => (hsl.1 i hi).1)
  obtain ⟨hflat, hnonempty, -, hchain⟩ := hseg
  rw [hnd] at hflat
  cases segs with
  | nil =>
    simp only [List.flatten_nil] at hflat
    have := congrArg List.length hflat
    simp only [List.length_nil, List.enumFrom_length] at this
    exact absurd (List.length_eq_zero.mp this.symm) hne
  | cons seg1 rest =>
    cases rest with
    | nil =>
      simp only [List.flatten_cons, List.flatten_nil, List.append_nil] at hflat
      rw [hflat]
    | cons seg2 rest2 =>
      exfalso
      have hrel := (List.chain'_cons.mp hchain).1
      have hne1 : seg1 ≠ [] := hnonempty seg1 (List.mem_cons_self _ _)
      have hne2 : seg2 ≠ [] :=
        hnonempty seg2 (List.mem_cons_of_mem _ (List.mem_cons_self _ _))
      simp only [List.flatten_cons] at hflat
      obtain ⟨-, h1, h2⟩ := enumFrom_split hflat
      obtain ⟨x, hx⟩ : ∃ x, seg1.getLast? = some x := by
        cases hl : seg1.getLast? with
        | none => exact absurd (List.getLast?_eq_none_iff.mp hl) hne1
        | some x => exact ⟨x, rfl⟩
      obtain ⟨y, t, hy⟩ : ∃ y t, seg2 = y :: t := by
        cases seg2 with
        | nil => exact absurd rfl hne2
        | cons y t => exact ⟨y, t, rfl⟩
      have hleader := hrel x (by simp [hx]) y (by simp [hy])
      have hxmem : x ∈ s.enumFrom 0 := by
        rw [← hflat]
        exact List.mem_append_left _ (List.mem_of_getLast?_eq_some hx)
      have hymem : y ∈ s.enumFrom 0 := by
        rw [← hflat, hy]
        simp
      have hpos : 0 < seg1.length := List.length_pos.mpr hne1
      have hy1 : seg1.length ≤ y.1 := by
        rw [hy] at h2
        simp only [List.cons_append, Nat.zero_add] at h2
        cases hd : s.drop seg1.length with
        | nil => rw [hd] at h2; simp at h2
        | cons z zs =>
          rw [hd] at h2
          simp only [List.enumFrom_cons, List.cons.injEq] at h2
          rw [h2.1]
      rcases hleader with hl | hl
      · have := hsl.2 y.1 y.2 (mem_enumFrom_zero hymem) (by omega)
        rw [this] at hl
        exact absurd hl (by simp)
      · have := (hsl.1 x.2 (mem_of_getElem?' (mem_enumFrom_zero hxmem))).2
        rw [this] at hl
        exact absurd hl (by simp)

/-- The CFG of a stream that makes a single block: the entry sentinel, the block with all
instructions, and the exit sentinel, one behind the other. -/
theorem straight_line_cfg {s : List Instruction} {u : Bool} {gli : Nat} {g : CFG}
    (hne : s ≠ []) (hsl : StraightLine s) (h : mkCFG s u gli = some g) :
    ∃ e b x, g.all_blocks = [e, b, x] ∧ g.entry = some 0 ∧ g.exit = some 2 ∧
      g.constructed = true ∧
      (e.Id = 65535 ∧ e.GetFirstInst = none ∧ e.IsLoopHeader = false ∧ e.succ = [1]) ∧
      (b.Id = 0 ∧ b.GetFirstInst = some 0 ∧ b.GetLastInst = some (s.length - 1) ∧
        b.IsLoopHeader = false ∧ b.succ = [2]) ∧
      x.Id = 65536 := by
  obtain ⟨g0, segs, hb⟩ := mkCFG_spec h
  have hsegs := straight_segs hne hsl hb.segmented
  have hlen1 : segs.length = 1 := by rw [hsegs]; rfl
  have hpos : 0 < s.length := List.length_pos.mpr hne
  have hlen3 : g.all_blocks.length = 3 := by rw [hb.length1, hlen1]
  obtain ⟨e, b, x, hlist⟩ := List.length_eq_three.mp hlen3
  have hinfo : g.all_blocks.map blockInfo = g0.all_blocks.map blockInfo := by
    have := congrArg (List.map blockInfo) hb.core
    simpa [List.map_map, Function.comp, blockInfo, blockCore] using this
  have hseginfo : segInfo (0, s.enumFrom 0) = (some 0, some (s.length - 1), 0) := by
    obtain ⟨a, -, a2, a3, a4⟩ := seg_contiguous [s.enumFrom 0] s 0 0 (s.enumFrom 0)
      (by simp) rfl (by
        intro hnil
        have := congrArg List.length hnil
        simp only [List.enumFrom_length, List.length_nil] at this
        omega)
    simp only [List.enumFrom_length] at a2 a4
    have ha : a = 0 := by omega
    subst ha
    simp only [segInfo, a3, a4, Nat.zero_add, Nat.zero_mod]
  rw [hb.info, hsegs, hlist] at hinfo
  simp only [List.map_cons, List.map_nil, List.enum, List.enumFrom_cons, List.enumFrom_nil,
    List.cons_append, List.nil_append, hseginfo, List.cons.injEq, and_true] at hinfo
  obtain ⟨he, hbk, hx⟩ := hinfo
  simp only [blockInfo, Prod.mk.injEq] at he hbk hx
  have hh : ∀ k, headerFlag g.all_blocks k = false := headerFlag_of_fresh hb
  have hh0 := hh 0
  have hh1 := hh 1
  simp only [headerFlag, hlist, List.getElem?_cons_zero, List.getElem?_cons_succ] at hh0 hh1
  have hs0 := hb.succ_entry
  simp only [succAt, hlist, List.getElem?_cons_zero] at hs0
  have hs1 := hb.succ_interior (k := 1) (le_refl 1) (by omega)
  have hterm : termAt s g0 1 = s[s.length - 1]? := by
    have hblk : g.all_blocks[1]? = some b := by rw [hlist]; rfl
    rw [termAt_of_core hb.core hblk]
    simp only [BasicBlock.GetLastInst, hbk.2.1]
  obtain ⟨t, ht⟩ : ∃ t, s[s.length - 1]? = some t :=
    ⟨_, List.getElem?_eq_getElem (by omega)⟩
  have htb : t.IsBranchOp = false := (hsl.1 t (mem_of_getElem?' ht)).2
  simp only [hterm, ht, branchSucc, htb, Bool.false_eq_true, if_false, List.nil_append, hlen1,
    if_true, succAt, hlist, List.getElem?_cons_succ, List.getElem?_cons_zero] at hs1
  refine ⟨e, b, x, hlist, hb.entry, by rw [hb.exit, hlen1], hb.constructed,
    ⟨he.2.2, he.1, hh0, hs0⟩, ⟨hbk.2.2, hbk.1, hbk.2.1, hh1, hs1⟩, hx.2.2⟩

/-! ## The walk of CountCycles through instructions that are charged 4 cycles -/

theorem add4_mod (a k : Nat) :
    ((a + 4) % ULL_MOD + 4 * k) % ULL_MOD = (a + 4 * (k + 1)) % ULL_MOD := by
  simp only [ULL_MOD]
  omega

theorem ptrAt_some {s : List Instruction} {p : Nat} (h : p < s.length) :
    ptrAt s p = some p := by
  simp [ptrAt, h]

theorem next_ptrAt {s : List Instruction} (hw : WellLinked s) {p : Nat} {i : Instruction}
    (h : s[p]? = some i) : i.GetNext = ptrAt s (p + 1) := by
  rw [hw p i h]; rfl

/-- A run of `k` instructions from position `p` on, each of which takes the branch
`current_cycles += 4` of the `switch` in baseline mode: the walk of `CountCycles` goes
through the run and adds `4 * k` to `current_cycles`. -/
theorem kernelInstrs_run {s : List Instruction} (W : Nat) (stop : Option Nat)
    (hw : WellLinked s) :
    ∀ (k p fuel : Nat) (c : Counters), p + k ≤ s.length → c.current < ULL_MOD →
      (∀ q, p ≤ q → q < p + k →
        some q ≠ stop ∧ ∃ i, s[q]? = some i ∧ dispatch false i = Dispatch.issue) →
      kernelInstrs false s W stop (fuel + k) (ptrAt s p) c
        = kernelInstrs false s W stop fuel (ptrAt s (p + k))
            { c with current := (c.current + 4 * k) % ULL_MOD } := by
  intro k
  induction k with
  | zero =>
    intro p fuel c _ hc _
    simp only [Nat.add_zero, Nat.mul_zero, Nat.mod_eq_of_lt hc]
  | succ k ih =>
    intro p fuel c hp hc hrun
    obtain ⟨hstop, i, hi, hd⟩ := hrun p (le_refl p) (by omega)
    have hpl : p < s.length := by omega
    rw [ptrAt_some hpl, show fuel + (k + 1) = (fuel + k) + 1 by omega]
    simp only [kernelInstrs, hstop, if_false, hi, useLoads, Bool.false_eq_true, kernelSwitch, hd]
    rw [next_ptrAt hw hi]
    have hc1 : (issue false c).current < ULL_MOD := by
      simp only [issue]
      exact Nat.mod_lt _ (by simp [ULL_MOD])
    rw [ih (p + 1) fuel (issue false c) (by omega) hc1
      (fun q h1 h2 => hrun q (by omega) (by omega))]
    have e1 : p + 1 + k = p + (k + 1) := by omega
    rw [e1]
    congr 1
    simp only [issue, Bool.false_eq_true, if_false]
    rw [add4_mod]

/-- `CountCycles` on a CFG of one interior block: the walk of that block, then the flush
at the exit sentinel. -/
theorem CountCycles_single_block {s : List Instruction} {g : CFG} {e b x : BasicBlock}
    (exp : Bool) (W : Nat)
    (hlist : g.all_blocks = [e, b, x]) (hentry : g.entry = some 0) (hexit : g.exit = some 2)
    (hcon : g.constructed = true)
    (he : e.Id = 65535 ∧ e.GetFirstInst = none ∧ e.IsLoopHeader = false ∧ e.succ = [1])
    (hb : b.Id = 0 ∧ b.IsLoopHeader = false ∧ b.succ = [2])
    (hx : x.Id = 65536) :
    CountCycles exp s g W = (kernelBlock exp s W b {}).map (fun c => (flush W c).total) := by
  obtain ⟨he1, he2, he3, he4⟩ := he
  obtain ⟨hb1, hb3, hb4⟩ := hb
  have hf0 : FindBBSuccessor g 0 = some 1 := by
    simp [FindBBSuccessor, hlist, BasicBlock.NumSucc, he4, UINT_MOD]
  have hf1 : FindBBSuccessor g 1 = some 2 := by
    simp [FindBBSuccessor, hlist, BasicBlock.NumSucc, hb4, UINT_MOD]
  have hk0 : kernelBlock exp s W e {} = some {} := by
    simp [kernelBlock, he2]
  unfold CountCycles
  simp only [hcon, if_true, hentry, hlist, List.length_cons, List.length_nil]
  simp only [kernelWalk, hlist, hexit, List.getElem?_cons_zero, List.getElem?_cons_succ, he1,
    hx, he3, hk0, hf0, hb1, hb3, hf1]
  cases hkb : kernelBlock exp s W b {} with
  | none => simp
  | some c1 => simp

/-! ## Checks of the hypotheses on a concrete stream -/

theorem WellLinked_of_check {s : List Instruction}
    (h : ∀ p < s.length, (s[p]?).map Instruction.GetNext
      = some (if p + 1 < s.length then some (p + 1) else none)) : WellLinked s := by
  intro p i hi
  have hp : p < s.length := (List.getElem?_eq_some_iff.mp hi).1
  have := h p hp
  rw [hi] at this
  simpa using this

theorem PrevLinked_of_check {s : List Instruction}
    (h : ∀ p < s.length, (s[p]?).map Instruction.GetPrev
      = some (if p = 0 then none else some (p - 1))) : PrevLinked s := by
  intro p i hi
  have hp : p < s.length := (List.getElem?_eq_some_iff.mp hi).1
  have := h p hp
  rw [hi] at this
  simpa using this

theorem StraightLine_of_check {s : List Instruction}
    (h1 : ∀ i ∈ s, i.IsDeleted = false ∧ i.IsBranchOp = false)
    (h2 : ∀ p < s.length, 0 < p → (s[p]?).map Instruction.IsBranchTarget = some false) :
    StraightLine s := by
  refine ⟨h1, ?_⟩
  intro p i hi hp
  have hl : p < s.length := (List.getElem?_eq_some_iff.mp hi).1
  have := h2 p hl hp
  rw [hi] at this
  simpa using this

/-! ## C15 -/

theorem flush_total_of_current (W n : Nat) (h : 4 * n * W < ULL_MOD) :
    (flush W { total := 0, current := (0 + 4 * n) % ULL_MOD, loads := [] }).total
      = 4 * n * W := by
  simp only [flush, Nat.zero_add]
  rw [Nat.mod_mod, Nat.mul_mod, Nat.mod_mod, ← Nat.mul_mod]
  exact Nat.mod_eq_of_lt h

/-- C15.  A stream of `n >= 1` instructions that makes a single block (it is linked in
order, no instruction is deleted, a branch, or a branch target behind the first one), each
instruction an ALU instruction or a shared-memory instruction.  In baseline mode
`CountCycles` with `W` warps returns `4 * n * W` on the CFG of the stream, as long as that
number fits `unsigned long long`. -/
theorem C15_straight_line_cycles (s : List Instruction) (unrolled : Bool) (gli W : Nat)
    (g : CFG) (hne : s ≠ []) (hw : WellLinked s) (hsl : StraightLine s)
    (hk : ∀ i ∈ s, i.GetOpcode = Opcode.OPR_ALU ∨
      (i.GetOpcode = Opcode.OPR_MEM ∧ i.IsSharedOp = true))
    (hg : mkCFG s unrolled gli = some g) (hov : 4 * s.length * W < ULL_MOD) :
    CountCycles false s g W = some (4 * s.length * W) := by
  obtain ⟨e, b, x, hlist, hentry, hexit, hcon, he, hb, hx⟩ := straight_line_cfg hne hsl hg
  rw [CountCycles_single_block false W hlist hentry hexit hcon he ⟨hb.1, hb.2.2.2.1, hb.2.2.2.2⟩ hx]
  have hpos : 0 < s.length := List.length_pos.mpr hne
  obtain ⟨il, hil⟩ : ∃ il, s[s.length - 1]? = some il :=
    ⟨_, List.getElem?_eq_getElem (by omega)⟩
  have hnext : il.GetNext = none := by
    rw [next_ptrAt hw hil]
    simp only [ptrAt]
    rw [if_neg (by omega)]
  have hrun := kernelInstrs_run W none hw s.length 0 1 {} (by omega)
    (by simp [ULL_MOD]) (by
      intro q _ hq
      refine ⟨by simp, ?_⟩
      obtain ⟨i, hi⟩ : ∃ i, s[q]? = some i := ⟨_, List.getElem?_eq_getElem (by omega)⟩
      refine ⟨i, hi, ?_⟩
      rcases hk i (mem_of_getElem?' hi) with h1 | ⟨h1, h2⟩
      · simp [dispatch, h1]
      · simp [dispatch, memCase, h1, h2])
  have hkb : kernelBlock false s W b {}
      = some { total := 0, current := (0 + 4 * s.length) % ULL_MOD, loads := [] } := by
    simp only [kernelBlock, hb.2.1, hb.2.2.1, hil, hnext]
    rw [show s.length + 1 = 1 + s.length by omega, ← ptrAt_some hpos, hrun]
    simp [ptrAt, kernelInstrs]
  rw [hkb]
  simp only [Option.map_some', flush_total_of_current W s.length hov]

theorem tenAlu_built : mkCFG streamTenAlu false 0 = some cfgTenAlu := by
  decide

theorem C15_straight_line_cycles_witness :
    streamTenAlu.length = 10 ∧
    CountCycles false streamTenAlu cfgTenAlu 1 = some 40 ∧
    CountCycles false streamTenAlu cfgTenAlu 32 = some 1280 :=
  ⟨by decide,
    C15_straight_line_cycles streamTenAlu false 0 1 cfgTenAlu (by decide)
      (WellLinked_of_check (by decide)) (StraightLine_of_check (by decide) (by decide))
      (by decide) tenAlu_built (by decide),
    C15_straight_line_cycles streamTenAlu false 0 32 cfgTenAlu (by decide)
      (WellLinked_of_check (by decide)) (StraightLine_of_check (by decide) (by decide))
      (by decide) tenAlu_built (by decide)⟩

/-! ## The walk of CountCycles through a burst of memory instructions -/

theorem add4_mod_zero (a : Nat) (h : a < ULL_MOD) : (a + 4 * 0) % ULL_MOD = a := by
  simp [Nat.mod_eq_of_lt h]

/-- The loop that absorbs a burst of `m` global or local memory instructions from
position `p` on: it ends on the position behind the burst, the null pointer when the burst
ends the stream. -/
theorem kernelBurst_run {s : List Instruction} (hw : WellLinked s) :
    ∀ (m p fuel cur : Nat), p + m ≤ s.length → m < fuel → cur < ULL_MOD →
      (∀ q, p ≤ q → q < p + m →
        ∃ i, s[q]? = some i ∧ (i.IsGlobalOp || i.IsLocalOp) = true) →
      (∀ i, s[p + m]? = some i → (i.IsGlobalOp || i.IsLocalOp) = false) →
      kernelBurst s fuel (ptrAt s p) cur = some (ptrAt s (p + m), (cur + 4 * m) % ULL_MOD) := by
  intro m
  induction m with
  | zero =>
    intro p fuel cur _ hf hc _ hend
    obtain ⟨f, rfl⟩ : ∃ f, fuel = f + 1 := ⟨fuel - 1, by omega⟩
    rw [add4_mod_zero cur hc]
    simp only [Nat.add_zero] at hend ⊢
    by_cases hp : p < s.length
    · obtain ⟨i, hi⟩ : ∃ i, s[p]? = some i := ⟨_, List.getElem?_eq_getElem hp⟩
      have := hend i hi
      rw [ptrAt_some hp]
      simp only [kernelBurst, hi, this, Bool.false_eq_true, if_false]
    · simp only [ptrAt, hp, if_false, kernelBurst]
  | succ m ih =>
    intro p fuel cur hp hf hc hrun hend
    obtain ⟨f, rfl⟩ : ∃ f, fuel = f + 1 := ⟨fuel - 1, by omega⟩
    obtain ⟨i, hi, hmem⟩ := hrun p (le_refl p) (by omega)
    rw [ptrAt_some (by omega)]
    simp only [kernelBurst, hi, hmem, if_true]
    rw [next_ptrAt hw hi]
    rw [ih (p + 1) f ((cur + 4) % ULL_MOD) (by omega) (by omega)
      (Nat.mod_lt _ (by simp [ULL_MOD])) (fun q h1 h2 => hrun q (by omega) (by omega))
      (by rw [show p + 1 + m = p + (m + 1) by omega]; exact hend)]
    rw [show p + 1 + m = p + (m + 1) by omega, add4_mod]

/-- The block walk of `CountCycles`, in baseline mode, on a stream that makes a single
block of `a` ALU instructions, a burst of `m >= 1` global or local memory instructions
and `b` more ALU instructions.  The burst is committed with the maximum against the
latency; the stamp is then written through `inst_iter`, which stands behind the burst, and
`inst_iter` moves on once more, so that the walk goes on with the second instruction
behind the burst: `b - 1` of the `b` instructions are charged.  With `b = 0` the stamp is
written through the null pointer. -/
theorem kernelBlock_burst {s : List Instruction} {W : Nat} {blk : BasicBlock} {a m b : Nat}
    (hw : WellLinked s) (hlen : s.length = a + m + b) (hm : 1 ≤ m)
    (hfirst : blk.GetFirstInst = some 0) (hlast : blk.GetLastInst = some (s.length - 1))
    (hA : ∀ q i, q < a → s[q]? = some i → dispatch false i = Dispatch.issue)
    (hM : ∀ q i, a ≤ q → q < a + m → s[q]? = some i →
      dispatch false i = Dispatch.memory ∧ (i.IsGlobalOp || i.IsLocalOp) = true)
    (hB : ∀ q i, a + m ≤ q → s[q]? = some i →
      dispatch false i = Dispatch.issue ∧ (i.IsGlobalOp || i.IsLocalOp) = false) :
    kernelBlock false s W blk {} =
      if b = 0 then none
      else some { total := (max (((4 * (a + m)) % ULL_MOD * W) % ULL_MOD) GLOBAL_MEM_LATENCY)
                    % ULL_MOD,
                  current := (4 * (b - 1)) % ULL_MOD, loads := [] } := by
  have hpos : 0 < s.length := by omega
  have hget : ∀ q, q < s.length → ∃ i, s[q]? = some i :=
    fun q hq => ⟨_, List.getElem?_eq_getElem hq⟩
  obtain ⟨il, hil⟩ := hget (s.length - 1) (by omega)
  have hnext : il.GetNext = none := by
    rw [next_ptrAt hw hil]
    simp only [ptrAt]
    rw [if_neg (by omega)]
  simp only [kernelBlock, hfirst, hlast, hil, hnext]
  -- the run of `a` ALU instructions
  have hrunA := kernelInstrs_run W none hw a 0 (m + b + 1) {} (by omega)
    (by simp [ULL_MOD]) (by
      intro q _ hq
      obtain ⟨i, hi⟩ := hget q (by omega)
      exact ⟨by simp, i, hi, hA q i (by omega) hi⟩)
  rw [show s.length + 1 = (m + b + 1) + a by omega, ← ptrAt_some hpos, hrunA]
  simp only [Nat.zero_add]
  -- the burst
  obtain ⟨im, him⟩ := hget a (by omega)
  obtain ⟨hdm, -⟩ := hM a im (le_refl a) (by omega) him
  have hburst := kernelBurst_run hw m a (s.length + 1) ((4 * a) % ULL_MOD) (by omega)
    (by omega) (Nat.mod_lt _ (by simp [ULL_MOD]))
    (fun q h1 h2 => by
      obtain ⟨i, hi⟩ := hget q (by omega)
      exact ⟨i, hi, (hM q i h1 h2 hi).2⟩)
    (fun i hi => (hB (a + m) i (le_refl _) hi).2)
  have hcur : ((4 * a) % ULL_MOD + 4 * m) % ULL_MOD = (4 * (a + m)) % ULL_MOD := by
    simp only [ULL_MOD]; omega
  rw [hcur] at hburst
  rw [ptrAt_some (show a < s.length by omega), show m + b + 1 = (m + b) + 1 by omega]
  simp only [kernelInstrs, reduceCtorEq, if_false, him, useLoads, Bool.false_eq_true,
    kernelSwitch, hdm]
  rw [← ptrAt_some (show a < s.length by omega), hburst]
  by_cases hb0 : b = 0
  · simp only [hb0, if_true]
    simp only [ptrAt]
    rw [if_neg (by omega)]
  · simp only [hb0, if_false]
    have hlt : a + m < s.length := by omega
    obtain ⟨iq, hiq⟩ := hget (a + m) hlt
    rw [ptrAt_some hlt]
    simp only [hiq]
    rw [next_ptrAt hw hiq]
    have hrunB := kernelInstrs_run W none hw (b - 1) (a + m + 1) (m + 1)
      (commit W { total := 0, current := (4 * (a + m)) % ULL_MOD, loads := [] }) (by omega)
      (by simp [commit, ULL_MOD]) (by
        intro q h1 h2
        obtain ⟨i, hi⟩ := hget q (by omega)
        exact ⟨by simp, i, hi, (hB q i (by omega) hi).1⟩)
    rw [show m + b = (m + 1) + (b - 1) by omega, hrunB]
    have hend : ptrAt s (a + m + 1 + (b - 1)) = none := by
      simp only [ptrAt]
      rw [if_neg (by omega)]
    rw [hend]
    simp only [kernelInstrs, commit, Nat.zero_add]

/-! ## C16, C17 -/

/-- `CountCycles`, in baseline mode, on the CFG of a stream that makes a single block of
`a` ALU instructions, a burst of `m >= 1` global or local memory instructions and `b >= 1`
more ALU instructions. -/
theorem CountCycles_burst {s : List Instruction} {unrolled : Bool} {gli W : Nat} {g : CFG}
    {a m b : Nat} (hw : WellLinked s) (hsl : StraightLine s)
    (hlen : s.length = a + m + b) (hm : 1 ≤ m) (hb : 1 ≤ b)
    (hA : ∀ q i, q < a → s[q]? = some i → dispatch false i = Dispatch.issue)
    (hM : ∀ q i, a ≤ q → q < a + m → s[q]? = some i →
      dispatch false i = Dispatch.memory ∧ (i.IsGlobalOp || i.IsLocalOp) = true)
    (hB : ∀ q i, a + m ≤ q → s[q]? = some i →
      dispatch false i = Dispatch.issue ∧ (i.IsGlobalOp || i.IsLocalOp) = false)
    (hg : mkCFG s unrolled gli = some g)
    (hov : 4 * s.length * W + GLOBAL_MEM_LATENCY < ULL_MOD) :
    CountCycles false s g W
      = some (max (4 * (a + m) * W) GLOBAL_MEM_LATENCY + 4 * (b - 1) * W) := by
  have hne : s ≠ [] := by
    intro h
    rw [h] at hlen
    simp only [List.length_nil] at hlen
    omega
  obtain ⟨e, blk, x, hlist, hentry, hexit, hcon, he, hblk, hx⟩ := straight_line_cfg hne hsl hg
  rw [CountCycles_single_block false W hlist hentry hexit hcon he
    ⟨hblk.1, hblk.2.2.2.1, hblk.2.2.2.2⟩ hx]
  rw [kernelBlock_burst hw hlen hm hblk.2.1 hblk.2.2.1 hA hM hB]
  have hb0 : ¬ b = 0 := by omega
  simp only [hb0, if_false, Option.map_some', flush, Option.some.injEq]
  have h1 : 4 * (a + m) * W ≤ 4 * s.length * W :=
    Nat.mul_le_mul_right _ (by omega)
  have h2 : 4 * (b - 1) * W ≤ 4 * s.length * W :=
    Nat.mul_le_mul_right _ (by omega)
  have e1 : ((4 * (a + m)) % ULL_MOD * W) % ULL_MOD = 4 * (a + m) * W := by
    rw [Nat.mul_mod, Nat.mod_mod, ← Nat.mul_mod]
    exact Nat.mod_eq_of_lt (by omega)
  have e2 : ((4 * (b - 1)) % ULL_MOD * W) % ULL_MOD = 4 * (b - 1) * W := by
    rw [Nat.mul_mod, Nat.mod_mod, ← Nat.mul_mod]
    exact Nat.mod_eq_of_lt (by omega)
  rw [e1, e2]
  have h3 : max (4 * (a + m) * W) GLOBAL_MEM_LATENCY ≤ 4 * (a + m) * W + GLOBAL_MEM_LATENCY :=
    max_le (Nat.le_add_right _ _) (Nat.le_add_left _ _)
  have hsum : 4 * (a + m) * W + 4 * (b - 1) * W ≤ 4 * s.length * W := by
    rw [← Nat.add_mul]
    exact Nat.mul_le_mul_right _ (by omega)
  have hmax : max (4 * (a + m) * W) GLOBAL_MEM_LATENCY % ULL_MOD
      = max (4 * (a + m) * W) GLOBAL_MEM_LATENCY := Nat.mod_eq_of_lt (by omega)
  rw [hmax]
  exact Nat.mod_eq_of_lt (by omega)

/-- C16, as the claim states it, fails.  For a global load followed by 100 ALU
instructions and `W = 1` the claim gives `max (4 + 4 * 100) 500 = 500`; `CountCycles`
returns 896: the load is committed as `max 4 500` when the walk meets it, and the ALU
instructions behind it are added to that. -/
theorem C16_counterexample :
    mkCFG (streamLoadAlu 100) false 0 = some (cfgLoadAlu 100) ∧
    CountCycles false (streamLoadAlu 100) (cfgLoadAlu 100) 1 = some 896 ∧
    max (4 + 4 * 100) 500 = 500 := by
  refine ⟨?_, ?_, by decide⟩
  · set_option maxRecDepth 100000 in decide
  · set_option maxRecDepth 100000 in decide

/-- C16, amended.  A stream that makes a single block of one global load followed by
`n >= 1` ALU instructions.  In baseline mode with `W = 1`, `CountCycles` returns
`500 + 4 * c` for a number `c <= n`, the number of ALU instructions that the walk charges
behind the load: the load is committed at once, as `max (4 * W) 500 = 500`, and what
follows it is added to that. -/
theorem C16_load_committed_at_once (s : List Instruction) (unrolled : Bool) (gli n : Nat)
    (g : CFG) (hlen : s.length = n + 1) (hn : 1 ≤ n) (hw : WellLinked s)
    (hsl : StraightLine s)
    (h0 : ∀ i, s[0]? = some i →
      i.GetOpcode = Opcode.OPR_MEM ∧ i.IsSharedOp = false ∧ i.IsGlobalOp = true)
    (hA : ∀ q i, 1 ≤ q → s[q]? = some i →
      i.GetOpcode = Opcode.OPR_ALU ∧ i.IsGlobalOp = false ∧ i.IsLocalOp = false)
    (hg : mkCFG s unrolled gli = some g) (hov : 4 * n + 504 < ULL_MOD) :
    ∃ c, c ≤ n ∧ CountCycles false s g 1 = some (500 + 4 * c) := by
  refine ⟨n - 1, by omega, ?_⟩
  have h := CountCycles_burst (W := 1) (a := 0) (m := 1) (b := n) hw hsl (by omega)
    (le_refl 1) hn (fun q i hq _ => absurd hq (by omega))
    (fun q i h1 h2 hi => by
      have hq : q = 0 := by omega
      subst hq
      obtain ⟨a1, a2, a3⟩ := h0 i hi
      simp [dispatch, memCase, a1, a2, a3])
    (fun q i h1 hi => by
      obtain ⟨a1, a2, a3⟩ := hA q i (by omega) hi
      simp [dispatch, a1, a2, a3])
    hg (by simp only [GLOBAL_MEM_LATENCY]; omega)
  rw [h]
  simp [GLOBAL_MEM_LATENCY]

theorem loadAlu3_built : mkCFG (streamLoadAlu 3) false 0 = some (cfgLoadAlu 3) := by
  decide

theorem C16_load_committed_at_once_witness :
    (streamLoadAlu 3).length = 3 + 1 ∧
    ∃ c, c ≤ 3 ∧ CountCycles false (streamLoadAlu 3) (cfgLoadAlu 3) 1 = some (500 + 4 * c) :=
  ⟨by decide,
    C16_load_committed_at_once (streamLoadAlu 3) false 0 3 (cfgLoadAlu 3) (by decide)
      (by decide) (WellLinked_of_check (by decide))
      (StraightLine_of_check (by decide) (by decide))
      (by decide) (by
        intro q i h1 hi
        have hq : q < (streamLoadAlu 3).length := (List.getElem?_eq_some_iff.mp hi).1
        have hq4 : q < 4 := hq
        interval_cases q <;> simp [streamLoadAlu, linkStream, aluInstr, List.enum] at hi <;>
          subst hi <;> decide)
      loadAlu3_built (by decide)⟩

/-- C17 (the code departs from it).  `streamLoadAlu 1` is a global load followed by one
ALU instruction (`a = 0`, `m = 1`, `b = 1`); with `W = 1` the claim gives
`max 4 500 + 4 = 504`.  `CountCycles` returns 500: the loop that absorbs the burst leaves
`inst_iter` behind the burst, and the statement `inst_iter = inst_iter->GetNext()` that
ends every round moves it on once more, so that the instruction right behind the burst is
never charged.  In `streamAluLoad` the burst ends the stream (`b = 0`): the stamp
`inst_iter->cycles` is then written through the null pointer, and `CountCycles` does not
return. -/
theorem C17_instruction_behind_burst_skipped :
    mkCFG (streamLoadAlu 1) false 0 = some (cfgLoadAlu 1) ∧
    CountCycles false (streamLoadAlu 1) (cfgLoadAlu 1) 1 = some 500 ∧
    max (4 * (0 + 1) * 1) 500 + 4 * 1 * 1 = 504 ∧
    mkCFG streamAluLoad false 0 = some cfgAluLoad ∧
    CountCycles false streamAluLoad cfgAluLoad 1 = none := by
  refine ⟨by decide, by decide, by decide, by decide, by decide⟩

/-! ## The walk backwards through an innermost loop (C18) -/

theorem prevPtr_succ (n : Nat) : prevPtr (n + 1) = some n := by
  simp [prevPtr]

theorem prevPtr_ne {lo q : Nat} (h : lo ≤ q) : some q ≠ prevPtr lo := by
  unfold prevPtr
  split
  · simp
  · intro hq
    have := Option.some.inj hq
    omega

/-- A run of `k` instructions from position `lo` on that are no global, local or sync
instructions: the walk of a block backwards goes through the run and adds `4 * k` to
`later_cycles`. -/
theorem backInstrs_run {s : List Instruction} (stop : Option Nat) (hp : PrevLinked s) :
    ∀ (k lo fuel later : Nat), lo + k ≤ s.length → later < ULL_MOD →
      (∀ q, lo ≤ q → q < lo + k →
        some q ≠ stop ∧
          ∃ i, s[q]? = some i ∧ (i.IsGlobalOp || i.IsSyncOp || i.IsLocalOp) = false) →
      backInstrs s stop (fuel + k) (prevPtr (lo + k)) later
        = backInstrs s stop fuel (prevPtr lo) ((later + 4 * k) % ULL_MOD) := by
  intro k
  induction k with
  | zero =>
    intro lo fuel later _ hl _
    simp only [Nat.add_zero, Nat.mul_zero, Nat.mod_eq_of_lt hl]
  | succ k ih =>
    intro lo fuel later hlen hl hrun
    obtain ⟨hstop, i, hi, hflag⟩ := hrun (lo + k) (by omega) (by omega)
    rw [show lo + (k + 1) = (lo + k) + 1 by omega, prevPtr_succ,
      show fuel + (k + 1) = (fuel + k) + 1 by omega]
    simp only [backInstrs, hstop, if_false, hi, hflag, Bool.false_eq_true]
    have hprev : i.GetPrev = prevPtr (lo + k) := by
      rw [hp _ _ hi]
      rfl
    rw [hprev, ih lo fuel ((later + 4) % ULL_MOD) (by omega)
      (Nat.mod_lt _ (by simp [ULL_MOD])) (fun q h1 h2 => hrun q h1 (by omega)), add4_mod]

/-- The walk backwards through a block that holds the positions `mid` to `hi`, none of
them a global, local or sync instruction. -/
theorem backInstrs_block {s : List Instruction} (hp : PrevLinked s) {mid hi later : Nat}
    (hmid : mid ≤ hi) (hhi : hi < s.length) (hl : later < ULL_MOD)
    (hrun : ∀ q, mid ≤ q → q ≤ hi →
      ∃ i, s[q]? = some i ∧ (i.IsGlobalOp || i.IsSyncOp || i.IsLocalOp) = false) :
    backInstrs s (prevPtr mid) (s.length + 1) (some hi) later
      = some (none, (later + 4 * (hi + 1 - mid)) % ULL_MOD) := by
  have h := backInstrs_run (prevPtr mid) hp (hi + 1 - mid) mid (s.length - (hi + 1 - mid) + 1)
    later (by omega) hl
    (fun q h1 h2 => ⟨prevPtr_ne h1, hrun q h1 (by omega)⟩)
  rw [show s.length - (hi + 1 - mid) + 1 + (hi + 1 - mid) = s.length + 1 by omega,
    show mid + (hi + 1 - mid) = hi + 1 by omega, prevPtr_succ] at h
  rw [h]
  simp [backInstrs]

/-- The walk backwards through a block that holds the positions `lo` to `hi`, of which
the first one is a global, local or sync instruction and the others are not. -/
theorem backInstrs_blocking {s : List Instruction} (hp : PrevLinked s) {lo hi later : Nat}
    {i0 : Instruction} (hlo : lo ≤ hi) (hhi : hi < s.length) (hl : later < ULL_MOD)
    (h0 : s[lo]? = some i0) (hb : (i0.IsGlobalOp || i0.IsSyncOp || i0.IsLocalOp) = true)
    (hrun : ∀ q, lo < q → q ≤ hi →
      ∃ i, s[q]? = some i ∧ (i.IsGlobalOp || i.IsSyncOp || i.IsLocalOp) = false) :
    backInstrs s (prevPtr lo) (s.length + 1) (some hi) later
      = some (some lo, (later + 4 * (hi + 1 - lo)) % ULL_MOD) := by
  have h := backInstrs_run (prevPtr lo) hp (hi - lo) (lo + 1) (s.length - (hi - lo) + 1)
    later (by omega) hl
    (fun q h1 h2 => ⟨prevPtr_ne (by omega), hrun q (by omega) (by omega)⟩)
  rw [show s.length - (hi - lo) + 1 + (hi - lo) = s.length + 1 by omega,
    show lo + 1 + (hi - lo) = hi + 1 by omega, prevPtr_succ, prevPtr_succ] at h
  rw [h]
  have hne : some lo ≠ prevPtr lo := prevPtr_ne (le_refl lo)
  simp only [backInstrs, hne, if_false, h0, hb, if_true]
  congr 2
  simp only [ULL_MOD]
  omega

/-- The first block of a chain ends at `hi`. -/
theorem BackChain_head {g : CFG} {b : Nat} {rest : List Nat} {lo hi : Nat}
    (h : BackChain g (b :: rest) lo hi) :
    ∃ blk, g.all_blocks[b]? = some blk ∧ blk.GetLastInst = some hi ∧ lo ≤ hi := by
  cases rest with
  | nil =>
    obtain ⟨blk, _, _, h1, _, h3, h4, _⟩ := h
    exact ⟨blk, h1, h3, h4⟩
  | cons c rest =>
    obtain ⟨blk, mid, h1, _, h3, h4, h5, _⟩ := h
    exact ⟨blk, h1, h3, by omega⟩

/-- Every block of a chain starts at a position between `lo` and `hi`. -/
theorem BackChain_firsts {g : CFG} : ∀ (chain : List Nat) (lo hi : Nat),
    BackChain g chain lo hi → ∀ x ∈ chain, ∃ blk f, g.all_blocks[x]? = some blk ∧
      blk.GetFirstInst = some f ∧ lo ≤ f ∧ f ≤ hi := by
  intro chain
  induction chain with
  | nil => intro lo hi h; exact absurd h (by simp [BackChain])
  | cons b t ih =>
    intro lo hi h x hx
    cases t with
    | nil =>
      obtain ⟨blk, _, _, h1, h2, _, h4, _⟩ := h
      have hxb : x = b := by simpa using hx
      subst hxb
      exact ⟨blk, lo, h1, h2, le_refl _, h4⟩
    | cons c rest =>
      obtain ⟨blk, mid, h1, h2, _, h4, h5, _, _, h8⟩ := h
      rcases List.mem_cons.mp hx with hxb | hxt
      · subst hxb
        exact ⟨blk, mid, h1, h2, by omega, h5⟩
      · obtain ⟨blk1, f, a1, a2, a3, a4⟩ := ih lo (mid - 1) h8 x hxt
        exact ⟨blk1, f, a1, a2, a3, by omega⟩

/-- The blocks of a chain are pairwise different. -/
theorem BackChain_nodup {g : CFG} : ∀ (chain : List Nat) (lo hi : Nat),
    BackChain g chain lo hi → chain.Nodup := by
  intro chain
  induction chain with
  | nil => intro lo hi _; exact List.nodup_nil
  | cons b t ih =>
    intro lo hi h
    cases t with
    | nil => exact List.nodup_singleton b
    | cons c rest =>
      obtain ⟨blk, mid, h1, h2, _, h4, h5, _, _, h8⟩ := h
      refine List.nodup_cons.mpr ⟨?_, ih lo (mid - 1) h8⟩
      intro hmem
      obtain ⟨blk1, f, a1, a2, _, a4⟩ := BackChain_firsts _ _ _ h8 b hmem
      rw [h1] at a1
      have hb := Option.some.inj a1
      subst hb
      rw [h2] at a2
      have := Option.some.inj a2
      omega

theorem BackChain_length {g : CFG} {chain : List Nat} {lo hi : Nat}
    (h : BackChain g chain lo hi) : chain.length ≤ g.all_blocks.length := by
  refine nodup_length_le (BackChain_nodup _ _ _ h) ?_
  intro x hx
  obtain ⟨blk, _, h1, _⟩ := BackChain_firsts _ _ _ h x hx
  exact (List.getElem?_eq_some_iff.mp h1).1

/-- The walk backwards through a loop along a chain of blocks that hold the positions
`lo` to `hi`, none of them a global, local or sync instruction: the walk ends at the
instruction before the header with `4` cycles for every position, and finds no blocking
instruction. -/
theorem backBlocks_chain {s : List Instruction} {g : CFG} (hp : PrevLinked s) :
    ∀ (chain : List Nat) (lo hi fuel later b : Nat), chain.head? = some b →
      BackChain g chain lo hi → hi < s.length → later < ULL_MOD →
      (∀ q, lo ≤ q → q ≤ hi →
        ∃ i, s[q]? = some i ∧ (i.IsGlobalOp || i.IsSyncOp || i.IsLocalOp) = false) →
      chain.length + 1 ≤ fuel →
      backBlocks s g (prevPtr lo) fuel b (some hi) later
        = some (none, (later + 4 * (hi + 1 - lo)) % ULL_MOD) := by
  intro chain
  induction chain with
  | nil => intro lo hi fuel later b hb; simp at hb
  | cons b0 t ih =>
    intro lo hi fuel later b hb hch hhi hl hrun hfuel
    have hbb : b0 = b := by simpa using hb
    subst hbb
    cases t with
    | nil =>
      obtain ⟨blk, pb, pbb, h1, h2, h3, h4, h5, h6, h7, h8⟩ := hch
      obtain ⟨fuel2, hf⟩ : ∃ f2, fuel = f2 + 2 := ⟨fuel - 2, by simp at hfuel; omega⟩
      subst hf
      obtain ⟨fi, hfi, _⟩ := hrun lo (le_refl _) h4
      have hprev : fi.GetPrev = prevPtr lo := by
        rw [hp _ _ hfi]
        rfl
      have hne : some hi ≠ prevPtr lo := prevPtr_ne h4
      have hcond : (blk.NumPred = 1 ∨ blk.IsLoopHeader = true) = True := eq_true h5
      simp only [backBlocks, hne, if_false, h1, h2, hfi, hprev,
        backInstrs_block hp h4 hhi hl hrun, hcond, if_true, h6, h7, h8]
    | cons c rest =>
      obtain ⟨blk, mid, h1, h2, h3, h4, h5, h6, h7, h8⟩ := hch
      obtain ⟨fuel1, hf⟩ : ∃ f1, fuel = f1 + 1 := ⟨fuel - 1, by omega⟩
      subst hf
      obtain ⟨fi, hfi, _⟩ := hrun mid (by omega) h5
      have hprev : fi.GetPrev = prevPtr mid := by
        rw [hp _ _ hfi]
        rfl
      have hne : some hi ≠ prevPtr lo := prevPtr_ne (by omega)
      have hcond : (blk.NumPred = 1 ∨ blk.IsLoopHeader = true) = True := eq_true h6
      obtain ⟨pbb, hpbb, hlast, hle⟩ := BackChain_head h8
      have hblock := backInstrs_block hp h5 hhi hl (fun q a1 a2 => hrun q (by omega) a2)
      simp only [backBlocks, hne, if_false, h1, h2, hfi, hprev, hblock, hcond, if_true, h7,
        hpbb, hlast]
      rw [ih lo (mid - 1) fuel1 _ c rfl h8 (by omega) (Nat.mod_lt _ (by simp [ULL_MOD]))
        (fun q a1 a2 => hrun q a1 (by omega)) (by simp at hfuel ⊢; omega)]
      congr 2
      simp only [ULL_MOD]
      omega

/-- The last block of a chain starts at `lo`. -/
theorem BackChain_last {g : CFG} : ∀ (chain : List Nat) (lo hi h : Nat),
    BackChain g chain lo hi → chain.getLast? = some h →
    ∃ hb, g.all_blocks[h]? = some hb ∧ hb.GetFirstInst = some lo := by
  intro chain
  induction chain with
  | nil => intro lo hi h hch; exact absurd hch (by simp [BackChain])
  | cons b t ih =>
    intro lo hi h hch hlast
    cases t with
    | nil =>
      obtain ⟨blk, _, _, h1, h2, _⟩ := hch
      have hb : b = h := by simpa using hlast
      subst hb
      exact ⟨blk, h1, h2⟩
    | cons c rest =>
      obtain ⟨blk, mid, _, _, _, _, _, _, _, h8⟩ := hch
      exact ih lo (mid - 1) h h8 (by simpa [List.getLast?_cons_cons] using hlast)

/-- `CountLoopCycles` on an innermost loop without a global, local or sync instruction,
whose blocks form a chain from the footer back to the header. -/
theorem CountLoopCycles_chain {s : List Instruction} {g : CFG} {loop : Loop}
    {chain : List Nat} {l f lo hi : Nat} (exp : Bool) (W depth : Nat) (hp : PrevLinked s)
    (hl : g.loop_store[l]? = some loop) (hin : loop.HasInnerLoops = false)
    (hf : loop.GetFooter = some f) (hhead : chain.head? = some f)
    (hlast : chain.getLast? = some loop.GetHeader) (hch : BackChain g chain lo hi)
    (hhi : hi < s.length)
    (hrun : ∀ q, lo ≤ q → q ≤ hi →
      ∃ i, s[q]? = some i ∧ (i.IsGlobalOp || i.IsSyncOp || i.IsLocalOp) = false) :
    CountLoopCycles exp s g W (depth + 1) l
      = some (((loop.GetNumIters * ((4 * (hi + 1 - lo)) % ULL_MOD)) % ULL_MOD * W)
          % ULL_MOD) := by
  obtain ⟨hb, hhb, hfirst⟩ := BackChain_last _ _ _ _ hch hlast
  obtain ⟨rest, hchain⟩ : ∃ rest, chain = f :: rest := by
    cases chain with
    | nil => simp at hhead
    | cons b t => exact ⟨t, by simp at hhead; rw [hhead]⟩
  subst hchain
  obtain ⟨fb, hfb, hflast, hle⟩ := BackChain_head hch
  obtain ⟨hfi, hhfi, _⟩ := hrun lo (le_refl _) hle
  have hprev : hfi.GetPrev = prevPtr lo := by
    rw [hp _ _ hhfi]
    rfl
  have hback := backBlocks_chain hp (f :: rest) lo hi (g.all_blocks.length + 1) 0 f rfl hch hhi
    (by simp [ULL_MOD]) hrun (Nat.succ_le_succ (BackChain_length hch))
  simp only [CountLoopCycles, hl, hhb, hf, hfb, hin, Bool.false_eq_true, if_false, hfirst,
    hhfi, hprev, hflast, hback, Nat.zero_add]

theorem loopBody_length {s : List Instruction} {lo hi : Nat} (h : hi < s.length) :
    (loopBody s lo hi).length = hi + 1 - lo := by
  simp only [loopBody, List.length_take, List.length_drop]
  omega

theorem mem_loopBody {s : List Instruction} {lo hi q : Nat} {i : Instruction}
    (h1 : lo ≤ q) (h2 : q ≤ hi) (h : s[q]? = some i) : i ∈ loopBody s lo hi := by
  have hq : q < s.length := (List.getElem?_eq_some_iff.mp h).1
  have h3 : (loopBody s lo hi)[q - lo]? = some i := by
    unfold loopBody
    rw [List.getElem?_take_of_lt (by omega), List.getElem?_drop,
      show lo + (q - lo) = q by omega]
    exact h
  exact List.getElem?_mem h3

theorem BackChain_one {g : CFG} {b lo hi : Nat} (pb : Nat)
    (h1 : (g.all_blocks[b]?).map (fun blk => (blk.GetFirstInst, blk.GetLastInst,
      decide (blk.NumPred = 1) || blk.IsLoopHeader, blk.pred[0]?))
        = some (some lo, some hi, true, some pb))
    (h2 : (g.all_blocks[pb]?).map BasicBlock.GetLastInst = some (prevPtr lo))
    (h3 : lo ≤ hi) : BackChain g [b] lo hi := by
  cases hb : g.all_blocks[b]? with
  | none => rw [hb] at h1; simp at h1
  | some blk =>
    cases hpb : g.all_blocks[pb]? with
    | none => rw [hpb] at h2; simp at h2
    | some pbb =>
      rw [hb] at h1
      rw [hpb] at h2
      simp only [Option.map_some', Option.some.injEq, Prod.mk.injEq, Bool.or_eq_true,
        decide_eq_true_eq] at h1 h2
      exact ⟨blk, pb, pbb, hb, h1.1, h1.2.1, h3, h1.2.2.1, h1.2.2.2, hpb, h2⟩

theorem BackChain_cons {g : CFG} {b c lo hi : Nat} {rest : List Nat} (mid : Nat)
    (h1 : (g.all_blocks[b]?).map (fun blk => (blk.GetFirstInst, blk.GetLastInst,
      decide (blk.NumPred = 1) || blk.IsLoopHeader, blk.pred[0]?))
        = some (some mid, some hi, true, some c))
    (h2 : lo < mid) (h3 : mid ≤ hi) (h4 : BackChain g (c :: rest) lo (mid - 1)) :
    BackChain g (b :: c :: rest) lo hi := by
  cases hb : g.all_blocks[b]? with
  | none => rw [hb] at h1; simp at h1
  | some blk =>
    rw [hb] at h1
    simp only [Option.map_some', Option.some.injEq, Prod.mk.injEq, Bool.or_eq_true,
      decide_eq_true_eq] at h1
    exact ⟨blk, mid, hb, h1.1, h1.2.1, h2, h3, h1.2.2.1, h1.2.2.2, h4⟩

theorem condLoop_built :
    (mkCFG streamCondLoop false 0).bind (DetectLoops 2 noUconf) = some cfgCondLoop := by
  decide

theorem break_built :
    (mkCFG streamBreak false 0).bind (DetectLoops 2 noUconf) = some cfgBreak := by
  decide

/-- C18, as the claim states it, fails.  The loop of `streamCondLoop` is an innermost
loop whose body, the positions 0 to 2, holds three ALU or branch instructions and no
global, local or sync instruction; its trip count is 256, so that the claim gives
`256 * 3 * 4 * 1 = 3072` for `W = 1`.  The footer of the loop, block 3, is no loop header
and has two predecessors, because the header branches over instruction 1: the assertion
`Loop block with multiple preds` of the walk backwards fails, and `CountLoopCycles` does
not return. -/
theorem C18_counterexample :
    (mkCFG streamCondLoop false 0).bind (DetectLoops 2 noUconf) = some cfgCondLoop ∧
    cfgCondLoop.loop_store.map
      (fun l => (l.GetHeader, l.GetFooter, l.HasInnerLoops, l.GetNumIters))
        = [(1, some 3, false, 256)] ∧
    (cfgCondLoop.all_blocks[1]?).map BasicBlock.GetFirstInst = some (some 0) ∧
    (cfgCondLoop.all_blocks[3]?).map
      (fun b => (b.GetLastInst, b.NumPred, b.IsLoopHeader)) = some (some 2, 2, false) ∧
    (∀ i ∈ loopBody streamCondLoop 0 2, IssueOnly i) ∧
    CountLoopCycles false streamCondLoop cfgCondLoop 1 2 0 = none := by
  refine ⟨condLoop_built, by decide, by decide, by decide, by decide, by decide⟩

/-- C18, amended.  An innermost loop with a single footer whose blocks form a chain from
the footer back to the header: each block has one predecessor or is a loop header, its
first predecessor is the block that holds the positions right before its own, and the
first predecessor of the header ends right before the header.  When the body, the
positions `lo` to `hi`, holds `k` instructions, none of them a global, local or sync
instruction, `CountLoopCycles` returns `trip * k * 4 * W` (as long as that is below
`2^64`). -/
theorem C18_innermost_loop_of_chained_blocks (s : List Instruction) (g : CFG) (loop : Loop)
    (chain : List Nat) (l f lo hi W depth : Nat) (hp : PrevLinked s)
    (hl : g.loop_store[l]? = some loop) (hin : loop.HasInnerLoops = false)
    (hf : loop.GetFooter = some f) (hhead : chain.head? = some f)
    (hlast : chain.getLast? = some loop.GetHeader) (hch : BackChain g chain lo hi)
    (hhi : hi < s.length)
    (hbody : ∀ i ∈ loopBody s lo hi,
      i.IsGlobalOp = false ∧ i.IsLocalOp = false ∧ i.IsSyncOp = false)
    (hov : loop.GetNumIters * (loopBody s lo hi).length * 4 * W < ULL_MOD) :
    CountLoopCycles false s g W (depth + 1) l
      = some (loop.GetNumIters * (loopBody s lo hi).length * 4 * W) := by
  have hrun : ∀ q, lo ≤ q → q ≤ hi →
      ∃ i, s[q]? = some i ∧ (i.IsGlobalOp || i.IsSyncOp || i.IsLocalOp) = false := by
    intro q h1 h2
    have hq : q < s.length := by omega
    refine ⟨s[q], List.getElem?_eq_getElem hq, ?_⟩
    obtain ⟨a1, a2, a3⟩ := hbody _ (mem_loopBody h1 h2 (List.getElem?_eq_getElem hq))
    simp [a1, a2, a3]
  rw [CountLoopCycles_chain false W depth hp hl hin hf hhead hlast hch hhi hrun]
  rw [loopBody_length hhi] at hov ⊢
  rw [Nat.mul_mod_mod, Nat.mod_mul_mod]
  have e : loop.GetNumIters * (4 * (hi + 1 - lo)) * W
      = loop.GetNumIters * (hi + 1 - lo) * 4 * W := by ring
  rw [e, Nat.mod_eq_of_lt hov]

theorem C18_innermost_loop_of_chained_blocks_witness :
    BackChain cfgBreak [2, 1] 0 3 ∧ (loopBody streamBreak 0 3).length = 4 ∧
    CountLoopCycles false streamBreak cfgBreak 3 1 0 = some (256 * 4 * 4 * 3) :=
  have hch : BackChain cfgBreak [2, 1] 0 3 :=
    BackChain_cons 2 (by decide) (by decide) (by decide)
      (BackChain_one 0 (by decide) (by decide) (by decide))
  ⟨hch, by decide,
    C18_innermost_loop_of_chained_blocks streamBreak cfgBreak
      { id := 0, header := 1, footer := 2, nat_loop := [1, 2], num_instrs := 4 } [2, 1] 0 2 0 3 3 0
      (PrevLinked_of_check (by decide)) (by decide) (by decide) (by decide) (by decide)
      (by decide) hch (by decide) (by decide) (by decide)⟩

/-! ## The walk forwards through an innermost loop (C19) -/

/-- A value computed modulo `2^64` from sums and products is the value itself when that
is below `2^64`. -/
theorem mod_eq_of_cast {X R : Nat} (h : R < ULL_MOD)
    (e : (X : ZMod ULL_MOD) = (R : ZMod ULL_MOD)) : X % ULL_MOD = R := by
  have := (ZMod.natCast_eq_natCast_iff' X R ULL_MOD).mp e
  rw [this]
  exact Nat.mod_eq_of_lt h

/-- `CountLoopCycles` in baseline mode on an innermost loop of a single block that holds
the positions `lo` to `lo + t`: a global or local memory instruction that is not followed
by another one, and `t >= 1` instructions that are no global, local or sync
instructions. -/
theorem CountLoopCycles_load_tail {s : List Instruction} {g : CFG} {loop : Loop}
    {l b lo t : Nat} {i0 : Instruction} (W depth : Nat) (hw : WellLinked s)
    (hp : PrevLinked s) (hl : g.loop_store[l]? = some loop)
    (hin : loop.HasInnerLoops = false) (hh : loop.GetHeader = b)
    (hf : loop.GetFooter = some b)
    (hb : (g.all_blocks[b]?).map (fun blk => (blk.GetFirstInst, blk.GetLastInst))
      = some (some lo, some (lo + t)))
    (ht : 1 ≤ t) (hhi : lo + t < s.length) (h0 : s[lo]? = some i0)
    (hd : dispatch false i0 = Dispatch.memory)
    (hblock : (i0.IsGlobalOp || i0.IsSyncOp || i0.IsLocalOp) = true)
    (hrun : ∀ q, lo < q → q ≤ lo + t →
      ∃ i, s[q]? = some i ∧ (i.IsGlobalOp || i.IsSyncOp || i.IsLocalOp) = false) :
    CountLoopCycles false s g W (depth + 1) l
      = some ((loop.GetNumIters *
          (((0 + max ((((0 + 4 * (lo + t + 1 - lo)) % ULL_MOD + 4) % ULL_MOD * W) % ULL_MOD)
            GLOBAL_MEM_LATENCY) % ULL_MOD + (0 * W) % ULL_MOD) % ULL_MOD)) % ULL_MOD) := by
  cases hblk : g.all_blocks[b]? with
  | none => rw [hblk] at hb; simp at hb
  | some blk =>
    rw [hblk] at hb
    simp only [Option.map_some', Option.some.injEq, Prod.mk.injEq] at hb
    obtain ⟨hfirst, hlast⟩ := hb
    have hprev : i0.GetPrev = prevPtr lo := by
      rw [hp _ _ h0]
      rfl
    have hne : some (lo + t) ≠ prevPtr lo := prevPtr_ne (by omega)
    have hback : backInstrs s (prevPtr lo) (s.length + 1) (some (lo + t)) 0
        = some (some lo, (0 + 4 * (lo + t + 1 - lo)) % ULL_MOD) :=
      backInstrs_blocking hp (Nat.le_add_right lo t) hhi
      (by simp [ULL_MOD]) h0 hblock hrun
    have hnext : i0.GetNext = some (lo + 1) := by
      rw [next_ptrAt hw h0, ptrAt_some (by omega)]
    obtain ⟨i1, hi1, hflag1⟩ := hrun (lo + 1) (by omega) (by omega)
    have hgl1 : (i1.IsGlobalOp || i1.IsLocalOp) = false := by
      cases h1 : i1.IsGlobalOp <;> cases h2 : i1.IsLocalOp <;> simp [h1, h2] at hflag1 ⊢
    simp only [CountLoopCycles, hl, hh, hblk, hf, hin, Bool.false_eq_true, if_false, hfirst,
      h0, hprev, hlast, backBlocks, hne, hback, innerForward, useLoads, hd, innerBurst,
      hnext, hi1, hgl1, charge, commit, flush, if_true]

/-- C19, as the claim states it, fails.  The loop of `streamLoadLoop` is an innermost
loop of the single block 1, which holds a global load at position 0 followed by `t = 5`
instructions that are neither global, local nor sync; its trip count is 256.  For
`W = 32` the claim gives `256 * max ((4 * 5 + 4) * 32) 500 = 196608`; `CountLoopCycles`
returns `229376 = 256 * max ((4 * 5 + 8) * 32) 500`: the walk backwards has charged the
load when it stops at it, and the walk forwards, which starts with that count, charges
it again. -/
theorem C19_counterexample :
    (mkCFG streamLoadLoop false 0).bind (DetectLoops 2 noUconf) = some cfgLoadLoop ∧
    cfgLoadLoop.loop_store.map
      (fun l => (l.GetHeader, l.GetFooter, l.HasInnerLoops, l.GetNumIters))
        = [(1, some 1, false, 256)] ∧
    (cfgLoadLoop.all_blocks[1]?).map (fun b => (b.GetFirstInst, b.GetLastInst))
      = some (some 0, some 5) ∧
    (streamLoadLoop[0]?).map (fun i => (i.GetOpcode, i.IsGlobalOp, i.IsMemLoad))
      = some (Opcode.OPR_MEM, true, true) ∧
    (∀ i ∈ loopBody streamLoadLoop 1 5,
      i.IsGlobalOp = false ∧ i.IsLocalOp = false ∧ i.IsSyncOp = false) ∧
    CountLoopCycles false streamLoadLoop cfgLoadLoop 32 2 0 = some 229376 ∧
    256 * max ((4 * 5 + 4) * 32) 500 = 196608 := by
  refine ⟨by decide, by decide, by decide, by decide, by decide, by decide, by decide⟩

/-- C19, amended.  An innermost loop of a single block whose first instruction is a
global memory instruction followed by `t >= 1` instructions that are neither global,
local nor sync.  In baseline mode `CountLoopCycles` returns
`trip * max ((4 * t + 8) * W) 500` (as long as that is below `2^64`): the first
instruction is charged by the walk backwards and again by the walk forwards. -/
theorem C19_single_block_loop_with_load (s : List Instruction) (g : CFG) (loop : Loop)
    (l b lo t W depth : Nat) (hw : WellLinked s) (hp : PrevLinked s)
    (hl : g.loop_store[l]? = some loop) (hin : loop.HasInnerLoops = false)
    (hh : loop.GetHeader = b) (hf : loop.GetFooter = some b)
    (hb : (g.all_blocks[b]?).map (fun blk => (blk.GetFirstInst, blk.GetLastInst))
      = some (some lo, some (lo + t)))
    (ht : 1 ≤ t) (hhi : lo + t < s.length)
    (hload : (s[lo]?).map (fun i => (i.GetOpcode, i.IsSharedOp, i.IsGlobalOp))
      = some (Opcode.OPR_MEM, false, true))
    (htail : ∀ i ∈ loopBody s (lo + 1) (lo + t),
      i.IsGlobalOp = false ∧ i.IsLocalOp = false ∧ i.IsSyncOp = false)
    (hov : loop.GetNumIters * max ((4 * t + 8) * W) 500 < ULL_MOD) :
    CountLoopCycles false s g W (depth + 1) l
      = some (loop.GetNumIters * max ((4 * t + 8) * W) 500) := by
  have hrun : ∀ q, lo < q → q ≤ lo + t →
      ∃ i, s[q]? = some i ∧ (i.IsGlobalOp || i.IsSyncOp || i.IsLocalOp) = false := by
    intro q h1 h2
    have hq : q < s.length := by omega
    refine ⟨s[q], List.getElem?_eq_getElem hq, ?_⟩
    obtain ⟨a1, a2, a3⟩ := htail _ (mem_loopBody (by omega) h2 (List.getElem?_eq_getElem hq))
    simp [a1, a2, a3]
  have h0 : s[lo]? = some s[lo] := List.getElem?_eq_getElem (by omega)
  rw [h0] at hload
  simp only [Option.map_some', Option.some.injEq, Prod.mk.injEq] at hload
  obtain ⟨hop, hsh, hgl⟩ := hload
  rw [CountLoopCycles_load_tail W depth hw hp hl hin hh hf hb ht hhi h0
    (by simp [dispatch, memCase, hop, hsh, hgl]) (by simp [hgl]) hrun]
  simp only [Nat.zero_add, Nat.zero_mul, Nat.zero_mod, Nat.add_zero, Nat.mod_mod,
    GLOBAL_MEM_LATENCY, Option.some.injEq]
  rw [show lo + t + 1 - lo = t + 1 by omega]
  rcases Nat.eq_zero_or_pos loop.GetNumIters with hz | hpos
  · rw [hz]; simp
  · have hmax : max ((4 * t + 8) * W) 500 < ULL_MOD :=
      lt_of_le_of_lt (Nat.le_mul_of_pos_left _ hpos) hov
    have hcur : (4 * t + 8) * W < ULL_MOD := lt_of_le_of_lt (le_max_left _ _) hmax
    have e1 : ((4 * (t + 1) % ULL_MOD + 4) % ULL_MOD * W) % ULL_MOD = (4 * t + 8) * W := by
      apply mod_eq_of_cast hcur
      simp only [Nat.cast_add, Nat.cast_mul, ZMod.natCast_mod, Nat.cast_ofNat]
      push_cast
      ring
    rw [e1, Nat.mod_eq_of_lt hmax, Nat.mod_eq_of_lt hov]

theorem loadLoop_built :
    (mkCFG streamLoadLoop false 0).bind (DetectLoops 2 noUconf) = some cfgLoadLoop := by
  decide

theorem C19_single_block_loop_with_load_witness :
    CountLoopCycles false streamLoadLoop cfgLoadLoop 1 1 0
      = some (256 * max ((4 * 5 + 8) * 1) 500) ∧
    CountLoopCycles false streamLoadLoop cfgLoadLoopTrips 1 1 0 = some 50000 :=
  ⟨C19_single_block_loop_with_load streamLoadLoop cfgLoadLoop
      { id := 0, header := 1, footer := 1, nat_loop := [1], num_instrs := 6 }
      0 1 0 5 1 0
      (WellLinked_of_check (by decide)) (PrevLinked_of_check (by decide)) (by decide)
      (by decide) (by decide) (by decide) (by decide) (by decide) (by decide) (by decide)
      (by decide) (by decide),
    C19_single_block_loop_with_load streamLoadLoop cfgLoadLoopTrips
      { id := 0, header := 1, footer := 1, nat_loop := [1], num_instrs := 6,
        num_iters := 100 }
      0 1 0 5 1 0
      (WellLinked_of_check (by decide)) (PrevLinked_of_check (by decide)) (by decide)
      (by decide) (by decide) (by decide) (by decide) (by decide) (by decide) (by decide)
      (by decide) (by decide)⟩

/-! ## The walk through a loop with an inner loop (C20) -/

/-- The block walk of `CountCycles`, in baseline mode, on a stream that makes a single
block of `a` ALU instructions, a barrier and `b` more ALU instructions: the barrier
flushes the `4 * a` cycles counted so far and adds nothing itself. -/
theorem kernelBlock_sync {s : List Instruction} {W : Nat} {blk : BasicBlock} {a b : Nat}
    (hw : WellLinked s) (hlen : s.length = a + 1 + b)
    (hfirst : blk.GetFirstInst = some 0) (hlast : blk.GetLastInst = some (s.length - 1))
    (hA : ∀ q i, q ≠ a → s[q]? = some i → dispatch false i = Dispatch.issue)
    (hS : ∀ i, s[a]? = some i → dispatch false i = Dispatch.sync) :
    kernelBlock false s W blk {} =
      some { total := (0 + ((0 + 4 * a) % ULL_MOD * W) % ULL_MOD) % ULL_MOD,
             current := (0 + 4 * b) % ULL_MOD, loads := [] } := by
  have hpos : 0 < s.length := by omega
  have hget : ∀ q, q < s.length → ∃ i, s[q]? = some i :=
    fun q hq => ⟨_, List.getElem?_eq_getElem hq⟩
  obtain ⟨il, hil⟩ := hget (s.length - 1) (by omega)
  have hnext : il.GetNext = none := by
    rw [next_ptrAt hw hil]
    simp only [ptrAt]
    rw [if_neg (by omega)]
  simp only [kernelBlock, hfirst, hlast, hil, hnext]
  have hrunA := kernelInstrs_run W none hw a 0 (b + 2) {} (by omega)
    (by simp [ULL_MOD]) (by
      intro q _ hq
      obtain ⟨i, hi⟩ := hget q (by omega)
      exact ⟨by simp, i, hi, hA q i (by omega) hi⟩)
  rw [show s.length + 1 = (b + 2) + a by omega, ← ptrAt_some hpos, hrunA]
  simp only [Nat.zero_add]
  obtain ⟨isy, hisy⟩ := hget a (by omega)
  have hds := hS isy hisy
  rw [ptrAt_some (show a < s.length by omega), show b + 2 = (b + 1) + 1 by omega]
  simp only [kernelInstrs, reduceCtorEq, if_false, hisy, useLoads, Bool.false_eq_true,
    kernelSwitch, hds]
  rw [next_ptrAt hw hisy]
  have hrunB := kernelInstrs_run W none hw b (a + 1) 1
    (flush W { total := 0, current := (4 * a) % ULL_MOD, loads := [] }) (by omega)
    (by simp [flush, ULL_MOD]) (by
      intro q h1 h2
      obtain ⟨i, hi⟩ := hget q (by omega)
      exact ⟨by simp, i, hi, hA q i (by omega) hi⟩)
  rw [show b + 1 = 1 + b by omega, hrunB]
  have hend : ptrAt s (a + 1 + b) = none := by
    simp only [ptrAt]
    rw [if_neg (by omega)]
  rw [hend]
  simp only [kernelInstrs, flush, Nat.zero_add]

/-- C29, as the claim states it, fails.  For one ALU instruction, a barrier and one more
ALU instruction the claim gives `4 * (1 + 1 + 1) * 1 = 12` with `W = 1`; `CountCycles`
returns 8: the case `OPR_SYNC` of the `switch` flushes and does not add 4 to
`current_cycles`. -/
theorem C29_counterexample :
    mkCFG (streamAluSyncAlu 1 1) false 0 = some (cfgAluSyncAlu 1 1) ∧
    CountCycles false (streamAluSyncAlu 1 1) (cfgAluSyncAlu 1 1) 1 = some 8 ∧
    4 * (1 + 1 + 1) * 1 = 12 := by
  refine ⟨by decide, by decide, by decide⟩

/-- C29, amended.  A stream that makes a single block of `a` ALU instructions, one
barrier and `b` ALU instructions.  In baseline mode `CountCycles` with `W` warps returns
`4 * (a + b) * W` (as long as that is below `2^64`): the barrier flushes the counter and
is not charged itself. -/
theorem C29_sync_flushes_uncharged (s : List Instruction) (unrolled : Bool)
    (gli W a b : Nat) (g : CFG) (hlen : s.length = a + 1 + b) (hw : WellLinked s)
    (hsl : StraightLine s)
    (hA : ∀ q i, q ≠ a → s[q]? = some i → i.GetOpcode = Opcode.OPR_ALU)
    (hS : ∀ i, s[a]? = some i → i.GetOpcode = Opcode.OPR_SYNC)
    (hg : mkCFG s unrolled gli = some g) (hov : 4 * (a + b) * W < ULL_MOD) :
    CountCycles false s g W = some (4 * (a + b) * W) := by
  have hne : s ≠ [] := by
    intro h
    rw [h] at hlen
    simp only [List.length_nil] at hlen
    omega
  obtain ⟨e, blk, x, hlist, hentry, hexit, hcon, he, hblk, hx⟩ := straight_line_cfg hne hsl hg
  rw [CountCycles_single_block false W hlist hentry hexit hcon he
    ⟨hblk.1, hblk.2.2.2.1, hblk.2.2.2.2⟩ hx]
  rw [kernelBlock_sync hw hlen hblk.2.1 hblk.2.2.1
    (fun q i hq hi => by simp [dispatch, hA q i hq hi])
    (fun i hi => by simp [dispatch, hS i hi])]
  simp only [Option.map_some', flush, Option.some.injEq]
  apply mod_eq_of_cast hov
  simp only [Nat.cast_add, Nat.cast_mul, ZMod.natCast_mod, Nat.cast_ofNat, Nat.cast_zero]
  ring

theorem aluSyncAlu_built :
    mkCFG (streamAluSyncAlu 2 3) false 0 = some (cfgAluSyncAlu 2 3) := by
  decide

theorem C29_sync_flushes_uncharged_witness :
    (streamAluSyncAlu 2 3).length = 2 + 1 + 3 ∧
    CountCycles false (streamAluSyncAlu 2 3) (cfgAluSyncAlu 2 3) 32 = some (4 * (2 + 3) * 32) :=
  ⟨by decide,
    C29_sync_flushes_uncharged (streamAluSyncAlu 2 3) false 0 32 2 3 (cfgAluSyncAlu 2 3)
      (by decide) (WellLinked_of_check (by decide))
      (StraightLine_of_check (by decide) (by decide))
      (by
        intro q i hq hi
        have hlt : q < (streamAluSyncAlu 2 3).length := (List.getElem?_eq_some_iff.mp hi).1
        have hq6 : q < 6 := hlt
        interval_cases q <;> simp [streamAluSyncAlu, linkStream, aluInstr, List.enum] at hi hq <;>
          subst hi <;> decide)
      (by
        intro i hi
        simp [streamAluSyncAlu, linkStream, syncInstr, List.enum] at hi
        subst hi
        decide)
      aluSyncAlu_built (by decide)⟩

/-! ## C27, C28: the block the walk goes on with -/

/-- C27, as the claim states it, fails.  The loop that `DetectLoops` finds in
`streamContinue` has two footers: block 1, which is also its header, and block 2, which
`AddFooter` has recorded.  For a loop with several footers `GetFooter()` is null, and
`FindLoopFooterSuccessor`, which reads the successors of the footer through that pointer,
returns no block, although block 1 has the successor 2 and block 2 the successor 3, both
different from the header. -/
theorem C27_counterexample :
    (mkCFG streamContinue false 0).bind (DetectLoops 1 noUconf) = some cfgContinue ∧
    cfgContinue.loop_store.map (fun L => (L.header, L.footer, L.footers, L.GetFooter))
      = [(1, 1, some [2], none)] ∧
    succAt cfgContinue.all_blocks 1 = [1, 2] ∧
    succAt cfgContinue.all_blocks 2 = [1, 3] ∧
    FindLoopFooterSuccessor cfgContinue 0 = none := by
  refine ⟨by decide, by decide, by decide, by decide, by decide⟩

/-- C27, amended.  For a loop with a single footer, `FindLoopFooterSuccessor` returns a
block only if that block is a successor of the footer and differs from the header of the
loop, and it returns a block whenever the footer has such a successor. -/
theorem C27_footer_successor (g : CFG) (l f : Nat) (loop : Loop) (fb : BasicBlock)
    (hl : g.loop_store[l]? = some loop) (hf : loop.GetFooter = some f)
    (hfb : g.all_blocks[f]? = some fb) :
    (∀ x, FindLoopFooterSuccessor g l = some x → x ∈ fb.succ ∧ x ≠ loop.GetHeader) ∧
    ((∃ y ∈ fb.succ, y ≠ loop.GetHeader) → ∃ x, FindLoopFooterSuccessor g l = some x) := by
  have hF : FindLoopFooterSuccessor g l = fb.succ.find? (fun x => x != loop.GetHeader) := by
    simp only [FindLoopFooterSuccessor, hl, hf, hfb]
  rw [hF]
  constructor
  · intro x hx
    refine ⟨List.mem_of_find?_eq_some hx, ?_⟩
    have := List.find?_some hx
    simpa using this
  · rintro ⟨y, hy, hne⟩
    cases hfind : fb.succ.find? (fun x => x != loop.GetHeader) with
    | some x => exact ⟨x, rfl⟩
    | none =>
      have := List.find?_eq_none.mp hfind y hy
      simp at this
      exact absurd this hne

theorem C27_footer_successor_witness :
    (∀ x, FindLoopFooterSuccessor cfgNestedUnrolled 0 = some x →
      x ∈ [2, 3] ∧ x ≠ 2) ∧
    FindLoopFooterSuccessor cfgNestedUnrolled 0 = some 3 :=
  have h := C27_footer_successor cfgNestedUnrolled 0 2
    { id := 0, header := 2, footer := 2, enclosing_loop := some 1, nat_loop := [2],
      num_iters := 21, num_instrs := 5, nesting_level := 1 }
    { begin_instr := some 1, end_instr := some 5, succ := [2, 3], pred := [1, 2],
      loop_header := true, loop_footer := true, id := 1, vs := VisitState.COLOR_BLACK,
      alu_op_count := 4, branch_op_count := 1, total_op_count := 5 }
    (by decide) (by decide) (by decide)
  ⟨h.1, by decide⟩

/-- C28.  For a block with exactly two successors, a block that `FindBBSuccessor` returns
is one of the two and has exactly one predecessor, or two predecessors and the
loop-header flag; for a block with exactly one successor `FindBBSuccessor` returns that
successor. -/
theorem C28_bb_successor (g : CFG) (iter : Nat) (b : BasicBlock)
    (hb : g.all_blocks[iter]? = some b) :
    (b.succ.length = 2 → ∀ r, FindBBSuccessor g iter = some r →
      r ∈ b.succ ∧ ∃ rb, g.all_blocks[r]? = some rb ∧
        (rb.NumPred = 1 ∨ (rb.NumPred = 2 ∧ rb.IsLoopHeader = true))) ∧
    (∀ r, b.succ = [r] → FindBBSuccessor g iter = some r) := by
  constructor
  · intro h2 r hr
    obtain ⟨s0, s1, hsucc⟩ : ∃ s0 s1, b.succ = [s0, s1] := by
      match hs : b.succ, h2 with
      | [x, y], _ => exact ⟨x, y, rfl⟩
    have hn : b.NumSucc = 2 := by simp [BasicBlock.NumSucc, hsucc, UINT_MOD]
    simp only [FindBBSuccessor, hb, hn, hsucc] at hr
    simp only [Nat.lt_irrefl, List.getElem?_cons_zero, List.getElem?_cons_succ,
      show (0 : Nat) < 2 from by omega, show (2 : Nat) < 3 from by omega, and_self, if_true,
      show ¬ (2 : Nat) = 1 from by omega, if_false] at hr
    cases h0 : g.all_blocks[s0]? with
    | none => simp [h0] at hr
    | some succ0 =>
      cases h1 : g.all_blocks[s1]? with
      | none => simp [h0, h1] at hr
      | some succ1 =>
        simp only [h0, h1] at hr
        split at hr
        · split at hr
          · rename_i hcase
            split at hr
            · simp only [Option.some.injEq] at hr
              subst hr
              exact ⟨by simp [hsucc], succ1, h1, hcase⟩
            · simp at hr
          · split at hr
            · rename_i hcase
              simp only [Option.some.injEq] at hr
              subst hr
              exact ⟨by simp [hsucc], succ0, h0, Or.inl hcase.1⟩
            · simp at hr
        · simp at hr
  · intro r hsucc
    have hn : b.NumSucc = 1 := by simp [BasicBlock.NumSucc, hsucc, UINT_MOD]
    simp [FindBBSuccessor, hb, hn, hsucc]

theorem C28_bb_successor_witness :
    FindBBSuccessor cfgNestedUnrolled 3 = some 4 ∧
    (4 ∈ [1, 4] ∧ ∃ rb, cfgNestedUnrolled.all_blocks[4]? = some rb ∧
      (rb.NumPred = 1 ∨ (rb.NumPred = 2 ∧ rb.IsLoopHeader = true))) ∧
    FindBBSuccessor cfgNestedUnrolled 1 = some 2 :=
  have h := C28_bb_successor cfgNestedUnrolled 3
    { begin_instr := some 6, end_instr := some 6, succ := [1, 4], pred := [2],
      loop_footer := true, id := 2, vs := VisitState.COLOR_BLACK,
      branch_op_count := 1, total_op_count := 1 }
    (by decide)
  ⟨by decide, h.1 (by decide) 4 (by decide), by decide⟩

/-! ## C30: the use of a register with an outstanding load -/

theorem lookup_filter_self (l : List (Int × Nat)) (src : Int) :
    (l.filter (fun e => e.1 != src)).lookup src = none := by
  induction l with
  | nil => rfl
  | cons e t ih =>
    by_cases h : e.1 = src
    · simp [List.filter_cons, h, ih]
    · have h1 : (src == e.1) = false := by
        simp only [beq_eq_false_iff_ne]
        exact fun h2 => h h2.symm
      simp only [List.filter_cons, bne_iff_ne, ne_eq, h, not_false_eq_true, decide_True,
        if_true]
      obtain ⟨k, v⟩ := e
      simp only [List.lookup_cons, h1]
      exact ih

theorem lookup_filter_other (l : List (Int × Nat)) {src r : Int} (hr : r ≠ src) :
    (l.filter (fun e => e.1 != src)).lookup r = l.lookup r := by
  induction l with
  | nil => rfl
  | cons e t ih =>
    obtain ⟨k, v⟩ := e
    by_cases h : k = src
    · subst h
      have h1 : (r == k) = false := by
        simp only [beq_eq_false_iff_ne]
        exact hr
      simp [List.filter_cons, ih, List.lookup_cons, h1]
    · simp only [List.filter_cons, bne_iff_ne, ne_eq, h, not_false_eq_true, decide_True,
        if_true, List.lookup_cons]
      cases hrk : (r == k)
      · exact ih
      · rfl

theorem lookup_UpdateCyclesInMap (l : List (Int × Nat)) (n : Nat) (r : Int) :
    (UpdateCyclesInMap l n).lookup r = (l.lookup r).map (fun x => (x + n) % ULL_MOD) := by
  induction l with
  | nil => rfl
  | cons e t ih =>
    obtain ⟨k, v⟩ := e
    simp only [UpdateCyclesInMap, List.map_cons, List.lookup_cons] at ih ⊢
    cases hrk : (r == k)
    · exact ih
    · rfl

/-- C30.  In experimental mode, the pass of the loop over the source registers for a
register `src` that has an outstanding load of age `a`.  If `a < 500`, `total_cycles`
grows by `delta = max (current * W) (500 - a)`, `current_cycles` becomes 0 and the age of
every other outstanding load grows by `delta`; if `a >= 500`, the two counters and the
other ages stay as they are.  In both cases the entry of `src` is gone afterwards; the
`switch`, which inserts the destination register of a load, runs on that state, so that a
global load whose destination is the register it reads through is recorded with age 4.
(All sums are those of `unsigned long long`.) -/
theorem C30_use_of_outstanding_load (W : Nat) (c : Counters) (src : Int) (a : Nat)
    (h : c.loads.lookup src = some a) :
    (a < 500 →
      (useLoad W c src).total
          = (c.total + max ((c.current * W) % ULL_MOD) (500 - a)) % ULL_MOD ∧
      (useLoad W c src).current = 0 ∧
      ∀ r, r ≠ src → (useLoad W c src).loads.lookup r
          = (c.loads.lookup r).map
              (fun x => (x + max ((c.current * W) % ULL_MOD) (500 - a)) % ULL_MOD)) ∧
    (500 ≤ a →
      (useLoad W c src).total = c.total ∧ (useLoad W c src).current = c.current ∧
      ∀ r, r ≠ src → (useLoad W c src).loads.lookup r = c.loads.lookup r) ∧
    (useLoad W c src).loads.lookup src = none ∧
    ∀ (s : List Instruction) (p : Nat) (i : Instruction),
      dispatch true i = Dispatch.memory → i.IsMemLoad = true → i.GetRegSrc0 = src →
      i.GetRegDst = src →
      ∃ c1, kernelSwitch true s W p i (useLoads true W i c) = some (some p, c1) ∧
        c1.loads.lookup src = some 4 := by
  have hgone : (useLoad W c src).loads.lookup src = none := by
    simp only [useLoad, h]
    exact lookup_filter_self _ _
  refine ⟨?_, ?_, hgone, ?_⟩
  · intro ha
    have ha1 : a < GLOBAL_MEM_LATENCY := ha
    simp only [useLoad, h, GLOBAL_MEM_LATENCY, ha, if_true, true_and]
    intro r hr
    rw [lookup_filter_other _ hr, lookup_UpdateCyclesInMap]
  · intro ha
    have ha1 : ¬ a < GLOBAL_MEM_LATENCY := by
      simp only [GLOBAL_MEM_LATENCY]
      omega
    simp only [useLoad, h, ha1, if_false, true_and]
    intro r hr
    exact lookup_filter_other _ hr
  · intro s p i hd hload hsrc hdst
    have hfilter : ∀ (c0 : Counters) (r : Int), c0.loads.lookup src = none →
        (useLoad W c0 r).loads.lookup src = none := by
      intro c0 r h0
      by_cases hr : src = r
      · subst hr
        simp only [useLoad, h0]
      · cases hl : c0.loads.lookup r with
        | none => simp only [useLoad, hl]; exact h0
        | some cyc =>
          simp only [useLoad, hl]
          rw [lookup_filter_other _ hr]
          split
          · rw [lookup_UpdateCyclesInMap, h0]
            rfl
          · exact h0
    have h3 : (useLoads true W i c).loads.lookup src = none := by
      simp only [useLoads, if_true, hsrc]
      exact hfilter _ _ (hfilter _ _ hgone)
    have h4 : (age (useLoads true W i c)).loads.lookup src = none := by
      simp only [age]
      rw [lookup_UpdateCyclesInMap, h3]
      rfl
    refine ⟨{ age (useLoads true W i c) with
      loads := (age (useLoads true W i c)).loads ++ [(src, 4)] }, ?_, ?_⟩
    · simp only [kernelSwitch, hd, if_true, hload, recordLoad, hdst, h4, Option.map_some']
    · have key : ∀ (l : List (Int × Nat)), l.lookup src = none →
          (l ++ [(src, 4)]).lookup src = some 4 := by
        intro l
        induction l with
        | nil => intro _; simp [List.lookup_cons]
        | cons e t ih =>
          obtain ⟨k, v⟩ := e
          intro hl
          simp only [List.lookup_cons, List.cons_append] at hl ⊢
          cases hk : (src == k)
          · rw [hk] at hl
            exact ih hl
          · rw [hk] at hl
            simp at hl
      exact key _ h4

theorem C30_use_of_outstanding_load_witness :
    (useLoad 2 { total := 100, current := 12, loads := [(1, 480), (2, 40)] } 1
      = { total := 124, current := 0, loads := [(2, 64)] }) ∧
    (useLoad 2 { total := 100, current := 12, loads := [(1, 500), (2, 40)] } 1
      = { total := 100, current := 12, loads := [(2, 40)] }) ∧
    (useLoad 2 { total := 100, current := 12, loads := [(1, 480), (2, 40)] } 1).total
      = (100 + max ((12 * 2) % ULL_MOD) (500 - 480)) % ULL_MOD :=
  ⟨by decide, by decide,
    ((C30_use_of_outstanding_load 2 { total := 100, current := 12, loads := [(1, 480), (2, 40)] }
      1 480 (by decide)).1 (by decide)).1⟩

/-! ## C26: the counters of a block -/

/-- One pass of the counting loop adds one to the counter of the class of the
instruction, and to no other counter. -/
theorem countInstr_tally {i : Instruction} {c c1 : OpCounts} (h : countInstr i c = some c1)
    (hb : c.total + 1 < UINT_MOD) :
    c1.alu = c.alu + (classTally [i]).alu ∧ c1.branch = c.branch + (classTally [i]).branch ∧
    c1.shared = c.shared + (classTally [i]).shared ∧ c1.loc = c.loc + (classTally [i]).loc ∧
    c1.global = c.global + (classTally [i]).global ∧
    c1.sync = c.sync + (classTally [i]).sync := by
  unfold countInstr at h
  unfold OpCounts.total at hb
  have hm : ∀ x, x + 1 < UINT_MOD → (x + 1) % UINT_MOD = x + 1 :=
    fun x hx => Nat.mod_eq_of_lt hx
  cases h1 : i.IsAluOp <;> cases h2 : i.IsBranchOp <;> cases h3 : i.IsSharedOp <;>
    cases h4 : i.IsLocalOp <;> cases h5 : i.IsGlobalOp <;> cases h6 : i.IsSyncOp <;>
    simp only [h1, h2, h3, h4, h5, h6, Bool.false_eq_true, if_true, if_false,
      Option.some.injEq, reduceCtorEq] at h <;>
    subst h <;>
    simp [classTally, List.countP_cons, h1, h2, h3, h4, h5, h6, hm _ (show c.alu + 1 < UINT_MOD by omega),
      hm _ (show c.branch + 1 < UINT_MOD by omega), hm _ (show c.shared + 1 < UINT_MOD by omega),
      hm _ (show c.loc + 1 < UINT_MOD by omega), hm _ (show c.global + 1 < UINT_MOD by omega),
      hm _ (show c.sync + 1 < UINT_MOD by omega)]

theorem classTally_cons (i : Instruction) (l : List Instruction) :
    (classTally (i :: l)).alu = (classTally [i]).alu + (classTally l).alu ∧
    (classTally (i :: l)).branch = (classTally [i]).branch + (classTally l).branch ∧
    (classTally (i :: l)).shared = (classTally [i]).shared + (classTally l).shared ∧
    (classTally (i :: l)).loc = (classTally [i]).loc + (classTally l).loc ∧
    (classTally (i :: l)).global = (classTally [i]).global + (classTally l).global ∧
    (classTally (i :: l)).sync = (classTally [i]).sync + (classTally l).sync := by
  simp only [classTally, List.countP_cons, List.countP_nil, Nat.zero_add]
  refine ⟨?_, ?_, ?_, ?_, ?_, ?_⟩ <;> omega

theorem drop_take_succ {s : List Instruction} {b n : Nat} {i : Instruction}
    (hi : s[b]? = some i) : (s.drop b).take (n + 1) = i :: (s.drop (b + 1)).take n := by
  have hb : b < s.length := (List.getElem?_eq_some_iff.mp hi).1
  have hv : s[b] = i := (List.getElem?_eq_some_iff.mp hi).2
  rw [List.drop_eq_getElem_cons hb, List.take_succ_cons, hv]

/-- The counting loop on a run of `n` classified instructions from position `b` on: it
returns, and every counter has grown by the number of instructions of its class. -/
theorem countLoop_tally {s : List Instruction} (hw : WellLinked s) :
    ∀ (n b fuel : Nat) (c : OpCounts), b + n ≤ s.length → n < fuel →
      (∀ p i, b ≤ p → p < b + n → s[p]? = some i → Classified i) →
      ∃ c', countLoop s (ptrAt s (b + n)) fuel (ptrAt s b) c = some c' ∧
        (c.total + n < UINT_MOD →
          c'.alu = c.alu + (classTally ((s.drop b).take n)).alu ∧
          c'.branch = c.branch + (classTally ((s.drop b).take n)).branch ∧
          c'.shared = c.shared + (classTally ((s.drop b).take n)).shared ∧
          c'.loc = c.loc + (classTally ((s.drop b).take n)).loc ∧
          c'.global = c.global + (classTally ((s.drop b).take n)).global ∧
          c'.sync = c.sync + (classTally ((s.drop b).take n)).sync) := by
  intro n
  induction n with
  | zero =>
    intro b fuel c _ hf _
    obtain ⟨f, rfl⟩ : ∃ f, fuel = f + 1 := ⟨fuel - 1, by omega⟩
    exact ⟨c, by simp [countLoop], fun _ => by simp [classTally]⟩
  | succ n ih =>
    intro b fuel c hlen hf hcl
    obtain ⟨f, rfl⟩ : ∃ f, fuel = f + 1 := ⟨fuel - 1, by omega⟩
    have hb : b < s.length := by omega
    have hptr : ptrAt s b = some b := by simp [ptrAt, hb]
    have hne : some b ≠ ptrAt s (b + (n + 1)) := ptrAt_ne (by omega)
    obtain ⟨i, hi⟩ : ∃ i, s[b]? = some i := ⟨s[b], List.getElem?_eq_getElem hb⟩
    obtain ⟨c1, hc1⟩ := countInstr_some (hcl b i (le_refl b) (by omega) hi) c
    have hnext : i.GetNext = ptrAt s (b + 1) := by
      rw [hw b i hi]; rfl
    obtain ⟨c', hc', htal⟩ := ih (b + 1) f c1 (by omega) (by omega)
      (fun p j hp1 hp2 hj => hcl p j (by omega) (by omega) hj)
    refine ⟨c', ?_, ?_⟩
    · rw [hptr]
      simp only [countLoop, hne, if_false, hi, hc1, hnext]
      rw [show b + (n + 1) = b + 1 + n by omega]
      exact hc'
    · intro hbound
      have h1 := countInstr_total hc1 (by omega)
      obtain ⟨a1, a2, a3, a4, a5, a6⟩ := countInstr_tally hc1 (by omega)
      obtain ⟨b1, b2, b3, b4, b5, b6⟩ := htal (by omega)
      obtain ⟨d1, d2, d3, d4, d5, d6⟩ := classTally_cons i ((s.drop (b + 1)).take n)
      rw [drop_take_succ hi]
      refine ⟨?_, ?_, ?_, ?_, ?_, ?_⟩ <;> omega

theorem classTally_total (l : List Instruction) (h : ∀ i ∈ l, Classified i) :
    (classTally l).total = l.length := by
  induction l with
  | nil => rfl
  | cons i t ih =>
    obtain ⟨d1, d2, d3, d4, d5, d6⟩ := classTally_cons i t
    have ht := ih (fun j hj => h j (List.mem_cons_of_mem _ hj))
    have h1 : (classTally [i]).total = 1 := by
      have hc := h i (List.mem_cons_self _ _)
      unfold Classified at hc
      cases h1 : i.IsAluOp <;> cases h2 : i.IsBranchOp <;> cases h3 : i.IsSharedOp <;>
        cases h4 : i.IsLocalOp <;> cases h5 : i.IsGlobalOp <;> cases h6 : i.IsSyncOp <;>
        simp [h1, h2, h3, h4, h5, h6] at hc <;>
        simp [classTally, OpCounts.total, List.countP_cons, h1, h2, h3, h4, h5, h6]
    unfold OpCounts.total at ht h1 ⊢
    simp only [List.length_cons]
    omega

/-- C26.  On a stream linked in order, the constructor of `BasicBlock` returns for a
range `b .. e` of fewer than `2^32` instructions that each belong to a class.  Every
instruction of the range is counted once, in the first class of ALU, branch, shared,
local, global and sync that it belongs to; the total op count is the sum of the six
counters, and the number of instructions of the range. -/
theorem C26_block_counters (s : List Instruction) (b e u : Nat) (hw : WellLinked s)
    (hbe : b ≤ e) (he : e < s.length) (hn : e + 1 - b < UINT_MOD)
    (hc : ∀ i ∈ loopBody s b e, Classified i) :
    ∃ bb, mkBasicBlock s (some b) (some e) u = some bb ∧
      bb.total_op_count = bb.alu_op_count + bb.global_op_count + bb.shared_op_count
        + bb.local_op_count + bb.branch_op_count + bb.sync_op_count ∧
      bb.total_op_count = (loopBody s b e).length ∧
      bb.alu_op_count = (classTally (loopBody s b e)).alu ∧
      bb.branch_op_count = (classTally (loopBody s b e)).branch ∧
      bb.shared_op_count = (classTally (loopBody s b e)).shared ∧
      bb.local_op_count = (classTally (loopBody s b e)).loc ∧
      bb.global_op_count = (classTally (loopBody s b e)).global ∧
      bb.sync_op_count = (classTally (loopBody s b e)).sync := by
  obtain ⟨ie, hie⟩ : ∃ i, s[e]? = some i := ⟨s[e], List.getElem?_eq_getElem he⟩
  have hstop : ie.GetNext = ptrAt s (b + (e + 1 - b)) := by
    rw [hw e ie hie, show b + (e + 1 - b) = e + 1 by omega]; rfl
  have hstart : some b = ptrAt s b := by simp [ptrAt]; omega
  obtain ⟨c', hc', htal⟩ := countLoop_tally hw (e + 1 - b) b (s.length + 2) {} (by omega)
    (by omega) (fun p i h1 h2 hi => hc i (mem_loopBody h1 (by omega) hi))
  rw [← hstart, ← hstop] at hc'
  have h0 : ({} : OpCounts).total = 0 := rfl
  obtain ⟨a1, a2, a3, a4, a5, a6⟩ := htal (by rw [h0]; omega)
  have htot := classTally_total (loopBody s b e) hc
  have hlen : (loopBody s b e).length = e + 1 - b := loopBody_length he
  unfold OpCounts.total at htot
  have hbody : (s.drop b).take (e + 1 - b) = loopBody s b e := rfl
  rw [hbody] at a1 a2 a3 a4 a5 a6
  have z1 : ({} : OpCounts).alu = 0 := rfl
  have z2 : ({} : OpCounts).branch = 0 := rfl
  have z3 : ({} : OpCounts).shared = 0 := rfl
  have z4 : ({} : OpCounts).loc = 0 := rfl
  have z5 : ({} : OpCounts).global = 0 := rfl
  have z6 : ({} : OpCounts).sync = 0 := rfl
  rw [z1, Nat.zero_add] at a1
  rw [z2, Nat.zero_add] at a2
  rw [z3, Nat.zero_add] at a3
  rw [z4, Nat.zero_add] at a4
  rw [z5, Nat.zero_add] at a5
  rw [z6, Nat.zero_add] at a6
  have hsum : c'.alu + c'.global + c'.shared + c'.loc + c'.branch + c'.sync
      = (loopBody s b e).length := by omega
  refine ⟨{ begin_instr := some b, end_instr := some e, id := u,
            alu_op_count := c'.alu, global_op_count := c'.global,
            shared_op_count := c'.shared, local_op_count := c'.loc,
            branch_op_count := c'.branch, sync_op_count := c'.sync,
            total_op_count :=
              (c'.alu + c'.global + c'.shared + c'.loc + c'.branch + c'.sync) % UINT_MOD },
    by simp only [mkBasicBlock, hie, hc'], ?_, ?_, a1, a2, a3, a4, a5, a6⟩
  · show (c'.alu + c'.global + c'.shared + c'.loc + c'.branch + c'.sync) % UINT_MOD
        = c'.alu + c'.global + c'.shared + c'.loc + c'.branch + c'.sync
    exact Nat.mod_eq_of_lt (by omega)
  · show (c'.alu + c'.global + c'.shared + c'.loc + c'.branch + c'.sync) % UINT_MOD
        = (loopBody s b e).length
    rw [Nat.mod_eq_of_lt (by omega)]
    exact hsum

theorem C26_block_counters_witness :
    ∃ bb, mkBasicBlock streamMixed (some 0) (some 3) 7 = some bb ∧
      bb.total_op_count = bb.alu_op_count + bb.global_op_count + bb.shared_op_count
        + bb.local_op_count + bb.branch_op_count + bb.sync_op_count ∧
      bb.total_op_count = (loopBody streamMixed 0 3).length ∧
      bb.alu_op_count = (classTally (loopBody streamMixed 0 3)).alu ∧
      bb.branch_op_count = (classTally (loopBody streamMixed 0 3)).branch ∧
      bb.shared_op_count = (classTally (loopBody streamMixed 0 3)).shared ∧
      bb.local_op_count = (classTally (loopBody streamMixed 0 3)).loc ∧
      bb.global_op_count = (classTally (loopBody streamMixed 0 3)).global ∧
      bb.sync_op_count = (classTally (loopBody streamMixed 0 3)).sync :=
  C26_block_counters streamMixed 0 3 7 (WellLinked_of_check (by decide)) (by decide)
    (by decide) (by decide) (by
      intro i hi
      simp [loopBody, streamMixed, linkStream, List.enum] at hi
      rcases hi with h | h | h | h <;> subst h <;> simp [Classified, aluInstr, sharedLoad,
        globalLoad, syncInstr, Instruction.IsAluOp, Instruction.IsSharedOp,
        Instruction.IsGlobalOp, Instruction.IsSyncOp])

/-! ## C22: a second run in the same process -/

/-- C22 (the code departs from it).  `Loop::Loop` takes the id of a loop from the static
counter `global_loop_index`, which nothing resets.  The first run on `streamNested` gives
its two loops the ids 0 and 1 and leaves the counter at 2; a second run on the same
stream builds the same blocks with the same successor and predecessor lists, and gives
the loops the ids 2 and 3.  With the unrolled flag and a table of two factors the first
run divides the trip counts, and the second run reads `ufactors[2]` in a vector of two
elements. -/
theorem C22_loop_ids_differ_in_second_run :
    (mkCFG streamNested false 0).bind (DetectLoops 2 noUconf) = some cfgNestedFirst ∧
    cfgNestedFirst.global_loop_index = 2 ∧
    (mkCFG streamNested false 2).bind (DetectLoops 2 noUconf) = some cfgNestedSecond ∧
    cfgNestedSecond.all_blocks = cfgNestedFirst.all_blocks ∧
    cfgNestedFirst.loop_store.map Loop.Id = [0, 1] ∧
    cfgNestedSecond.loop_store.map Loop.Id = [2, 3] ∧
    (mkCFG streamNested true 0).bind (DetectLoops 2 (uconfRead (some uconfTwo)))
      = some cfgNestedUnrolled ∧
    cfgNestedUnrolled.global_loop_index = 2 ∧
    (mkCFG streamNested true 2).bind (DetectLoops 2 (uconfRead (some uconfTwo))) = none := by
  refine ⟨by decide, by decide, by decide, by decide, by decide, by decide, by decide,
    by decide, by decide⟩

/-! ## C25: the links after inlining -/

theorem call_constructed : Construct stmtsCall = some kernelCall := by
  decide

/-- C25 (the code departs from it).  In `stmtsCall` instruction 1 calls a function whose
body, the instructions 4 to 6, follows instruction 3, the `ret` of the kernel.
`Construct` moves the body behind the call: the stream is 0, 1, 4, 5, 6, 2, 3.  The four
statements that set up the links for the inlined body give the call, the entry, the exit
and the instruction behind the call their new neighbours, and leave the old neighbour of
the entry as it was: instruction 3, now the last instruction of the stream, still has
instruction 4 as its `next`. -/
theorem C25_stale_next_after_inlining :
    Construct stmtsCall = some kernelCall ∧
    kernelCall.inst_stream = [0, 1, 4, 5, 6, 2, 3] ∧
    kernelCall.inst_stream.getLast? = some 3 ∧
    (kernelCall.insts[3]?).map Instruction.GetNext = some (some 4) ∧
    (kernelCall.insts[4]?).map Instruction.GetPrev = some (some 1) := by
  refine ⟨by decide, by decide, by decide, by decide, by decide⟩

/-! ## Kernel::Construct: the loop over the statements -/

theorem linkStream_length (l : List Instruction) : (linkStream l).length = l.length := by
  simp [linkStream]

theorem linkStream_getElem? (l : List Instruction) (k : Nat) :
    (linkStream l)[k]? = (l[k]?).map (fun x =>
      { x with prev := if k = 0 then none else some (k - 1),
               next := if k + 1 < l.length then some (k + 1) else none }) := by
  unfold linkStream
  rw [List.getElem?_map, List.getElem?_enum]
  cases l[k]? <;> rfl

theorem updInst_getElem? {insts l : List Instruction} {p : Nat} {f : Instruction → Instruction}
    (h : updInst insts p f = some l) (q : Nat) :
    l[q]? = if q = p then (insts[q]?).map f else insts[q]? := by
  unfold updInst at h
  cases hp : insts[p]? with
  | none => simp [hp] at h
  | some i =>
    simp only [hp, Option.some.injEq] at h
    subst h
    by_cases hq : q = p
    · subst hq
      have hlt : q < insts.length := (List.getElem?_eq_some_iff.mp hp).1
      simp [hp, List.getElem?_set_self hlt]
    · simp only [hq, if_false]
      exact List.getElem?_set_ne (Ne.symm hq)

theorem updInst_length {insts l : List Instruction} {p : Nat} {f : Instruction → Instruction}
    (h : updInst insts p f = some l) : l.length = insts.length := by
  unfold updInst at h
  cases hp : insts[p]? with
  | none => simp [hp] at h
  | some i =>
    simp only [hp, Option.some.injEq] at h
    subst h
    simp

theorem updInst_some {insts : List Instruction} {p : Nat} (f : Instruction → Instruction)
    (hp : p < insts.length) : ∃ l, updInst insts p f = some l := by
  unfold updInst
  rw [List.getElem?_eq_getElem hp]
  exact ⟨_, rfl⟩

/-- One instruction more: `CreateInstruction` and `AddInstruction` leave the instructions
linked in the order in which they were read. -/
theorem addInstruction_linked (is : List Instruction) (i : Instruction) (k : Kernel)
    (hins : k.insts = linkStream is) (hstream : k.inst_stream = List.range is.length) :
    ∃ insts1 k1, CreateInstruction k.insts (prevPtr is.length) i = some (insts1, is.length) ∧
      ({ k with insts := insts1 } : Kernel).AddInstruction is.length = some k1 ∧
      k1 = { k with insts := linkStream (is ++ [i]),
                    inst_stream := List.range (is ++ [i]).length } := by
  have hlen : k.insts.length = is.length := by rw [hins, linkStream_length]
  rcases Nat.eq_zero_or_pos is.length with h0 | hpos
  · have hnil : is = [] := List.length_eq_zero.mp h0
    subst hnil
    have hk : k.insts = [] := by rw [hins]; rfl
    refine ⟨[{ i with prev := none, next := none }], _, ?_, ?_, rfl⟩
    · simp [CreateInstruction, prevPtr, hk]
    · simp [Kernel.AddInstruction, hstream, updInst, Instruction.SetNext, linkStream,
        List.enum, List.range_succ]
  · obtain ⟨m, hm⟩ : ∃ m, is.length = m + 1 := ⟨is.length - 1, by omega⟩
    have hprev : prevPtr is.length = some m := by simp [prevPtr, hm]
    have hlast : (List.range is.length).getLast? = some m := by
      rw [hm, List.range_succ, List.getLast?_concat]
    -- the store with the new object
    have hl1 : (k.insts ++ [{ i with prev := some m, next := none }]).length = m + 2 := by
      simp [hlen, hm]
    obtain ⟨A, hA⟩ := updInst_some (fun x => x.SetNext (some is.length))
      (show m < (k.insts ++ [{ i with prev := some m, next := none }]).length by omega)
    obtain ⟨B, hB⟩ := updInst_some (fun x => x.SetNext (some is.length))
      (show m < A.length by rw [updInst_length hA]; omega)
    obtain ⟨C, hC⟩ := updInst_some (fun x => x.SetPrev (some m))
      (show is.length < B.length by rw [updInst_length hB, updInst_length hA]; omega)
    obtain ⟨D, hD⟩ := updInst_some (fun x => x.SetNext none)
      (show is.length < C.length by
        rw [updInst_length hC, updInst_length hB, updInst_length hA]; omega)
    have hD' : D = linkStream (is ++ [i]) := by
      apply List.ext_getElem?
      intro q
      rw [updInst_getElem? hD, updInst_getElem? hC, updInst_getElem? hB, updInst_getElem? hA,
        linkStream_getElem?, hins]
      by_cases hq1 : q = is.length
      · subst hq1
        have hne : ¬ is.length = m := by omega
        simp only [if_true, hne, if_false]
        rw [List.getElem?_append_right (by rw [linkStream_length]),
          List.getElem?_append_right (le_refl _)]
        simp [linkStream_length, Instruction.SetNext, Instruction.SetPrev, hm]
      · simp only [hq1, if_false]
        by_cases hq2 : q = m
        · subst hq2
          have hlt : q < is.length := by omega
          simp only [if_true]
          rw [List.getElem?_append_left (by rw [linkStream_length]; exact hlt),
            List.getElem?_append_left hlt, linkStream_getElem?,
            List.getElem?_eq_getElem hlt]
          simp [Instruction.SetNext, hm]
        · simp only [hq2, if_false]
          by_cases hlt : q < is.length
          · rw [List.getElem?_append_left (by rw [linkStream_length]; exact hlt),
              List.getElem?_append_left hlt, linkStream_getElem?,
              List.getElem?_eq_getElem hlt]
            have h1 : q + 1 < is.length := by omega
            have h2 : q + 1 < is.length + 1 := by omega
            simp [h1, h2]
          · rw [List.getElem?_eq_none (by simp [linkStream_length]; omega),
              List.getElem?_eq_none (by simp; omega)]
            rfl
    refine ⟨A, { k with insts := D, inst_stream := List.range is.length ++ [is.length] },
      ?_, ?_, ?_⟩
    · simp only [CreateInstruction, hprev, hlen]
      rw [hA]
      rfl
    · have hpos' : 0 < (List.range is.length).length := by simp; omega
      simp only [Kernel.AddInstruction, hstream, hpos', if_true, Kernel.GetLastInst, hlast,
        hB, hC, hD]
    · rw [hD']
      simp [List.range_succ]

/-- The loop over the statements returns, from a state in which the instructions `is`
read so far are linked in order. -/
theorem parseLoop_from (stmts : List Statement) :
    ∀ (is : List Instruction) (st : ParseState), st.k.insts = linkStream is →
      st.k.inst_stream = List.range is.length → st.prev = prevPtr is.length →
      parseLoop stmts st = some
        { k := { insts := linkStream (is ++ instrsOf stmts),
                 inst_stream := List.range (is ++ instrsOf stmts).length,
                 label_stream := st.k.label_stream ++ labelsOf stmts,
                 directive_stream := st.k.directive_stream + directivesOf stmts },
          prev := prevPtr (is ++ instrsOf stmts).length,
          branch_targets := labelTable st.branch_targets (labelsOf stmts) } := by
  induction stmts with
  | nil =>
    intro is st h1 h2 h3
    obtain ⟨⟨a, b, c, d⟩, e, f⟩ := st
    simp only at h1 h2 h3
    simp [parseLoop, instrsOf, labelsOf, directivesOf, labelTable, h1, h2, h3]
  | cons stmt rest ih =>
    intro is st h1 h2 h3
    cases stmt with
    | instruction i =>
      obtain ⟨insts1, k1, hc, ha, hk⟩ := addInstruction_linked is i st.k h1 h2
      rw [← h3] at hc
      simp only [parseLoop, parseStep, hc, ha]
      rw [ih (is ++ [i]) _ (by rw [hk]) (by rw [hk]) (by simp [prevPtr])]
      simp [hk, instrsOf, labelsOf, directivesOf, List.append_assoc]
    | label l =>
      simp only [parseLoop, parseStep]
      rw [ih is { st with k := { st.k with label_stream := st.k.label_stream ++ [l] },
                          branch_targets := mapInsert st.branch_targets l.GetNumber l }
        h1 h2 h3]
      simp [instrsOf, labelsOf, directivesOf, labelTable, List.append_assoc]
    | directive =>
      simp only [parseLoop, parseStep]
      rw [ih is { st with k := { st.k with directive_stream := st.k.directive_stream + 1 } }
        h1 h2 h3]
      simp [instrsOf, labelsOf, directivesOf, Nat.add_assoc, Nat.add_comm]

/-- The loop over the statements always returns: the instructions are linked in the order
in which they were read, and the stream holds them in that order. -/
theorem parseLoop_parsed (stmts : List Statement) : parseLoop stmts {} = some (parsed stmts) := by
  have := parseLoop_from stmts [] {} rfl rfl rfl
  simpa [parsed] using this

/-! ## Kernel::Construct: the pass over the branch targets (C24) -/

theorem mem_mapInsert {α β : Type} [BEq α] {m : List (α × β)} {k : α} {v : β} {p : α × β}
    (h : p ∈ mapInsert m k v) : p ∈ m ∨ p = (k, v) := by
  unfold mapInsert at h
  split at h
  · exact Or.inl h
  · simpa using h

theorem lookup_mem {α β : Type} [BEq α] [LawfulBEq α] {l : List (α × β)} {a : α} {b : β}
    (h : l.lookup a = some b) : (a, b) ∈ l := by
  induction l with
  | nil => simp at h
  | cons e t ih =>
    obtain ⟨k, v⟩ := e
    simp only [List.lookup_cons] at h
    cases hk : (a == k)
    · rw [hk] at h
      exact List.mem_cons_of_mem _ (ih h)
    · rw [hk] at h
      simp only [Option.some.injEq] at h
      have := eq_of_beq hk
      subst this
      subst h
      exact List.mem_cons_self _ _

/-- One round of the pass changes the instruction `iter` stands on, and that only in its
branch target; a branch whose label number is not -1 has its label in `branch_targets`
when the round goes through; an exit that the round records is a `ret`. -/
theorem patchStep_spec {bt : List (Nat × Label)} {iter : Nat}
    {insts insts1 : List Instruction} {m m1 : InlineMaps}
    (h : patchStep bt iter (insts, m) = some (insts1, m1)) :
    (∀ q, insts1[q]? = if q = iter then (insts[q]?).map (patched bt) else insts[q]?) ∧
    (∀ i, insts[iter]? = some i → i.IsBranchOp = true → i.GetLabelNumber ≠ -1 →
      ∃ lab, bt.lookup (labelKey i.GetLabelNumber) = some lab) ∧
    (∀ p ∈ m1.fn_entry_exit_map, p ∈ m.fn_entry_exit_map ∨
      (p.2 = iter ∧ (insts[iter]?).map Instruction.IsRet = some true)) := by
  unfold patchStep at h
  simp only at h
  cases hi : insts[iter]? with
  | none => simp [hi] at h
  | some inst =>
    simp only [hi] at h
    have hsame : ∀ q, insts[q]? = if q = iter then (insts[q]?).map (fun x => x) else insts[q]? := by
      intro q
      split <;> simp
    -- the maps after the entry has been pushed
    split at h
    · exact absurd h (by simp)
    · rename_i mE hE
      have hEx : mE.fn_entry_exit_map = m.fn_entry_exit_map := by
        split at hE
        · split at hE
          · simp at hE
          · simp only [Option.some.injEq] at hE
            rw [← hE]
        · simp only [Option.some.injEq] at hE
          rw [← hE]
      by_cases hb : inst.IsBranchOp = true
      · simp only [hb, if_true] at h
        have hm2 : ∀ p ∈ (if inst.IsRet = true then
              match mE.function_stack with
              | [] => mE
              | entry :: rest =>
                { mE with function_stack := rest,
                          fn_entry_exit_map := mapInsert mE.fn_entry_exit_map entry iter }
            else mE).fn_entry_exit_map,
            p ∈ m.fn_entry_exit_map ∨ (p.2 = iter ∧ inst.IsRet = true) := by
          intro p hp
          by_cases hr : inst.IsRet = true
          · simp only [hr, if_true] at hp
            split at hp
            · rw [hEx] at hp
              exact Or.inl hp
            · simp only at hp
              rcases mem_mapInsert hp with h1 | h1
              · rw [hEx] at h1
                exact Or.inl h1
              · exact Or.inr ⟨by rw [h1], hr⟩
          · simp only [hr, Bool.false_eq_true, if_false] at hp
            rw [hEx] at hp
            exact Or.inl hp
        by_cases hl : inst.GetLabelNumber = -1
        · simp only [hl, if_true] at h
          cases hu : updInst insts iter (fun x => x.SetBranchTarget none) with
          | none => simp [hu] at h
          | some l =>
            simp only [hu, Option.map_some', Option.some.injEq, Prod.mk.injEq] at h
            obtain ⟨h1, h2⟩ := h
            subst h1
            subst h2
            refine ⟨?_, ?_, ?_⟩
            · intro q
              rw [updInst_getElem? hu]
              by_cases hq : q = iter
              · subst hq
                simp [hi, patched, hb, hl]
              · simp [hq]
            · intro i hi2 _ hne
              have hii : inst = i := Option.some.inj hi2
              subst hii
              exact absurd hl hne
            · intro p hp
              rcases hm2 p hp with h1 | ⟨h1, h2⟩
              · exact Or.inl h1
              · exact Or.inr ⟨h1, by simp [h2]⟩
        · simp only [hl, if_false] at h
          cases hlab : bt.lookup (labelKey inst.GetLabelNumber) with
          | none => simp [hlab] at h
          | some lab =>
            simp only [hlab] at h
            cases hu : updInst insts iter (fun x => x.SetBranchTarget lab.GetNextInst) with
            | none => simp [hu] at h
            | some l =>
              simp only [hu] at h
              have hins : insts1 = l := by
                split at h <;> simp only [Option.some.injEq, Prod.mk.injEq] at h <;>
                  exact h.1.symm
              have hmaps : m1.fn_entry_exit_map = (if inst.IsRet = true then
                    match mE.function_stack with
                    | [] => mE
                    | entry :: rest =>
                      { mE with function_stack := rest,
                                fn_entry_exit_map := mapInsert mE.fn_entry_exit_map entry iter }
                  else mE).fn_entry_exit_map := by
                split at h <;> simp only [Option.some.injEq, Prod.mk.injEq] at h <;>
                  rw [← h.2]
              subst hins
              refine ⟨?_, ?_, ?_⟩
              · intro q
                rw [updInst_getElem? hu]
                by_cases hq : q = iter
                · subst hq
                  simp [hi, patched, hb, hl, hlab]
                · simp [hq]
              · intro i hi2 _ _
                have hii : inst = i := Option.some.inj hi2
                subst hii
                exact ⟨lab, hlab⟩
              · intro p hp
                rw [hmaps] at hp
                rcases hm2 p hp with h1 | ⟨h1, h2⟩
                · exact Or.inl h1
                · exact Or.inr ⟨h1, by simp [h2]⟩
      · simp only [hb, Bool.false_eq_true, if_false, Option.some.injEq, Prod.mk.injEq] at h
        obtain ⟨h1, h2⟩ := h
        subst h1
        subst h2
        refine ⟨?_, ?_, ?_⟩
        · intro q
          by_cases hq : q = iter
          · subst hq
            simp [hi, patched, hb]
          · simp [hq]
        · intro i hi2 hbi
          have hii : inst = i := Option.some.inj hi2
          subst hii
          exact absurd hbi hb
        · intro p hp
          rw [hEx] at hp
          exact Or.inl hp

/-- The pass over the ids `l`, each visited once: every visited instruction is changed
in its branch target only, every visited branch with a label number has its label in
`branch_targets`, and every exit the pass records is a `ret`. -/
theorem patchLoop_spec {bt : List (Nat × Label)} :
    ∀ (l : List Nat) (insts insts1 : List Instruction) (m m1 : InlineMaps), l.Nodup →
      patchLoop bt l (insts, m) = some (insts1, m1) →
      (∀ q, insts1[q]? = if q ∈ l then (insts[q]?).map (patched bt) else insts[q]?) ∧
      (∀ q i, q ∈ l → insts[q]? = some i → i.IsBranchOp = true → i.GetLabelNumber ≠ -1 →
        ∃ lab, bt.lookup (labelKey i.GetLabelNumber) = some lab) ∧
      (∀ p ∈ m1.fn_entry_exit_map, p ∈ m.fn_entry_exit_map ∨
        (insts[p.2]?).map Instruction.IsRet = some true) := by
  intro l
  induction l with
  | nil =>
    intro insts insts1 m m1 _ h
    simp only [patchLoop, Option.some.injEq, Prod.mk.injEq] at h
    obtain ⟨h1, h2⟩ := h
    subst h1
    subst h2
    exact ⟨fun q => by simp, fun q i hq => by simp at hq, fun p hp => Or.inl hp⟩
  | cons iter rest ih =>
    intro insts insts1 m m1 hnd h
    obtain ⟨hnot, hrest⟩ := List.nodup_cons.mp hnd
    simp only [patchLoop] at h
    cases hs : patchStep bt iter (insts, m) with
    | none => simp [hs] at h
    | some st1 =>
      obtain ⟨i1, mm1⟩ := st1
      simp only [hs] at h
      obtain ⟨a1, a2, a3⟩ := patchStep_spec hs
      obtain ⟨b1, b2, b3⟩ := ih i1 insts1 mm1 m1 hrest h
      refine ⟨?_, ?_, ?_⟩
      · intro q
        rw [b1 q, a1 q]
        by_cases hq : q = iter
        · subst hq
          simp [hnot]
        · simp [hq]
      · intro q i hq hi hb hl
        rcases List.mem_cons.mp hq with h1 | h1
        · subst h1
          exact a2 i hi hb hl
        · have hne : q ≠ iter := fun h2 => hnot (h2 ▸ h1)
          have hq1 : i1[q]? = some i := by rw [a1 q]; simp [hne, hi]
          exact b2 q i h1 hq1 hb hl
      · intro p hp
        rcases b3 p hp with h1 | h1
        · rcases a3 p h1 with h2 | ⟨h2, h3⟩
          · exact Or.inl h2
          · exact Or.inr (by rw [h2]; exact h3)
        · right
          rw [a1 p.2] at h1
          by_cases hq : p.2 = iter
          · simp only [hq, if_true, Option.map_map] at h1
            rw [hq]
            cases hi : insts[iter]? with
            | none => simp [hi] at h1
            | some i =>
              simp only [hi, Option.map_some', Function.comp, Option.some.injEq] at h1 ⊢
              rw [← h1]
              unfold patched
              split
              · split
                · rfl
                · split <;> rfl
              · rfl
          · simpa [hq] using h1

theorem updInst_frame {α : Type} {insts l : List Instruction} {p : Nat}
    {f : Instruction → Instruction} (g : Instruction → α)
    (h : updInst insts p f = some l) (q : Nat) (hf : q = p → ∀ x, g (f x) = g x) :
    (l[q]?).map g = (insts[q]?).map g := by
  rw [updInst_getElem? h]
  by_cases hq : q = p
  · simp only [hq, if_true, Option.map_map]
    cases insts[p]? with
    | none => rfl
    | some x => simp [hf hq x]
  · simp [hq]

/-- One round of the inlining loop changes the branch target of an exit that the first
pass has matched, and of no other instruction. -/
theorem inlineStep_target {m : InlineMaps} {k k1 : Kernel} {cs : Nat}
    (h : inlineStep m k cs = some k1) (q : Nat) (hq : q ∉ matchedExits m) :
    (k1.insts[q]?).map Instruction.GetBranchTarget
      = (k.insts[q]?).map Instruction.GetBranchTarget := by
  unfold inlineStep at h
  cases h1 : m.fn_cs_entry_map.lookup cs with
  | none => simp [h1] at h
  | some entry =>
  cases h2 : m.fn_entry_exit_map.lookup entry with
  | none => simp [h1, h2] at h
  | some exit =>
  have hex : exit ∈ matchedExits m := by
    unfold matchedExits
    exact List.mem_map.mpr ⟨(entry, exit), lookup_mem h2, rfl⟩
  have hne : q ≠ exit := fun e => hq (e ▸ hex)
  simp only [h1, h2] at h
  cases u1 : updInst k.insts entry (fun x => x.SetPrev (some cs)) with
  | none => simp [u1] at h
  | some i1 =>
  simp only [u1] at h
  cases c1 : i1[cs]? with
  | none => simp [c1] at h
  | some csi =>
  simp only [c1] at h
  cases u2 : updInst i1 exit (fun x => x.SetNext csi.GetNext) with
  | none => simp [u2] at h
  | some i2 =>
  simp only [u2] at h
  cases c2 : (i2[cs]?).bind Instruction.GetNext with
  | none => simp [c2] at h
  | some n =>
  simp only [c2] at h
  cases u3 : updInst i2 n (fun x => x.SetPrev (some exit)) with
  | none => simp [u3] at h
  | some i3 =>
  simp only [u3] at h
  cases u4 : updInst i3 cs (fun x => x.SetNext (some entry)) with
  | none => simp [u4] at h
  | some i4 =>
  simp only [u4] at h
  cases c3 : i4[exit]? with
  | none => simp [c3] at h
  | some exi =>
  simp only [c3] at h
  cases u5 : updInst i4 exit (fun x => x.SetBranchTarget exi.GetNext) with
  | none => simp [u5] at h
  | some i5 =>
  simp only [u5] at h
  cases sp : spliceAfter k.inst_stream cs entry exit with
  | none => simp [sp] at h
  | some stream =>
  simp only [sp, Option.some.injEq] at h
  subst h
  simp only
  rw [updInst_frame Instruction.GetBranchTarget u5 q (fun e => absurd e hne),
    updInst_frame Instruction.GetBranchTarget u4 q (fun _ _ => rfl),
    updInst_frame Instruction.GetBranchTarget u3 q (fun _ _ => rfl),
    updInst_frame Instruction.GetBranchTarget u2 q (fun _ _ => rfl),
    updInst_frame Instruction.GetBranchTarget u1 q (fun _ _ => rfl)]

/-- The inlining loop changes the branch targets of matched exits only. -/
theorem inlineLoop_target {m : InlineMaps} :
    ∀ (l : List Nat) (k k1 : Kernel), inlineLoop m l k = some k1 →
      ∀ q, q ∉ matchedExits m →
        (k1.insts[q]?).map Instruction.GetBranchTarget
          = (k.insts[q]?).map Instruction.GetBranchTarget := by
  intro l
  induction l with
  | nil =>
    intro k k1 h q _
    simp only [inlineLoop, Option.some.injEq] at h
    rw [h]
  | cons cs rest ih =>
    intro k k1 h q hq
    simp only [inlineLoop] at h
    cases hs : inlineStep m k cs with
    | none => simp [hs] at h
    | some k2 =>
      simp only [hs] at h
      rw [ih k2 k1 h q hq, inlineStep_target hs q hq]

/-- C24.  When `Construct` returns, every branch instruction whose label number is not
-1 has as its branch target the instruction that the label with that number stands before
(of two labels with the same number, the first one), and every `ret` with the label
number -1 that the first pass has not matched with a function entry has the null branch
target.  (A `ret` has the label number -1, as `Classify` sets it.) -/
theorem C24_branch_targets_resolved (stmts : List Statement) (k : Kernel)
    (h : Construct stmts = some k)
    (hret : ∀ i ∈ instrsOf stmts, i.IsRet = true → i.GetLabelNumber = -1) :
    ∃ insts1 m,
      patchLoop (labelTable [] (labelsOf stmts)) (List.range (instrsOf stmts).length)
        (linkStream (instrsOf stmts), {}) = some (insts1, m) ∧
      ∀ p i, (instrsOf stmts)[p]? = some i → i.IsBranchOp = true →
        (i.GetLabelNumber ≠ -1 →
          ∃ lab, (labelTable [] (labelsOf stmts)).lookup (labelKey i.GetLabelNumber) = some lab ∧
            (k.insts[p]?).map Instruction.GetBranchTarget = some lab.GetNextInst) ∧
        (i.GetLabelNumber = -1 → p ∉ matchedExits m →
          (k.insts[p]?).map Instruction.GetBranchTarget = some none) := by
  unfold Construct at h
  rw [parseLoop_parsed] at h
  simp only [parsed] at h
  cases hp : patchLoop (labelTable [] (labelsOf stmts)) (List.range (instrsOf stmts).length)
      (linkStream (instrsOf stmts), {}) with
  | none => simp [hp] at h
  | some st =>
    obtain ⟨insts1, m⟩ := st
    simp only [hp] at h
    refine ⟨insts1, m, rfl, ?_⟩
    obtain ⟨a1, a2, a3⟩ := patchLoop_spec _ _ _ _ _ (List.nodup_range _) hp
    intro p i hpi hb
    have hlt : p < (instrsOf stmts).length := (List.getElem?_eq_some_iff.mp hpi).1
    obtain ⟨j, hlink, hbj, hlj, hrj⟩ : ∃ j, (linkStream (instrsOf stmts))[p]? = some j ∧
        j.IsBranchOp = i.IsBranchOp ∧ j.GetLabelNumber = i.GetLabelNumber ∧
        j.IsRet = i.IsRet := by
      refine ⟨{ i with prev := if p = 0 then none else some (p - 1),
                       next := if p + 1 < (instrsOf stmts).length then some (p + 1) else none },
        ?_, rfl, rfl, rfl⟩
      rw [linkStream_getElem?, hpi]
      rfl
    have hmem : p ∈ List.range (instrsOf stmts).length := List.mem_range.mpr hlt
    have h1 : insts1[p]? = some (patched (labelTable [] (labelsOf stmts)) j) := by
      rw [a1 p]
      simp only [hmem, if_true, hlink, Option.map_some']
    have hbj' : j.IsBranchOp = true := by rw [hbj]; exact hb
    constructor
    · intro hl
      have hlj' : j.GetLabelNumber ≠ -1 := by rw [hlj]; exact hl
      obtain ⟨lab, hlab⟩ := a2 p j hmem hlink hbj' hlj'
      refine ⟨lab, by rw [← hlj]; exact hlab, ?_⟩
      have hnotexit : p ∉ matchedExits m := by
        intro hex
        unfold matchedExits at hex
        obtain ⟨pr, hpr, hpr2⟩ := List.mem_map.mp hex
        rcases a3 pr hpr with h2 | h2
        · simp at h2
        · rw [hpr2, hlink] at h2
          simp only [Option.map_some', Option.some.injEq] at h2
          rw [hrj] at h2
          exact hl (hret i (mem_of_getElem?' hpi) h2)
      rw [inlineLoop_target _ _ _ h p hnotexit]
      simp only [h1, Option.map_some', Option.some.injEq]
      unfold patched
      rw [if_pos hbj', if_neg hlj', hlab]
      rfl
    · intro hl hnotexit
      have hlj' : j.GetLabelNumber = -1 := by rw [hlj]; exact hl
      rw [inlineLoop_target _ _ _ h p hnotexit]
      simp only [h1, Option.map_some', Option.some.injEq]
      unfold patched
      rw [if_pos hbj', if_pos hlj']
      rfl

theorem C24_branch_targets_resolved_witness :
    ∃ insts1 m,
      patchLoop (labelTable [] (labelsOf stmtsCall)) (List.range (instrsOf stmtsCall).length)
        (linkStream (instrsOf stmtsCall), {}) = some (insts1, m) ∧
      ∀ p i, (instrsOf stmtsCall)[p]? = some i → i.IsBranchOp = true →
        (i.GetLabelNumber ≠ -1 →
          ∃ lab, (labelTable [] (labelsOf stmtsCall)).lookup (labelKey i.GetLabelNumber)
              = some lab ∧
            (kernelCall.insts[p]?).map Instruction.GetBranchTarget = some lab.GetNextInst) ∧
        (i.GetLabelNumber = -1 → p ∉ matchedExits m →
          (kernelCall.insts[p]?).map Instruction.GetBranchTarget = some none) :=
  C24_branch_targets_resolved stmtsCall kernelCall (by decide) (by decide)

/-! ## Kernel::Construct: the inlining loop (C23) -/

theorem movedStream_length (S : List Nat) {i j len : Nat} (hij : i + 1 ≤ j)
    (hlen : j + len ≤ S.length) : (movedStream S i j len).length = S.length := by
  simp only [movedStream, List.length_append, List.length_take, List.length_drop]
  omega

/-- The stream after the move holds at position `movedTo i j len q` what the stream held
at position `q`. -/
theorem movedStream_getElem? (S : List Nat) {i j len : Nat} (hij : i + 1 ≤ j)
    (hlen : j + len ≤ S.length) (q : Nat) :
    (movedStream S i j len)[movedTo i j len q]? = S[q]? := by
  have hA : (S.take (i + 1)).length = i + 1 := by
    rw [List.length_take]; omega
  have hB : ((S.drop j).take len).length = len := by
    rw [List.length_take, List.length_drop]; omega
  have hC : ((S.drop (i + 1)).take (j - (i + 1))).length = j - (i + 1) := by
    rw [List.length_take, List.length_drop]; omega
  unfold movedStream movedTo
  by_cases h1 : q ≤ i
  · simp only [h1, if_true]
    rw [List.append_assoc, List.append_assoc, List.getElem?_append_left (by rw [hA]; omega),
      List.getElem?_take_of_lt (by omega)]
  · simp only [h1, if_false]
    by_cases h2 : q < j
    · simp only [h2, if_true]
      rw [List.getElem?_append_left (by
          rw [List.length_append, List.length_append, hA, hB, hC]; omega),
        List.getElem?_append_right (by rw [List.length_append, hA, hB]; omega),
        List.length_append, hA, hB, List.getElem?_take_of_lt (by omega), List.getElem?_drop]
      congr 1
      omega
    · simp only [h2, if_false]
      by_cases h3 : q < j + len
      · simp only [h3, if_true]
        rw [List.append_assoc, List.append_assoc, List.getElem?_append_right (by rw [hA]; omega),
          hA, List.getElem?_append_left (by rw [hB]; omega),
          List.getElem?_take_of_lt (by omega), List.getElem?_drop]
        congr 1
        omega
      · simp only [h3, if_false]
        rw [List.getElem?_append_right (by
            rw [List.length_append, List.length_append, hA, hB, hC]; omega),
          List.length_append, List.length_append, hA, hB, hC, List.getElem?_drop]
        congr 1
        omega

theorem movedStream_perm (S : List Nat) {i j len : Nat} (hij : i + 1 ≤ j) :
    (movedStream S i j len).Perm S := by
  have hS : S = S.take (i + 1) ++ ((S.drop (i + 1)).take (j - (i + 1))
      ++ ((S.drop j).take len ++ S.drop (j + len))) := by
    have e1 : S.drop j = (S.drop j).take len ++ S.drop (j + len) := by
      rw [← List.drop_drop, List.take_append_drop]
    have e2 : S.drop (i + 1) = (S.drop (i + 1)).take (j - (i + 1)) ++ S.drop j := by
      have : S.drop j = (S.drop (i + 1)).drop (j - (i + 1)) := by
        rw [List.drop_drop]
        congr 1
        omega
      rw [this, List.take_append_drop]
    rw [← e1, ← e2, List.take_append_drop]
  unfold movedStream
  conv_rhs => rw [hS]
  rw [List.append_assoc, List.append_assoc]
  apply List.Perm.append_left
  rw [← List.append_assoc, ← List.append_assoc]
  exact List.Perm.append_right _ List.perm_append_comm

theorem indexOf_of_getElem? {S : List Nat} (hnd : S.Nodup) {i a : Nat}
    (h : S[i]? = some a) : S.indexOf a = i := by
  obtain ⟨hlt, hv⟩ := List.getElem?_eq_some_iff.mp h
  rw [← hv]
  exact List.indexOf_getElem hnd i hlt

/-- The call of `splice` for a call site at position `i` whose body stands at the
positions `j .. j + (x - e)`, behind position `i + 1`. -/
theorem spliceAfter_moved {S : List Nat} (hnd : S.Nodup) {c e x i j : Nat}
    (hc : S[i]? = some c) (hij : i + 1 < j) (hex : e ≤ x)
    (hbody : ∀ d, d ≤ x - e → S[j + d]? = some (e + d)) :
    spliceAfter S c e x = some (movedStream S i j (x - e + 1)) := by
  have he : S[j]? = some e := by simpa using hbody 0 (Nat.zero_le _)
  have hx : S[j + (x - e)]? = some x := by
    rw [hbody (x - e) (le_refl _)]
    congr 1
    omega
  have hlx : j + (x - e) < S.length := (List.getElem?_eq_some_iff.mp hx).1
  have hli : i < S.length := (List.getElem?_eq_some_iff.mp hc).1
  unfold spliceAfter
  simp only [indexOf_of_getElem? hnd hc, indexOf_of_getElem? hnd he, indexOf_of_getElem? hnd hx]
  have hcond : i < S.length ∧ j < S.length ∧ j + (x - e) < S.length ∧ j ≤ j + (x - e) :=
    ⟨hli, by omega, hlx, by omega⟩
  rw [if_pos hcond, if_pos hij]
  unfold movedStream
  rw [show j + (x - e) + 1 - j = x - e + 1 by omega,
    show j + (x - e) + 1 = j + (x - e + 1) by omega]

theorem movedTo_run {i j len p d : Nat} (hij : i + 1 ≤ j) (hlen : 1 ≤ len)
    (hi : ¬(p ≤ i ∧ i < p + d)) (hs1 : ¬(j ≤ p ∧ p < j + len))
    (hs2 : ¬(j ≤ p + d ∧ p + d < j + len)) (hs3 : ¬(p ≤ j ∧ j ≤ p + d)) :
    movedTo i j len (p + d) = movedTo i j len p + d := by
  unfold movedTo
  split_ifs <;> omega

theorem not_in_moved {S : List Nat} {e x j : Nat} (hex : e ≤ x)
    (hbody : ∀ d, d ≤ x - e → S[j + d]? = some (e + d)) {q a : Nat} (ha : S[q]? = some a)
    (hout : ¬(e ≤ a ∧ a ≤ x)) : ¬(j ≤ q ∧ q < j + (x - e + 1)) := by
  intro ⟨h1, h2⟩
  have := hbody (q - j) (by omega)
  rw [show j + (q - j) = q by omega, ha] at this
  simp only [Option.some.injEq] at this
  omega

/-- After the splice the call site is followed by its body and the body by the
instruction that followed the call. -/
theorem Inlined_moved {S : List Nat} {c e x i j : Nat}
    (hc : S[i]? = some c) (hn : S[i + 1]? = some (c + 1)) (hij : i + 1 < j) (hex : e ≤ x)
    (hbody : ∀ d, d ≤ x - e → S[j + d]? = some (e + d)) :
    Inlined (movedStream S i j (x - e + 1)) c e x := by
  have hlx : j + (x - e) < S.length :=
    (List.getElem?_eq_some_iff.mp (hbody (x - e) (le_refl _))).1
  have hlen : j + (x - e + 1) ≤ S.length := by omega
  have hij1 : i + 1 ≤ j := by omega
  refine ⟨i, ?_, ?_, ?_⟩
  · have := movedStream_getElem? S hij1 hlen i
    rw [hc] at this
    rw [← this]
    congr 1
    unfold movedTo
    simp
  · intro d hd
    have := movedStream_getElem? S hij1 hlen (j + d)
    rw [hbody d hd] at this
    rw [← this]
    congr 1
    unfold movedTo
    split_ifs <;> omega
  · have := movedStream_getElem? S hij1 hlen (i + 1)
    rw [hn] at this
    rw [← this]
    congr 1
    unfold movedTo
    split_ifs <;> omega

/-- The splice for one call site leaves another call site that has not been inlined yet
as it was: followed by the next instruction, its body behind that. -/
theorem Pending_moved {S : List Nat} {c e x i j : Nat}
    (hc : S[i]? = some c) (hij : i + 1 < j) (hex : e ≤ x)
    (hbody : ∀ d, d ≤ x - e → S[j + d]? = some (e + d)) {c2 e2 x2 : Nat}
    (hne : c2 ≠ c) (h1 : ¬(e ≤ c2 ∧ c2 ≤ x)) (h2 : ¬(e ≤ c2 + 1 ∧ c2 + 1 ≤ x))
    (h3 : x < e2 ∨ x2 < e) (h4 : ¬(e2 ≤ c ∧ c ≤ x2)) (hex2 : e2 ≤ x2)
    (hp : Pending S c2 e2 x2) : Pending (movedStream S i j (x - e + 1)) c2 e2 x2 := by
  obtain ⟨i2, j2, hc2, hn2, hij2, hb2⟩ := hp
  have hlx : j + (x - e) < S.length :=
    (List.getElem?_eq_some_iff.mp (hbody (x - e) (le_refl _))).1
  have hlen : j + (x - e + 1) ≤ S.length := by omega
  have hij1 : i + 1 ≤ j := by omega
  have pi2 : i2 ≠ i := by
    intro h
    rw [h, hc] at hc2
    simp only [Option.some.injEq] at hc2
    omega
  have si2 := not_in_moved hex hbody hc2 h1
  have sn2 := not_in_moved hex hbody hn2 h2
  have sb2 : ∀ d, d ≤ x2 - e2 → ¬(j ≤ j2 + d ∧ j2 + d < j + (x - e + 1)) := fun d hd =>
    not_in_moved hex hbody (hb2 d hd) (by omega)
  have pb2 : ∀ d, d ≤ x2 - e2 → j2 + d ≠ i := by
    intro d hd h
    have := hb2 d hd
    rw [h, hc] at this
    simp only [Option.some.injEq] at this
    omega
  have hrun : ∀ d, d ≤ x2 - e2 →
      movedTo i j (x - e + 1) (j2 + d) = movedTo i j (x - e + 1) j2 + d := by
    intro d hd
    apply movedTo_run hij1 (by omega)
    · intro ⟨a, b⟩
      exact pb2 (i - j2) (by omega) (by omega)
    · exact sb2 0 (Nat.zero_le _)
    · exact sb2 d hd
    · intro ⟨a, b⟩
      have := sb2 (j - j2) (by omega)
      omega
  have s0 := sb2 0 (Nat.zero_le _)
  refine ⟨movedTo i j (x - e + 1) i2, movedTo i j (x - e + 1) j2, ?_, ?_, ?_, ?_⟩
  · rw [movedStream_getElem? S hij1 hlen, hc2]
  · have : movedTo i j (x - e + 1) i2 + 1 = movedTo i j (x - e + 1) (i2 + 1) := by
      unfold movedTo
      split_ifs <;> omega
    rw [this, movedStream_getElem? S hij1 hlen, hn2]
  · unfold movedTo
    split_ifs <;> omega
  · intro d hd
    rw [← hrun d hd, movedStream_getElem? S hij1 hlen, hb2 d hd]

/-- The splice for one call site leaves a call site that has been inlined before as it
was: followed by its body and that by the instruction that followed the call. -/
theorem Inlined_kept {S : List Nat} {c e x i j : Nat}
    (hc : S[i]? = some c) (hij : i + 1 < j) (hex : e ≤ x)
    (hbody : ∀ d, d ≤ x - e → S[j + d]? = some (e + d)) {c2 e2 x2 : Nat}
    (hne : c2 ≠ c) (h1 : ¬(e ≤ c2 ∧ c2 ≤ x)) (h2 : ¬(e ≤ c2 + 1 ∧ c2 + 1 ≤ x))
    (h3 : x < e2 ∨ x2 < e) (h4 : ¬(e2 ≤ c ∧ c ≤ x2)) (hex2 : e2 ≤ x2)
    (hp : Inlined S c2 e2 x2) : Inlined (movedStream S i j (x - e + 1)) c2 e2 x2 := by
  obtain ⟨i2, hc2, hb2, hn2⟩ := hp
  have hlx : j + (x - e) < S.length :=
    (List.getElem?_eq_some_iff.mp (hbody (x - e) (le_refl _))).1
  have hlen : j + (x - e + 1) ≤ S.length := by omega
  have hij1 : i + 1 ≤ j := by omega
  have pi2 : i2 ≠ i := by
    intro h
    rw [h, hc] at hc2
    simp only [Option.some.injEq] at hc2
    omega
  have si2 := not_in_moved hex hbody hc2 h1
  have sn2 := not_in_moved hex hbody hn2 h2
  have sb2 : ∀ d, d ≤ x2 - e2 → ¬(j ≤ i2 + 1 + d ∧ i2 + 1 + d < j + (x - e + 1)) :=
    fun d hd => not_in_moved hex hbody (hb2 d hd) (by omega)
  have pb2 : ∀ d, d ≤ x2 - e2 → i2 + 1 + d ≠ i := by
    intro d hd h
    have := hb2 d hd
    rw [h, hc] at this
    simp only [Option.some.injEq] at this
    omega
  have hrun : ∀ t, t ≤ x2 - e2 + 2 →
      movedTo i j (x - e + 1) (i2 + t) = movedTo i j (x - e + 1) i2 + t := by
    intro t ht
    apply movedTo_run hij1 (by omega)
    · intro ⟨a, b⟩
      exact pb2 (i - (i2 + 1)) (by omega) (by omega)
    · exact si2
    · by_cases h0 : t = 0
      · subst h0
        exact si2
      · by_cases hl : t = x2 - e2 + 2
        · subst hl
          rw [show i2 + (x2 - e2 + 2) = i2 + (x2 - e2) + 2 by omega]
          exact sn2
        · have := sb2 (t - 1) (by omega)
          rw [show i2 + 1 + (t - 1) = i2 + t by omega] at this
          exact this
    · intro ⟨a, b⟩
      by_cases h0 : j = i2
      · omega
      · by_cases hl : j = i2 + (x2 - e2) + 2
        · omega
        · have := sb2 (j - (i2 + 1)) (by omega)
          omega
  refine ⟨movedTo i j (x - e + 1) i2, ?_, ?_, ?_⟩
  · rw [movedStream_getElem? S hij1 hlen, hc2]
  · intro d hd
    rw [show movedTo i j (x - e + 1) i2 + 1 + d = movedTo i j (x - e + 1) i2 + (1 + d) by omega,
      ← hrun (1 + d) (by omega), movedStream_getElem? S hij1 hlen,
      show i2 + (1 + d) = i2 + 1 + d by omega, hb2 d hd]
  · rw [show movedTo i j (x - e + 1) i2 + (x2 - e2) + 2
        = movedTo i j (x - e + 1) i2 + (x2 - e2 + 2) by omega,
      ← hrun (x2 - e2 + 2) (le_refl _), movedStream_getElem? S hij1 hlen,
      show i2 + (x2 - e2 + 2) = i2 + (x2 - e2) + 2 by omega, hn2]

theorem bodyOf_lookup {m : InlineMaps} {c e x : Nat} (h : bodyOf m c = some (e, x)) :
    m.fn_cs_entry_map.lookup c = some e ∧ m.fn_entry_exit_map.lookup e = some x := by
  unfold bodyOf at h
  cases h1 : m.fn_cs_entry_map.lookup c with
  | none => simp [h1] at h
  | some e1 =>
    cases h2 : m.fn_entry_exit_map.lookup e1 with
    | none => simp [h1, h2] at h
    | some x1 =>
      simp only [h1, h2, Option.some.injEq, Prod.mk.injEq] at h
      obtain ⟨rfl, rfl⟩ := h
      exact ⟨rfl, h2⟩

/-- One round of the inlining loop for a call site whose body lies behind the instruction
that follows the call: the round is carried out, the exit of the body gets the
instruction behind the call as its branch target, and no other branch target and no
other `next` link than those of the call and of the exit change. -/
theorem inlineStep_flat {m : InlineMaps} {k : Kernel} {c e x : Nat} {S1 : List Nat}
    (hb : bodyOf m c = some (e, x)) (hce : c + 1 < e) (hex : e ≤ x)
    (hxn : x < k.insts.length)
    (hnext : (k.insts[c]?).map Instruction.GetNext = some (some (c + 1)))
    (hsp : spliceAfter k.inst_stream c e x = some S1) :
    ∃ k1, inlineStep m k c = some k1 ∧ k1.inst_stream = S1 ∧
      k1.insts.length = k.insts.length ∧
      (k1.insts[x]?).map Instruction.GetBranchTarget = some (some (c + 1)) ∧
      (∀ q, q ≠ x → (k1.insts[q]?).map Instruction.GetBranchTarget
        = (k.insts[q]?).map Instruction.GetBranchTarget) ∧
      (∀ q, q ≠ x → q ≠ c → (k1.insts[q]?).map Instruction.GetNext
        = (k.insts[q]?).map Instruction.GetNext) := by
  obtain ⟨hl1, hl2⟩ := bodyOf_lookup hb
  obtain ⟨i1, h1⟩ := updInst_some (fun y => y.SetPrev (some c))
    (show e < k.insts.length by omega)
  have len1 := updInst_length h1
  obtain ⟨csi, hcsi⟩ : ∃ csi, i1[c]? = some csi :=
    ⟨_, List.getElem?_eq_getElem (show c < i1.length by omega)⟩
  have hcsn : csi.GetNext = some (c + 1) := by
    have := updInst_frame Instruction.GetNext h1 c (fun _ _ => rfl)
    rw [hcsi, hnext] at this
    simpa using this
  obtain ⟨i2, h2⟩ := updInst_some (fun y => y.SetNext csi.GetNext)
    (show x < i1.length by omega)
  have len2 := updInst_length h2
  have hn2 : (i2[c]?).bind Instruction.GetNext = some (c + 1) := by
    have := updInst_getElem? h2 c
    rw [if_neg (by omega), hcsi] at this
    rw [this]
    exact hcsn
  obtain ⟨i3, h3⟩ := updInst_some (fun y => y.SetPrev (some x))
    (show c + 1 < i2.length by omega)
  have len3 := updInst_length h3
  obtain ⟨i4, h4⟩ := updInst_some (fun y => y.SetNext (some e))
    (show c < i3.length by omega)
  have len4 := updInst_length h4
  obtain ⟨exi, hexi⟩ : ∃ exi, i4[x]? = some exi :=
    ⟨_, List.getElem?_eq_getElem (show x < i4.length by omega)⟩
  have hexn : exi.GetNext = some (c + 1) := by
    have e4 := updInst_getElem? h4 x
    rw [if_neg (by omega)] at e4
    have e3 := updInst_frame Instruction.GetNext h3 x (fun _ _ => rfl)
    have e2 := updInst_getElem? h2 x
    rw [if_pos rfl] at e2
    rw [← e4, hexi, e2, Option.map_map] at e3
    cases hx1 : i1[x]? with
    | none =>
      have := List.getElem?_eq_none_iff.mp hx1
      omega
    | some y =>
      rw [hx1] at e3
      simp only [Option.map_some', Function.comp, Option.some.injEq] at e3
      rw [e3]
      exact hcsn
  obtain ⟨i5, h5⟩ := updInst_some (fun y => y.SetBranchTarget exi.GetNext)
    (show x < i4.length by omega)
  have len5 := updInst_length h5
  refine ⟨{ k with insts := i5, inst_stream := S1 }, ?_, rfl, by simp only; omega, ?_, ?_, ?_⟩
  · unfold inlineStep
    simp only [hl1, hl2, h1, hcsi, h2, hn2, h3, h4, hexi, h5, hsp]
  · simp only
    rw [updInst_getElem? h5, if_pos rfl, hexi]
    simp only [Option.map_some', Option.some.injEq]
    exact hexn
  · intro q hq
    simp only
    rw [updInst_frame Instruction.GetBranchTarget h5 q (fun h => absurd h hq),
      updInst_frame Instruction.GetBranchTarget h4 q (fun _ _ => rfl),
      updInst_frame Instruction.GetBranchTarget h3 q (fun _ _ => rfl),
      updInst_frame Instruction.GetBranchTarget h2 q (fun _ _ => rfl),
      updInst_frame Instruction.GetBranchTarget h1 q (fun _ _ => rfl)]
  · intro q hq hqc
    simp only
    rw [updInst_frame Instruction.GetNext h5 q (fun _ _ => rfl),
      updInst_frame Instruction.GetNext h4 q (fun h => absurd h hqc),
      updInst_frame Instruction.GetNext h3 q (fun _ _ => rfl),
      updInst_frame Instruction.GetNext h2 q (fun h => absurd h hq),
      updInst_frame Instruction.GetNext h1 q (fun _ _ => rfl)]

/-- What `FlatCalls` says about one call site. -/
theorem FlatCalls_body {m : InlineMaps} {n : Nat} {sites : List Nat}
    (h : FlatCalls m n sites) {c : Nat} (hc : c ∈ sites) :
    ∃ e x, bodyOf m c = some (e, x) ∧ c + 1 < e ∧ e ≤ x ∧ x < n ∧
      ∀ c2 ∈ sites, ¬(e ≤ c2 ∧ c2 ≤ x) ∧ ¬(e ≤ c2 + 1 ∧ c2 + 1 ≤ x) ∧
        (c2 ≠ c → ∃ e2 x2, bodyOf m c2 = some (e2, x2) ∧ (x < e2 ∨ x2 < e)) := by
  have h1 := h c hc
  unfold bodyApart at h1
  cases hb : bodyOf m c with
  | none => simp [hb] at h1
  | some p =>
    obtain ⟨e, x⟩ := p
    simp only [hb, Bool.and_eq_true, decide_eq_true_eq, List.all_eq_true, Bool.not_eq_true',
      Bool.or_eq_true, beq_iff_eq] at h1
    obtain ⟨⟨⟨a1, a2⟩, a3⟩, a4⟩ := h1
    refine ⟨e, x, rfl, a1, a2, a3, ?_⟩
    intro c2 hc2
    obtain ⟨⟨b1, b2⟩, b3⟩ := a4 c2 hc2
    refine ⟨?_, ?_, ?_⟩
    · intro hh
      simp [hh.1, hh.2] at b1
    · intro hh
      simp [hh.1, hh.2] at b2
    · intro hne
      rcases b3 with b3 | b3
      · exact absurd b3 hne
      · cases hb2 : bodyOf m c2 with
        | none => simp [hb2] at b3
        | some p2 =>
          obtain ⟨e2, x2⟩ := p2
          simp only [hb2, Bool.or_eq_true, decide_eq_true_eq] at b3
          exact ⟨e2, x2, rfl, b3⟩

/-- The inlining loop over call sites that `FlatCalls` describes: it is carried out to
the end, and afterwards every call site is followed by its body and the body by the
instruction that followed the call, which is also the branch target of the exit. -/
theorem inlineLoop_flat {m : InlineMaps} {n : Nat} :
    ∀ (R P : List Nat) (k : Kernel), FlatCalls m n (P ++ R) → (P ++ R).Nodup →
      k.inst_stream.Nodup →
      k.insts.length = n →
      (∀ c ∈ R, ∀ e x, bodyOf m c = some (e, x) → Pending k.inst_stream c e x ∧
        (k.insts[c]?).map Instruction.GetNext = some (some (c + 1))) →
      (∀ c ∈ P, ∀ e x, bodyOf m c = some (e, x) → Inlined k.inst_stream c e x ∧
        (k.insts[x]?).map Instruction.GetBranchTarget = some (some (c + 1))) →
      ∃ k1, inlineLoop m R k = some k1 ∧
        ∀ c ∈ P ++ R, ∀ e x, bodyOf m c = some (e, x) → Inlined k1.inst_stream c e x ∧
          (k1.insts[x]?).map Instruction.GetBranchTarget = some (some (c + 1)) := by
  intro R
  induction R with
  | nil =>
    intro P k _ _ _ _ _ hP
    refine ⟨k, rfl, ?_⟩
    intro c hc
    rw [List.append_nil] at hc
    exact hP c hc
  | cons c R ih =>
    intro P k hflat hndup hnd hlen hR hP
    have hcm : c ∈ P ++ c :: R := by simp
    obtain ⟨e, x, hb, hce, hex, hxn, hsep⟩ := FlatCalls_body hflat hcm
    obtain ⟨⟨i, j, hci, hni, hij, hbody⟩, hnext⟩ := hR c (List.mem_cons_self _ _) e x hb
    have hsp := spliceAfter_moved hnd hci hij hex hbody
    obtain ⟨k1, hstep, hS1, hlen1, hbt, hbtf, hnf⟩ :=
      inlineStep_flat hb hce hex (by omega) hnext hsp
    have hnd1 : k1.inst_stream.Nodup := by
      rw [hS1]
      exact (List.Perm.nodup_iff (movedStream_perm _ (by omega))).mpr hnd
    have hflat1 : FlatCalls m n ((P ++ [c]) ++ R) := by
      rw [List.append_assoc]
      exact hflat
    -- what separates another call site from the one of this round
    have hother : ∀ c2 ∈ P ++ c :: R, c2 ≠ c → ∀ e2 x2, bodyOf m c2 = some (e2, x2) →
        ¬(e ≤ c2 ∧ c2 ≤ x) ∧ ¬(e ≤ c2 + 1 ∧ c2 + 1 ≤ x) ∧ (x < e2 ∨ x2 < e) ∧
          ¬(e2 ≤ c ∧ c ≤ x2) ∧ e2 ≤ x2 := by
      intro c2 hc2 hne e2 x2 hb2
      obtain ⟨s1, s2, s3⟩ := hsep c2 hc2
      obtain ⟨e3, x3, hb3, hd⟩ := s3 hne
      rw [hb2] at hb3
      simp only [Option.some.injEq, Prod.mk.injEq] at hb3
      obtain ⟨rfl, rfl⟩ := hb3
      obtain ⟨e4, x4, hb4, _, hex4, _, hsep4⟩ := FlatCalls_body hflat hc2
      rw [hb2] at hb4
      simp only [Option.some.injEq, Prod.mk.injEq] at hb4
      obtain ⟨rfl, rfl⟩ := hb4
      exact ⟨s1, s2, hd, (hsep4 c hcm).1, hex4⟩
    have hR1 : ∀ c2 ∈ R, ∀ e2 x2, bodyOf m c2 = some (e2, x2) →
        Pending k1.inst_stream c2 e2 x2 ∧
          (k1.insts[c2]?).map Instruction.GetNext = some (some (c2 + 1)) := by
      intro c2 hc2 e2 x2 hb2
      have hmem : c2 ∈ P ++ c :: R := by simp [hc2]
      have hne : c2 ≠ c := by
        intro h
        subst h
        have := (List.nodup_append.mp hndup).2.1
        exact (List.nodup_cons.mp this).1 hc2
      obtain ⟨s1, s2, s3, s4, s5⟩ := hother c2 hmem hne e2 x2 hb2
      obtain ⟨hp2, hn2⟩ := hR c2 (List.mem_cons_of_mem _ hc2) e2 x2 hb2
      refine ⟨?_, ?_⟩
      · rw [hS1]
        exact Pending_moved hci hij hex hbody hne s1 s2 s3 s4 s5 hp2
      · rw [hnf c2 (by omega) hne]
        exact hn2
    have hP1 : ∀ c2 ∈ P ++ [c], ∀ e2 x2, bodyOf m c2 = some (e2, x2) →
        Inlined k1.inst_stream c2 e2 x2 ∧
          (k1.insts[x2]?).map Instruction.GetBranchTarget = some (some (c2 + 1)) := by
      intro c2 hc2 e2 x2 hb2
      rcases List.mem_append.mp hc2 with hcP | hcc
      · have hmem : c2 ∈ P ++ c :: R := by simp [hcP]
        have hne : c2 ≠ c := by
          intro h
          subst h
          have := (List.nodup_append.mp hndup).2.2
          exact this hcP (List.mem_cons_self _ _)
        obtain ⟨s1, s2, s3, s4, s5⟩ := hother c2 hmem hne e2 x2 hb2
        obtain ⟨hp2, hn2⟩ := hP c2 hcP e2 x2 hb2
        refine ⟨?_, ?_⟩
        · rw [hS1]
          exact Inlined_kept hci hij hex hbody hne s1 s2 s3 s4 s5 hp2
        · rw [hbtf x2 (by omega)]
          exact hn2
      · simp only [List.mem_singleton] at hcc
        subst hcc
        rw [hb] at hb2
        simp only [Option.some.injEq, Prod.mk.injEq] at hb2
        obtain ⟨rfl, rfl⟩ := hb2
        refine ⟨?_, hbt⟩
        rw [hS1]
        exact Inlined_moved hci hni hij hex hbody
    have hndup1 : ((P ++ [c]) ++ R).Nodup := by
      rw [List.append_assoc]
      exact hndup
    obtain ⟨k2, hk2, hres⟩ := ih (P ++ [c]) k1 hflat1 hndup1 hnd1 (by omega) hR1 hP1
    refine ⟨k2, ?_, ?_⟩
    · simp only [inlineLoop, hstep]
      exact hk2
    · intro c2 hc2
      exact hres c2 (by simpa using hc2)

theorem setInsert_nodup {l : List Nat} (h : l.Nodup) (x : Nat) : (setInsert l x).Nodup := by
  unfold setInsert
  split
  · exact h
  · rename_i hx
    rw [List.nodup_append]
    refine ⟨h, List.nodup_singleton x, ?_⟩
    intro a ha hb
    simp only [List.mem_singleton] at hb
    subst hb
    exact hx (by simpa using ha)

theorem patchStep_call_sites {bt : List (Nat × Label)} {iter : Nat}
    {insts insts1 : List Instruction} {m m1 : InlineMaps}
    (h : patchStep bt iter (insts, m) = some (insts1, m1)) :
    m1.call_sites = m.call_sites ∨ m1.call_sites = setInsert m.call_sites iter := by
  unfold patchStep at h
  simp only at h
  cases hi : insts[iter]? with
  | none => simp [hi] at h
  | some inst =>
    simp only [hi] at h
    split at h
    · exact absurd h (by simp)
    · rename_i mE hE
      have hEx : mE.call_sites = m.call_sites := by
        split at hE
        · split at hE
          · simp at hE
          · simp only [Option.some.injEq] at hE
            rw [← hE]
        · simp only [Option.some.injEq] at hE
          rw [← hE]
      have hm2 : (if inst.IsRet = true then
              match mE.function_stack with
              | [] => mE
              | entry :: rest =>
                { mE with function_stack := rest,
                          fn_entry_exit_map := mapInsert mE.fn_entry_exit_map entry iter }
            else mE).call_sites = m.call_sites := by
        split
        · split
          · exact hEx
          · exact hEx
        · exact hEx
      by_cases hb : inst.IsBranchOp = true
      · simp only [hb, if_true] at h
        by_cases hl : inst.GetLabelNumber = -1
        · simp only [hl, if_true] at h
          cases hu : updInst insts iter (fun x => x.SetBranchTarget none) with
          | none => simp [hu] at h
          | some l =>
            simp only [hu, Option.map_some', Option.some.injEq, Prod.mk.injEq] at h
            left
            rw [← h.2]
            exact hm2
        · simp only [hl, if_false] at h
          split at h
          · exact absurd h (by simp)
          · split at h
            · exact absurd h (by simp)
            · split at h
              · simp only [Option.some.injEq, Prod.mk.injEq] at h
                right
                rw [← h.2]
                exact congrArg (fun z => setInsert z iter) hm2
              · simp only [Option.some.injEq, Prod.mk.injEq] at h
                left
                rw [← h.2]
                exact hm2
      · simp only [hb, Bool.false_eq_true, if_false, Option.some.injEq, Prod.mk.injEq] at h
        left
        rw [← h.2]
        exact hEx

theorem patchLoop_call_sites {bt : List (Nat × Label)} :
    ∀ (l : List Nat) (insts insts1 : List Instruction) (m m1 : InlineMaps),
      patchLoop bt l (insts, m) = some (insts1, m1) → m.call_sites.Nodup →
      m1.call_sites.Nodup := by
  intro l
  induction l with
  | nil =>
    intro insts insts1 m m1 h hn
    simp only [patchLoop, Option.some.injEq, Prod.mk.injEq] at h
    rw [← h.2]
    exact hn
  | cons iter rest ih =>
    intro insts insts1 m m1 h hn
    simp only [patchLoop] at h
    cases hs : patchStep bt iter (insts, m) with
    | none => simp [hs] at h
    | some st =>
      obtain ⟨insts2, m2⟩ := st
      simp only [hs] at h
      apply ih insts2 insts1 m2 m1 h
      rcases patchStep_call_sites hs with h1 | h1
      · rw [h1]
        exact hn
      · rw [h1]
        exact setInsert_nodup hn iter

theorem patchLoop_length {bt : List (Nat × Label)} {l : List Nat}
    {insts insts1 : List Instruction} {m m1 : InlineMaps} (hl : l.Nodup)
    (h : patchLoop bt l (insts, m) = some (insts1, m1)) : insts1.length = insts.length := by
  obtain ⟨a1, _, _⟩ := patchLoop_spec l insts insts1 m m1 hl h
  have hnone : ∀ q : Nat, insts1[q]? = none ↔ insts[q]? = none := by
    intro q
    rw [a1 q]
    split
    · cases insts[q]? <;> simp
    · rfl
  have h1 := (hnone insts.length).mpr (List.getElem?_eq_none_iff.mpr (le_refl _))
  have h2 := (hnone insts1.length).mp (List.getElem?_eq_none_iff.mpr (le_refl _))
  have h3 := List.getElem?_eq_none_iff.mp h1
  have h4 := List.getElem?_eq_none_iff.mp h2
  omega

theorem patched_next (bt : List (Nat × Label)) (i : Instruction) :
    (patched bt i).GetNext = i.GetNext := by
  unfold patched
  split
  · split
    · rfl
    · split <;> rfl
  · rfl

/-- C23 (as amended).  Let the first pass of `Construct` have matched every call site with
a function body `e .. x` that lies behind the instruction following the call, so that no
call and no instruction following a call belongs to a body and no two bodies have an
instruction in common.  Then `Construct` returns, and for every call site `c` the stream
holds `c`, immediately followed by the instructions `e .. x` in their order, immediately
followed by the instruction `c + 1`, which followed `c` before the inlining; and
`c + 1` is the branch target of the exit `x`. -/
theorem C23_flat_calls_inlined (stmts : List Statement) (insts1 : List Instruction)
    (m : InlineMaps) (hp : firstPass stmts = some (insts1, m))
    (hflat : FlatCalls m (instrsOf stmts).length m.call_sites) :
    ∃ k, Construct stmts = some k ∧
      ∀ c ∈ m.call_sites, ∃ e x, bodyOf m c = some (e, x) ∧
        (List.range (instrsOf stmts).length)[c + 1]? = some (c + 1) ∧
        Inlined k.inst_stream c e x ∧
        (k.insts[x]?).map Instruction.GetBranchTarget = some (some (c + 1)) := by
  unfold firstPass at hp
  obtain ⟨a1, _, _⟩ := patchLoop_spec _ _ _ _ _ (List.nodup_range _) hp
  have hlen : insts1.length = (instrsOf stmts).length := by
    rw [patchLoop_length (List.nodup_range _) hp, linkStream_length]
  have hnd : m.call_sites.Nodup :=
    patchLoop_call_sites _ _ _ _ _ hp (show ({} : InlineMaps).call_sites.Nodup from List.nodup_nil)
  have hR : ∀ c ∈ m.call_sites, ∀ e x, bodyOf m c = some (e, x) →
      Pending (List.range (instrsOf stmts).length) c e x ∧
        (insts1[c]?).map Instruction.GetNext = some (some (c + 1)) := by
    intro c hc e x hb
    obtain ⟨e1, x1, hb1, hce, hex, hxn, _⟩ := FlatCalls_body hflat hc
    rw [hb] at hb1
    simp only [Option.some.injEq, Prod.mk.injEq] at hb1
    obtain ⟨rfl, rfl⟩ := hb1
    refine ⟨⟨c, e, ?_, ?_, hce, ?_⟩, ?_⟩
    · rw [List.getElem?_range (by omega)]
    · rw [List.getElem?_range (by omega)]
    · intro d hd
      rw [List.getElem?_range (by omega)]
    · rw [a1 c, if_pos (List.mem_range.mpr (by omega)), linkStream_getElem?,
        List.getElem?_eq_getElem (show c < (instrsOf stmts).length by omega)]
      simp only [Option.map_some', patched_next, Option.some.injEq]
      show (if c + 1 < (instrsOf stmts).length then some (c + 1) else none) = some (c + 1)
      rw [if_pos (by omega)]
  obtain ⟨k, hk, hres⟩ := inlineLoop_flat m.call_sites []
    { (parsed stmts).k with insts := insts1 } (by simpa using hflat) (by simpa using hnd)
    (by simpa [parsed] using List.nodup_range _) hlen
    (by simpa [parsed] using hR) (by simp)
  refine ⟨k, ?_, ?_⟩
  · unfold Construct
    rw [parseLoop_parsed]
    simp only [parsed] at hk ⊢
    rw [hp]
    exact hk
  · intro c hc
    obtain ⟨e, x, hb, hce, hex, hxn, _⟩ := FlatCalls_body hflat hc
    obtain ⟨h1, h2⟩ := hres c (by simpa using hc) e x hb
    exact ⟨e, x, hb, List.getElem?_range (by omega), h1, h2⟩

theorem C23_flat_calls_inlined_witness :
    firstPass stmtsTwoCalls = some passTwoCalls ∧
    FlatCalls passTwoCalls.2 (instrsOf stmtsTwoCalls).length passTwoCalls.2.call_sites ∧
    ∃ k, Construct stmtsTwoCalls = some k ∧
      ∀ c ∈ passTwoCalls.2.call_sites, ∃ e x, bodyOf passTwoCalls.2 c = some (e, x) ∧
        (List.range (instrsOf stmtsTwoCalls).length)[c + 1]? = some (c + 1) ∧
        Inlined k.inst_stream c e x ∧
        (k.insts[x]?).map Instruction.GetBranchTarget = some (some (c + 1)) :=
  ⟨by decide, by unfold FlatCalls; decide,
    C23_flat_calls_inlined stmtsTwoCalls passTwoCalls.1 passTwoCalls.2 (by decide)
      (by unfold FlatCalls; decide)⟩

/-- C23 (counterexample).  In `stmtsNested` the first pass matches the call 1 with the
body 3 .. 5 and the call 4, an instruction of that body, with the body 6 .. 7.
`Construct` returns with the stream 0, 1, 3, 4, 6, 7, 5, 2: behind the call 1 stand the
instructions 3 and 4 of its body, then the body of the call 4, and only then
instruction 5: the call 1 is not immediately followed by the instructions 3, 4, 5. -/
theorem C23_counterexample :
    Construct stmtsNested = some kernelNested ∧
    (firstPass stmtsNested).map (fun st => bodyOf st.2 1) = some (some (3, 5)) ∧
    kernelNested.inst_stream = [0, 1, 3, 4, 6, 7, 5, 2] ∧
    ¬ Inlined kernelNested.inst_stream 1 3 5 := by
  have hs : kernelNested.inst_stream = [0, 1, 3, 4, 6, 7, 5, 2] := by decide
  refine ⟨by decide, by decide, hs, ?_⟩
  rw [hs]
  rintro ⟨i, h1, h2, _⟩
  have hi : i < 8 := (List.getElem?_eq_some_iff.mp h1).1
  have h3 := h2 2 (by decide)
  interval_cases i <;> simp at h1 h3

/-! ## C21: the cycle total and the number of warps -/

theorem stagger_built : mkCFG streamStagger false 0 = some cfgStagger := by
  decide

/-- C21, as the claim states it, fails in experimental mode.  `streamStagger` makes a
single block.  With 16 warps the use of register 1 (instruction 6) waits 476 cycles, which
leaves the load into register 2 at the age 496 when instruction 8 reads it: that use
waits `8 * 16 = 128` cycles more, and the total is 1164.  With 32 warps the first wait is
`16 * 32 = 512` cycles, the load into register 2 is 532 cycles old when instruction 8
reads it, nothing is added there, and the 8 cycles that are still in `current_cycles` go
into the wait for register 3, which is 496 cycles for either number of warps: the total
is 1136. -/
theorem C21_counterexample :
    mkCFG streamStagger false 0 = some cfgStagger ∧
    CountCycles true streamStagger cfgStagger 16 = some 1164 ∧
    CountCycles true streamStagger cfgStagger 32 = some 1136 := by
  refine ⟨by decide, by decide, by decide⟩

theorem UpdateCyclesInMapAt_word : UpdateCyclesInMapAt ULL_MOD = UpdateCyclesInMap := rfl
theorem flushAt_word : flushAt ULL_MOD = flush := rfl
theorem commitAt_word : commitAt ULL_MOD = commit := rfl
theorem useLoadAt_word : useLoadAt ULL_MOD = useLoad := rfl
theorem useLoadsAt_word : useLoadsAt ULL_MOD = useLoads := rfl
theorem issueAt_word : issueAt ULL_MOD = issue := rfl
theorem chargeAt_word : chargeAt ULL_MOD = charge := rfl
theorem ageAt_word : ageAt ULL_MOD = age := rfl

theorem kernelBurstAt_word (s : List Instruction) :
    ∀ fuel p cur, kernelBurstAt ULL_MOD s fuel p cur = kernelBurst s fuel p cur := by
  intro fuel
  induction fuel with
  | zero => intro p cur; rfl
  | succ n ih =>
    intro p cur
    cases p with
    | none => rfl
    | some p =>
      simp only [kernelBurstAt, kernelBurst, ih]

theorem kernelSwitchAt_word (exp : Bool) (s : List Instruction) (W p : Nat) (i : Instruction)
    (c : Counters) : kernelSwitchAt ULL_MOD exp s W p i c = kernelSwitch exp s W p i c := by
  simp only [kernelSwitchAt, kernelSwitch, kernelBurstAt_word, issueAt_word, ageAt_word,
    commitAt_word, flushAt_word]

theorem kernelInstrsAt_word (exp : Bool) (s : List Instruction) (W : Nat) (stop : Option Nat) :
    ∀ fuel p c, kernelInstrsAt ULL_MOD exp s W stop fuel p c
      = kernelInstrs exp s W stop fuel p c := by
  intro fuel
  induction fuel with
  | zero => intro p c; rfl
  | succ n ih =>
    intro p c
    cases p with
    | none => rfl
    | some p =>
      simp only [kernelInstrsAt, kernelInstrs, ih, kernelSwitchAt_word, useLoadsAt_word]

theorem kernelBlockAt_word (exp : Bool) (s : List Instruction) (W : Nat) (b : BasicBlock)
    (c : Counters) : kernelBlockAt ULL_MOD exp s W b c = kernelBlock exp s W b c := by
  simp only [kernelBlockAt, kernelBlock, kernelInstrsAt_word]

theorem outerSwitchAt_word (exp : Bool) (W : Nat) (i : Instruction) (c : Counters) :
    outerSwitchAt ULL_MOD exp W i c = outerSwitch exp W i c := by
  simp only [outerSwitchAt, outerSwitch, issueAt_word, ageAt_word, chargeAt_word,
    commitAt_word, flushAt_word]

theorem outerInstrsAt_word (exp : Bool) (s : List Instruction) (W : Nat) (stop : Option Nat) :
    ∀ fuel p c, outerInstrsAt ULL_MOD exp s W stop fuel p c
      = outerInstrs exp s W stop fuel p c := by
  intro fuel
  induction fuel with
  | zero => intro p c; rfl
  | succ n ih =>
    intro p c
    simp only [outerInstrsAt, outerInstrs, ih, outerSwitchAt_word, useLoadsAt_word]

theorem outerBlocksAt_word (exp : Bool) (s : List Instruction) (g : CFG) (W : Nat)
    (rec : Nat → Option Nat) (last_inst : Option Nat) :
    ∀ fuel bb p c, outerBlocksAt ULL_MOD exp s g W rec last_inst fuel bb p c
      = outerBlocks exp s g W rec last_inst fuel bb p c := by
  intro fuel
  induction fuel with
  | zero => intro bb p c; rfl
  | succ n ih =>
    intro bb p c
    simp only [outerBlocksAt, outerBlocks, ih, outerInstrsAt_word, flushAt_word]

theorem backInstrsAt_word (s : List Instruction) (stop : Option Nat) :
    ∀ fuel p later, backInstrsAt ULL_MOD s stop fuel p later = backInstrs s stop fuel p later := by
  intro fuel
  induction fuel with
  | zero => intro p later; rfl
  | succ n ih =>
    intro p later
    simp only [backInstrsAt, backInstrs, ih]

theorem backBlocksAt_word (s : List Instruction) (g : CFG) (hstop : Option Nat) :
    ∀ fuel bb p later, backBlocksAt ULL_MOD s g hstop fuel bb p later
      = backBlocks s g hstop fuel bb p later := by
  intro fuel
  induction fuel with
  | zero => intro bb p later; rfl
  | succ n ih =>
    intro bb p later
    simp only [backBlocksAt, backBlocks, ih, backInstrsAt_word]

theorem innerBurstAt_word (s : List Instruction) :
    ∀ fuel p cur, innerBurstAt ULL_MOD s fuel p cur = innerBurst s fuel p cur := by
  intro fuel
  induction fuel with
  | zero => intro p cur; rfl
  | succ n ih =>
    intro p cur
    simp only [innerBurstAt, innerBurst, ih]

theorem innerForwardAt_word (exp : Bool) (s : List Instruction) (W fb ni : Nat) :
    ∀ fuel p c, innerForwardAt ULL_MOD exp s W fb ni fuel p c
      = innerForward exp s W fb ni fuel p c := by
  intro fuel
  induction fuel with
  | zero => intro p c; rfl
  | succ n ih =>
    intro p c
    cases p with
    | none => rfl
    | some p =>
      simp only [innerForwardAt, innerForward, ih, innerBurstAt_word, useLoadsAt_word,
        issueAt_word, ageAt_word, chargeAt_word, commitAt_word, flushAt_word]

theorem CountLoopCyclesAt_word (exp : Bool) (s : List Instruction) (g : CFG) (W : Nat) :
    ∀ depth l, CountLoopCyclesAt ULL_MOD exp s g W depth l = CountLoopCycles exp s g W depth l := by
  intro depth
  induction depth with
  | zero => intro l; rfl
  | succ n ih =>
    intro l
    have hrec : CountLoopCyclesAt ULL_MOD exp s g W n = CountLoopCycles exp s g W n :=
      funext ih
    simp only [CountLoopCyclesAt, CountLoopCycles, hrec, outerBlocksAt_word, backBlocksAt_word,
      innerForwardAt_word, flushAt_word]

theorem kernelWalkAt_word (exp : Bool) (s : List Instruction) (g : CFG) (W : Nat) :
    ∀ fuel iter c, kernelWalkAt ULL_MOD exp s g W fuel iter c = kernelWalk exp s g W fuel iter c := by
  intro fuel
  induction fuel with
  | zero => intro iter c; rfl
  | succ n ih =>
    intro iter c
    simp only [kernelWalkAt, kernelWalk, ih, CountLoopCyclesAt_word, kernelBlockAt_word,
      flushAt_word]

/-- For the modulus `2^64` the cycle counter with the word size as a parameter is
`CountCycles`. -/
theorem CountCyclesAt_word (exp : Bool) (s : List Instruction) (g : CFG) (W : Nat) :
    CountCyclesAt ULL_MOD exp s g W = CountCycles exp s g W := by
  simp only [CountCyclesAt, CountCycles, kernelWalkAt_word]

/-! ## Baseline mode without overflow: more warps, no fewer cycles -/

@[simp] theorem OptRel_some {α β : Type} (R : α → β → Prop) (a : α) (b : β) :
    OptRel R (some a) (some b) = R a b := rfl

@[simp] theorem OptRel_none {α β : Type} (R : α → β → Prop) :
    OptRel R (none : Option α) (none : Option β) = True := rfl

@[simp] theorem OptRel_some_none {α β : Type} (R : α → β → Prop) (a : α) :
    OptRel R (some a) (none : Option β) = False := rfl

@[simp] theorem OptRel_none_some {α β : Type} (R : α → β → Prop) (b : β) :
    OptRel R (none : Option α) (some b) = False := rfl

theorem CountersLe_refl (c : Counters) : CountersLe c c := ⟨rfl, rfl, le_refl _⟩

theorem flushAt_mono {W1 W2 : Nat} (hW : W1 ≤ W2) {c1 c2 : Counters} (h : CountersLe c1 c2) :
    CountersLe (flushAt 0 W1 c1) (flushAt 0 W2 c2) := by
  obtain ⟨h1, h2, h3⟩ := h
  refine ⟨rfl, h2, ?_⟩
  simp only [flushAt, Nat.mod_zero, h1]
  exact Nat.add_le_add h3 (Nat.mul_le_mul_left _ hW)

theorem commitAt_mono {W1 W2 : Nat} (hW : W1 ≤ W2) {c1 c2 : Counters} (h : CountersLe c1 c2) :
    CountersLe (commitAt 0 W1 c1) (commitAt 0 W2 c2) := by
  obtain ⟨h1, h2, h3⟩ := h
  refine ⟨rfl, h2, ?_⟩
  simp only [commitAt, Nat.mod_zero, h1]
  exact Nat.add_le_add h3 (max_le_max (Nat.mul_le_mul_left _ hW) (le_refl _))

theorem issueAt_mono {c1 c2 : Counters} (h : CountersLe c1 c2) :
    CountersLe (issueAt 0 false c1) (issueAt 0 false c2) := by
  obtain ⟨h1, h2, h3⟩ := h
  exact ⟨by simp [issueAt, h1], by simp [issueAt, h2], by simpa [issueAt] using h3⟩

theorem chargeAt_mono {c1 c2 : Counters} (h : CountersLe c1 c2) :
    CountersLe (chargeAt 0 c1) (chargeAt 0 c2) := by
  obtain ⟨h1, h2, h3⟩ := h
  exact ⟨by simp [chargeAt, h1], by simpa [chargeAt] using h2, by simpa [chargeAt] using h3⟩

theorem kernelSwitchAt_mono {W1 W2 : Nat} (hW : W1 ≤ W2) (s : List Instruction) (p : Nat)
    (i : Instruction) {c1 c2 : Counters} (h : CountersLe c1 c2) :
    OptRel (fun a b => a.1 = b.1 ∧ CountersLe a.2 b.2)
      (kernelSwitchAt 0 false s W1 p i c1) (kernelSwitchAt 0 false s W2 p i c2) := by
  unfold kernelSwitchAt
  cases hd : dispatch false i with
  | issue => exact ⟨rfl, issueAt_mono h⟩
  | memory =>
    simp only [Bool.false_eq_true, if_false, h.1]
    cases kernelBurstAt 0 s (s.length + 1) (some p) c2.current with
    | none => trivial
    | some r =>
      obtain ⟨q, cur⟩ := r
      exact ⟨rfl, commitAt_mono hW ⟨rfl, h.2.1, h.2.2⟩⟩
  | sync => exact ⟨rfl, flushAt_mono hW h⟩
  | fail => trivial

theorem kernelInstrsAt_mono {W1 W2 : Nat} (hW : W1 ≤ W2) (s : List Instruction)
    (stop : Option Nat) :
    ∀ (fuel : Nat) (p : Option Nat) (c1 c2 : Counters), CountersLe c1 c2 →
      OptRel CountersLe (kernelInstrsAt 0 false s W1 stop fuel p c1)
        (kernelInstrsAt 0 false s W2 stop fuel p c2) := by
  intro fuel
  induction fuel with
  | zero => intro p c1 c2 _; trivial
  | succ n ih =>
    intro p c1 c2 h
    cases p with
    | none => exact h
    | some p =>
      simp only [kernelInstrsAt]
      by_cases hs : some p = stop
      · simp only [hs, if_true]
        exact h
      · simp only [hs, Bool.false_eq_true, if_false]
        cases hi : s[p]? with
        | none => trivial
        | some i =>
          simp only [useLoadsAt, Bool.false_eq_true, if_false]
          have hk := kernelSwitchAt_mono hW s p i h
          revert hk
          cases kernelSwitchAt 0 false s W1 p i c1 with
          | none =>
            cases kernelSwitchAt 0 false s W2 p i c2 with
            | none => intro _; trivial
            | some b => intro hk; exact absurd hk (by simp)
          | some a =>
            cases kernelSwitchAt 0 false s W2 p i c2 with
            | none => intro hk; exact absurd hk (by simp)
            | some b =>
              obtain ⟨q1, d1⟩ := a
              obtain ⟨q2, d2⟩ := b
              intro hk
              simp only [OptRel_some] at hk
              obtain ⟨hq, hd⟩ := hk
              subst hq
              cases q1 with
              | none => trivial
              | some q =>
                simp only
                cases s[q]? with
                | none => trivial
                | some iq => exact ih _ _ _ hd

theorem kernelBlockAt_mono {W1 W2 : Nat} (hW : W1 ≤ W2) (s : List Instruction)
    (b : BasicBlock) {c1 c2 : Counters} (h : CountersLe c1 c2) :
    OptRel CountersLe (kernelBlockAt 0 false s W1 b c1) (kernelBlockAt 0 false s W2 b c2) := by
  unfold kernelBlockAt
  cases b.GetFirstInst with
  | none => exact h
  | some f =>
    simp only
    cases b.GetLastInst with
    | none => trivial
    | some l =>
      simp only
      cases s[l]? with
      | none => trivial
      | some il => exact kernelInstrsAt_mono hW s _ _ _ _ _ h

theorem outerSwitchAt_mono {W1 W2 : Nat} (hW : W1 ≤ W2) (i : Instruction)
    {c1 c2 : Counters} (h : CountersLe c1 c2) :
    OptRel CountersLe (outerSwitchAt 0 false W1 i c1) (outerSwitchAt 0 false W2 i c2) := by
  unfold outerSwitchAt
  cases hd : dispatch false i with
  | issue => exact issueAt_mono h
  | memory =>
    simp only [Bool.false_eq_true, if_false]
    exact commitAt_mono hW (chargeAt_mono h)
  | sync => exact flushAt_mono hW h
  | fail => trivial

theorem outerInstrsAt_mono {W1 W2 : Nat} (hW : W1 ≤ W2) (s : List Instruction)
    (stop : Option Nat) :
    ∀ (fuel : Nat) (p : Option Nat) (c1 c2 : Counters), CountersLe c1 c2 →
      OptRel CountersLe (outerInstrsAt 0 false s W1 stop fuel p c1)
        (outerInstrsAt 0 false s W2 stop fuel p c2) := by
  intro fuel
  induction fuel with
  | zero => intro p c1 c2 _; trivial
  | succ n ih =>
    intro p c1 c2 h
    simp only [outerInstrsAt]
    by_cases hs : p = stop
    · simp only [hs, if_true]
      exact h
    · simp only [hs, Bool.false_eq_true, if_false]
      cases p with
      | none => trivial
      | some p =>
        simp only
        cases hi : s[p]? with
        | none => trivial
        | some i =>
          simp only [useLoadsAt, Bool.false_eq_true, if_false]
          have hk := outerSwitchAt_mono hW i h
          revert hk
          cases outerSwitchAt 0 false W1 i c1 with
          | none =>
            cases outerSwitchAt 0 false W2 i c2 with
            | none => intro _; trivial
            | some b => intro hk; exact absurd hk (by simp)
          | some a =>
            cases outerSwitchAt 0 false W2 i c2 with
            | none => intro hk; exact absurd hk (by simp)
            | some b =>
              intro hk
              exact ih _ _ _ hk

theorem outerBlocksAt_mono {W1 W2 : Nat} (hW : W1 ≤ W2) (s : List Instruction) (g : CFG)
    (rec1 rec2 : Nat → Option Nat) (hrec : ∀ l, OptRel (fun a b => a ≤ b) (rec1 l) (rec2 l))
    (last_inst : Option Nat) :
    ∀ (fuel bb : Nat) (p : Option Nat) (c1 c2 : Counters), CountersLe c1 c2 →
      OptRel CountersLe (outerBlocksAt 0 false s g W1 rec1 last_inst fuel bb p c1)
        (outerBlocksAt 0 false s g W2 rec2 last_inst fuel bb p c2) := by
  intro fuel
  induction fuel with
  | zero => intro bb p c1 c2 _; trivial
  | succ n ih =>
    intro bb p c1 c2 h
    simp only [outerBlocksAt]
    by_cases hs : p = last_inst
    · simp only [hs, if_true]
      exact h
    · simp only [hs, Bool.false_eq_true, if_false]
      cases g.all_blocks[bb]? with
      | none => trivial
      | some b =>
        simp only
        cases b.GetLastInst with
        | none => trivial
        | some l =>
          simp only
          cases s[l]? with
          | none => trivial
          | some il =>
            simp only
            have hk := outerInstrsAt_mono hW s il.GetNext (s.length + 1) p c1 c2 h
            revert hk
            cases outerInstrsAt 0 false s W1 il.GetNext (s.length + 1) p c1 with
            | none =>
              cases outerInstrsAt 0 false s W2 il.GetNext (s.length + 1) p c2 with
              | none => intro _; trivial
              | some b => intro hk; exact absurd hk (by simp)
            | some d1 =>
              cases outerInstrsAt 0 false s W2 il.GetNext (s.length + 1) p c2 with
              | none => intro hk; exact absurd hk (by simp)
              | some d2 =>
                intro hk
                simp only [OptRel_some] at hk
                simp only
                by_cases hl : il.GetNext = last_inst
                · simp only [hl, if_true]
                  exact flushAt_mono hW hk
                · simp only [hl, Bool.false_eq_true, if_false]
                  cases FindBBSuccessor g bb with
                  | none => trivial
                  | some nb =>
                    simp only
                    cases g.all_blocks[nb]? with
                    | none => trivial
                    | some nbb =>
                      simp only
                      by_cases hh : nbb.IsLoopHeader = true
                      · simp only [hh, if_true]
                        cases g.GetLoopFromHeader nb with
                        | none => trivial
                        | some inner =>
                          simp only
                          have hr := hrec inner
                          revert hr
                          cases rec1 inner with
                          | none =>
                            cases rec2 inner with
                            | none => intro _; trivial
                            | some b => intro hr; exact absurd hr (by simp)
                          | some t1 =>
                            cases rec2 inner with
                            | none => intro hr; exact absurd hr (by simp)
                            | some t2 =>
                              intro hr
                              simp only [OptRel_some] at hr
                              simp only
                              cases FindLoopFooterSuccessor g inner with
                              | none => trivial
                              | some fs =>
                                simp only
                                cases il.GetNext with
                                | none => trivial
                                | some q =>
                                  simp only
                                  cases s[q]? with
                                  | none => trivial
                                  | some iq =>
                                    cases g.all_blocks[fs]? with
                                    | none => trivial
                                    | some b2 =>
                                      simp only
                                      apply ih
                                      have hf := flushAt_mono hW hk
                                      refine ⟨hf.1, hf.2.1, ?_⟩
                                      simp only [Nat.mod_zero]
                                      exact Nat.add_le_add hf.2.2 hr
                      · simp only [hh, Bool.false_eq_true, if_false]
                        cases il.GetNext with
                        | none => trivial
                        | some q =>
                          simp only
                          cases s[q]? with
                          | none => trivial
                          | some iq =>
                            cases g.all_blocks[nb]? with
                            | none => trivial
                            | some b2 =>
                              simp only
                              exact ih _ _ _ _ hk

theorem innerForwardAt_mono {W1 W2 : Nat} (hW : W1 ≤ W2) (s : List Instruction)
    (fb ni : Nat) :
    ∀ (fuel : Nat) (p : Option Nat) (c1 c2 : Counters), CountersLe c1 c2 →
      OptRel (fun a b => a ≤ b) (innerForwardAt 0 false s W1 fb ni fuel p c1)
        (innerForwardAt 0 false s W2 fb ni fuel p c2) := by
  intro fuel
  induction fuel with
  | zero => intro p c1 c2 _; trivial
  | succ n ih =>
    intro p c1 c2 h
    cases p with
    | none => trivial
    | some p =>
      simp only [innerForwardAt]
      cases s[p]? with
      | none => trivial
      | some i =>
        simp only [useLoadsAt, Bool.false_eq_true, if_false]
        cases hd : dispatch false i with
        | issue => exact ih _ _ _ (issueAt_mono h)
        | memory =>
          simp only
          have hc : (chargeAt 0 c1).current = (chargeAt 0 c2).current := (chargeAt_mono h).1
          rw [hc]
          cases innerBurstAt 0 s (s.length + 1) p (chargeAt 0 c2).current with
          | none => trivial
          | some r =>
            obtain ⟨q, cur⟩ := r
            simp only
            have hcm : CountersLe (commitAt 0 W1 { c1 with current := cur })
                (commitAt 0 W2 { c2 with current := cur }) :=
              commitAt_mono hW ⟨rfl, h.2.1, h.2.2⟩
            by_cases hq : q = fb
            · simp only [hq, if_true, OptRel_some, Nat.mod_zero]
              exact Nat.mul_le_mul_left _ (flushAt_mono hW hcm).2.2
            · simp only [hq, Bool.false_eq_true, if_false]
              cases s[q]? with
              | none => trivial
              | some iq => exact ih _ _ _ hcm
        | sync =>
          simp only
          by_cases hq : p = fb
          · simp only [hq, if_true, OptRel_some, Nat.mod_zero]
            exact Nat.mul_le_mul_left _ (flushAt_mono hW h).2.2
          · simp only [hq, Bool.false_eq_true, if_false]
            exact ih _ _ _ (flushAt_mono hW h)
        | fail => trivial

theorem CountLoopCyclesAt_mono {W1 W2 : Nat} (hW : W1 ≤ W2) (s : List Instruction)
    (g : CFG) :
    ∀ (depth l : Nat), OptRel (fun a b => a ≤ b) (CountLoopCyclesAt 0 false s g W1 depth l)
      (CountLoopCyclesAt 0 false s g W2 depth l) := by
  intro depth
  induction depth with
  | zero => intro l; trivial
  | succ n ih =>
    intro l
    simp only [CountLoopCyclesAt]
    cases g.loop_store[l]? with
    | none => trivial
    | some loop =>
      simp only
      cases g.all_blocks[loop.GetHeader]? with
      | none => trivial
      | some hb =>
        cases loop.GetFooter with
        | none => trivial
        | some f =>
          simp only
          cases g.all_blocks[f]? with
          | none => trivial
          | some fbk =>
            simp only
            by_cases hin : loop.HasInnerLoops = true
            · simp only [hin, if_true]
              cases fbk.GetLastInst with
              | none => trivial
              | some fl =>
                simp only
                cases s[fl]? with
                | none => trivial
                | some fli =>
                  simp only
                  have hk := outerBlocksAt_mono hW s g _ _ ih fli.GetNext
                    (g.all_blocks.length + 1) loop.GetHeader hb.GetFirstInst {} {}
                    (CountersLe_refl _)
                  revert hk
                  cases outerBlocksAt 0 false s g W1 (CountLoopCyclesAt 0 false s g W1 n)
                      fli.GetNext (g.all_blocks.length + 1) loop.GetHeader hb.GetFirstInst {} with
                  | none =>
                    cases outerBlocksAt 0 false s g W2 (CountLoopCyclesAt 0 false s g W2 n)
                      fli.GetNext (g.all_blocks.length + 1) loop.GetHeader hb.GetFirstInst {} with
                    | none => intro _; trivial
                    | some b => intro hk; exact absurd hk (by simp)
                  | some d1 =>
                    cases outerBlocksAt 0 false s g W2 (CountLoopCyclesAt 0 false s g W2 n)
                      fli.GetNext (g.all_blocks.length + 1) loop.GetHeader hb.GetFirstInst {} with
                    | none => intro hk; exact absurd hk (by simp)
                    | some d2 =>
                      intro hk
                      simp only [OptRel_some] at hk
                      simp only [hk.2.1]
                      by_cases he : d2.loads.isEmpty = true
                      · simp only [he, if_true, OptRel_some, Nat.mod_zero]
                        exact Nat.mul_le_mul_left _ (flushAt_mono hW hk).2.2
                      · simp only [he, Bool.false_eq_true, if_false]
                        trivial
            · simp only [hin, Bool.false_eq_true, if_false]
              cases hb.GetFirstInst with
              | none => trivial
              | some hf =>
                simp only
                cases s[hf]? with
                | none => trivial
                | some hfi =>
                  simp only
                  cases backBlocksAt 0 s g hfi.GetPrev (g.all_blocks.length + 1) f
                      fbk.GetLastInst 0 with
                  | none => trivial
                  | some r =>
                    obtain ⟨q, later⟩ := r
                    cases q with
                    | none =>
                      simp only [OptRel_some, Nat.mod_zero]
                      exact Nat.mul_le_mul_left _ hW
                    | some fbi =>
                      exact innerForwardAt_mono hW s fbi loop.GetNumIters _ _ _ _
                        (CountersLe_refl _)

theorem kernelWalkAt_mono {W1 W2 : Nat} (hW : W1 ≤ W2) (s : List Instruction) (g : CFG) :
    ∀ (fuel iter : Nat) (c1 c2 : Counters), CountersLe c1 c2 →
      OptRel (fun a b => a ≤ b) (kernelWalkAt 0 false s g W1 fuel iter c1)
        (kernelWalkAt 0 false s g W2 fuel iter c2) := by
  intro fuel
  induction fuel with
  | zero => intro iter c1 c2 _; trivial
  | succ n ih =>
    intro iter c1 c2 h
    simp only [kernelWalkAt]
    cases g.all_blocks[iter]? with
    | none => trivial
    | some b =>
      cases g.exit with
      | none => trivial
      | some x =>
        simp only
        cases g.all_blocks[x]? with
        | none => trivial
        | some xb =>
          simp only
          by_cases hid : b.Id = xb.Id
          · simp only [hid, if_true, OptRel_some]
            exact (flushAt_mono hW h).2.2
          · simp only [hid, Bool.false_eq_true, if_false]
            by_cases hh : b.IsLoopHeader = true
            · simp only [hh, if_true]
              cases g.GetLoopFromHeader iter with
              | none => trivial
              | some loop =>
                simp only
                have hr := CountLoopCyclesAt_mono hW s g (g.loop_store.length + 1) loop
                revert hr
                cases CountLoopCyclesAt 0 false s g W1 (g.loop_store.length + 1) loop with
                | none =>
                  cases CountLoopCyclesAt 0 false s g W2 (g.loop_store.length + 1) loop with
                  | none => intro _; trivial
                  | some b => intro hr; exact absurd hr (by simp)
                | some t1 =>
                  cases CountLoopCyclesAt 0 false s g W2 (g.loop_store.length + 1) loop with
                  | none => intro hr; exact absurd hr (by simp)
                  | some t2 =>
                    intro hr
                    simp only [OptRel_some] at hr
                    simp only
                    cases FindLoopFooterSuccessor g loop with
                    | none => trivial
                    | some nxt =>
                      simp only
                      apply ih
                      have hf := flushAt_mono hW h
                      refine ⟨hf.1, hf.2.1, ?_⟩
                      simp only [Nat.mod_zero]
                      exact Nat.add_le_add hf.2.2 hr
            · simp only [hh, Bool.false_eq_true, if_false]
              have hk := kernelBlockAt_mono hW s b h
              revert hk
              cases kernelBlockAt 0 false s W1 b c1 with
              | none =>
                cases kernelBlockAt 0 false s W2 b c2 with
                | none => intro _; trivial
                | some b => intro hk; exact absurd hk (by simp)
              | some d1 =>
                cases kernelBlockAt 0 false s W2 b c2 with
                | none => intro hk; exact absurd hk (by simp)
                | some d2 =>
                  intro hk
                  simp only [OptRel_some] at hk
                  simp only
                  cases FindBBSuccessor g iter with
                  | none => trivial
                  | some nxt => exact ih _ _ _ hk

theorem CountCyclesAt_mono {W1 W2 : Nat} (hW : W1 ≤ W2) (s : List Instruction) (g : CFG) :
    OptRel (fun a b => a ≤ b) (CountCyclesAt 0 false s g W1) (CountCyclesAt 0 false s g W2) := by
  unfold CountCyclesAt
  by_cases hc : g.constructed = true
  · simp only [hc, if_true]
    cases g.entry with
    | none => trivial
    | some entry => exact kernelWalkAt_mono hW s g _ _ _ _ (CountersLe_refl _)
  · simp only [hc, Bool.false_eq_true, if_false]
    trivial

theorem loopTail_built :
    (mkCFG streamLoopTail false 0).bind (DetectLoops 2 noUconf) = some cfgLoopTail := by
  decide

/-- C21 (as amended).  In baseline mode, with the arithmetic of the natural numbers in
the place of that of `unsigned long long` (no overflow), for every stream and CFG: when
`CountCycles` returns `r1` for `W1` warps and `W1 <= W2`, it returns for `W2` warps as
well, and what it returns is at least `r1`. -/
theorem C21_baseline_monotone (s : List Instruction) (g : CFG) (W1 W2 r1 : Nat)
    (hW : W1 ≤ W2) (h1 : CountCyclesAt 0 false s g W1 = some r1) :
    ∃ r2, CountCyclesAt 0 false s g W2 = some r2 ∧ r1 ≤ r2 := by
  have h := CountCyclesAt_mono hW s g
  rw [h1] at h
  cases h2 : CountCyclesAt 0 false s g W2 with
  | none =>
    rw [h2] at h
    exact absurd h (by simp)
  | some r2 =>
    rw [h2] at h
    exact ⟨r2, rfl, h⟩

theorem C21_baseline_monotone_witness :
    2 ≤ 32 ∧ CountCyclesAt 0 false streamLoopTail cfgLoopTail 2 = some 128008 ∧
    CountCycles false streamLoopTail cfgLoopTail 2 = some 128008 ∧
    CountCycles false streamLoopTail cfgLoopTail 32 = some 131200 ∧
    ∃ r2, CountCyclesAt 0 false streamLoopTail cfgLoopTail 32 = some r2 ∧ 128008 ≤ r2 :=
  ⟨by decide, by decide, by decide, by decide,
    C21_baseline_monotone streamLoopTail cfgLoopTail 2 32 128008 (by decide) (by decide)⟩

/-! ## C37: successors and predecessors -/

/-- C37.  In the CFG that the constructor builds (`ComputeBasicBlocks`, then
`ConstructCFG`) the successor and predecessor lists are mirror images: for all blocks `a`
and `b`, `b` occurs in the successor list of `a` as often as `a` occurs in the
predecessor list of `b`. -/
theorem C37_succ_pred_mirror (s : List Instruction) (u : Bool) (gli : Nat) (g1 : CFG)
    (h : mkCFG s u gli = some g1) :
    ∀ a b, (succAt g1.all_blocks a).count b = (predAt g1.all_blocks b).count a := by
  obtain ⟨g, segs, hb⟩ := mkCFG_spec h
  exact hb.mirror

theorem C37_succ_pred_mirror_witness :
    mkCFG streamCondSkip false 0 = some cfgCondSkip ∧
    ∀ a b, (succAt cfgCondSkip.all_blocks a).count b
      = (predAt cfgCondSkip.all_blocks b).count a :=
  ⟨by decide, C37_succ_pred_mirror streamCondSkip false 0 cfgCondSkip (by decide)⟩

/-! ## C38: a memory instruction at the end of a block -/

/-- C38 (the code departs from it).  In `streamLoadEndsBlock` block 1 is the
instructions 0 and 1, of which the second is a global load, and block 2 the instructions
2 and 3.  The loop that absorbs the burst of memory instructions leaves `inst_iter` on
instruction 2, the first instruction of the next block, which is the instruction the
walk of block 1 is to stop at; the statement that ends the round moves `inst_iter` on to
instruction 3, and the walk of block 1 charges instruction 3 (`current` is 4 when it
ends).  The walk of block 2 then charges the instructions 2 and 3: the total for one warp
is `500 + 4 + 8 = 512`, where every instruction charged once gives `max 8 500 + 8 = 508`.
In `streamLoadEndsStream` the load ends the stream: the burst loop leaves `inst_iter`
null, the stamp is written through it, and `CountCycles` does not return. -/
theorem C38_walk_leaves_block :
    mkCFG streamLoadEndsBlock false 0 = some cfgLoadEndsBlock ∧
    cfgLoadEndsBlock.all_blocks.map (fun b => (b.GetFirstInst, b.GetLastInst))
      = [(none, none), (some 0, some 1), (some 2, some 3), (none, none)] ∧
    (cfgLoadEndsBlock.all_blocks[1]?).bind
        (fun b => kernelBlock false streamLoadEndsBlock 1 b {})
      = some { total := 500, current := 4 } ∧
    CountCycles false streamLoadEndsBlock cfgLoadEndsBlock 1 = some 512 ∧
    max (4 * 2 * 1) 500 + 4 * 2 * 1 = 508 ∧
    mkCFG streamLoadEndsStream false 0 = some cfgLoadEndsStream ∧
    CountCycles false streamLoadEndsStream cfgLoadEndsStream 1 = none := by
  refine ⟨by decide, by decide, by decide, by decide, by decide, by decide, by decide⟩

/-! ## C31, C32: global and local memory instructions in experimental mode -/

/-- C31 (the code departs from it).  In experimental mode the `switch` of the walk of a
loop with inner loops adds 4 to `current_cycles` for a global or local load, and the
`switch` of the block walk of `CountCycles` does not: it adds 4 to the age of the
outstanding loads and records the load, and leaves `current_cycles` as it is.  For a
global load followed by one ALU instruction `CountCycles` returns `4 * W` (here 4), where
4 cycles for each of the two instructions give 8; a global store after 8 cycles commits
`max (8 * 100) 500 = 800` with 100 warps, not `(8 + 4) * 100`. -/
theorem C31_kernel_walk_memory_uncharged :
    (∀ (s : List Instruction) (W p : Nat) (i : Instruction) (c : Counters)
        (q : Option Nat) (c1 : Counters),
      dispatch true i = Dispatch.memory → i.IsMemLoad = true →
      kernelSwitch true s W p i c = some (q, c1) →
      c1.current = c.current ∧
        c1.loads = UpdateCyclesInMap c.loads 4 ++ [(i.GetRegDst, 4)]) ∧
    (∀ (W : Nat) (i : Instruction) (c c1 : Counters),
      dispatch true i = Dispatch.memory → i.IsMemLoad = true →
      outerSwitch true W i c = some c1 →
      c1.current = (c.current + 4) % ULL_MOD ∧
        c1.loads = UpdateCyclesInMap c.loads 4 ++ [(i.GetRegDst, 4)]) ∧
    mkCFG streamLoadThenAlu false 0 = some cfgLoadThenAlu ∧
    CountCycles true streamLoadThenAlu cfgLoadThenAlu 1 = some 4 ∧
    kernelSwitch true [] 100 0 globalStore { total := 0, current := 8, loads := [(1, 40)] }
      = some (some 0, { total := 800, current := 0, loads := [(1, 44)] }) := by
  refine ⟨?_, ?_, by decide, by decide, by decide⟩
  · intro s W p i c q c1 hd hl h
    simp only [kernelSwitch, hd, hl, if_true, recordLoad, age] at h
    split at h
    · simp at h
    · simp only [Option.map_some', Option.some.injEq, Prod.mk.injEq] at h
      rw [← h.2]
      exact ⟨rfl, rfl⟩
  · intro W i c c1 hd hl h
    simp only [outerSwitch, hd, hl, if_true, recordLoad, age, charge] at h
    split at h
    · simp at h
    · simp only [Option.some.injEq] at h
      rw [← h]
      exact ⟨rfl, rfl⟩

/-- C32, as the claim states it, fails for the walk of a loop with inner loops.  After 8
cycles a global store in experimental mode, with one warp: the claim gives
`max ((8 + 4) * 1) 500 = 500` for `total_cycles`; the `switch` of that walk adds
`(8 + 4) * 1 = 12`: it flushes the counter without the latency as a lower bound. -/
theorem C32_counterexample :
    dispatch true globalStore = Dispatch.memory ∧ globalStore.IsMemLoad = false ∧
    outerSwitch true 1 globalStore { total := 0, current := 8, loads := [] }
      = some { total := 12, current := 0, loads := [] } ∧
    max ((8 + 4) * 1) 500 = 500 := by
  refine ⟨by decide, by decide, by decide, by decide⟩

/-- C32, amended.  In experimental mode, for a global or local memory instruction `i`
that is no load: the `switch` of the block walk of `CountCycles` adds
`max (current * W) 500` to `total_cycles` and sets `current_cycles` to 0; the walk
forwards through an innermost loop does the same after it has added 4 to
`current_cycles`; the `switch` of the walk of a loop with inner loops adds 4 to
`current_cycles`, then adds `current * W` to `total_cycles`, without the maximum, and sets
`current_cycles` to 0.  (All three add 4 to the age of every outstanding load, and the
sums are those of `unsigned long long`.) -/
theorem C32_store_in_experimental_mode (s : List Instruction) (W p : Nat)
    (i : Instruction) (c : Counters) (hd : dispatch true i = Dispatch.memory)
    (hs : i.IsMemLoad = false) :
    kernelSwitch true s W p i c
      = some (some p,
          { total := (c.total + max ((c.current * W) % ULL_MOD) 500) % ULL_MOD,
            current := 0, loads := UpdateCyclesInMap c.loads 4 }) ∧
    outerSwitch true W i c
      = some { total := (c.total + (((c.current + 4) % ULL_MOD) * W) % ULL_MOD) % ULL_MOD,
               current := 0, loads := UpdateCyclesInMap c.loads 4 } ∧
    (s[p]? = some i → useLoads true W i c = c →
      ∀ (fb ni fuel : Nat),
        innerForward true s W fb ni (fuel + 1) (some p) c
          = if p = fb then
              some ((ni * ((c.total + max ((((c.current + 4) % ULL_MOD) * W) % ULL_MOD) 500)
                % ULL_MOD)) % ULL_MOD)
            else innerForward true s W fb ni fuel i.GetNext
              { total := (c.total + max ((((c.current + 4) % ULL_MOD) * W) % ULL_MOD) 500)
                  % ULL_MOD,
                current := 0, loads := UpdateCyclesInMap c.loads 4 }) := by
  refine ⟨?_, ?_, ?_⟩
  · simp only [kernelSwitch, hd, hs, if_true, Bool.false_eq_true, if_false, commit, age,
      GLOBAL_MEM_LATENCY]
  · simp only [outerSwitch, hd, hs, if_true, Bool.false_eq_true, if_false, flush, age, charge]
  · intro hp hu fb ni fuel
    simp only [innerForward, hp, hu, hd, hs, if_true, Bool.false_eq_true, if_false, commit, age,
      charge, flush, GLOBAL_MEM_LATENCY, Nat.zero_mul, Nat.zero_mod, Nat.add_zero]
    by_cases hq : p = fb
    · simp only [hq, if_true]
      rw [Nat.mod_mod]
    · simp only [hq, if_false]

theorem C32_store_in_experimental_mode_witness :
    kernelSwitch true [globalStore] 2 0 globalStore { total := 10, current := 8, loads := [(1, 40)] }
      = some (some 0, { total := 510, current := 0, loads := [(1, 44)] }) ∧
    outerSwitch true 2 globalStore { total := 10, current := 8, loads := [(1, 40)] }
      = some { total := 34, current := 0, loads := [(1, 44)] } ∧
    innerForward true [globalStore] 2 0 3 1 (some 0) { total := 10, current := 8, loads := [(1, 40)] }
      = some 1530 := by
  have h := C32_store_in_experimental_mode [globalStore] 2 0 globalStore
    { total := 10, current := 8, loads := [(1, 40)] } (by decide) (by decide)
  refine ⟨?_, ?_, ?_⟩
  · rw [h.1]
    decide
  · rw [h.2.1]
    decide
  · rw [h.2.2 (by decide) (by decide) 0 3 0]
    decide

/-! ## C33: one outstanding load for a register -/

theorem regs_UpdateCyclesInMap (m : List (Int × Nat)) (n : Nat) :
    (UpdateCyclesInMap m n).map Prod.fst = m.map Prod.fst := by
  simp [UpdateCyclesInMap, List.map_map, Function.comp]

theorem lookup_none_iff_regs (m : List (Int × Nat)) (r : Int) :
    m.lookup r = none ↔ r ∉ m.map Prod.fst := by
  induction m with
  | nil => simp
  | cons e rest ih =>
    obtain ⟨k, v⟩ := e
    by_cases h : r = k
    · subst h
      simp [List.lookup]
    · have hb : (r == k) = false := by simpa using h
      simp only [List.lookup, hb, ih, List.map_cons, List.mem_cons, h, false_or]

theorem useLoad_nodup (W : Nat) (c : Counters) (src : Int) (h : (loadRegs c).Nodup) :
    (loadRegs (useLoad W c src)).Nodup := by
  unfold useLoad
  cases c.loads.lookup src with
  | none => exact h
  | some cycles =>
    simp only [loadRegs]
    apply List.Nodup.sublist ((List.filter_sublist _).map Prod.fst)
    split
    · simp only [regs_UpdateCyclesInMap]
      exact h
    · exact h

theorem useLoads_nodup (exp : Bool) (W : Nat) (i : Instruction) (c : Counters)
    (h : (loadRegs c).Nodup) : (loadRegs (useLoads exp W i c)).Nodup := by
  unfold useLoads
  split
  · exact useLoad_nodup _ _ _ (useLoad_nodup _ _ _ (useLoad_nodup _ _ _ h))
  · exact h

theorem issue_regs (exp : Bool) (c : Counters) : loadRegs (issue exp c) = loadRegs c := by
  unfold issue loadRegs
  cases exp
  · simp
  · simp [regs_UpdateCyclesInMap]

theorem age_regs (c : Counters) : loadRegs (age c) = loadRegs c := by
  simp [age, loadRegs, regs_UpdateCyclesInMap]

theorem recordLoad_nodup {i : Instruction} {c c1 : Counters} (h : (loadRegs c).Nodup)
    (hr : recordLoad i c = some c1) :
    (loadRegs c1).Nodup ∧ c1.loads = c.loads ++ [(i.GetRegDst, 4)] := by
  unfold recordLoad at hr
  cases hl : c.loads.lookup i.GetRegDst with
  | some v => simp [hl] at hr
  | none =>
    simp only [hl, Option.some.injEq] at hr
    subst hr
    refine ⟨?_, rfl⟩
    simp only [loadRegs, List.map_append, List.map_cons, List.map_nil]
    rw [List.nodup_append]
    refine ⟨h, List.nodup_singleton _, ?_⟩
    intro a ha hb
    simp only [List.mem_singleton] at hb
    subst hb
    exact (lookup_none_iff_regs _ _).mp hl ha

theorem kernelSwitch_nodup {exp : Bool} {s : List Instruction} {W p : Nat} {i : Instruction}
    {c c1 : Counters} {q : Option Nat} (h : (loadRegs c).Nodup)
    (hk : kernelSwitch exp s W p i c = some (q, c1)) : (loadRegs c1).Nodup := by
  unfold kernelSwitch at hk
  cases hd : dispatch exp i with
  | issue =>
    simp only [hd, Option.some.injEq, Prod.mk.injEq] at hk
    rw [← hk.2, issue_regs]
    exact h
  | memory =>
    simp only [hd] at hk
    split at hk
    · split at hk
      · cases hr : recordLoad i (age c) with
        | none => simp [hr] at hk
        | some c2 =>
          simp only [hr, Option.map_some', Option.some.injEq, Prod.mk.injEq] at hk
          rw [← hk.2]
          exact (recordLoad_nodup (by rw [age_regs]; exact h) hr).1
      · simp only [Option.some.injEq, Prod.mk.injEq] at hk
        rw [← hk.2]
        show (loadRegs (age c)).Nodup
        rw [age_regs]
        exact h
    · split at hk
      · simp at hk
      · simp only [Option.some.injEq, Prod.mk.injEq] at hk
        rw [← hk.2]
        exact h
  | sync =>
    simp only [hd, Option.some.injEq, Prod.mk.injEq] at hk
    rw [← hk.2]
    exact h
  | fail => simp [hd] at hk

theorem kernelInstrs_nodup {exp : Bool} {s : List Instruction} {W : Nat} {stop : Option Nat} :
    ∀ (fuel : Nat) (p : Option Nat) (c c1 : Counters), (loadRegs c).Nodup →
      kernelInstrs exp s W stop fuel p c = some c1 → (loadRegs c1).Nodup := by
  intro fuel
  induction fuel with
  | zero => intro p c c1 _ h; simp [kernelInstrs] at h
  | succ n ih =>
    intro p c c1 hn h
    cases p with
    | none =>
      simp only [kernelInstrs, Option.some.injEq] at h
      rw [← h]
      exact hn
    | some p =>
      simp only [kernelInstrs] at h
      split at h
      · simp only [Option.some.injEq] at h
        rw [← h]
        exact hn
      · cases hi : s[p]? with
        | none => simp [hi] at h
        | some i =>
          simp only [hi] at h
          cases hk : kernelSwitch exp s W p i (useLoads exp W i c) with
          | none => simp [hk] at h
          | some r =>
            obtain ⟨q, c2⟩ := r
            have hc2 := kernelSwitch_nodup (useLoads_nodup exp W i c hn) hk
            cases q with
            | none => simp [hk] at h
            | some q =>
              simp only [hk] at h
              cases hq : s[q]? with
              | none => simp [hq] at h
              | some iq =>
                simp only [hq] at h
                exact ih _ _ _ hc2 h

theorem outerSwitch_nodup {exp : Bool} {W : Nat} {i : Instruction} {c c1 : Counters}
    (h : (loadRegs c).Nodup) (hk : outerSwitch exp W i c = some c1) : (loadRegs c1).Nodup := by
  unfold outerSwitch at hk
  cases hd : dispatch exp i with
  | issue =>
    simp only [hd, Option.some.injEq] at hk
    rw [← hk, issue_regs]
    exact h
  | memory =>
    simp only [hd] at hk
    split at hk
    · split at hk
      · exact (recordLoad_nodup (by rw [age_regs]; exact h) hk).1
      · simp only [Option.some.injEq] at hk
        rw [← hk]
        show (loadRegs (age (charge c))).Nodup
        rw [age_regs]
        exact h
    · simp only [Option.some.injEq] at hk
      rw [← hk]
      exact h
  | sync =>
    simp only [hd, Option.some.injEq] at hk
    rw [← hk]
    exact h
  | fail => simp [hd] at hk

theorem outerInstrs_nodup {exp : Bool} {s : List Instruction} {W : Nat} {stop : Option Nat} :
    ∀ (fuel : Nat) (p : Option Nat) (c c1 : Counters), (loadRegs c).Nodup →
      outerInstrs exp s W stop fuel p c = some c1 → (loadRegs c1).Nodup := by
  intro fuel
  induction fuel with
  | zero => intro p c c1 _ h; simp [outerInstrs] at h
  | succ n ih =>
    intro p c c1 hn h
    simp only [outerInstrs] at h
    split at h
    · simp only [Option.some.injEq] at h
      rw [← h]
      exact hn
    · cases p with
      | none => simp at h
      | some p =>
        simp only at h
        cases hi : s[p]? with
        | none => simp [hi] at h
        | some i =>
          simp only [hi] at h
          cases hk : outerSwitch exp W i (useLoads exp W i c) with
          | none => simp [hk] at h
          | some c2 =>
            simp only [hk] at h
            exact ih _ _ _ (outerSwitch_nodup (useLoads_nodup exp W i c hn) hk) h

theorem lookup_append_new (m : List (Int × Nat)) (r : Int) (v : Nat)
    (h : m.lookup r = none) : (m ++ [(r, v)]).lookup r = some v := by
  induction m with
  | nil => simp [List.lookup]
  | cons e rest ih =>
    obtain ⟨k, w⟩ := e
    by_cases hk : r = k
    · subst hk
      simp [List.lookup] at h
    · have hb : (r == k) = false := by simpa using hk
      simp only [List.lookup, hb] at h
      simp only [List.cons_append, List.lookup, hb]
      exact ih h

theorem recordLoad_none_iff (i : Instruction) (c : Counters) :
    recordLoad i c = none ↔ i.GetRegDst ∈ loadRegs c := by
  unfold recordLoad loadRegs
  cases hl : c.loads.lookup i.GetRegDst with
  | none =>
    have := (lookup_none_iff_regs _ _).mp hl
    simp [this]
  | some v =>
    have : ¬ c.loads.lookup i.GetRegDst = none := by simp [hl]
    rw [lookup_none_iff_regs] at this
    simpa using this

theorem recordLoad_lookup {i : Instruction} {c c1 : Counters} (hr : recordLoad i c = some c1) :
    c1.loads.lookup i.GetRegDst = some 4 := by
  unfold recordLoad at hr
  cases hl : c.loads.lookup i.GetRegDst with
  | some v => simp [hl] at hr
  | none =>
    simp only [hl, Option.some.injEq] at hr
    subst hr
    exact lookup_append_new _ _ _ hl

/-- C33.  In experimental mode, with a map of the outstanding loads that holds no
register twice (as the empty map that every walk starts with): the map holds no register
twice when the block walk of `CountCycles` or the walk through a block of a loop with
inner loops ends.  In both, and in the walk forwards through an innermost loop, a global
or local load fails the assertion exactly when its destination register has an entry in
the map after the loop over the source registers of the instruction has run; otherwise
the map holds the register with the age 4 afterwards. -/
theorem C33_one_load_per_register (s : List Instruction) (W p : Nat) (stop : Option Nat)
    (i : Instruction) (c : Counters) (hn : (loadRegs c).Nodup)
    (hd : dispatch true i = Dispatch.memory) (hl : i.IsMemLoad = true) :
    (∀ fuel p0 c1, kernelInstrs true s W stop fuel p0 c = some c1 → (loadRegs c1).Nodup) ∧
    (∀ fuel p0 c1, outerInstrs true s W stop fuel p0 c = some c1 → (loadRegs c1).Nodup) ∧
    (kernelSwitch true s W p i (useLoads true W i c) = none
      ↔ i.GetRegDst ∈ loadRegs (useLoads true W i c)) ∧
    (∀ q c1, kernelSwitch true s W p i (useLoads true W i c) = some (q, c1) →
      (loadRegs c1).Nodup ∧ c1.loads.lookup i.GetRegDst = some 4) ∧
    (outerSwitch true W i (useLoads true W i c) = none
      ↔ i.GetRegDst ∈ loadRegs (useLoads true W i c)) ∧
    (∀ c1, outerSwitch true W i (useLoads true W i c) = some c1 →
      (loadRegs c1).Nodup ∧ c1.loads.lookup i.GetRegDst = some 4) ∧
    (s[p]? = some i → i.GetRegDst ∈ loadRegs (useLoads true W i c) →
      ∀ fb ni fuel, innerForward true s W fb ni fuel (some p) c = none) := by
  have hu := useLoads_nodup true W i c hn
  refine ⟨fun fuel p0 c1 h => kernelInstrs_nodup fuel p0 c c1 hn h,
    fun fuel p0 c1 h => outerInstrs_nodup fuel p0 c c1 hn h, ?_, ?_, ?_, ?_, ?_⟩
  · simp only [kernelSwitch, hd, hl, if_true, Option.map_eq_none']
    rw [recordLoad_none_iff, age_regs]
  · intro q c1 h
    refine ⟨kernelSwitch_nodup hu h, ?_⟩
    simp only [kernelSwitch, hd, hl, if_true] at h
    cases hr : recordLoad i (age (useLoads true W i c)) with
    | none => simp [hr] at h
    | some c2 =>
      simp only [hr, Option.map_some', Option.some.injEq, Prod.mk.injEq] at h
      rw [← h.2]
      exact recordLoad_lookup hr
  · simp only [outerSwitch, hd, hl, if_true]
    rw [recordLoad_none_iff, age_regs]
    rfl
  · intro c1 h
    refine ⟨outerSwitch_nodup hu h, ?_⟩
    simp only [outerSwitch, hd, hl, if_true] at h
    exact recordLoad_lookup h
  · intro hp hmem fb ni fuel
    cases fuel with
    | zero => rfl
    | succ n =>
      have hr : recordLoad i (age (charge (useLoads true W i c))) = none := by
        rw [recordLoad_none_iff, age_regs]
        exact hmem
      simp only [innerForward, hp, hd, hl, if_true, hr, Option.map_none']

theorem C33_one_load_per_register_witness :
    kernelSwitch true [] 1 0 { globalLoad with reg_dst := 2 }
        (useLoads true 1 { globalLoad with reg_dst := 2 }
          { total := 0, current := 8, loads := [(1, 40), (2, 12)] }) = none ∧
    kernelSwitch true [] 1 0 { globalLoad with reg_dst := 2, reg_src0 := 2 }
        (useLoads true 1 { globalLoad with reg_dst := 2, reg_src0 := 2 }
          { total := 0, current := 8, loads := [(1, 40), (2, 12)] })
      = some (some 0, { total := 488, current := 0, loads := [(1, 532), (2, 4)] }) ∧
    (2 : Int) ∈ loadRegs (useLoads true 1 { globalLoad with reg_dst := 2 }
      { total := 0, current := 8, loads := [(1, 40), (2, 12)] }) := by
  have h := C33_one_load_per_register [] 1 0 none { globalLoad with reg_dst := 2 }
    { total := 0, current := 8, loads := [(1, 40), (2, 12)] } (by decide) (by decide)
    (by decide)
  exact ⟨by decide, by decide, h.2.2.1.mp (by decide)⟩

/-! ## C36: the instruction count of a loop -/

theorem opSum_append (bs : List BasicBlock) (N : List Nat) (b : Nat) (pb : BasicBlock)
    (h : bs[b]? = some pb) : opSum bs (N ++ [b]) = opSum bs N + pb.GetNumInstrs := by
  simp [opSum, h]

theorem natLoopPreds_counted {bs : List BasicBlock} {l : Nat} :
    ∀ (preds : List Nat) (st st1 : NatLoopState), CountedLoop bs l st →
      natLoopPreds bs l preds st = some st1 → CountedLoop bs l st1 := by
  intro preds
  induction preds with
  | nil =>
    intro st st1 hc h
    simp only [natLoopPreds, Option.some.injEq] at h
    subst h
    exact hc
  | cons pred rest ih =>
    intro st st1 hc h
    obtain ⟨this, hthis, hnd, hnum⟩ := hc
    simp only [natLoopPreds, hthis] at h
    by_cases hmem : pred ∈ this.nat_loop
    · simp only [hmem, if_true] at h
      exact ih _ _ ⟨this, hthis, hnd, hnum⟩ h
    · simp only [hmem, if_false] at h
      cases hpb : bs[pred]? with
      | none => simp [hpb] at h
      | some pb =>
        simp only [hpb] at h
        apply ih _ _ _ h
        have hlt : l < st.ls.length := (List.getElem?_eq_some_iff.mp hthis).1
        refine ⟨{ this with nat_loop := natInsert this.nat_loop pred }, ?_, ?_, ?_⟩
        · simp only
          rw [List.getElem?_set_self hlt]
        · simp only [natInsert, hmem, if_false]
          rw [List.nodup_append]
          refine ⟨hnd, List.nodup_singleton _, ?_⟩
          intro a ha hb
          simp only [List.mem_singleton] at hb
          subst hb
          exact hmem ha
        · simp only [natInsert, hmem, if_false]
          rw [opSum_append bs _ _ pb hpb, hnum, Nat.add_mod, Nat.mod_mod, ← Nat.add_mod]

theorem natLoopNested_counted {bs : List BasicBlock} {l bb : Nat} {m : List (Nat × Nat)}
    {b : BasicBlock} {st : NatLoopState} {ls1 : List Loop}
    (h : natLoopNested m l bb b st.ls = some ls1) (hc : CountedLoop bs l st) :
    CountedLoop bs l { st with ls := ls1 } := by
  obtain ⟨this, hthis, hnd, hnum⟩ := hc
  have hf := natLoopNested_frame (fun L => L.nat_loop) (fun _ _ => rfl)
    (fun _ _ => rfl) h
  have hget : (ls1[l]?).map (fun L => L.nat_loop) = some this.nat_loop := by
    rw [← List.getElem?_map, hf, List.getElem?_map, hthis]
    rfl
  cases h1 : ls1[l]? with
  | none => simp [h1] at hget
  | some L1 =>
    simp only [h1, Option.map_some', Option.some.injEq] at hget
    exact ⟨L1, h1, by rw [hget]; exact hnd, by rw [hget]; exact hnum⟩

theorem natLoopWhile_counted {bs : List BasicBlock} {m : List (Nat × Nat)} {l : Nat} :
    ∀ (fuel : Nat) (st st1 : NatLoopState), CountedLoop bs l st →
      natLoopWhile bs m l fuel st = some st1 → CountedLoop bs l st1 := by
  intro fuel
  induction fuel with
  | zero =>
    intro st st1 hc h
    unfold natLoopWhile at h
    split at h
    · simp only [Option.some.injEq] at h
      subst h
      exact hc
    · simp at h
  | succ n ih =>
    intro st st1 hc h
    unfold natLoopWhile at h
    split at h
    · simp only [Option.some.injEq] at h
      subst h
      exact hc
    · rename_i bb stack hstack
      simp only at h
      cases hb : bs[bb]? with
      | none => simp [hb] at h
      | some b =>
        simp only [hb] at h
        cases hn : natLoopNested m l bb b st.ls with
        | none => simp [hn] at h
        | some ls1 =>
          simp only [hn] at h
          cases hp : natLoopPreds bs l b.pred { ls := ls1, stack := stack, num := st.num } with
          | none => simp [hp] at h
          | some st2 =>
            simp only [hp] at h
            apply ih _ _ _ h
            apply natLoopPreds_counted _ _ _ _ hp
            obtain ⟨L1, h1, h2, h3⟩ := natLoopNested_counted hn hc
            exact ⟨L1, h1, h2, h3⟩

theorem natLoop_counted_end {bs : List BasicBlock} {m : List (Nat × Nat)} {l fuel : Nat}
    {st st1 : NatLoopState} {ls2 : List Loop} (hc0 : CountedLoop bs l st)
    (hw : natLoopWhile bs m l fuel st = some st1)
    (hu : updLoop st1.ls l (fun x => x.SetNumInstrs st1.num) = some ls2) :
    ∃ L1, ls2[l]? = some L1 ∧ L1.nat_loop.Nodup ∧
      L1.num_instrs = opSum bs L1.nat_loop % UINT_MOD ∧
      (opSum bs L1.nat_loop < UINT_MOD → L1.num_instrs = opSum bs L1.nat_loop) := by
  obtain ⟨L1, h1, h2, h3⟩ := natLoopWhile_counted _ _ _ hc0 hw
  obtain ⟨_, _, hget⟩ := updLoop_getElem? hu
  have hnum : (L1.SetNumInstrs st1.num).num_instrs = opSum bs L1.nat_loop % UINT_MOD := h3
  refine ⟨L1.SetNumInstrs st1.num, ?_, h2, hnum, ?_⟩
  · rw [hget l, if_pos rfl, h1]
    rfl
  · intro hlt2
    rw [hnum]
    exact Nat.mod_eq_of_lt hlt2

/-- C36.  `ConstructNatLoop` for a loop whose natural-loop set is empty when the call
starts, as the constructor of `Loop` leaves it: when it returns, no block is in the set
twice, and the instruction count of the loop is the sum of the total op counts of the
blocks in the set, as an `unsigned` (it is that sum when the sum is below `2^32`).  The
blocks themselves are as before. -/
theorem C36_loop_instruction_count (g g1 : CFG) (l : Nat) (L : Loop)
    (h : ConstructNatLoop g l = some g1) (hL : g.loop_store[l]? = some L)
    (hfresh : L.nat_loop = []) :
    g1.all_blocks = g.all_blocks ∧
    ∃ L1, g1.loop_store[l]? = some L1 ∧ L1.nat_loop.Nodup ∧
      L1.num_instrs = opSum g1.all_blocks L1.nat_loop % UINT_MOD ∧
      (opSum g1.all_blocks L1.nat_loop < UINT_MOD →
        L1.num_instrs = opSum g1.all_blocks L1.nat_loop) := by
  unfold ConstructNatLoop at h
  cases hm : g.loop_header_map with
  | none => simp [hm] at h
  | some m =>
    simp only [hm, hL] at h
    cases hhb : g.all_blocks[L.header]? with
    | none => simp [hhb] at h
    | some hb =>
      simp only [hhb, hfresh] at h
      have hlt : l < g.loop_store.length := (List.getElem?_eq_some_iff.mp hL).1
      have hins : natInsert [] L.header = [L.header] := by simp [natInsert]
      rw [hins] at h
      by_cases hf : L.footer ∈ [L.header]
      · simp only [hf, if_true] at h
        have hc0 : CountedLoop g.all_blocks l
            { ls := g.loop_store.set l { L with nat_loop := [L.header] }, stack := [],
              num := (0 + hb.GetNumInstrs) % UINT_MOD } := by
          refine ⟨{ L with nat_loop := [L.header] }, ?_, List.nodup_singleton _, ?_⟩
          · simp only
            rw [List.getElem?_set_self hlt]
          · simp [opSum, hhb]
        split at h
        · simp at h
        · rename_i st1 hw
          split at h
          · simp at h
          · rename_i ls2 hu
            simp only [Option.some.injEq] at h
            subst h
            exact ⟨rfl, natLoop_counted_end hc0 hw hu⟩
      · simp only [hf, if_false] at h
        cases hfb : g.all_blocks[L.footer]? with
        | none => simp [hfb] at h
        | some fb =>
          simp only [hfb] at h
          have hne : L.footer ≠ L.header := by simpa using hf
          have hc0 : CountedLoop g.all_blocks l
              { ls := g.loop_store.set l { L with nat_loop := natInsert [L.header] L.footer },
                stack := [L.footer],
                num := ((0 + hb.GetNumInstrs) % UINT_MOD + fb.GetNumInstrs) % UINT_MOD } := by
            refine ⟨{ L with nat_loop := natInsert [L.header] L.footer }, ?_, ?_, ?_⟩
            · simp only
              rw [List.getElem?_set_self hlt]
            · simp [natInsert, hne, Ne.symm hne]
            · simp only [natInsert, hf, if_false]
              simp only [opSum, List.map_append, List.map_cons, List.map_nil, hhb, hfb,
                Option.map_some', Option.getD_some, List.sum_append, List.sum_cons, List.sum_nil,
                Nat.add_zero, Nat.zero_add]
              rw [Nat.add_mod, Nat.mod_mod, ← Nat.add_mod]
          split at h
          · simp at h
          · rename_i st1 hw
            split at h
            · simp at h
            · rename_i ls2 hu
              simp only [Option.some.injEq] at h
              subst h
              exact ⟨rfl, natLoop_counted_end hc0 hw hu⟩

theorem nestedDfs_built :
    (mkCFG streamNested false 0).bind detectBackEdges = some cfgNestedDfs := by
  decide

theorem C36_loop_instruction_count_witness :
    ConstructNatLoop cfgNestedDfs 1 = some cfgNestedNat ∧
    (cfgNestedNat.loop_store[1]?).map (fun L => (L.nat_loop, L.num_instrs))
      = some ([1, 3, 2], 7) ∧
    ∃ L1, cfgNestedNat.loop_store[1]? = some L1 ∧ L1.nat_loop.Nodup ∧
      L1.num_instrs = opSum cfgNestedNat.all_blocks L1.nat_loop % UINT_MOD ∧
      (opSum cfgNestedNat.all_blocks L1.nat_loop < UINT_MOD →
        L1.num_instrs = opSum cfgNestedNat.all_blocks L1.nat_loop) :=
  ⟨by decide, by decide,
    (C36_loop_instruction_count cfgNestedDfs cfgNestedNat 1
      { id := 1, header := 1, footer := 3 } (by decide) (by decide) (by decide)).2⟩

/-! ## C34: the trip count as a factor -/

theorem CountLoopCycles_succ (exp : Bool) (s : List Instruction) (g : CFG) (W d l : Nat) :
    CountLoopCycles exp s g W (d + 1) l
      = loopCycles exp s g W (CountLoopCycles exp s g W d) l := by
  rw [CountLoopCycles]
  rfl

theorem mul_one_mod (n t M : Nat) : (n * ((1 * t) % M)) % M = (n * t) % M := by
  rw [Nat.one_mul, Nat.mul_mod, Nat.mod_mod, ← Nat.mul_mod]

/-- The walk forwards through an innermost loop with the trip count `n` returns `n` times
what it returns with the trip count 1. -/
theorem innerForward_trips (exp : Bool) (s : List Instruction) (W fb n : Nat) :
    ∀ (fuel : Nat) (p : Option Nat) (c : Counters),
      innerForward exp s W fb n fuel p c
        = (innerForward exp s W fb 1 fuel p c).map (fun x => (n * x) % ULL_MOD) := by
  intro fuel
  induction fuel with
  | zero => intro p c; rfl
  | succ k ih =>
    intro p c
    cases p with
    | none => rfl
    | some p =>
      simp only [innerForward]
      cases s[p]? with
      | none => rfl
      | some i =>
        simp only
        cases dispatch exp i with
        | issue => exact ih _ _
        | memory =>
          dsimp only
          split
          · rfl
          · rename_i q c1 hr
            split
            · simp only [Option.map_some', mul_one_mod]
            · cases s[q]? with
              | none => rfl
              | some iq => exact ih _ _
        | sync =>
          dsimp only
          split
          · simp only [Option.map_some', mul_one_mod]
          · exact ih _ _
        | fail => rfl

theorem withTrips_getElem? (g : CFG) (l n x : Nat) :
    (withTrips g l n).loop_store[x]?
      = if x = l then (g.loop_store[x]?).map (fun L => L.SetNumIters n)
        else g.loop_store[x]? := by
  simp only [withTrips, List.getElem?_modify]
  by_cases h : x = l
  · subst h
    simp
  · have : ¬ l = x := fun e => h e.symm
    simp [h, this]

theorem withTrips_footer_successor (g : CFG) (l n x : Nat) :
    FindLoopFooterSuccessor (withTrips g l n) x = FindLoopFooterSuccessor g x := by
  unfold FindLoopFooterSuccessor
  rw [withTrips_getElem?]
  by_cases h : x = l
  · simp only [h, if_true]
    cases g.loop_store[l]? with
    | none => rfl
    | some L => rfl
  · simp only [h, if_false]
    rfl

theorem outerBlocks_withTrips (exp : Bool) (s : List Instruction) (g : CFG) (W l n : Nat)
    (rec : Nat → Option Nat) (last_inst : Option Nat) :
    ∀ (fuel bb : Nat) (p : Option Nat) (c : Counters),
      outerBlocks exp s (withTrips g l n) W rec last_inst fuel bb p c
        = outerBlocks exp s g W rec last_inst fuel bb p c := by
  intro fuel
  induction fuel with
  | zero => intro bb p c; rfl
  | succ k ih =>
    intro bb p c
    have h1 : (withTrips g l n).all_blocks = g.all_blocks := rfl
    have h2 : ∀ x, FindBBSuccessor (withTrips g l n) x = FindBBSuccessor g x := fun _ => rfl
    have h3 : ∀ x, (withTrips g l n).GetLoopFromHeader x = g.GetLoopFromHeader x :=
      fun _ => rfl
    simp only [outerBlocks, h1, h2, h3, withTrips_footer_successor, ih]

theorem backBlocks_withTrips (s : List Instruction) (g : CFG) (l n : Nat)
    (hstop : Option Nat) :
    ∀ (fuel bb : Nat) (p : Option Nat) (later : Nat),
      backBlocks s (withTrips g l n) hstop fuel bb p later
        = backBlocks s g hstop fuel bb p later := by
  intro fuel
  induction fuel with
  | zero => intro bb p later; rfl
  | succ k ih =>
    intro bb p later
    have h1 : (withTrips g l n).all_blocks = g.all_blocks := rfl
    simp only [backBlocks, h1, ih]

theorem trips_later_mod (n a W M : Nat) :
    ((n * a) % M * W) % M = (n * ((((1 * a) % M) * W) % M)) % M := by
  rw [Nat.one_mul]
  have h1 : Nat.ModEq M ((n * a) % M * W) (n * a * W) := (Nat.mod_modEq _ _).mul_right W
  have h2 : Nat.ModEq M (n * (((a % M) * W) % M)) (n * (a * W)) :=
    ((Nat.mod_modEq _ _).mul_left n).trans (((Nat.mod_modEq a M).mul_right W).mul_left n)
  rw [Nat.mul_assoc] at h1
  exact h1.trans h2.symm

/-- The value for a loop with the trip count `n` is `n` times the value for the same loop
with the trip count 1, the values of the inner loops being given by `rec`. -/
theorem loopCycles_withTrips (exp : Bool) (s : List Instruction) (g : CFG) (W l n : Nat)
    (rec : Nat → Option Nat) :
    loopCycles exp s (withTrips g l n) W rec l
      = (loopCycles exp s (withTrips g l 1) W rec l).map (fun c => (n * c) % ULL_MOD) := by
  unfold loopCycles
  simp only [withTrips_getElem?, if_true]
  have h1 : ∀ k, (withTrips g l k).all_blocks = g.all_blocks := fun _ => rfl
  cases g.loop_store[l]? with
  | none => rfl
  | some L =>
    simp only [Option.map_some', h1, outerBlocks_withTrips, backBlocks_withTrips]
    have hh : ∀ k, (L.SetNumIters k).GetHeader = L.GetHeader := fun _ => rfl
    have hf : ∀ k, (L.SetNumIters k).GetFooter = L.GetFooter := fun _ => rfl
    have hi : ∀ k, (L.SetNumIters k).HasInnerLoops = L.HasInnerLoops := fun _ => rfl
    have hn : ∀ k, (L.SetNumIters k).GetNumIters = k := fun _ => rfl
    simp only [hh, hf, hi, hn]
    cases g.all_blocks[L.GetHeader]? with
    | none => rfl
    | some hb =>
      cases L.GetFooter with
      | none => rfl
      | some f =>
        dsimp only
        cases g.all_blocks[f]? with
        | none => rfl
        | some fbk =>
          dsimp only
          by_cases hin : L.HasInnerLoops = true
          · simp only [hin, if_true]
            cases fbk.GetLastInst with
            | none => rfl
            | some fl =>
              dsimp only
              cases s[fl]? with
              | none => rfl
              | some fli =>
                dsimp only
                cases outerBlocks exp s g W rec fli.GetNext (g.all_blocks.length + 1)
                    L.GetHeader hb.GetFirstInst {} with
                | none => rfl
                | some c =>
                  dsimp only
                  by_cases he : c.loads.isEmpty = true
                  · simp only [he, if_true, Option.map_some', mul_one_mod]
                  · simp only [he, Bool.false_eq_true, if_false, Option.map_none']
          · simp only [hin, Bool.false_eq_true, if_false]
            cases hb.GetFirstInst with
            | none => rfl
            | some hfirst =>
              dsimp only
              cases s[hfirst]? with
              | none => rfl
              | some hfi =>
                dsimp only
                cases backBlocks s g hfi.GetPrev (g.all_blocks.length + 1) f fbk.GetLastInst 0 with
                | none => rfl
                | some r =>
                  obtain ⟨q, later⟩ := r
                  cases q with
                  | none =>
                    simp only [Option.map_some', Option.some.injEq]
                    exact trips_later_mod _ _ _ _
                  | some fbi => exact innerForward_trips exp s W fbi n _ _ _

/-- C34, as the claim states it, fails.  The loop of `streamCondLoop` has a conditional
inside; with its trip count set to 0, `CountLoopCycles` fails the assertion of the walk
backwards as it does for any other trip count, and does not return 0. -/
theorem C34_counterexample :
    (mkCFG streamCondLoop false 0).bind (DetectLoops 2 noUconf) = some cfgCondLoop ∧
    (withTrips cfgCondLoop 0 0).loop_store.map Loop.GetNumIters = [0] ∧
    CountLoopCycles false streamCondLoop (withTrips cfgCondLoop 0 0) 1 2 0 = none ∧
    CountLoopCycles false streamCondLoop (withTrips cfgCondLoop 0 7) 1 2 0 = none := by
  refine ⟨by decide, by decide, by decide, by decide⟩

/-- C34, amended.  When `CountLoopCycles` returns for a loop whose trip count is 0, it
returns 0.  More generally the value for a loop with the trip count `n` is `n` times the
value for that loop with the trip count 1 (modulo `2^64`), the values of the inner loops
being the same: a call of `CountLoopCycles` is the body `loopCycles` with the values of
the recursive calls for the inner loops, and that body, with the trip count of the loop
set to `n`, returns when it returns with the trip count 1, and then `n` times as much. -/
theorem C34_trip_count_is_a_factor (exp : Bool) (s : List Instruction) (g : CFG)
    (W l n depth r : Nat) (rec : Nat → Option Nat) (L : Loop)
    (hL : g.loop_store[l]? = some L) :
    (L.GetNumIters = 0 → CountLoopCycles exp s g W depth l = some r → r = 0) ∧
    CountLoopCycles exp s g W (depth + 1) l
      = loopCycles exp s g W (CountLoopCycles exp s g W depth) l ∧
    loopCycles exp s (withTrips g l n) W rec l
      = (loopCycles exp s (withTrips g l 1) W rec l).map (fun c => (n * c) % ULL_MOD) := by
  refine ⟨?_, CountLoopCycles_succ exp s g W depth l, loopCycles_withTrips exp s g W l n rec⟩
  intro h0 hr
  cases depth with
  | zero => simp [CountLoopCycles] at hr
  | succ d =>
    have hg : withTrips g l 0 = g := by
      unfold withTrips
      have : g.loop_store.modify (fun L => L.SetNumIters 0) l = g.loop_store := by
        apply List.ext_getElem?
        intro x
        rw [List.getElem?_modify]
        by_cases hx : l = x
        · subst hx
          cases L
          simp only [Loop.GetNumIters] at h0
          subst h0
          simp only [if_true, hL]
          rfl
        · simp [hx]
      rw [this]
    rw [CountLoopCycles_succ, ← hg, loopCycles_withTrips] at hr
    cases hv : loopCycles exp s (withTrips g l 1) W (CountLoopCycles exp s (withTrips g l 0) W d) l with
    | none => simp [hv] at hr
    | some v =>
      simp only [hv, Option.map_some', Option.some.injEq, Nat.zero_mul, Nat.zero_mod] at hr
      exact hr.symm

theorem C34_trip_count_is_a_factor_witness :
    CountLoopCycles false streamLoopTail (withTrips cfgLoopTail 0 0) 2 2 0 = some 0 ∧
    loopCycles false streamLoopTail (withTrips cfgLoopTail 0 1) 2 (fun _ => none) 0
      = some 500 ∧
    loopCycles false streamLoopTail (withTrips (withTrips cfgLoopTail 0 0) 0 10) 2
        (fun _ => none) 0
      = (loopCycles false streamLoopTail (withTrips (withTrips cfgLoopTail 0 0) 0 1) 2
          (fun _ => none) 0).map (fun c => (10 * c) % ULL_MOD) :=
  ⟨by decide, by decide,
    (C34_trip_count_is_a_factor false streamLoopTail (withTrips cfgLoopTail 0 0) 2 0 10 2 0
      (fun _ => none)
      { id := 0, header := 1, footer := 1, nat_loop := [1], num_iters := 0, num_instrs := 3 }
      (by decide)).2.2⟩

/-! ## C35: the enclosing loop -/

/-- C35 (the code departs from it).  `streamOuterFirst` has three nested loops; the
header of the outer loop branches to its footer, so that the depth-first search, which
follows the branch target first, finds the back edge of the outer loop first: the loops
are numbered 0 (outer, blocks 1, 5, 4, 3, 2), 1 (inner, block 3) and 2 (middle, blocks 2,
4, 3).  `ConstructNatLoop` runs for the outer loop first and makes it the enclosing loop
of every loop header in its natural loop: the inner loop gets the outer loop as its
enclosing loop, although the middle loop is the smallest loop that holds its header, and
it is in the list of inner loops of the outer loop, not of the middle loop.  The middle
loop, which has no inner loops recorded, is then counted as an innermost loop: 4096
cycles for one warp.  In `streamInnerFirst`, the same three loops found in the order
inner, middle, outer, the nesting is recorded as the claim says and the middle loop is
counted with its inner loop: 526336 cycles. -/
theorem C35_enclosing_loop_by_discovery_order :
    (mkCFG streamOuterFirst false 0).bind (DetectLoops 4 noUconf) = some cfgOuterFirst ∧
    cfgOuterFirst.loop_store.map
        (fun L => (L.header, L.footer, L.nat_loop, L.enclosing_loop, L.inner_loops,
          L.nesting_level))
      = [(1, 5, [1, 5, 4, 3, 2], none, some [1, 2], 0), (3, 3, [3], some 0, none, 1),
         (2, 4, [2, 4, 3], some 0, none, 1)] ∧
    CountLoopCycles false streamOuterFirst cfgOuterFirst 1 4 2 = some 4096 ∧
    CountCycles false streamOuterFirst cfgOuterFirst 1 = some 1050628 ∧
    (mkCFG streamInnerFirst false 0).bind (DetectLoops 4 noUconf) = some cfgInnerFirst ∧
    cfgInnerFirst.loop_store.map
        (fun L => (L.header, L.footer, L.nat_loop, L.enclosing_loop, L.inner_loops,
          L.nesting_level))
      = [(3, 3, [3], some 1, none, 2), (2, 4, [2, 4, 3], some 2, some [0], 1),
         (1, 5, [1, 5, 4, 3, 2], none, some [1], 0)] ∧
    CountLoopCycles false streamInnerFirst cfgInnerFirst 1 4 1 = some 526336 ∧
    CountCycles false streamInnerFirst cfgInnerFirst 1 = some 134744068 := by
  refine ⟨by decide, by rfl, by decide, by decide, by decide, by rfl, by decide,
    by decide⟩

end PtxAnalyze
